import Mathlib

/-
SceneGraph objects and MaterialData attribute store.

Shallow embedding of src/SceneGraph/Object.hpp (object tree, dirty flag
propagation, batched computation of absolute transformations through joints)
and of the Trade::MaterialData attribute store exercised by
src/Magnum/Trade/Test/MaterialDataTest.cpp.

Conventions of the embedding:

* objects are addressed by natural numbers, the heap is a total map from
  addresses to objects, a nullable pointer is an Option Nat;
* the flag word of an object is kept as its three bits dirty, visited,
  joint; the scratch counter is a 16-bit unsigned value, every store into it
  is reduced modulo 2^16;
* CORRADE_ASSERT(cond, msg, ret) is taken in its returning form: when cond
  fails the function gives ret back, leaving the heap as it is at that point
  (Run.failed);
* CORRADE_INTERNAL_ASSERT and reads outside a vector do not return
  (Run.aborted);
* every loop is driven by a fuel argument, Run.outOfFuel is the only outcome
  that is an artefact of the embedding; a function that cannot fail gives an
  Option, none standing for used up fuel;
* the intrusive list of children (LinkedList of Corrade) is kept as the list
  of the children of the parent, in order, next to the parent link of each
  child;
* MaterialData.cpp is not among the sources: the attribute store is modelled
  from the specification and from what the tests assert; bytes are natural
  numbers, names and values are lists of bytes.
-/

namespace SceneGraph

/-- Feature attached to an object, reduced to the cached transformations it
asks for (`cachedTransformations()`). -/
structure Feature where
  cachedAbsolute : Bool
  cachedInvertedAbsolute : Bool
deriving DecidableEq

/-- One `Object<Transformation>`: intrusive tree links, feature list, local
transformation, flag bits, scratch counter. `isScene` is `true` exactly for
`Scene<Transformation>` instances. -/
structure Object (α : Type) where
  parent : Option Nat
  children : List Nat
  features : List Feature
  transformation : α
  dirty : Bool
  visited : Bool
  joint : Bool
  counter : Nat
  isScene : Bool

/-- The heap: every address holds an object. -/
abbrev Heap (α : Type) := Nat → Object α

/-- Replace the object stored at address `o` by `f` of it. -/
def Heap.modify {α : Type} (h : Heap α) (o : Nat) (f : Object α → Object α) : Heap α :=
  fun x => if x = o then f (h x) else h x

/-- The `Transformation` template parameter: the operations the tree uses.
`identity` is the value of a default-constructed `DataType`. -/
structure Transformation (α μ : Type) where
  identity : α
  compose : α → α → α
  inverted : α → α
  toMatrix : α → μ
  fromMatrix : μ → α

/-- Messages of the `CORRADE_ASSERT`s: the three of `transformations()` (too
large scene, implemented only for Scene, not part of the same tree) and the
one of `setClean(objects)` (objects must be part of some scene). -/
inductive Failure where
  | tooLargeScene
  | notScene
  | notSameTree
  | noScene
deriving DecidableEq

/-- Outcome of running a piece of code on the heap. -/
inductive Run (α σ : Type) where
  | done (s : σ)
  | failed (h : Heap α) (e : Failure)
  | aborted
  | outOfFuel

/-- Sentinel of the scratch counter. -/
def sentinel : Nat := 0xFFFF

/-- Function `Object::sceneObject()`: `while(p && !p->isScene()) p = p->parent();`.
The outer `Option` is `none` when the fuel is used up. -/
def sceneObject {α : Type} (h : Heap α) : Nat → Option Nat → Option (Option Nat)
  | 0, _ => none
  | _ + 1, none => some none
  | fuel + 1, some p =>
    if (h p).isScene then some (some p) else sceneObject h fuel (h p).parent

/-- Function `Object::absoluteTransformation()`, the naive recursive walk. -/
def absoluteTransformation {α μ : Type} (tr : Transformation α μ) (h : Heap α) :
    Nat → Nat → Option α
  | 0, _ => none
  | fuel + 1, o =>
    match (h o).parent with
    | none => some (h o).transformation
    | some p =>
      match absoluteTransformation tr h fuel p with
      | none => none
      | some a => some (tr.compose a (h o).transformation)

/-- First loop of `transformations()` (lines 178-185): objects whose counter is
still the sentinel get their position as counter and the `Joint` flag. -/
def markJoints {α : Type} (h : Heap α) : List Nat → Nat → Heap α
  | [], _ => h
  | o :: rest, i =>
    if (h o).counter ≠ sentinel then markJoints h rest (i + 1)
    else markJoints (h.modify o fun x => { x with counter := i % 65536, joint := true })
      rest (i + 1)

/-- Iterator fix-up `if(it == objects.end()) it = objects.begin();`. -/
def wrapIt (objects : List Nat) (it : Nat) : Nat :=
  if it = objects.length then 0 else it

/-- The loop of lines 195-233: `objects` is the working vector, `it` the
position of the iterator in it, `jointObjects` the list of joints. -/
def walkUp {α : Type} (scene : Nat) :
    Nat → Heap α → List Nat → Nat → List Nat → Run α (Heap α × List Nat)
  | 0, _, _, _, _ => .outOfFuel
  | fuel + 1, h, objects, it, jointObjects =>
    if objects.isEmpty then .done (h, jointObjects)
    else
      match objects[it]? with
      | none => .aborted
      | some o =>
        if (h o).visited then
          walkUp scene fuel h (objects.eraseIdx it) it jointObjects
        else
          let h1 := h.modify o fun x => { x with visited := true }
          match (h1 o).parent with
          | none =>
            if o ≠ scene then .failed h1 .notSameTree
            else
              let objects1 := objects.eraseIdx it
              walkUp scene fuel h1 objects1 (wrapIt objects1 it) jointObjects
          | some p =>
            if (h1 p).visited || (h1 p).joint then
              let objects1 := objects.eraseIdx it
              if !(h1 p).joint then
                if ¬ jointObjects.length < 0xFFFF then .failed h1 .tooLargeScene
                else if (h1 p).counter ≠ sentinel then .aborted
                else
                  let h2 := h1.modify p fun x =>
                    { x with counter := jointObjects.length % 65536, joint := true }
                  walkUp scene fuel h2 objects1 (wrapIt objects1 it) (jointObjects ++ [p])
              else walkUp scene fuel h1 objects1 (wrapIt objects1 it) jointObjects
            else
              let objects1 := objects.set it p
              walkUp scene fuel h1 objects1 (wrapIt objects1 it) jointObjects

mutual

/-- Function `Object::computeJointTransformation()` up to the loop. Gives back the heap,
the vector of joint transformations and the returned value. -/
def computeJointTransformation {α μ : Type} (tr : Transformation α μ)
    (jointObjects : List Nat) (initialTransformation : α) :
    Nat → Heap α → List α → Nat → Run α (Heap α × List α × α)
  | 0, _, _, _ => .outOfFuel
  | fuel + 1, h, jointTransformations, joint =>
    match jointObjects[joint]? with
    | none => .aborted
    | some o =>
      match jointTransformations[joint]? with
      | none => .aborted
      | some t =>
        if !(h o).visited then .done (h, jointTransformations, t)
        else
          goUp tr jointObjects initialTransformation fuel h
            (jointTransformations.set joint (h o).transformation) joint o

/-- The `for(;;)` loop of `computeJointTransformation()` (lines 274-297), `o`
being the object the loop stands on. -/
def goUp {α μ : Type} (tr : Transformation α μ)
    (jointObjects : List Nat) (initialTransformation : α) :
    Nat → Heap α → List α → Nat → Nat → Run α (Heap α × List α × α)
  | 0, _, _, _, _ => .outOfFuel
  | fuel + 1, h, jointTransformations, joint, o =>
    if !(h o).visited then .aborted
    else
      let h1 := h.modify o fun x => { x with visited := false }
      match (h1 o).parent with
      | none =>
        if !(h1 o).isScene then .aborted
        else
          match jointTransformations[joint]? with
          | none => .aborted
          | some t =>
            let v := tr.compose initialTransformation t
            .done (h1, jointTransformations.set joint v, v)
      | some p =>
        if (h1 p).joint then
          match computeJointTransformation tr jointObjects initialTransformation fuel h1
              jointTransformations (h1 p).counter with
          | .done (h2, ts2, r) =>
            match ts2[joint]? with
            | none => .aborted
            | some t =>
              let v := tr.compose r t
              .done (h2, ts2.set joint v, v)
          | .failed h2 e => .failed h2 e
          | .aborted => .aborted
          | .outOfFuel => .outOfFuel
        else
          match jointTransformations[joint]? with
          | none => .aborted
          | some t =>
            goUp tr jointObjects initialTransformation fuel h1
              (jointTransformations.set joint (tr.compose (h1 p).transformation t)) joint p

end

/-- Loop of lines 239-240 over the joint indices `i, i+1, ..` (`n` of them). -/
def computeAll {α μ : Type} (tr : Transformation α μ)
    (jointObjects : List Nat) (initialTransformation : α) (fuel : Nat) :
    Nat → Nat → Heap α → List α → Run α (Heap α × List α)
  | 0, _, h, ts => .done (h, ts)
  | n + 1, i, h, ts =>
    match computeJointTransformation tr jointObjects initialTransformation fuel h ts i with
    | .done (h1, ts1, _) => computeAll tr jointObjects initialTransformation fuel n (i + 1) h1 ts1
    | .failed h1 e => .failed h1 e
    | .aborted => .aborted
    | .outOfFuel => .outOfFuel

/-- Loop of lines 244-247 over the positions `i, i+1, ..` (`n` of them): a
later occurrence of an object takes the entry of its first occurrence. -/
def patchDuplicates {α : Type} (h : Heap α) (jointObjects : List Nat) :
    Nat → Nat → List α → Option (List α)
  | 0, _, ts => some ts
  | n + 1, i, ts =>
    match jointObjects[i]? with
    | none => none
    | some o =>
      if (h o).counter ≠ i then
        match ts[(h o).counter]? with
        | none => none
        | some t =>
          if i < ts.length then patchDuplicates h jointObjects n (i + 1) (ts.set i t) else none
      else patchDuplicates h jointObjects n (i + 1) ts

/-- Loop of lines 250-256. The condition of the assertion is the assignment
`i->counter = (0xFFFFu || i->flags & Flag::Joint)`, which stores 1 and is
true; the flag and the counter are then reset. -/
def cleanJoints {α : Type} (h : Heap α) : List Nat → Heap α
  | [] => h
  | o :: rest =>
    let h1 := h.modify o fun x => { x with counter := 1 }
    cleanJoints (h1.modify o fun x => { x with joint := false, counter := sentinel }) rest

/-- Function `Object::transformations(objects, initialTransformation)` called on the
object `this`. -/
def transformations {α μ : Type} (tr : Transformation α μ) (fuel : Nat) (h : Heap α)
    (this : Nat) (objects : List Nat) (initialTransformation : α) :
    Run α (Heap α × List α) :=
  if ¬ objects.length < 0xFFFF then .failed h .tooLargeScene
  else
    let objectCount := objects.length
    let h1 := markJoints h objects 0
    let jointObjects := objects
    match sceneObject h1 fuel (some this) with
    | none => .outOfFuel
    | some scene =>
      if scene ≠ some this then .failed h1 .notScene
      else
        match walkUp this fuel h1 objects 0 jointObjects with
        | .failed h2 e => .failed h2 e
        | .aborted => .aborted
        | .outOfFuel => .outOfFuel
        | .done (h2, jointObjects2) =>
          let ts := List.replicate jointObjects2.length tr.identity
          match computeAll tr jointObjects2 initialTransformation fuel
              jointObjects2.length 0 h2 ts with
          | .failed h3 e => .failed h3 e
          | .aborted => .aborted
          | .outOfFuel => .outOfFuel
          | .done (h3, ts3) =>
            match patchDuplicates h3 jointObjects2 objectCount 0 ts3 with
            | none => .aborted
            | some ts4 =>
              .done (cleanJoints h3 jointObjects2, ts4.take objectCount)

/-- Callbacks received by features: `markDirty()`, `clean(matrix)` and
`cleanInverted(matrix)` on feature number `f` of object `o`. -/
inductive Event (μ : Type) where
  | markDirty (o f : Nat)
  | clean (o f : Nat) (m : μ)
  | cleanInverted (o f : Nat) (m : μ)
deriving DecidableEq

/-- Feature loop of `Object::setClean(const DataType&)` (lines 335-357) from
feature number `i` on; `matrix` and `invertedMatrix` are the lazily computed
matrices (`none` while the `cached` bit is not set). -/
def cleanFeatures {α μ : Type} (tr : Transformation α μ) (absoluteTransformation : α)
    (o : Nat) : List Feature → Nat → Option μ → Option μ → List (Event μ)
  | [], _, _, _ => []
  | f :: fs, i, matrix, invertedMatrix =>
    let matrix1 : Option μ :=
      if f.cachedAbsolute then
        match matrix with
        | some m => some m
        | none => some (tr.toMatrix absoluteTransformation)
      else matrix
    let ev1 : List (Event μ) :=
      match f.cachedAbsolute, matrix1 with
      | true, some m => [Event.clean o i m]
      | _, _ => []
    let inverted1 : Option μ :=
      if f.cachedInvertedAbsolute then
        match invertedMatrix with
        | some m => some m
        | none => some (tr.toMatrix (tr.inverted absoluteTransformation))
      else invertedMatrix
    let ev2 : List (Event μ) :=
      match f.cachedInvertedAbsolute, inverted1 with
      | true, some m => [Event.cleanInverted o i m]
      | _, _ => []
    ev1 ++ ev2 ++ cleanFeatures tr absoluteTransformation o fs (i + 1) matrix1 inverted1

/-- Function `Object::setClean(const DataType& absoluteTransformation)` on object `o`:
the features are cleaned, then `Dirty` is cleared. -/
def setCleanWith {α μ : Type} (tr : Transformation α μ) (h : Heap α) (o : Nat)
    (absoluteTransformation : α) : Heap α × List (Event μ) :=
  (h.modify o fun x => { x with dirty := false },
    cleanFeatures tr absoluteTransformation o (h o).features 0 none none)

/-- Loop of lines 323-324: `objects[i]->setClean(transformations[i])`. -/
def setCleanEach {α μ : Type} (tr : Transformation α μ) :
    Heap α → List Nat → List α → List (Event μ) → Run α (Heap α × List (Event μ))
  | h, [], _, log => .done (h, log)
  | _, _ :: _, [], _ => .aborted
  | h, o :: objects, t :: ts, log =>
    let r := setCleanWith tr h o t
    setCleanEach tr r.1 objects ts (log ++ r.2)

/-- Function `Object::setClean(std::vector<Object*> objects)` (lines 309-325). The
call `scene->transformations(objects)` leaves the initial transformation to
its default argument, a default-constructed `DataType`. When that call gives
back an empty vector, the loop reads outside of it. -/
def setCleanObjects {α μ : Type} (tr : Transformation α μ) (fuel : Nat) (h : Heap α)
    (objects : List Nat) : Run α (Heap α × List (Event μ)) :=
  let objects1 := objects.filter fun o => (h o).dirty
  match objects1 with
  | [] => .done (h, [])
  | first :: _ =>
    match sceneObject h fuel (some first) with
    | none => .outOfFuel
    | some none => .failed h .noScene
    | some (some scene) =>
      match transformations tr fuel h scene objects1 tr.identity with
      | .done (h1, ts) => setCleanEach tr h1 objects1 ts []
      | .failed h1 _ => setCleanEach tr h1 objects1 [] []
      | .aborted => .aborted
      | .outOfFuel => .outOfFuel

/-- Heap with a scene `0` and the chain `0 <- 1 <- 2 <- 3`, transformations
being words over the naturals; every other address is a detached object. -/
def chainHeap : Heap (List Nat) := fun o =>
  { parent := if o = 1 then some 0 else if o = 2 then some 1 else if o = 3 then some 2 else none
    children := if o = 0 then [1] else if o = 1 then [2] else if o = 2 then [3] else []
    features := []
    transformation := if o = 0 then [] else [o]
    dirty := false
    visited := false
    joint := false
    counter := sentinel
    isScene := decide (o = 0) }

/-- The chain of `chainHeap` with every object dirty. -/
def dirtyChainHeap : Heap (List Nat) := fun o => { chainHeap o with dirty := true }

/-- Words under concatenation: associative, not commutative. -/
def wordTransformation : Transformation (List Nat) (List Nat) where
  identity := []
  compose := fun a b => a ++ b
  inverted := List.reverse
  toMatrix := id
  fromMatrix := id

/-- No call of `transformations()` is in progress: every counter is the
sentinel and no object carries `Visited` or `Joint`. -/
def Quiescent {α : Type} (h : Heap α) : Prop :=
  ∀ o, (h o).counter = sentinel ∧ (h o).visited = false ∧ (h o).joint = false

/-- Predicate `Below h s o n`: following `parent()` from `o` reaches the parentless
object `s` after `n` steps. -/
inductive Below {α : Type} (h : Heap α) (s : Nat) : Nat → Nat → Prop
  | root : (h s).parent = none → Below h s s 0
  | child {o p n : Nat} : (h o).parent = some p → Below h s p n → Below h s o (n + 1)

/-- Predicate `Depth h o n`: following `parent()` from `o` reaches a parentless object
after `n` steps. -/
inductive Depth {α : Type} (h : Heap α) : Nat → Nat → Prop
  | root {o : Nat} : (h o).parent = none → Depth h o 0
  | child {o p n : Nat} : (h o).parent = some p → Depth h p n → Depth h o (n + 1)

/-- The value `absoluteTransformation()` computes, as a relation. -/
inductive AbsRel {α μ : Type} (tr : Transformation α μ) (h : Heap α) : Nat → α → Prop
  | root {o : Nat} : (h o).parent = none → AbsRel tr h o (h o).transformation
  | child {o p : Nat} {a : α} : (h o).parent = some p → AbsRel tr h p a →
      AbsRel tr h o (tr.compose a (h o).transformation)

/-- Predicate `PathTr tr h j o t`: `o` is `j` or an ancestor of `j`, and `t` is the
transformation accumulated by `computeJointTransformation()` when its loop,
started at `j`, stands on `o`. -/
inductive PathTr {α μ : Type} (tr : Transformation α μ) (h : Heap α) (j : Nat) : Nat → α → Prop
  | start : PathTr tr h j j (h j).transformation
  | up {o p : Nat} {t : α} : PathTr tr h j o t → (h o).parent = some p →
      PathTr tr h j p (tr.compose (h p).transformation t)

/-- Everything but the scratch fields is the same in both heaps. -/
def Frame {α : Type} (h0 h : Heap α) : Prop :=
  ∀ o, (h o).parent = (h0 o).parent ∧ (h o).children = (h0 o).children ∧
    (h o).features = (h0 o).features ∧ (h o).transformation = (h0 o).transformation ∧
    (h o).dirty = (h0 o).dirty ∧ (h o).isScene = (h0 o).isScene

/-- Bookkeeping of the joint list: the `Joint` flag marks exactly its members,
the counter of a joint is the position of its first occurrence, every other
counter is the sentinel. -/
structure JointsOK {α : Type} (h : Heap α) (J : List Nat) : Prop where
  len : J.length ≤ 0xFFFF
  mem : ∀ o, (h o).joint = true ↔ o ∈ J
  idx : ∀ o, (h o).joint = true → J[(h o).counter]? = some o
  first : ∀ i o, J[i]? = some o → (h o).counter ≤ i
  clear : ∀ o, (h o).joint = false → (h o).counter = sentinel

/-- Predicate `Anchored h0 h x`: a finite chain of visited objects leads from a joint up
to `x`. -/
inductive Anchored {α : Type} (h0 h : Heap α) : Nat → Prop
  | base {x : Nat} : (h x).joint = true → Anchored h0 h x
  | step {y x : Nat} : Anchored h0 h y → (h y).visited = true → (h0 y).parent = some x →
      Anchored h0 h x

/-- Invariant of the walk-up loop, `W` being the working vector (the iterator
stands on its first element) and `J` the joint list. -/
structure WalkInv {α : Type} (h0 : Heap α) (s : Nat) (objects : List Nat)
    (h : Heap α) (W J : List Nat) : Prop where
  frame : Frame h0 h
  joints : JointsOK h J
  pre : ∃ extra, J = objects ++ extra
  uniq : ∀ p y y', (h p).joint = false → (h y).visited = true → (h y').visited = true →
    (h0 y).parent = some p → (h0 y').parent = some p → y = y'
  up : ∀ y x, (h y).visited = true → (h0 y).parent = some x →
    (h x).visited = true ∨ (h x).joint = true ∨ W.head? = some x
  anch : ∀ x, (h x).visited = true → Anchored h0 h x
  headAnch : ∀ e, W.head? = some e → (h e).joint = false →
    ∃ y, (h y).visited = true ∧ (h0 y).parent = some e
  pending : ∀ o, (h o).joint = true → (h o).visited = true ∨ o ∈ W
  inTree : ∀ w ∈ W, ∃ n, Depth h0 w n
  tailJoint : ∀ w ∈ W.tail, (h w).joint = true
  root : ∀ x, (h x).visited = true → (h0 x).parent = none → x = s
  visTree : ∀ x, (h x).visited = true → ∃ n, Depth h0 x n

/-- Downward closure of `Dirty`: a child of a dirty object is dirty (hence so
is every descendant). -/
def DirtyClosed {α : Type} (h : Heap α) : Prop :=
  ∀ o p, (h o).parent = some p → (h p).dirty = true → (h o).dirty = true

/-- Associativity of `compose`. -/
def Assoc {α μ : Type} (tr : Transformation α μ) : Prop :=
  ∀ a b c, tr.compose (tr.compose a b) c = tr.compose a (tr.compose b c)

/-- What the walk-up loop has established on exit, `hW` being the heap and `J`
the joint list at that point. -/
structure PostWalk {α : Type} (h0 : Heap α) (s : Nat) (hW : Heap α) (J : List Nat) : Prop where
  frame : Frame h0 hW
  joints : JointsOK hW J
  uniq : ∀ p y y', (hW p).joint = false → (hW y).visited = true → (hW y').visited = true →
    (h0 y).parent = some p → (h0 y').parent = some p → y = y'
  up : ∀ y x, (hW y).visited = true → (h0 y).parent = some x → (hW x).visited = true
  anch : ∀ x, (hW x).visited = true → Anchored h0 hW x
  allVis : ∀ o, (hW o).joint = true → (hW o).visited = true
  root : ∀ x, (hW x).visited = true → (h0 x).parent = none → x = s
  visTree : ∀ x, (hW x).visited = true → ∃ n, Depth h0 x n

/-- State between two calls of `computeJointTransformation()`: only `Visited`
flags have been cleared since the walk, and along a link to a parent that is
not a joint both ends are in the same state. -/
structure CJInv {α : Type} (h0 hW : Heap α) (J : List Nat) (h : Heap α) (T : List α) : Prop where
  frame : Frame h0 h
  same : ∀ o, (h o).joint = (hW o).joint ∧ (h o).counter = (hW o).counter
  sub : ∀ o, (h o).visited = true → (hW o).visited = true
  seg : ∀ y x, (hW y).visited = true → (h0 y).parent = some x → (hW x).joint = false →
    ((h y).visited = true ↔ (h x).visited = true)
  len : T.length = J.length

/-- The entry of the joint `o` in the vector `T` is its absolute
transformation under `initial`. -/
def Final {α μ : Type} (tr : Transformation α μ) (h0 hW : Heap α) (initial : α)
    (T : List α) (o : Nat) : Prop :=
  ∀ a, AbsRel tr h0 o a → T[(hW o).counter]? = some (tr.compose initial a)

/-- State of the loop of `computeJointTransformation()` for the joint `j`
(stored at position `joint`) when it stands on `o`. -/
structure GoInv {α μ : Type} (tr : Transformation α μ) (h0 hW : Heap α) (s : Nat)
    (J : List Nat) (initial : α) (h : Heap α) (T : List α) (joint j o : Nat) : Prop where
  frame : Frame h0 h
  same : ∀ x, (h x).joint = (hW x).joint ∧ (h x).counter = (hW x).counter
  sub : ∀ x, (h x).visited = true → (hW x).visited = true
  len : T.length = J.length
  segO : ∀ y, (hW y).visited = true → (h0 y).parent = some o → (hW o).joint = false →
    (h y).visited = false
  segRest : ∀ y x, (hW y).visited = true → (h0 y).parent = some x → (hW x).joint = false →
    x ≠ o → ((h y).visited = true ↔ (h x).visited = true)
  jidx : J[joint]? = some j
  jcnt : (hW j).counter = joint
  path : ∃ t, T[joint]? = some t ∧ PathTr tr h0 j o t
  jclr : o = j ∨ (h j).visited = false
  onon : o = j ∨ (hW o).joint = false
  deep : ∀ n m, Depth h0 j n → Depth h0 o m → m ≤ n
  anc : Assoc tr → ∀ x n m, (hW x).joint = true → (h x).visited = false →
    Depth h0 x n → Depth h0 o m → n < m → Final tr h0 hW initial T x

/-- Result of the loop of `computeJointTransformation()` for the joint `j`. -/
structure GoPost {α μ : Type} (tr : Transformation α μ) (h0 hW : Heap α)
    (J : List Nat) (initial : α) (h : Heap α) (T : List α) (joint j : Nat)
    (h' : Heap α) (T' : List α) (v : α) : Prop where
  inv : CJInv h0 hW J h' T'
  cleared : (h' j).visited = false
  mono : ∀ x, (h x).visited = false → (h' x).visited = false
  keep : ∀ x, (hW x).joint = true → (h x).visited = false → x ≠ j →
    T'[(hW x).counter]? = T[(hW x).counter]?
  fresh : Assoc tr → ∀ x, (hW x).joint = true → ((h x).visited = true ∨ x = j) →
    (h' x).visited = false → Final tr h0 hW initial T' x
  ret : T'[joint]? = some v

/-- Result of one call of `computeJointTransformation()` for the joint `j`. -/
structure JointPost {α μ : Type} (tr : Transformation α μ) (h0 hW : Heap α)
    (J : List Nat) (initial : α) (h : Heap α) (T : List α) (joint j : Nat)
    (h' : Heap α) (T' : List α) (v : α) : Prop where
  inv : CJInv h0 hW J h' T'
  cleared : (h' j).visited = false
  mono : ∀ x, (h x).visited = false → (h' x).visited = false
  keep : ∀ x, (hW x).joint = true → (h x).visited = false →
    T'[(hW x).counter]? = T[(hW x).counter]?
  fresh : Assoc tr → ∀ x, (hW x).joint = true → (h x).visited = true →
    (h' x).visited = false → Final tr h0 hW initial T' x
  ret : T'[joint]? = some v

/-- Predicate `Budget h0 W b`: `b` is the number of loop iterations the objects of the
working vector `W` can still cause, one more than its depth for each. -/
inductive Budget {α : Type} (h0 : Heap α) : List Nat → Nat → Prop
  | nil : Budget h0 [] 0
  | cons {w n : Nat} {W : List Nat} {b : Nat} : Depth h0 w n → Budget h0 W b →
      Budget h0 (w :: W) (n + 1 + b)

/-- Modelled from the spec: `LinkedList::cut(item)` of Corrade, called on the
old parent `p` ("unlink from old parent's child list"): `this` leaves the child
list of `p`, the order of the other children is kept, and the link of `this`
to its list, which is what `parent()` reads, is cleared. -/
def LinkedList.cut {α : Type} (h : Heap α) (p this : Nat) : Heap α :=
  (h.modify p fun x => { x with children := x.children.erase this }).modify this
    fun x => { x with parent := none }

/-- Modelled from the spec: `LinkedList::insert(item)` of Corrade, called on the
new parent `p` ("append to new parent's child list"): `this` becomes the last
child of `p` and its link points to `p`. -/
def LinkedList.insert {α : Type} (h : Heap α) (p this : Nat) : Heap α :=
  (h.modify p fun x => { x with children := x.children ++ [this] }).modify this
    fun x => { x with parent := some p }

/-- Loop of lines 64-69 of `setParent()`, `p` walking up from the new parent:
`some true` when `p == this` is met, `some false` when `p` becomes null, `none`
when the fuel is used up. -/
def reachesThis {α : Type} (h : Heap α) (this : Nat) : Nat → Option Nat → Option Bool
  | 0, _ => none
  | _ + 1, none => some false
  | fuel + 1, some p => if p = this then some true else reachesThis h this fuel (h p).parent

/-- The calls `i->markDirty()` on the features of `o` (lines 94-95), `n` being
their number. -/
def markDirtyAll {μ : Type} (o n : Nat) : List (Event μ) :=
  (List.range n).map fun f => Event.markDirty o f

/-- Loop of lines 98-99, `f` being `setDirty()`: the children are visited in
list order, each on the heap the previous one left. -/
def forChildren {α μ : Type} (f : Heap α → Nat → Option (Heap α × List (Event μ))) :
    Heap α → List Nat → Option (Heap α × List (Event μ))
  | h, [] => some (h, [])
  | h, c :: cs =>
    match f h c with
    | none => none
    | some (h1, ev1) =>
      match forChildren f h1 cs with
      | none => none
      | some (h2, ev2) => some (h2, ev1 ++ ev2)

/-- Function `Object::setDirty()` on the object `o`: the heap it leaves and the
callbacks it makes, `none` when the fuel is used up. -/
def setDirty {α μ : Type} : Nat → Heap α → Nat → Option (Heap α × List (Event μ))
  | 0, _, _ => none
  | fuel + 1, h, o =>
    if (h o).dirty then some (h, [])
    else
      match forChildren (setDirty fuel) h (h o).children with
      | none => none
      | some (h1, ev) =>
        some (h1.modify o fun x => { x with dirty := true },
          markDirtyAll o (h o).features.length ++ ev)

/-- Lines 71-75 of `setParent()`: `this` is removed from the child list of its
old parent, if it has one, and added to the list of the new parent, if one is
given. The assertion of `LinkedList::insert()` that the item is in no list
holds at the call, `cut()` having cleared the link. -/
def relink {α : Type} (h : Heap α) (this : Nat) (parent : Option Nat) : Heap α :=
  let h1 :=
    match (h this).parent with
    | some q => LinkedList.cut h q this
    | none => h
  match parent with
  | some p => LinkedList.insert h1 p this
  | none => h1

/-- Function `Object::setParent(parent)` on the object `this`: the heap it leaves,
the callbacks made and the pointer returned. -/
def setParent {α μ : Type} (fuel : Nat) (h : Heap α) (this : Nat) (parent : Option Nat) :
    Option (Heap α × List (Event μ) × Nat) :=
  if (h this).parent = parent ∨ (h this).isScene = true then some (h, [], this)
  else
    match reachesThis h this fuel parent with
    | none => none
    | some true => some (h, [], this)
    | some false =>
      match setDirty fuel (relink h this parent) this with
      | none => none
      | some (h3, ev) => some (h3, ev, this)

/-- Loop of lines 113-127 of `setClean()`: `objects` is the stack, its top
first; gives the stack and the base transformation, a default-constructed
`DataType` when the root is reached. -/
def collectDirty {α μ : Type} (tr : Transformation α μ) (h : Heap α) :
    Nat → Nat → List Nat → Option (List Nat × α)
  | 0, _, _ => none
  | fuel + 1, p, objects =>
    match (h p).parent with
    | none => some (p :: objects, tr.identity)
    | some q =>
      if !(h q).dirty then
        match absoluteTransformation tr h fuel q with
        | none => none
        | some a => some (p :: objects, a)
      else collectDirty tr h fuel q (p :: objects)

/-- Loop of lines 130-137 of `setClean()`: the stack is emptied from its top. -/
def cleanStack {α μ : Type} (tr : Transformation α μ) :
    Heap α → List Nat → α → List (Event μ) → Heap α × List (Event μ)
  | h, [], _, log => (h, log)
  | h, o :: objects, absoluteTransformation, log =>
    let absolute1 := tr.compose absoluteTransformation (h o).transformation
    let r := setCleanWith tr h o absolute1
    cleanStack tr r.1 objects absolute1 (log ++ r.2)

/-- Function `Object::setClean()` on the object `this` (lines 105-138). -/
def setClean {α μ : Type} (tr : Transformation α μ) (fuel : Nat) (h : Heap α) (this : Nat) :
    Option (Heap α × List (Event μ)) :=
  if !(h this).dirty then some (h, [])
  else
    match collectDirty tr h fuel this [] with
    | none => none
    | some (objects, base) => some (cleanStack tr h objects base [])

/-- What the feature loop of `setClean(const DataType&)` does, in order:
conversions to a matrix and callbacks. -/
inductive Action (μ : Type) where
  | toMatrix
  | toMatrixInverted
  | call (e : Event μ)
deriving DecidableEq

/-- Feature loop of `Object::setClean(const DataType&)` (lines 335-357) as
`cleanFeatures`, every computation of `matrix` and of `invertedMatrix` being
recorded next to the callbacks. -/
def cleanFeaturesTrace {α μ : Type} (tr : Transformation α μ) (absoluteTransformation : α)
    (o : Nat) : List Feature → Nat → Option μ → Option μ → List (Action μ)
  | [], _, _, _ => []
  | f :: fs, i, matrix, invertedMatrix =>
    let computed1 : List (Action μ) :=
      if f.cachedAbsolute && matrix.isNone then [Action.toMatrix] else []
    let matrix1 : Option μ :=
      if f.cachedAbsolute then
        match matrix with
        | some m => some m
        | none => some (tr.toMatrix absoluteTransformation)
      else matrix
    let ev1 : List (Action μ) :=
      match f.cachedAbsolute, matrix1 with
      | true, some m => [Action.call (Event.clean o i m)]
      | _, _ => []
    let computed2 : List (Action μ) :=
      if f.cachedInvertedAbsolute && invertedMatrix.isNone then [Action.toMatrixInverted] else []
    let inverted1 : Option μ :=
      if f.cachedInvertedAbsolute then
        match invertedMatrix with
        | some m => some m
        | none => some (tr.toMatrix (tr.inverted absoluteTransformation))
      else invertedMatrix
    let ev2 : List (Action μ) :=
      match f.cachedInvertedAbsolute, inverted1 with
      | true, some m => [Action.call (Event.cleanInverted o i m)]
      | _, _ => []
    computed1 ++ ev1 ++ computed2 ++ ev2 ++
      cleanFeaturesTrace tr absoluteTransformation o fs (i + 1) matrix1 inverted1

/-- The callbacks of a trace. -/
def Action.events {μ : Type} : List (Action μ) → List (Event μ)
  | [] => []
  | .call e :: rest => e :: Action.events rest
  | _ :: rest => Action.events rest

/-- Predicate `Ancestor h a o n`: following `parent()` from `o` reaches `a` after `n`
steps (`o` itself for `n = 0`). -/
inductive Ancestor {α : Type} (h : Heap α) (a : Nat) : Nat → Nat → Prop
  | self : Ancestor h a a 0
  | up {o p n : Nat} : (h o).parent = some p → Ancestor h a p n → Ancestor h a o (n + 1)

/-- The subtree of child lists below `o` has fewer than `n` levels. -/
def subtreeWithin {α : Type} (h : Heap α) : Nat → Nat → Bool
  | 0, _ => false
  | n + 1, o => (h o).children.all fun c => subtreeWithin h n c

/-- Consistency of the links: every parent chain ends at a parentless object,
an object is in the child list of `p` exactly when its parent is `p`, and no
child list holds an object twice. -/
structure TreeOK {α : Type} (h : Heap α) : Prop where
  acyclic : ∀ o, ∃ n, Depth h o n
  child : ∀ p c, c ∈ (h p).children ↔ (h c).parent = some p
  nodup : ∀ p, (h p).children.Nodup

/-- States reached from `h0` by calls of `setParent` that return, features
receiving callbacks with matrices of type `μ`. -/
inductive Reachable {α : Type} (μ : Type) (h0 : Heap α) : Heap α → Prop
  | init : Reachable μ h0 h0
  | step {h h' : Heap α} (fuel this : Nat) (parent : Option Nat) (ev : List (Event μ))
      (r : Nat) : Reachable μ h0 h → setParent fuel h this parent = some (h', ev, r) →
      Reachable μ h0 h'

/-- Predicate `DirtyChain h o L`: `L` lists `o` and its consecutive dirty ancestors, the
topmost first and `o` last; the parent of the topmost is clean or there is
none. -/
inductive DirtyChain {α : Type} (h : Heap α) : Nat → List Nat → Prop
  | root {o : Nat} : (h o).dirty = true → (h o).parent = none → DirtyChain h o [o]
  | clean {o q : Nat} : (h o).dirty = true → (h o).parent = some q → (h q).dirty = false →
      DirtyChain h o [o]
  | dirty {o q : Nat} {L : List Nat} : (h o).dirty = true → (h o).parent = some q →
      DirtyChain h q L → DirtyChain h o (L ++ [o])

/-- Objects `0 .. 3` without links, none of them a scene, every other address
alike: the state before any `setParent`. -/
def detachedHeap : Heap (List Nat) := fun o =>
  { parent := none
    children := []
    features := [⟨true, false⟩]
    transformation := [o]
    dirty := false
    visited := false
    joint := false
    counter := sentinel
    isScene := false }

/-- Predicate `Sub h o x`: `x` is `o` or is reached from `o` going down child lists. -/
inductive Sub {α : Type} (h : Heap α) (o : Nat) : Nat → Prop
  | self : Sub h o o
  | down {x c : Nat} : Sub h o x → c ∈ (h x).children → Sub h o c

/-- Only `Dirty` flags differ between the two heaps. -/
def DirtyOnly {α : Type} (h h' : Heap α) : Prop :=
  ∀ x, h' x = { h x with dirty := (h' x).dirty }

/-- Downward closure of `Dirty` along child lists. -/
def ChildClosed {α : Type} (h : Heap α) : Prop :=
  ∀ p c, c ∈ (h p).children → (h p).dirty = true → (h c).dirty = true

/-- Effect of `setDirty()` called in turn on the objects `roots`, from heap `h`
to heap `h'` with the callbacks `ev`: only `Dirty` flags change and only by
being set, only below the roots; the roots end dirty; the callbacks are one
`markDirty` for every feature of every object that became dirty; the
children of an object that became dirty are dirty; with `Dirty` downward
closed before, it is so afterwards and everything below the roots is
dirty. -/
structure DirtyPost {α μ : Type} (h : Heap α) (roots : List Nat) (h' : Heap α)
    (ev : List (Event μ)) : Prop where
  frame : DirtyOnly h h'
  mono : ∀ x, (h x).dirty = true → (h' x).dirty = true
  rootsDirty : ∀ c ∈ roots, (h' c).dirty = true
  inside : ∀ x, (h x).dirty = false → (h' x).dirty = true → ∃ c ∈ roots, Sub h c x
  below : ∀ x, (h x).dirty = false → (h' x).dirty = true →
    ∀ c ∈ (h x).children, (h' c).dirty = true
  nodup : ev.Nodup
  mem : ∀ e, e ∈ ev ↔ ∃ x f, e = Event.markDirty x f ∧ (h x).dirty = false ∧
    (h' x).dirty = true ∧ f < (h x).features.length
  closed : ChildClosed h → ChildClosed h' ∧ ∀ c ∈ roots, ∀ x, Sub h c x → (h' x).dirty = true

/-- The object whose feature receives the callback. -/
def Event.target {μ : Type} : Event μ → Nat
  | .markDirty o _ => o
  | .clean o _ _ => o
  | .cleanInverted o _ _ => o

/-- Whether an action is the computation of `matrix`. -/
def Action.isToMatrix {μ : Type} : Action μ → Bool
  | .toMatrix => true
  | _ => false

/-- Whether an action is the computation of `invertedMatrix`. -/
def Action.isToMatrixInverted {μ : Type} : Action μ → Bool
  | .toMatrixInverted => true
  | _ => false

/-- The callbacks feature number `i` of object `o` is due for the absolute
transformation `a`: `clean` when it caches the absolute transformation, then
`cleanInverted` when it caches the inverted one. -/
def featureCallbacks {α μ : Type} (tr : Transformation α μ) (a : α) (o i : Nat) (f : Feature) :
    List (Event μ) :=
  (if f.cachedAbsolute then [Event.clean o i (tr.toMatrix a)] else []) ++
    (if f.cachedInvertedAbsolute then [Event.cleanInverted o i (tr.toMatrix (tr.inverted a))]
      else [])

/-- The callbacks due for the features `fs`, numbered from `i` on. -/
def allCallbacks {α μ : Type} (tr : Transformation α μ) (a : α) (o : Nat) :
    List Feature → Nat → List (Event μ)
  | [], _ => []
  | f :: fs, i => featureCallbacks tr a o i f ++ allCallbacks tr a o fs (i + 1)

/-- The chain `0 <- 1 <- 2 <- 3` with one feature on every object, caching
both transformations, and the leaf `3` dirty. -/
def leafDirtyHeap : Heap (List Nat) := fun o =>
  { chainHeap o with features := [⟨true, true⟩], dirty := decide (o = 3) }

/-- The chain `0 <- 1 <- 2 <- 3` with one feature on every object, caching
both transformations, and every object dirty. -/
def dirtyFeaturedHeap : Heap (List Nat) := fun o =>
  { chainHeap o with features := [⟨true, true⟩], dirty := true }

/-- Heap with the scene `0`, its children `1` and `4` and the children `2` and
`3` of `1`; every other address is a detached object. -/
def fanHeap : Heap (List Nat) := fun o =>
  { parent := if o = 1 ∨ o = 4 then some 0 else if o = 2 ∨ o = 3 then some 1 else none
    children := if o = 0 then [1, 4] else if o = 1 then [2, 3] else []
    features := []
    transformation := if o = 0 then [] else [o]
    dirty := false
    visited := false
    joint := false
    counter := sentinel
    isScene := decide (o = 0) }

/-- The objects `2`, `3`, then 65531 times the object `4`, then the detached
object `5`: a list of 65534 objects. -/
def crowd : List Nat := 2 :: 3 :: 4 :: (List.replicate 65530 4 ++ [5])

/-- Objects without links, the object `0` being a scene and every other
address a plain object: a state before any `setParent`. -/
def looseHeap : Heap (List Nat) := fun o =>
  { parent := none
    children := []
    features := []
    transformation := [o]
    dirty := false
    visited := false
    joint := false
    counter := sentinel
    isScene := decide (o = 0) }

/-- The object `x` lies on the root path of one of the objects of the list:
it is a listed object or an ancestor of one. -/
def OnPath {α : Type} (h : Heap α) (objects : List Nat) (x : Nat) : Prop :=
  ∃ o ∈ objects, ∃ k, Ancestor h x o k

/-- Loop of lines 148-149 of `transformationMatrices()` over the positions
`i, i+1, ..` (`n` of them): `transformationMatrices[i] =
toMatrix(transformations[i])`. An entry of the vector of matrices is `none`
while it holds the default-constructed matrix it was created with; a read or a
write outside a vector gives `none`. -/
def toMatrices {α μ : Type} (tr : Transformation α μ) (transformations : List α) :
    Nat → Nat → List (Option μ) → Option (List (Option μ))
  | 0, _, transformationMatrices => some transformationMatrices
  | n + 1, i, transformationMatrices =>
    match transformations[i]? with
    | none => none
    | some t =>
      if i < transformationMatrices.length then
        toMatrices tr transformations n (i + 1)
          (transformationMatrices.set i (some (tr.toMatrix t)))
      else none

/-- Function `Object::transformationMatrices(objects, initialTransformationMatrix)`
called on the object `this` (lines 140-152). The cast of the objects changes
nothing in the embedding. When `transformations()` returns through a failed
`CORRADE_ASSERT` it gives back an empty vector, and the loop runs over
`objects.size()` positions all the same. -/
def transformationMatrices {α μ : Type} (tr : Transformation α μ) (fuel : Nat) (h : Heap α)
    (this : Nat) (objects : List Nat) (initialTransformationMatrix : μ) :
    Run α (Heap α × List (Option μ)) :=
  let castObjects := objects
  match transformations tr fuel h this castObjects
      (tr.fromMatrix initialTransformationMatrix) with
  | .aborted => .aborted
  | .outOfFuel => .outOfFuel
  | .done (h1, ts) =>
    match toMatrices tr ts objects.length 0 (List.replicate ts.length none) with
    | none => .aborted
    | some ms => .done (h1, ms)
  | .failed h1 _ =>
    match toMatrices tr [] objects.length 0 (List.replicate 0 none) with
    | none => .aborted
    | some ms => .done (h1, ms)

mutual

/-- Function `Object::computeJointTransformation()` up to the loop, with a ghost
result added to what `computeJointTransformation` gives: the values of
`joint` of the recursive calls made, in the order of the calls. -/
def computeJointTransformationCalls {α μ : Type} (tr : Transformation α μ)
    (jointObjects : List Nat) (initialTransformation : α) :
    Nat → Heap α → List α → Nat → Run α (Heap α × List α × α × List Nat)
  | 0, _, _, _ => .outOfFuel
  | fuel + 1, h, jointTransformations, joint =>
    match jointObjects[joint]? with
    | none => .aborted
    | some o =>
      match jointTransformations[joint]? with
      | none => .aborted
      | some t =>
        if !(h o).visited then .done (h, jointTransformations, t, [])
        else
          goUpCalls tr jointObjects initialTransformation fuel h
            (jointTransformations.set joint (h o).transformation) joint o

/-- The `for(;;)` loop of `computeJointTransformation()` (lines 274-297) with
the ghost result: the recursive call of line 289 is recorded by its argument
`parent->counter`. -/
def goUpCalls {α μ : Type} (tr : Transformation α μ)
    (jointObjects : List Nat) (initialTransformation : α) :
    Nat → Heap α → List α → Nat → Nat → Run α (Heap α × List α × α × List Nat)
  | 0, _, _, _, _ => .outOfFuel
  | fuel + 1, h, jointTransformations, joint, o =>
    if !(h o).visited then .aborted
    else
      let h1 := h.modify o fun x => { x with visited := false }
      match (h1 o).parent with
      | none =>
        if !(h1 o).isScene then .aborted
        else
          match jointTransformations[joint]? with
          | none => .aborted
          | some t =>
            let v := tr.compose initialTransformation t
            .done (h1, jointTransformations.set joint v, v, [])
      | some p =>
        if (h1 p).joint then
          match computeJointTransformationCalls tr jointObjects initialTransformation fuel h1
              jointTransformations (h1 p).counter with
          | .done (h2, ts2, r, calls) =>
            match ts2[joint]? with
            | none => .aborted
            | some t =>
              let v := tr.compose r t
              .done (h2, ts2.set joint v, v, (h1 p).counter :: calls)
          | .failed h2 e => .failed h2 e
          | .aborted => .aborted
          | .outOfFuel => .outOfFuel
        else
          match jointTransformations[joint]? with
          | none => .aborted
          | some t =>
            goUpCalls tr jointObjects initialTransformation fuel h1
              (jointTransformations.set joint (tr.compose (h1 p).transformation t)) joint p

end

/-- Loop of lines 239-240 over the joint indices `i, i+1, ..` (`n` of them)
with the ghost result: for each index, the recursive calls its call of
`computeJointTransformation()` made. -/
def computeAllCalls {α μ : Type} (tr : Transformation α μ)
    (jointObjects : List Nat) (initialTransformation : α) (fuel : Nat) :
    Nat → Nat → Heap α → List α → Run α (Heap α × List α × List (List Nat))
  | 0, _, h, ts => .done (h, ts, [])
  | n + 1, i, h, ts =>
    match computeJointTransformationCalls tr jointObjects initialTransformation fuel h ts i with
    | .done (h1, ts1, _, calls) =>
      match computeAllCalls tr jointObjects initialTransformation fuel n (i + 1) h1 ts1 with
      | .done (h2, ts2, rest) => .done (h2, ts2, calls :: rest)
      | .failed h2 e => .failed h2 e
      | .aborted => .aborted
      | .outOfFuel => .outOfFuel
    | .failed h1 e => .failed h1 e
    | .aborted => .aborted
    | .outOfFuel => .outOfFuel

/-- The joint at position `b` of the joint list is strictly closer to the root
than the one at position `a`: it is reached from it by one or more steps to
the parent. -/
def CloserJoint {α : Type} (h : Heap α) (jointObjects : List Nat) (a b : Nat) : Prop :=
  ∃ ja jb k, jointObjects[a]? = some ja ∧ jointObjects[b]? = some jb ∧
    Ancestor h jb ja (k + 1)

/-- The objects `2`, `3` and 65532 times the object `4` of the fan: a list of
65534 objects of the tree of the scene `0`. -/
def crowdInTree : List Nat := 2 :: 3 :: 4 :: List.replicate 65531 4

/-- What the walk-up loop keeps about root paths, `h0` being the heap before
the call, `objects` the list of the call and `W` the working vector: parents
are as in `h0`; visited objects and the objects of the working vector lie on
root paths of listed objects; a visited object, and the object the iterator
stands on, is a joint or has a visited child; the other objects of the working
vector are joints; a joint is a listed object or has two different visited
children. -/
structure PathInv {α : Type} (h0 : Heap α) (objects : List Nat) (h : Heap α)
    (W : List Nat) : Prop where
  parents : ∀ x, (h x).parent = (h0 x).parent
  visPath : ∀ x, (h x).visited = true → OnPath h0 objects x
  workPath : ∀ w ∈ W, OnPath h0 objects w
  visChild : ∀ x, (h x).visited = true →
    (h x).joint = true ∨ ∃ y, (h y).visited = true ∧ (h0 y).parent = some x
  headChild : ∀ w, W.head? = some w →
    (h w).joint = true ∨ ∃ y, (h y).visited = true ∧ (h0 y).parent = some w
  tailJoint : ∀ w ∈ W.tail, (h w).joint = true
  jointWhy : ∀ x, (h x).joint = true → x ∈ objects ∨
    ∃ c c', c ≠ c' ∧ (h0 c).parent = some x ∧ (h0 c').parent = some x ∧
      (h c).visited = true ∧ (h c').visited = true

end SceneGraph

namespace Trade

/-- Modelled from the spec: `MaterialAttributeType`, the closed tag set of
section 3 (declared in `MaterialData.h`, which is not among the sources). -/
inductive AttributeType where
  | Bool | Float | Deg | Rad | UInt32 | Int32 | UInt64 | Int64
  | Vector2 | Vector2ui | Vector2i | Vector3 | Vector3ui | Vector3i
  | Vector4 | Vector4ui | Vector4i
  | Matrix2x2 | Matrix2x3 | Matrix2x4 | Matrix3x2 | Matrix3x3 | Matrix3x4
  | Matrix4x2 | Matrix4x3
  | Pointer | MutablePointer | String
deriving DecidableEq

/-- Modelled from the spec: the error kinds of section 7 that concern records
and stores. `EmptyRecord` carries the index of the record, `NotSorted` and
`DuplicateAttribute` the offending name, `InvalidLayerRange` the layer, the
pair `(prev, curr)` and the total record count. -/
inductive Error where
  | InvalidType
  | InvalidName
  | UnknownStringSize
  | TypeMismatch
  | RecordTooLarge
  | EmptyRecord (index : Nat)
  | NotSorted (name : List Nat)
  | DuplicateAttribute (name : List Nat)
  | InvalidLayerRange (layer prev curr total : Nat)
  | IndexOutOfRange
  | AttributeNotFound
  | LayerNotFound
deriving DecidableEq

/-- Modelled from the spec: size of a pointer, taken for a 64-bit target. -/
def pointerSize : Nat := 8

/-- Modelled from the spec: numeric value of a type tag. The tags are numbered
from 1 in the order of section 3; 0 is the tag of a default record. -/
def AttributeType.tag : AttributeType → Nat
  | .Bool => 1 | .Float => 2 | .Deg => 3 | .Rad => 4 | .UInt32 => 5 | .Int32 => 6
  | .UInt64 => 7 | .Int64 => 8 | .Vector2 => 9 | .Vector2ui => 10 | .Vector2i => 11
  | .Vector3 => 12 | .Vector3ui => 13 | .Vector3i => 14 | .Vector4 => 15
  | .Vector4ui => 16 | .Vector4i => 17 | .Matrix2x2 => 18 | .Matrix2x3 => 19
  | .Matrix2x4 => 20 | .Matrix3x2 => 21 | .Matrix3x3 => 22 | .Matrix3x4 => 23
  | .Matrix4x2 => 24 | .Matrix4x3 => 25 | .Pointer => 26 | .MutablePointer => 27
  | .String => 28

/-- Modelled from the spec: the type a tag value stands for, if any. -/
def AttributeType.ofTag (n : Nat) : Option AttributeType :=
  [AttributeType.Bool, .Float, .Deg, .Rad, .UInt32, .Int32, .UInt64, .Int64, .Vector2,
    .Vector2ui, .Vector2i, .Vector3, .Vector3ui, .Vector3i, .Vector4, .Vector4ui, .Vector4i,
    .Matrix2x2, .Matrix2x3, .Matrix2x4, .Matrix3x2, .Matrix3x3, .Matrix3x4, .Matrix4x2,
    .Matrix4x3, .Pointer, .MutablePointer, .String].find? fun t => t.tag = n

/-- Modelled from the spec: `size_of` (`materialAttributeTypeSize`), section
4.1, with the sizes of section 3. -/
def materialAttributeTypeSize (tag : Nat) : Except Error Nat :=
  match AttributeType.ofTag tag with
  | none => .error .InvalidType
  | some t =>
    match t with
    | .Bool => .ok 1
    | .Float | .Deg | .Rad | .UInt32 | .Int32 => .ok 4
    | .UInt64 | .Int64 | .Vector2 | .Vector2ui | .Vector2i => .ok 8
    | .Vector3 | .Vector3ui | .Vector3i => .ok 12
    | .Vector4 | .Vector4ui | .Vector4i | .Matrix2x2 => .ok 16
    | .Matrix2x3 | .Matrix3x2 => .ok 24
    | .Matrix2x4 | .Matrix4x2 => .ok 32
    | .Matrix3x3 => .ok 36
    | .Matrix3x4 | .Matrix4x3 => .ok 48
    | .Pointer | .MutablePointer => .ok pointerSize
    | .String => .error .UnknownStringSize

/-- Modelled from the spec: `MaterialAttributeData`, a block of 64 bytes:
the type tag, the name, its terminating 0, the value. The name-length byte
of the layout table of section 3 is left out: the sizes the tests assert (a
name of 14 bytes next to a value of 48 bytes, `sizeof(type) + name + 1 + 1 <=
64` in `attributeMap`) leave no room for it, and `name()` is read up to the
terminating 0. A String value is preceded by its length and followed by 0. -/
structure AttributeRecord where
  data : List Nat
deriving DecidableEq

/-- Fill a block up to 64 bytes with zeros. -/
def pad64 (bytes : List Nat) : List Nat :=
  bytes ++ List.replicate (64 - bytes.length) 0

/-- Modelled from the spec: the default record, zero name and zero type. -/
def AttributeRecord.default : AttributeRecord := ⟨List.replicate 64 0⟩

/-- Modelled from the spec: `type()`, as the raw tag. -/
def AttributeRecord.type (r : AttributeRecord) : Nat := r.data.getD 0 0

/-- Modelled from the spec: `name()`, the bytes after the tag up to the
terminating 0. -/
def AttributeRecord.name (r : AttributeRecord) : List Nat :=
  (r.data.drop 1).takeWhile fun b => b ≠ 0

/-- Modelled from the spec: the byte `name()[name().size()]`. -/
def AttributeRecord.nameTerminator (r : AttributeRecord) : Option Nat :=
  r.data[1 + r.name.length]?

/-- Modelled from the spec: the untyped `value()`, the bytes from the start of
the value to the end of the record. -/
def AttributeRecord.rawValue (r : AttributeRecord) : List Nat :=
  if r.type = AttributeType.String.tag then r.data.drop (r.name.length + 3)
  else r.data.drop (r.name.length + 2)

/-- Modelled from the spec: constructor 3, `(string, AttributeType, raw ptr)`
for a fixed-size type; `memory` is what the pointer points to, of which
`size_of(type)` bytes are copied. -/
def AttributeRecord.ofRaw (name : List Nat) (tag : Nat) (memory : List Nat) :
    Except Error AttributeRecord :=
  match materialAttributeTypeSize tag with
  | .error e => .error e
  | .ok size =>
    if name.length + size + 2 ≤ 64 then
      .ok ⟨pad64 (tag :: name ++ [0] ++ memory.take size)⟩
    else .error .RecordTooLarge

/-- Modelled from the spec: constructor 2, `(string, Value<T>)` for a
fixed-size `T`, the value being given by its bytes. -/
def AttributeRecord.ofValue (name : List Nat) (t : AttributeType) (value : List Nat) :
    Except Error AttributeRecord :=
  match materialAttributeTypeSize t.tag with
  | .error e => .error e
  | .ok size =>
    if value.length ≠ size then .error .TypeMismatch
    else if name.length + size + 2 ≤ 64 then
      .ok ⟨pad64 (t.tag :: name ++ [0] ++ value)⟩
    else .error .RecordTooLarge

/-- Modelled from the spec: constructor 5, name string and value string. -/
def AttributeRecord.ofString (name value : List Nat) : Except Error AttributeRecord :=
  if name.length + value.length + 4 ≤ 64 then
    .ok ⟨pad64 (AttributeType.String.tag :: name ++ [0] ++ [value.length] ++ value ++ [0])⟩
  else .error .RecordTooLarge

/-- Modelled from the spec: `value<T>()` for a fixed-size `T`. -/
def AttributeRecord.value (r : AttributeRecord) (t : AttributeType) :
    Except Error (List Nat) :=
  if t = .String ∨ r.type ≠ t.tag then .error .TypeMismatch
  else
    match materialAttributeTypeSize t.tag with
    | .error e => .error e
    | .ok size => .ok (r.rawValue.take size)

/-- Modelled from the spec: `value<StringView>()`. -/
def AttributeRecord.stringValue (r : AttributeRecord) : Except Error (List Nat) :=
  if r.type ≠ AttributeType.String.tag then .error .TypeMismatch
  else .ok (r.rawValue.take (r.data.getD (r.name.length + 2) 0))

/-- Bytes of an ASCII string. -/
def ascii (s : String) : List Nat := s.toList.map Char.toNat

/-- Little-endian bytes of the `Float` values used by the tests:
0.0, 0.3, 0.5, 1.0, 2.0 and the colour channels 0x33, 0x55, 0x66 over 255. -/
def f0 : List Nat := [0, 0, 0, 0]
def f03 : List Nat := [154, 153, 153, 62]
def f05 : List Nat := [0, 0, 0, 63]
def f1 : List Nat := [0, 0, 128, 63]
def f2 : List Nat := [0, 0, 0, 64]
def f33 : List Nat := [205, 204, 76, 62]
def f55 : List Nat := [171, 170, 170, 62]
def f66 : List Nat := [205, 204, 204, 62]

/-- The value `Matrix3::scaling(2.0f, 0.3f)`, column by column. -/
def scaling2x03 : List Nat := f2 ++ f0 ++ f0 ++ f0 ++ f03 ++ f0 ++ f0 ++ f0 ++ f1

/-- The record `{"colorTransform", Matrix3::scaling({2.0f, 0.3f})}` of
`constructAttributeString`. -/
def colorTransform : AttributeRecord :=
  ⟨pad64 (AttributeType.Matrix3x3.tag :: ascii "colorTransform" ++ [0] ++ scaling2x03)⟩

/-- The records of `MaterialDataTest::construct`, in the order given there. -/
def doubleSided : AttributeRecord :=
  ⟨pad64 (AttributeType.Bool.tag :: ascii "DoubleSided" ++ [0] ++ [1])⟩
def diffuseCoordinateSet : AttributeRecord :=
  ⟨pad64 (AttributeType.UInt32.tag :: ascii "DiffuseCoordinateSet" ++ [0] ++ [5, 0, 0, 0])⟩
def highlightColor : AttributeRecord :=
  ⟨pad64 (AttributeType.Vector4.tag :: ascii "highlightColor" ++ [0] ++
    (f33 ++ f55 ++ f66 ++ f1))⟩
def ambientTextureMatrix : AttributeRecord :=
  ⟨pad64 (AttributeType.Matrix3x3.tag :: ascii "AmbientTextureMatrix" ++ [0] ++
    (f05 ++ f0 ++ f0 ++ f0 ++ f1 ++ f0 ++ f0 ++ f0 ++ f1))⟩

/-- Further records of the layer tests. -/
def alphaBlend : AttributeRecord :=
  ⟨pad64 (AttributeType.Bool.tag :: ascii "AlphaBlend" ++ [0] ++ [1])⟩
def normalTexture : AttributeRecord :=
  ⟨pad64 (AttributeType.UInt32.tag :: ascii "NormalTexture" ++ [0] ++ [3, 0, 0, 0])⟩
def layerNameHighlight : AttributeRecord :=
  ⟨pad64 (AttributeType.String.tag :: ascii "$LayerName" ++ [0] ++
    [(ascii "transparent highlight").length] ++ ascii "transparent highlight" ++ [0])⟩

/-- Input of `MaterialDataTest::construct`. -/
def constructInput : List AttributeRecord :=
  [doubleSided, diffuseCoordinateSet, highlightColor, ambientTextureMatrix]

/-- Input of `MaterialDataTest::constructDuplicateAttribute`. -/
def duplicateInput : List AttributeRecord :=
  [doubleSided, diffuseCoordinateSet, highlightColor, ambientTextureMatrix,
    diffuseCoordinateSet]

/-- Input of `MaterialDataTest::constructLayersNotMonotonic`. -/
def layersInput : List AttributeRecord :=
  [doubleSided, diffuseCoordinateSet, alphaBlend, layerNameHighlight, normalTexture]

/-- Modelled from the spec: `MaterialData`, the records and the optional table
of layer offsets. -/
structure MaterialData where
  attributeData : List AttributeRecord
  layerData : Option (List Nat)
deriving DecidableEq

/-- The records at positions `b .. e-1`. -/
def slice (recs : List AttributeRecord) (b e : Nat) : List AttributeRecord :=
  (recs.drop b).take (e - b)

/-- Modelled from the spec: the order records are sorted by, byte-wise on the
name. -/
def nameLE (a b : AttributeRecord) : Prop := a.name ≤ b.name

instance : DecidableRel nameLE := fun a b => inferInstanceAs (Decidable (a.name ≤ b.name))

instance : IsTotal AttributeRecord nameLE := ⟨fun a b => le_total a.name b.name⟩

instance : IsTrans AttributeRecord nameLE := ⟨fun _ _ _ hab hbc => le_trans hab hbc⟩

/-- Modelled from the spec: an empty record is a precondition error; `i` is
the index of the first record of the list. -/
def checkEmpty : List AttributeRecord → Nat → Except Error Unit
  | [], _ => .ok ()
  | r :: rest, i => if r.type = 0 then .error (.EmptyRecord i) else checkEmpty rest (i + 1)

/-- Modelled from the spec: offset table validation from layer `i` on, `prev`
being the previous offset and `total` the record count. -/
def validateLayers (total : Nat) : List Nat → Nat → Nat → Except Error Unit
  | [], _, _ => .ok ()
  | curr :: rest, i, prev =>
    if prev ≤ curr ∧ curr ≤ total then validateLayers total rest (i + 1) curr
    else .error (.InvalidLayerRange i prev curr total)

/-- Modelled from the spec: sort the records by name within each layer,
`begin` being the start of the first layer still to sort. Records behind the
last layer stay as they are. -/
def sortLayers (recs : List AttributeRecord) : List Nat → Nat → List AttributeRecord
  | [], b => recs.drop b
  | e :: rest, b => (slice recs b e).insertionSort nameLE ++ sortLayers recs rest e

/-- Modelled from the spec: check of one layer, already in its final order,
for names out of order (non-owned data only) and for duplicates. -/
def checkOrder (owned : Bool) : List AttributeRecord → Except Error Unit
  | [] => .ok ()
  | [_] => .ok ()
  | a :: b :: rest =>
    if a.name = b.name then .error (.DuplicateAttribute b.name)
    else if ¬ owned ∧ b.name < a.name then .error (.NotSorted b.name)
    else checkOrder owned (b :: rest)

/-- Modelled from the spec: `checkOrder` on every layer in turn. -/
def checkLayers (owned : Bool) (recs : List AttributeRecord) : List Nat → Nat → Except Error Unit
  | [], _ => .ok ()
  | e :: rest, b =>
    match checkOrder owned (slice recs b e) with
    | .error err => .error err
    | .ok () => checkLayers owned recs rest e

/-- The offset table in use: the given one, or the single implicit layer
containing all records when no table (or an empty one) is given. -/
def offsetsOf (layers : Option (List Nat)) (total : Nat) : List Nat :=
  match layers with
  | some (e :: rest) => e :: rest
  | _ => [total]

/-- The offset before position `k` of the table `L`, `b` standing before the
first one: `L[k-1]` with `L[-1] = b`. -/
def prevFrom (b : Nat) (L : List Nat) (k : Nat) : Nat :=
  if k = 0 then b else L.getD (k - 1) 0

/-- Modelled from the spec: construction from owned records (section 4.4). -/
def MaterialData.construct (attributes : List AttributeRecord) (layers : Option (List Nat)) :
    Except Error MaterialData :=
  match checkEmpty attributes 0 with
  | .error e => .error e
  | .ok () =>
    match validateLayers attributes.length (offsetsOf layers attributes.length) 0 0 with
    | .error e => .error e
    | .ok () =>
      let sorted := sortLayers attributes (offsetsOf layers attributes.length) 0
      match checkLayers true sorted (offsetsOf layers attributes.length) 0 with
      | .error e => .error e
      | .ok () => .ok ⟨sorted, layers⟩

/-- Modelled from the spec: construction from non-owned views (section 4.4),
validating without mutation. -/
def MaterialData.constructNonOwned (attributes : List AttributeRecord)
    (layers : Option (List Nat)) : Except Error MaterialData :=
  match checkEmpty attributes 0 with
  | .error e => .error e
  | .ok () =>
    match validateLayers attributes.length (offsetsOf layers attributes.length) 0 0 with
    | .error e => .error e
    | .ok () =>
      match checkLayers false attributes (offsetsOf layers attributes.length) 0 with
      | .error e => .error e
      | .ok () => .ok ⟨attributes, layers⟩

/-- The offset table of a store. -/
def MaterialData.offsets (m : MaterialData) : List Nat :=
  offsetsOf m.layerData m.attributeData.length

/-- Modelled from the spec: `layer_count()`. -/
def MaterialData.layerCount (m : MaterialData) : Nat := m.offsets.length

/-- Modelled from the spec: index of the first record of a layer, `L[i-1]`
with `L[-1] = 0`. -/
def MaterialData.layerBegin (m : MaterialData) (layer : Nat) : Nat :=
  prevFrom 0 m.offsets layer

/-- Modelled from the spec: index one past the last record of a layer. -/
def MaterialData.layerEnd (m : MaterialData) (layer : Nat) : Nat :=
  m.offsets.getD layer 0

/-- Modelled from the spec: `attribute_count(i) = L[i] - L[i-1]`. -/
def MaterialData.attributeCount (m : MaterialData) (layer : Nat) : Nat :=
  m.layerEnd layer - m.layerBegin layer

/-- Modelled from the spec: the record at `(layer, index)`. -/
def MaterialData.recordAt (m : MaterialData) (layer id : Nat) : Except Error AttributeRecord :=
  if layer < m.layerCount ∧ id < m.attributeCount layer then
    match m.attributeData[m.layerBegin layer + id]? with
    | some r => .ok r
    | none => .error .IndexOutOfRange
  else .error .IndexOutOfRange

/-- Modelled from the spec: `attribute_name(layer, index)`. -/
def MaterialData.attributeName (m : MaterialData) (layer id : Nat) : Except Error (List Nat) :=
  (m.recordAt layer id).map AttributeRecord.name

/-- Modelled from the spec: `attribute_type(layer, index)`. -/
def MaterialData.attributeType (m : MaterialData) (layer id : Nat) : Except Error Nat :=
  (m.recordAt layer id).map AttributeRecord.type

/-- Modelled from the spec: `attribute_raw_ptr(layer, index)`. -/
def MaterialData.attributeRaw (m : MaterialData) (layer id : Nat) : Except Error (List Nat) :=
  (m.recordAt layer id).map AttributeRecord.rawValue

/-- Modelled from the spec: `attribute<T>(layer, index)`. -/
def MaterialData.attribute (m : MaterialData) (layer id : Nat) (t : AttributeType) :
    Except Error (List Nat) :=
  match m.recordAt layer id with
  | .error e => .error e
  | .ok r => r.value t

/-- Modelled from the spec: binary search for the first position in `lo .. hi`
whose record has a name not below `name`. -/
def lowerBound (recs : List AttributeRecord) (name : List Nat) : Nat → Nat → Nat → Nat
  | 0, lo, _ => lo
  | fuel + 1, lo, hi =>
    if lo < hi then
      let mid := lo + (hi - lo) / 2
      match recs[mid]? with
      | none => hi
      | some r =>
        if r.name < name then lowerBound recs name fuel (mid + 1) hi
        else lowerBound recs name fuel lo mid
    else lo

/-- Modelled from the spec: lookup of a name in a layer by binary search;
gives the record found and its index inside the layer. -/
def MaterialData.find (m : MaterialData) (layer : Nat) (name : List Nat) :
    Option (Nat × AttributeRecord) :=
  if layer < m.layerCount then
    let b := m.layerBegin layer
    let e := m.layerEnd layer
    let i := lowerBound m.attributeData name (e - b) b e
    if i < e then
      match m.attributeData[i]? with
      | some r => if r.name = name then some (i - b, r) else none
      | none => none
    else none
  else none

/-- Modelled from the spec: `has_attribute(layer, name)`. -/
def MaterialData.hasAttribute (m : MaterialData) (layer : Nat) (name : List Nat) : Bool :=
  (m.find layer name).isSome

/-- Modelled from the spec: `attribute_id(layer, name)`. -/
def MaterialData.attributeId (m : MaterialData) (layer : Nat) (name : List Nat) :
    Except Error Nat :=
  match m.find layer name with
  | some (i, _) => .ok i
  | none => .error .AttributeNotFound

/-- Modelled from the spec: `attribute_type(layer, name)`. -/
def MaterialData.attributeTypeByName (m : MaterialData) (layer : Nat) (name : List Nat) :
    Except Error Nat :=
  match m.find layer name with
  | some (_, r) => .ok r.type
  | none => .error .AttributeNotFound

/-- Modelled from the spec: `attribute_raw_ptr(layer, name)`. -/
def MaterialData.attributeRawByName (m : MaterialData) (layer : Nat) (name : List Nat) :
    Except Error (List Nat) :=
  match m.find layer name with
  | some (_, r) => .ok r.rawValue
  | none => .error .AttributeNotFound

/-- Modelled from the spec: `attribute<T>(layer, name)`. -/
def MaterialData.attributeByName (m : MaterialData) (layer : Nat) (name : List Nat)
    (t : AttributeType) : Except Error (List Nat) :=
  match m.find layer name with
  | some (_, r) => r.value t
  | none => .error .AttributeNotFound

/-- The records of one layer of a store. -/
def MaterialData.layer (m : MaterialData) (l : Nat) : List AttributeRecord :=
  slice m.attributeData (m.layerBegin l) (m.layerEnd l)

/-- Invariant of a store: the offset table is valid and inside each layer the
names are strictly ascending. -/
structure MaterialData.WF (m : MaterialData) : Prop where
  offsets : ∀ k, k < m.offsets.length →
    prevFrom 0 m.offsets k ≤ m.offsets.getD k 0 ∧ m.offsets.getD k 0 ≤ m.attributeData.length
  sorted : ∀ l, l < m.layerCount → ((m.layer l).map AttributeRecord.name).Sorted (· < ·)

/-- Modelled from the spec: constructor 3 for `String`, the pointer being to a
string-view struct `(data, length)`, and constructor 5 given a value view that
is not null-terminated. `memory` is what `data` points to, of which the first
`size` bytes belong to the view; what follows them is not read. -/
def AttributeRecord.ofStringView (name memory : List Nat) (size : Nat) :
    Except Error AttributeRecord :=
  AttributeRecord.ofString name (memory.take size)

/-- Modelled from the spec: the byte just past the view that
`value<StringView>()` gives, `view[view.size()]`. -/
def AttributeRecord.stringTerminator (r : AttributeRecord) : Option Nat :=
  r.data[r.name.length + 3 + r.data.getD (r.name.length + 2) 0]?

/-- Modelled from the spec: the untyped `value()` of a String record read as a
C string, up to the first 0 byte. -/
def AttributeRecord.rawCString (r : AttributeRecord) : List Nat :=
  r.rawValue.takeWhile fun b => b ≠ 0

/-- The name and the memory behind the value view of
`constructAttributeStringNameStringValue`: the view leaves out the last byte
of the 45 bytes of the literal. -/
def longName : List Nat := ascii "name that" ++ [39] ++ ascii "s long"
def longValueMemory : List Nat :=
  ascii "and a value" ++ [0] ++ ascii "that" ++ [39] ++ ascii "s also long but still fits!!" ++ [0]

/-- The names and the value of `constructAttributeTooLargeString`. -/
def tooLongName : List Nat := ascii "attribute is long"
def longText : List Nat := ascii "This is a problem, got a long piece of text!"

/-- A value of 48 bytes, the size of a `Matrix3x4`. -/
def matrix3x4Zero : List Nat := List.replicate 48 0

/-- Modelled from the spec: canonical string of the `LayerName` attribute. -/
def layerNameKey : List Nat := ascii "$LayerName"

/-- Modelled from the spec: `layer_name(i)`. Layer 0 has the name `""`; a
layer `i >= 1` has the string value of its first record when it is not empty
and that record is named `$LayerName`, and the name `""` otherwise. The record
is read at the first position of the layer in the array of all records. -/
def MaterialData.layerName (m : MaterialData) (layer : Nat) : Except Error (List Nat) :=
  if layer < m.layerCount then
    if layer ≠ 0 ∧ m.layerBegin layer < m.layerEnd layer then
      match m.attributeData[m.layerBegin layer]? with
      | some r => if r.name = layerNameKey then r.stringValue else .ok []
      | none => .ok []
    else .ok []
  else .error .IndexOutOfRange

/-- Modelled from the spec: one step of the linear scan of `has_layer(name)`
and `layer_id(name)`, whether the layer is not empty and its first record is
`$LayerName` with the value `name`. A layer without such a record is not found
under the name `""`: `construct` and `constructLayers` assert
`!hasLayer("")` on stores whose layers have no `$LayerName`. -/
def MaterialData.isLayerNamed (m : MaterialData) (layer : Nat) (name : List Nat) : Bool :=
  decide (m.layerBegin layer < m.layerEnd layer) &&
    match m.attributeData[m.layerBegin layer]? with
    | some r =>
      decide (r.name = layerNameKey) &&
        match r.stringValue with
        | .ok v => decide (v = name)
        | .error _ => false
    | none => false

/-- Modelled from the spec: the linear scan over the layers `i, i+1, ..`, `n`
of them; the base material, layer 0, is not scanned. -/
def MaterialData.layerFor (m : MaterialData) (name : List Nat) : Nat → Nat → Option Nat
  | 0, _ => none
  | n + 1, i => if m.isLayerNamed i name then some i else m.layerFor name n (i + 1)

/-- Modelled from the spec: `has_layer(name)`. -/
def MaterialData.hasLayer (m : MaterialData) (name : List Nat) : Bool :=
  (m.layerFor name (m.layerCount - 1) 1).isSome

/-- Modelled from the spec: `layer_id(name)`. -/
def MaterialData.layerId (m : MaterialData) (name : List Nat) : Except Error Nat :=
  match m.layerFor name (m.layerCount - 1) 1 with
  | some i => .ok i
  | none => .error .LayerNotFound

/-- Little-endian bytes of the `Float` values 0.015 and 50.0. -/
def f0015 : List Nat := [143, 194, 117, 60]
def f50 : List Nat := [0, 0, 72, 66]

/-- Records of `constructLayers`, `accessLayersLayerNameInBaseMaterial` and
`accessLayersEmptyLayer`. -/
def thickness : AttributeRecord :=
  ⟨pad64 (AttributeType.Float.tag :: ascii "thickness" ++ [0] ++ f0015)⟩
def shininess : AttributeRecord :=
  ⟨pad64 (AttributeType.Float.tag :: ascii "Shininess" ++ [0] ++ f50)⟩
def layerNameBase : AttributeRecord :=
  ⟨pad64 (AttributeType.String.tag :: ascii "$LayerName" ++ [0] ++
    [(ascii "base material name").length] ++ ascii "base material name" ++ [0])⟩
def layerNameCrumples : AttributeRecord :=
  ⟨pad64 (AttributeType.String.tag :: ascii "$LayerName" ++ [0] ++
    [(ascii "crumples").length] ++ ascii "crumples" ++ [0])⟩

/-- Input of `MaterialDataTest::constructLayers`, with the offsets `2, 5, 5, 7`. -/
def constructLayersInput : List AttributeRecord :=
  [doubleSided, diffuseCoordinateSet, highlightColor, alphaBlend, layerNameHighlight,
    thickness, normalTexture]

/-- The store of `MaterialDataTest::constructLayers`, as the constructor leaves
it: sorted inside each layer. -/
def constructLayersStore : MaterialData :=
  ⟨[diffuseCoordinateSet, doubleSided, layerNameHighlight, alphaBlend, highlightColor,
    normalTexture, thickness], some [2, 5, 5, 7]⟩

/-- The store of `MaterialDataTest::accessLayersEmptyLayer`, offsets `0, 0, 2`. -/
def emptyLayerStore : MaterialData :=
  ⟨[layerNameCrumples, normalTexture], some [0, 0, 2]⟩

/-- The store of `MaterialDataTest::accessLayersLayerNameInBaseMaterial`. -/
def baseNameStore : MaterialData :=
  ⟨[layerNameBase, shininess], none⟩

/-- Modelled from the spec: `releaseLayers()`. The offset table is given back
to the caller, the records stay in the store, which from then on has no
table. -/
def MaterialData.releaseLayers (m : MaterialData) : MaterialData × Option (List Nat) :=
  (⟨m.attributeData, none⟩, m.layerData)

/-- Records of `constructNonOwnedNotSorted`, `constructNonOwnedDuplicateAttribute`
and `accessOptional`. -/
def diffuseTexture12 : AttributeRecord :=
  ⟨pad64 (AttributeType.UInt32.tag :: ascii "DiffuseTexture" ++ [0] ++ [12, 0, 0, 0])⟩
def diffuseTexture35 : AttributeRecord :=
  ⟨pad64 (AttributeType.UInt32.tag :: ascii "DiffuseTexture" ++ [0] ++ [35, 0, 0, 0])⟩
def alphaMask : AttributeRecord :=
  ⟨pad64 (AttributeType.Float.tag :: ascii "AlphaMask" ++ [0] ++ f05)⟩
def specularTexture : AttributeRecord :=
  ⟨pad64 (AttributeType.UInt32.tag :: ascii "SpecularTexture" ++ [0] ++ [3, 0, 0, 0])⟩

/-- The store of `MaterialDataTest::accessOptional`. -/
def accessOptionalStore : MaterialData := ⟨[alphaMask, specularTexture], none⟩

/-- Modelled from the spec: the AttributeName registry of section 3, each name
with its canonical string and required type. The tags are numbered from 1 in
the order of the list of section 3 (the enumeration itself is declared in
`MaterialData.h`, which is not among the sources); the required types are
those of the values the tests construct the names with. -/
def attributeNames : List (List Nat × AttributeType) :=
  [(ascii "$LayerName", .String), (ascii "AlphaBlend", .Bool), (ascii "AlphaMask", .Float),
    (ascii "DoubleSided", .Bool), (ascii "AmbientColor", .Vector4),
    (ascii "AmbientTexture", .UInt32), (ascii "AmbientTextureMatrix", .Matrix3x3),
    (ascii "AmbientCoordinateSet", .UInt32), (ascii "DiffuseColor", .Vector4),
    (ascii "DiffuseTexture", .UInt32), (ascii "DiffuseTextureMatrix", .Matrix3x3),
    (ascii "DiffuseCoordinateSet", .UInt32), (ascii "SpecularColor", .Vector4),
    (ascii "SpecularTexture", .UInt32), (ascii "SpecularTextureMatrix", .Matrix3x3),
    (ascii "SpecularCoordinateSet", .UInt32), (ascii "NormalTexture", .UInt32),
    (ascii "NormalTextureMatrix", .Matrix3x3), (ascii "NormalCoordinateSet", .UInt32),
    (ascii "TextureMatrix", .Matrix3x3), (ascii "CoordinateSet", .UInt32),
    (ascii "Shininess", .Float)]

/-- Modelled from the spec: `canonical(name)` of section 4.2, `none` standing
for the failure `InvalidName`. -/
def canonical (n : Nat) : Option (List Nat × AttributeType) :=
  if n = 0 then none else attributeNames[n - 1]?

/-- Tags of the names `LayerName` and `DiffuseColor` in `canonical`. -/
def layerNameTag : Nat := 1
def diffuseColorTag : Nat := 9

/-- Modelled from the spec: constructor 1, `(AttributeName, Value<T>)`: looks
up the canonical string and the required type in the registry `names`, checks
`type_of<T> == required`, packs. `t` is `type_of<T>`, `String` for a string
view, and `value` the bytes of the value. -/
def AttributeRecord.ofName (names : Nat → Option (List Nat × AttributeType)) (n : Nat)
    (t : AttributeType) (value : List Nat) : Except Error AttributeRecord :=
  match names n with
  | none => .error .InvalidName
  | some (s, required) =>
    if t ≠ required then .error .TypeMismatch
    else if t = .String then AttributeRecord.ofString s value
    else AttributeRecord.ofValue s t value

/-- Modelled from the spec: constructor 4, the pointer overloads: a raw
pointer-to-const yields `Pointer`, a raw pointer-to-mutable yields
`MutablePointer`; `address` is the bytes of the pointer. -/
def AttributeRecord.ofPointer (name : List Nat) (toMutable : Bool) (address : List Nat) :
    Except Error AttributeRecord :=
  AttributeRecord.ofValue name (if toMutable then .MutablePointer else .Pointer) address

/-- Modelled from the spec: the type `T` a typed accessor is called with: a
fixed-size value type, a pointer to const or to mutable data of some pointee
type (given by a number, 0 for `void`), or a string view. -/
inductive AccessType where
  | plain (t : AttributeType)
  | constPointer (pointee : Nat)
  | mutablePointer (pointee : Nat)
  | stringView
deriving DecidableEq

/-- Modelled from the spec: `type_of<T>`. Every pointer to const data has the
type `Pointer`, every pointer to mutable data the type `MutablePointer`:
`accessWrongPointerType` reads a `MutablePointer` record as `Byte*` and fails
to read it as `const Int*`. -/
def AccessType.typeOf : AccessType → AttributeType
  | .plain t => t
  | .constPointer _ => .Pointer
  | .mutablePointer _ => .MutablePointer
  | .stringView => .String

/-- Modelled from the spec: the typed accessor `value<T>()` of section 4.3. -/
def AttributeRecord.valueAs (r : AttributeRecord) : AccessType → Except Error (List Nat)
  | .plain t => r.value t
  | .constPointer _ => r.value .Pointer
  | .mutablePointer _ => r.value .MutablePointer
  | .stringView => r.stringValue

/-- Modelled from the spec: `attribute<T>(layer, index)`. -/
def MaterialData.attributeAs (m : MaterialData) (layer id : Nat) (T : AccessType) :
    Except Error (List Nat) :=
  match m.recordAt layer id with
  | .error e => .error e
  | .ok r => r.valueAs T

/-- Modelled from the spec: `attribute<T>(layer, name)`. -/
def MaterialData.attributeAsByName (m : MaterialData) (layer : Nat) (name : List Nat)
    (T : AccessType) : Except Error (List Nat) :=
  match m.find layer name with
  | some (_, r) => r.valueAs T
  | none => .error .AttributeNotFound

/-- Modelled from the spec: `try_attribute<T>(layer, name)`: nothing when the
layer has no such attribute, otherwise what the typed getter gives. A layer
out of range is an error as for every accessor (`accessLayerOutOfBounds`). -/
def MaterialData.tryAttribute (m : MaterialData) (layer : Nat) (name : List Nat)
    (T : AccessType) : Except Error (Option (List Nat)) :=
  if layer < m.layerCount then
    if m.hasAttribute layer name then (m.attributeAsByName layer name T).map some
    else .ok none
  else .error .IndexOutOfRange

/-- Modelled from the spec: `attribute_or(layer, name, default)`, `T` being
the type of the default value. -/
def MaterialData.attributeOr (m : MaterialData) (layer : Nat) (name : List Nat)
    (T : AccessType) (default : List Nat) : Except Error (List Nat) :=
  if layer < m.layerCount then
    if m.hasAttribute layer name then m.attributeAsByName layer name T
    else .ok default
  else .error .IndexOutOfRange

/-- Little-endian bytes of the colour channel 0xaa over 255. -/
def faa : List Nat := [171, 170, 42, 63]

/-- A value of 48 zero bytes, `Matrix4x3{}`, and records of
`constructAttributeWrongAccessType`, `accessWrongType` and
`accessWrongTypeString`. -/
def thing3 : AttributeRecord :=
  ⟨pad64 (AttributeType.Matrix4x3.tag :: ascii "thing3" ++ [0] ++ List.replicate 48 0)⟩
def diffuseColor : AttributeRecord :=
  ⟨pad64 (AttributeType.Vector4.tag :: ascii "DiffuseColor" ++ [0] ++ (f1 ++ f33 ++ f66 ++ faa))⟩
def shininessZero : AttributeRecord :=
  ⟨pad64 (AttributeType.Float.tag :: ascii "Shininess" ++ [0] ++ f0)⟩

/-- The stores of `accessWrongType` and `accessWrongTypeString`. -/
def accessWrongTypeStore : MaterialData := ⟨[diffuseColor], none⟩
def accessWrongTypeStringStore : MaterialData := ⟨[shininessZero], none⟩

/-- Addresses standing for `&a` and `&b` of `accessWrongPointerType`, and the
store of that test. -/
def addressA : List Nat := [16, 32, 0, 0, 0, 0, 0, 0]
def addressB : List Nat := [24, 32, 0, 0, 0, 0, 0, 0]
def mutablePointerRecord : AttributeRecord :=
  ⟨pad64 (AttributeType.MutablePointer.tag :: ascii "mutablePointer" ++ [0] ++ addressA)⟩
def pointerRecord : AttributeRecord :=
  ⟨pad64 (AttributeType.Pointer.tag :: ascii "pointer" ++ [0] ++ addressB)⟩
def accessWrongPointerStore : MaterialData := ⟨[mutablePointerRecord, pointerRecord], none⟩

/-- Pointee types of the pointers the tests ask for. -/
def pointeeVoid : Nat := 0
def pointeeByte : Nat := 1
def pointeeInt : Nat := 2
def pointeeFloat : Nat := 3
def pointeeDouble : Nat := 4

/-- The value `"This is a problem, got a huge, yuuge value to store"` of
`constructAttributeTooLargeNameString`. -/
def hugeText : List Nat := ascii "This is a problem, got a huge, yuuge value to store"

/-- An offset table for the five records of `constructLayersOffsetOutOfBounds`
whose last offset is below the record count. -/
def shortTable : List Nat := [2, 4]

/-- Little-endian bytes of the `Float` value 15.0 and the value
`Matrix3x4(15)` of `constructAttributeStringConstexpr`, 15 on the diagonal,
column by column. -/
def f15 : List Nat := [0, 0, 112, 65]
def matrix3x4Fifteen : List Nat :=
  (f15 ++ f0 ++ f0 ++ f0) ++ (f0 ++ f15 ++ f0 ++ f0) ++ (f0 ++ f0 ++ f15 ++ f0)

end Trade

namespace SceneGraph

@[simp] theorem Heap.modify_same (h : Heap α) (o : Nat) (f : Object α → Object α) :
    h.modify o f o = f (h o) := by
  simp [Heap.modify]

theorem Heap.modify_other {α : Type} (h : Heap α) {o x : Nat} (f : Object α → Object α) (hx : x ≠ o) :
    h.modify o f x = h x := by
  simp [Heap.modify, hx]

theorem Heap.modify_apply {α : Type} (h : Heap α) (o x : Nat) (f : Object α → Object α) :
    h.modify o f x = if x = o then f (h x) else h x := rfl

@[simp] theorem wrapIt_zero (objects : List Nat) : wrapIt objects 0 = 0 := by
  unfold wrapIt
  split <;> rfl

theorem Frame.refl {α : Type} (h : Heap α) : Frame h h := fun _ => ⟨rfl, rfl, rfl, rfl, rfl, rfl⟩

theorem Frame.parent {α : Type} {h0 h : Heap α} (hf : Frame h0 h) (o : Nat) :
    (h o).parent = (h0 o).parent := (hf o).1

theorem Frame.transformation {α : Type} {h0 h : Heap α} (hf : Frame h0 h) (o : Nat) :
    (h o).transformation = (h0 o).transformation := (hf o).2.2.2.1

theorem Frame.isScene {α : Type} {h0 h : Heap α} (hf : Frame h0 h) (o : Nat) :
    (h o).isScene = (h0 o).isScene := (hf o).2.2.2.2.2

/-- Changing only scratch fields of one object keeps the frame. -/
theorem Frame.modify {α : Type} {h0 h : Heap α} (hf : Frame h0 h) (o : Nat) (f : Object α → Object α)
    (hfo : ∀ x : Object α, (f x).parent = x.parent ∧ (f x).children = x.children ∧
      (f x).features = x.features ∧ (f x).transformation = x.transformation ∧
      (f x).dirty = x.dirty ∧ (f x).isScene = x.isScene) :
    Frame h0 (h.modify o f) := by
  intro x
  by_cases hx : x = o
  · subst hx
    rw [Heap.modify_same]
    obtain ⟨a, b, c, d, e, g⟩ := hfo (h x)
    obtain ⟨a', b', c', d', e', g'⟩ := hf x
    exact ⟨a.trans a', b.trans b', c.trans c', d.trans d', e.trans e', g.trans g'⟩
  · rw [Heap.modify_other h f hx]
    exact hf x

theorem Depth.depth_unique {α : Type} {h : Heap α} {o n m : Nat} (h1 : Depth h o n)
    (h2 : Depth h o m) : n = m := by
  induction h1 generalizing m with
  | root hs =>
    cases h2 with
    | root _ => rfl
    | child hp _ => rw [hs] at hp; cases hp
  | child hp _ ih =>
    cases h2 with
    | root hs => rw [hs] at hp; cases hp
    | child hp' hb =>
      rw [hp] at hp'
      cases hp'
      rw [ih hb]

theorem Depth.parent_below {α : Type} {h : Heap α} {o p n : Nat} (hb : Depth h o n)
    (hp : (h o).parent = some p) : ∃ m, n = m + 1 ∧ Depth h p m := by
  cases hb with
  | root hs => rw [hs] at hp; cases hp
  | child hp' hb' =>
    rw [hp] at hp'
    cases hp'
    exact ⟨_, rfl, hb'⟩

theorem Depth.parent_ne {α : Type} {h : Heap α} {o p n : Nat} (hb : Depth h o n)
    (hp : (h o).parent = some p) : p ≠ o := by
  intro heq
  subst heq
  obtain ⟨m, hm, hb'⟩ := hb.parent_below hp
  have := hb.depth_unique hb'
  omega

theorem Below.depth {α : Type} {h : Heap α} {s o n : Nat} (hb : Below h s o n) : Depth h o n := by
  induction hb with
  | root hs => exact Depth.root hs
  | child hp _ ih => exact Depth.child hp ih

theorem Below.root_eq {α : Type} {h : Heap α} {s o n : Nat} (hb : Below h s o n)
    (hp : (h o).parent = none) : o = s := by
  cases hb with
  | root _ => rfl
  | child hp' _ => rw [hp] at hp'; cases hp'

theorem Anchored.mono {α : Type} {h0 h h' : Heap α} {x : Nat} (ha : Anchored h0 h x)
    (hj : ∀ o, (h o).joint = true → (h' o).joint = true)
    (hv : ∀ o, (h o).visited = true → (h' o).visited = true) : Anchored h0 h' x := by
  induction ha with
  | base hjx => exact Anchored.base (hj _ hjx)
  | step _ hvy hp ih => exact Anchored.step ih (hv _ hvy) hp

theorem AbsRel.functional {α μ : Type} {tr : Transformation α μ} {h : Heap α} {o : Nat} {a b : α}
    (ha : AbsRel tr h o a) (hb : AbsRel tr h o b) : a = b := by
  induction ha generalizing b with
  | root hp =>
    cases hb with
    | root _ => rfl
    | child hp' _ => rw [hp] at hp'; cases hp'
  | child hp _ ih =>
    cases hb with
    | root hp' => rw [hp] at hp'; cases hp'
    | child hp' hb' =>
      rw [hp] at hp'
      cases hp'
      rw [ih hb']

theorem AbsRel.of_absoluteTransformation {α μ : Type} {tr : Transformation α μ} {h : Heap α} :
    ∀ (fuel o : Nat) (a : α), absoluteTransformation tr h fuel o = some a → AbsRel tr h o a
  | 0, _, _, hrun => by simp [absoluteTransformation] at hrun
  | fuel + 1, o, a, hrun => by
    unfold absoluteTransformation at hrun
    cases hp : (h o).parent with
    | none =>
      simp only [hp] at hrun
      cases hrun
      exact AbsRel.root hp
    | some p =>
      simp only [hp] at hrun
      cases hr : absoluteTransformation tr h fuel p with
      | none => simp [hr] at hrun
      | some b =>
        simp only [hr] at hrun
        cases hrun
        exact AbsRel.child hp (AbsRel.of_absoluteTransformation fuel p b hr)

theorem absoluteTransformation_of_depth {α μ : Type} (tr : Transformation α μ) {h : Heap α} {o n : Nat}
    (hb : Depth h o n) : ∀ fuel, n < fuel → ∃ a, absoluteTransformation tr h fuel o = some a := by
  induction hb with
  | @root o' hs =>
    intro fuel hf
    obtain ⟨f, rfl⟩ : ∃ f, fuel = f + 1 := ⟨fuel - 1, by omega⟩
    exact ⟨(h o').transformation, by simp [absoluteTransformation, hs]⟩
  | @child o' _ _ hp _ ih =>
    intro fuel hf
    obtain ⟨f, rfl⟩ : ∃ f, fuel = f + 1 := ⟨fuel - 1, by omega⟩
    obtain ⟨a, ha⟩ := ih f (by omega)
    exact ⟨tr.compose a (h o').transformation, by simp [absoluteTransformation, hp, ha]⟩

/-- With an associative `compose`, the accumulated transformation of a path
from `j` up to `o`, put under the absolute transformation of the parent of
`o`, is the absolute transformation of `j`. -/
theorem PathTr.abs_of_parent {α μ : Type} {tr : Transformation α μ} {h : Heap α} {j o : Nat} {t : α}
    (hassoc : ∀ a b c, tr.compose (tr.compose a b) c = tr.compose a (tr.compose b c))
    (hpt : PathTr tr h j o t) :
    ((h o).parent = none → AbsRel tr h j t) ∧
    (∀ p ap, (h o).parent = some p → AbsRel tr h p ap → AbsRel tr h j (tr.compose ap t)) := by
  induction hpt with
  | start =>
    exact ⟨fun hp => AbsRel.root hp, fun p ap hp ha => AbsRel.child hp ha⟩
  | up _ hp ih =>
    refine ⟨fun hq => ?_, fun q aq hq ha => ?_⟩
    · exact ih.2 _ _ hp (AbsRel.root hq)
    · have := ih.2 _ _ hp (AbsRel.child hq ha)
      rwa [hassoc] at this

theorem JointsOK.congr {α : Type} {h h' : Heap α} {J : List Nat} (hj : JointsOK h J)
    (hc : ∀ o, (h' o).joint = (h o).joint ∧ (h' o).counter = (h o).counter) :
    JointsOK h' J where
  len := hj.len
  mem := fun o => by rw [(hc o).1]; exact hj.mem o
  idx := fun o ho => by
    rw [(hc o).1] at ho
    rw [(hc o).2]
    exact hj.idx o ho
  first := fun i o hi => by rw [(hc o).2]; exact hj.first i o hi
  clear := fun o ho => by
    rw [(hc o).1] at ho
    rw [(hc o).2]
    exact hj.clear o ho

theorem JointsOK.setVisited {α : Type} {h : Heap α} {J : List Nat} (hj : JointsOK h J) (o : Nat)
    (b : Bool) : JointsOK (h.modify o fun x => { x with visited := b }) J := by
  refine hj.congr fun x => ?_
  by_cases hx : x = o
  · subst hx; simp
  · simp [Heap.modify_other h _ hx]

theorem JointsOK.counter_lt {α : Type} {h : Heap α} {J : List Nat} (hj : JointsOK h J) {o : Nat}
    (ho : (h o).joint = true) : (h o).counter < J.length := by
  have := hj.idx o ho
  exact (List.getElem?_eq_some.1 this).1

theorem JointsOK.counter_eq_sentinel_iff {α : Type} {h : Heap α} {J : List Nat} (hj : JointsOK h J)
    (o : Nat) : (h o).counter = sentinel ↔ (h o).joint = false := by
  constructor
  · intro hc
    cases hjo : (h o).joint with
    | false => rfl
    | true =>
      have h1 := hj.counter_lt hjo
      have h2 := hj.len
      simp only [sentinel] at hc
      omega
  · exact hj.clear o

theorem JointsOK.dup {α : Type} {h : Heap α} {J : List Nat} (hj : JointsOK h J) {o : Nat}
    (ho : (h o).joint = true) (hlen : J.length < 0xFFFF) : JointsOK h (J ++ [o]) where
  len := by simp; omega
  mem := fun x => by
    rw [hj.mem x]
    simp only [List.mem_append, List.mem_singleton]
    constructor
    · exact Or.inl
    · rintro (hx | rfl)
      · exact hx
      · exact (hj.mem _).1 ho
  idx := fun x hx => by
    rw [List.getElem?_append_left (hj.counter_lt hx)]
    exact hj.idx x hx
  first := fun i x hi => by
    by_cases hlt : i < J.length
    · rw [List.getElem?_append_left hlt] at hi
      exact hj.first i x hi
    · have hi' := (List.getElem?_eq_some.1 hi).1
      simp at hi'
      have hil : i = J.length := by omega
      subst hil
      simp at hi
      subst hi
      exact Nat.le_of_lt (hj.counter_lt ho)
  clear := hj.clear

theorem JointsOK.push {α : Type} {h : Heap α} {J : List Nat} (hj : JointsOK h J) {p : Nat}
    (hp : (h p).joint = false) (hlen : J.length < 0xFFFF) :
    JointsOK (h.modify p fun x => { x with counter := J.length % 65536, joint := true })
      (J ++ [p]) where
  len := by simp; omega
  mem := fun x => by
    by_cases hx : x = p
    · subst hx; simp
    · rw [Heap.modify_other h _ hx, hj.mem x]
      simp [hx]
  idx := fun x hx => by
    by_cases hxp : x = p
    · subst hxp
      have : J.length % 65536 = J.length := Nat.mod_eq_of_lt (by omega)
      simp [this]
    · rw [Heap.modify_other h _ hxp] at hx ⊢
      rw [List.getElem?_append_left (hj.counter_lt hx)]
      exact hj.idx x hx
  first := fun i x hi => by
    by_cases hlt : i < J.length
    · rw [List.getElem?_append_left hlt] at hi
      have hxJ : x ∈ J := List.getElem?_mem hi
      have hxj := (hj.mem x).2 hxJ
      have hxp : x ≠ p := by
        rintro rfl
        rw [hp] at hxj
        cases hxj
      rw [Heap.modify_other h _ hxp]
      exact hj.first i x hi
    · have hi' := (List.getElem?_eq_some.1 hi).1
      simp at hi'
      have hil : i = J.length := by omega
      subst hil
      simp at hi
      subst hi
      have : J.length % 65536 = J.length := Nat.mod_eq_of_lt (by omega)
      simp [this]
  clear := fun x hx => by
    by_cases hxp : x = p
    · subst hxp; simp at hx
    · rw [Heap.modify_other h _ hxp] at hx ⊢
      exact hj.clear x hx

/-- Dropping a first element that is already visited keeps the invariant. -/
theorem WalkInv.pop_visited {α : Type} {h0 h : Heap α} {s e : Nat} {objects rest J : List Nat}
    (hI : WalkInv h0 s objects h (e :: rest) J) (hve : (h e).visited = true) :
    WalkInv h0 s objects h rest J where
  frame := hI.frame
  joints := hI.joints
  pre := hI.pre
  uniq := hI.uniq
  up := fun y x hy hp => by
    rcases hI.up y x hy hp with hx | hx | hx
    · exact Or.inl hx
    · exact Or.inr (Or.inl hx)
    · simp only [List.head?_cons, Option.some.injEq] at hx
      subst hx
      exact Or.inl hve
  anch := hI.anch
  headAnch := fun e' he' hj => by
    have hmem : e' ∈ rest := List.mem_of_mem_head? he'
    have := hI.tailJoint e' (by simpa using hmem)
    rw [hj] at this
    cases this
  pending := fun o ho => by
    rcases hI.pending o ho with hx | hx
    · exact Or.inl hx
    · rcases List.mem_cons.1 hx with rfl | hx
      · exact Or.inl hve
      · exact Or.inr hx
  inTree := fun w hw => hI.inTree w (List.mem_cons_of_mem _ hw)
  tailJoint := fun w hw => hI.tailJoint w (by simpa using List.mem_of_mem_tail hw)
  root := hI.root
  visTree := hI.visTree

/-- One productive iteration of the walk-up loop: the first element `e` gets
visited and is either dropped (possibly turning its parent into a joint) or
replaced by its parent. -/
theorem WalkInv.step {α : Type} {h0 h h' : Heap α} {s e : Nat} {objects rest W' J J' : List Nat}
    (hI : WalkInv h0 s objects h (e :: rest) J)
    (hframe : Frame h0 h') (hjoints : JointsOK h' J') (hpre : ∃ extra, J' = objects ++ extra)
    (hv : ∀ x, (h' x).visited = true ↔ (x = e ∨ (h x).visited = true))
    (hjm : ∀ x, (h x).joint = true → (h' x).joint = true)
    (hjnew : ∀ x, (h' x).joint = true → (h x).joint = true ∨ (h' x).visited = true)
    (hpar : ∀ p, (h0 e).parent = some p → (h' p).joint = true ∨
      ((h p).visited = false ∧ (h p).joint = false ∧ W'.head? = some p))
    (hW : W' = rest ∨ ∃ p, (h0 e).parent = some p ∧ W' = p :: rest)
    (hroot : (h0 e).parent = none → e = s) :
    WalkInv h0 s objects h' W' J' := by
  have hvm : ∀ x, (h x).visited = true → (h' x).visited = true := fun x hx =>
    (hv x).2 (Or.inr hx)
  obtain ⟨ne, hne⟩ := hI.inTree e (List.mem_cons_self _ _)
  have hrestW : ∀ w ∈ rest, w ∈ W' := by
    intro w hw
    rcases hW with rfl | ⟨p, _, rfl⟩
    · exact hw
    · exact List.mem_cons_of_mem _ hw
  refine ⟨hframe, hjoints, hpre, ?_, ?_, ?_, ?_, ?_, ?_, ?_, ?_, ?_⟩
  · -- uniq
    intro p y y' hp hy hy' hyp hyp'
    have hpold : (h p).joint = false := by
      cases hc : (h p).joint with
      | false => rfl
      | true => rw [hjm p hc] at hp; cases hp
    have key : ∀ z, (h z).visited = true → (h0 z).parent = some p →
        (h0 e).parent = some p → False := by
      intro z hz hzp hep
      rcases hpar p hep with hj | ⟨hvp, hjp, _⟩
      · rw [hp] at hj; cases hj
      · rcases hI.up z p hz hzp with hx | hx | hx
        · rw [hvp] at hx; cases hx
        · rw [hjp] at hx; cases hx
        · simp only [List.head?_cons, Option.some.injEq] at hx
          exact hne.parent_ne hep hx.symm
    rcases (hv y).1 hy with rfl | hyo
    · rcases (hv y').1 hy' with rfl | hyo'
      · rfl
      · exact (key y' hyo' hyp' hyp).elim
    · rcases (hv y').1 hy' with rfl | hyo'
      · exact (key y hyo hyp hyp').elim
      · exact hI.uniq p y y' hpold hyo hyo' hyp hyp'
  · -- up
    intro y x hy hp
    rcases (hv y).1 hy with rfl | hyo
    · rcases hpar x hp with hj | ⟨_, _, hh⟩
      · exact Or.inr (Or.inl hj)
      · exact Or.inr (Or.inr hh)
    · rcases hI.up y x hyo hp with hx | hx | hx
      · exact Or.inl (hvm x hx)
      · exact Or.inr (Or.inl (hjm x hx))
      · simp only [List.head?_cons, Option.some.injEq] at hx
        subst hx
        exact Or.inl ((hv _).2 (Or.inl rfl))
  · -- anch
    intro x hx
    rcases (hv x).1 hx with rfl | hxo
    · cases hjx : (h x).joint with
      | true => exact Anchored.base (hjm x hjx)
      | false =>
        obtain ⟨y, hy, hyp⟩ := hI.headAnch x (by simp) hjx
        exact Anchored.step ((hI.anch y hy).mono hjm hvm) (hvm y hy) hyp
    · exact (hI.anch x hxo).mono hjm hvm
  · -- headAnch
    intro e' he' hj
    rcases hW with rfl | ⟨p, hp, rfl⟩
    · have hmem : e' ∈ W' := List.mem_of_mem_head? he'
      have := hjm e' (hI.tailJoint e' (by simpa using hmem))
      rw [hj] at this
      cases this
    · simp only [List.head?_cons, Option.some.injEq] at he'
      subst he'
      exact ⟨e, (hv e).2 (Or.inl rfl), hp⟩
  · -- pending
    intro o ho
    rcases hjnew o ho with hold | hnew
    · rcases hI.pending o hold with hx | hx
      · exact Or.inl (hvm o hx)
      · rcases List.mem_cons.1 hx with rfl | hx
        · exact Or.inl ((hv _).2 (Or.inl rfl))
        · exact Or.inr (hrestW o hx)
    · exact Or.inl hnew
  · -- inTree
    intro w hw
    rcases hW with rfl | ⟨p, hp, rfl⟩
    · exact hI.inTree w (List.mem_cons_of_mem _ hw)
    · rcases List.mem_cons.1 hw with rfl | hw
      · obtain ⟨m, _, hm⟩ := hne.parent_below hp
        exact ⟨m, hm⟩
      · exact hI.inTree w (List.mem_cons_of_mem _ hw)
  · -- tailJoint
    intro w hw
    rcases hW with rfl | ⟨p, hp, rfl⟩
    · exact hjm w (hI.tailJoint w (by simpa using List.mem_of_mem_tail hw))
    · exact hjm w (hI.tailJoint w (by simpa using hw))
  · -- root
    intro x hx hp
    rcases (hv x).1 hx with rfl | hxo
    · exact hroot hp
    · exact hI.root x hxo hp
  · -- visTree
    intro x hx
    rcases (hv x).1 hx with rfl | hxo
    · exact ⟨ne, hne⟩
    · exact hI.visTree x hxo

theorem visited_mark {α : Type} {h : Heap α} (e x : Nat) :
    ((h.modify e fun x => { x with visited := true }) x).visited = true ↔
      (x = e ∨ (h x).visited = true) := by
  by_cases hx : x = e
  · subst hx; simp
  · simp [Heap.modify_other h _ hx, hx]

theorem joint_mark {α : Type} {h : Heap α} (e x : Nat) (b : Bool) :
    ((h.modify e fun x => { x with visited := b }) x).joint = (h x).joint := by
  by_cases hx : x = e
  · subst hx; simp
  · simp [Heap.modify_other h _ hx]

theorem Frame.mark {α : Type} {h0 h : Heap α} (hf : Frame h0 h) (e : Nat) (b : Bool) :
    Frame h0 (h.modify e fun x => { x with visited := b }) :=
  hf.modify e _ fun _ => ⟨rfl, rfl, rfl, rfl, rfl, rfl⟩

/-- The walk-up loop, started with the iterator on the first element, keeps
its invariant until the working vector is empty. -/
theorem walkUp_inv {α : Type} {h0 : Heap α} {s : Nat} {objects : List Nat} :
    ∀ (fuel : Nat) (h : Heap α) (W J : List Nat), WalkInv h0 s objects h W J →
    ∀ h' J', walkUp s fuel h W 0 J = .done (h', J') → WalkInv h0 s objects h' [] J'
  | 0, _, _, _, _, _, _, hrun => by simp [walkUp] at hrun
  | fuel + 1, h, [], J, hI, h', J', hrun => by
    simp only [walkUp, List.isEmpty_nil, if_true, Run.done.injEq, Prod.mk.injEq] at hrun
    obtain ⟨rfl, rfl⟩ := hrun
    exact hI
  | fuel + 1, h, e :: rest, J, hI, h', J', hrun => by
    rw [walkUp] at hrun
    simp only [List.isEmpty_cons, Bool.false_eq_true, if_false, List.getElem?_cons_zero,
      List.eraseIdx_cons_zero, wrapIt_zero, List.set_cons_zero] at hrun
    by_cases hve : (h e).visited = true
    · simp only [hve, if_true] at hrun
      exact walkUp_inv fuel h rest J (hI.pop_visited hve) h' J' hrun
    · simp only [hve, if_false, Heap.modify_same] at hrun
      obtain ⟨ne, hne⟩ := hI.inTree e (List.mem_cons_self _ _)
      cases hp : (h e).parent with
      | none =>
        simp only [hp] at hrun
        by_cases hes : e = s
        · simp only [hes, ne_eq, not_true_eq_false, if_false] at hrun
          refine walkUp_inv fuel _ rest J ?_ h' J' hrun
          subst hes
          refine hI.step (hI.frame.mark e true) (hI.joints.setVisited e true) hI.pre
            (visited_mark e) (fun x hx => by rw [joint_mark]; exact hx)
            (fun x hx => by rw [joint_mark] at hx; exact Or.inl hx) ?_ (Or.inl rfl)
            (fun _ => rfl)
          intro p hp'
          rw [← hI.frame.parent, hp] at hp'
          cases hp'
        · simp [hes] at hrun
      | some p =>
        simp only [hp] at hrun
        have hp0 : (h0 e).parent = some p := by rw [← hI.frame.parent, hp]
        have hpe : p ≠ e := hne.parent_ne hp0
        have hnr : (h0 e).parent = none → e = s := by
          intro hn
          rw [hp0] at hn
          cases hn
        rw [Heap.modify_other h _ hpe] at hrun
        by_cases hvj : ((h p).visited || (h p).joint) = true
        · simp only [hvj, if_true] at hrun
          cases hjp : (h p).joint with
          | true =>
            simp only [hjp, Bool.not_true, Bool.false_eq_true, if_false] at hrun
            refine walkUp_inv fuel _ rest J ?_ h' J' hrun
            refine hI.step (hI.frame.mark e true) (hI.joints.setVisited e true) hI.pre
              (visited_mark e) (fun x hx => by rw [joint_mark]; exact hx)
              (fun x hx => by rw [joint_mark] at hx; exact Or.inl hx) ?_ (Or.inl rfl) hnr
            intro q hq
            rw [hp0] at hq
            cases hq
            exact Or.inl (by rw [joint_mark]; exact hjp)
          | false =>
            simp only [hjp, Bool.not_false, if_true] at hrun
            have hvp : (h p).visited = true := by simpa [hjp] using hvj
            by_cases hlen : J.length < 0xFFFF
            · simp only [hlen, not_true_eq_false, if_false] at hrun
              have hcnt : (h p).counter = sentinel := hI.joints.clear p hjp
              simp only [hcnt, ne_eq, not_true_eq_false, if_false] at hrun
              refine walkUp_inv fuel _ rest (J ++ [p]) ?_ h' J' hrun
              have hj1 : JointsOK (h.modify e fun x => { x with visited := true }) J :=
                hI.joints.setVisited e true
              have hjp1 : ((h.modify e fun x => { x with visited := true }) p).joint = false := by
                rw [joint_mark]; exact hjp
              have hj2 := hj1.push hjp1 hlen
              refine hI.step ?_ hj2 ?_ ?_ ?_ ?_ ?_ (Or.inl rfl) hnr
              · exact (hI.frame.mark e true).modify p _ fun _ => ⟨rfl, rfl, rfl, rfl, rfl, rfl⟩
              · obtain ⟨extra, hex⟩ := hI.pre
                exact ⟨extra ++ [p], by rw [hex, List.append_assoc]⟩
              · intro x
                rw [← visited_mark (h := h) e x]
                by_cases hx : x = p
                · subst hx; simp
                · rw [Heap.modify_other _ _ hx]
              · intro x hx
                by_cases hxp : x = p
                · subst hxp; simp
                · rw [Heap.modify_other _ _ hxp, joint_mark]; exact hx
              · intro x hx
                by_cases hxp : x = p
                · subst hxp
                  right
                  simp only [Heap.modify_same]
                  exact (visited_mark e x).2 (Or.inr hvp)
                · rw [Heap.modify_other _ _ hxp, joint_mark] at hx
                  exact Or.inl hx
              · intro q hq
                rw [hp0] at hq
                cases hq
                left
                simp
            · simp [hlen] at hrun
        · simp only [hvj, Bool.false_eq_true, if_false] at hrun
          have hvp : (h p).visited = false := by
            cases hc : (h p).visited with
            | false => rfl
            | true => simp [hc] at hvj
          have hjp : (h p).joint = false := by
            cases hc : (h p).joint with
            | false => rfl
            | true => simp [hc] at hvj
          refine walkUp_inv fuel _ (p :: rest) J ?_ h' J' hrun
          refine hI.step (hI.frame.mark e true) (hI.joints.setVisited e true) hI.pre
            (visited_mark e) (fun x hx => by rw [joint_mark]; exact hx)
            (fun x hx => by rw [joint_mark] at hx; exact Or.inl hx) ?_ (Or.inr ⟨p, hp0, rfl⟩) hnr
          intro q hq
          rw [hp0] at hq
          cases hq
          exact Or.inr ⟨hvp, hjp, rfl⟩

theorem JointsOK.of_quiescent {α : Type} {h : Heap α} (hq : Quiescent h) : JointsOK h [] where
  len := by simp
  mem := fun o => by simp [(hq o).2.2]
  idx := fun o ho => by rw [(hq o).2.2] at ho; cases ho
  first := fun i o hi => by simp at hi
  clear := fun o _ => (hq o).1

/-- The seeding loop, having gone through `pre`, goes through `rest`. -/
theorem markJoints_seed {α : Type} (h0 : Heap α) :
    ∀ (rest pre : List Nat) (h : Heap α), (pre ++ rest).length < 0xFFFF →
      Frame h0 h → JointsOK h pre → (∀ o, (h o).visited = false) →
      Frame h0 (markJoints h rest pre.length) ∧
      JointsOK (markJoints h rest pre.length) (pre ++ rest) ∧
      (∀ o, ((markJoints h rest pre.length) o).visited = false)
  | [], pre, h, _, hf, hj, hv => by
    simp only [markJoints, List.append_nil]
    exact ⟨hf, hj, hv⟩
  | o :: rest, pre, h, hlen, hf, hj, hv => by
    have hlen' : ((pre ++ [o]) ++ rest).length < 0xFFFF := by
      simpa [List.append_assoc] using hlen
    have hpl : pre.length < 0xFFFF := by
      simp only [List.length_append, List.length_cons] at hlen
      omega
    have hlenEq : (pre ++ [o]).length = pre.length + 1 := by simp
    rw [markJoints]
    by_cases hc : (h o).counter = sentinel
    · simp only [hc, ne_eq, not_true_eq_false, if_false]
      have hjo : (h o).joint = false := (hj.counter_eq_sentinel_iff o).1 hc
      have hj' := hj.push hjo hpl
      have hf' : Frame h0 (h.modify o fun x =>
          { x with counter := pre.length % 65536, joint := true }) :=
        hf.modify o _ fun _ => ⟨rfl, rfl, rfl, rfl, rfl, rfl⟩
      have hv' : ∀ x, ((h.modify o fun x =>
          { x with counter := pre.length % 65536, joint := true }) x).visited = false := by
        intro x
        by_cases hx : x = o
        · subst hx; simp [hv]
        · rw [Heap.modify_other _ _ hx]; exact hv x
      have := markJoints_seed h0 rest (pre ++ [o]) _ hlen' hf' hj' hv'
      rw [hlenEq, List.append_assoc] at this
      exact this
    · simp only [hc, ne_eq, not_false_eq_true, if_true]
      have hjo : (h o).joint = true := by
        cases hjo : (h o).joint with
        | true => rfl
        | false => exact (hc ((hj.counter_eq_sentinel_iff o).2 hjo)).elim
      have hj' := hj.dup hjo hpl
      have := markJoints_seed h0 rest (pre ++ [o]) h hlen' hf hj' hv
      rw [hlenEq, List.append_assoc] at this
      exact this

/-- After seeding, the walk-up loop starts in a state satisfying its
invariant. -/
theorem markJoints_walkInv {α : Type} {h0 : Heap α} {s : Nat} {objects : List Nat}
    (hq : Quiescent h0) (hlen : objects.length < 0xFFFF)
    (htree : ∀ o ∈ objects, ∃ n, Depth h0 o n) :
    WalkInv h0 s objects (markJoints h0 objects 0) objects objects := by
  obtain ⟨hf, hj, hv⟩ := markJoints_seed h0 objects [] h0 (by simpa using hlen)
    (Frame.refl h0) (JointsOK.of_quiescent hq) (fun o => (hq o).2.1)
  simp only [List.length_nil, List.nil_append] at hf hj hv
  have hnv : ∀ x, ((markJoints h0 objects 0) x).visited = true → False := by
    intro x hx
    rw [hv x] at hx
    cases hx
  refine ⟨hf, hj, ⟨[], by simp⟩, ?_, ?_, ?_, ?_, ?_, htree, ?_, ?_, ?_⟩
  · intro p y y' _ hy
    exact (hnv y hy).elim
  · intro y x hy
    exact (hnv y hy).elim
  · intro x hx
    exact (hnv x hx).elim
  · intro e he hje
    have := (hj.mem e).2 (List.mem_of_mem_head? he)
    rw [hje] at this
    cases this
  · intro o ho
    exact Or.inr ((hj.mem o).1 ho)
  · intro w hw
    exact (hj.mem w).2 (List.mem_of_mem_tail hw)
  · intro x hx
    exact (hnv x hx).elim
  · intro x hx
    exact (hnv x hx).elim

theorem visited_clear {α : Type} {h : Heap α} (o x : Nat) :
    ((h.modify o fun x => { x with visited := false }) x).visited = true ↔
      (x ≠ o ∧ (h x).visited = true) := by
  by_cases hx : x = o
  · subst hx; simp
  · simp [Heap.modify_other h _ hx, hx]

theorem visited_clear_false {α : Type} {h : Heap α} (o x : Nat) :
    ((h.modify o fun x => { x with visited := false }) x).visited = false ↔
      (x = o ∨ (h x).visited = false) := by
  by_cases hx : x = o
  · subst hx; simp
  · simp [Heap.modify_other h _ hx, hx]

theorem counter_mark {α : Type} {h : Heap α} (e x : Nat) (b : Bool) :
    ((h.modify e fun x => { x with visited := b }) x).counter = (h x).counter := by
  by_cases hx : x = e
  · subst hx; simp
  · simp [Heap.modify_other h _ hx]

theorem AbsRel.exists_of_depth {α μ : Type} (tr : Transformation α μ) {h : Heap α} {o n : Nat}
    (hb : Depth h o n) : ∃ a, AbsRel tr h o a := by
  obtain ⟨a, ha⟩ := absoluteTransformation_of_depth tr hb (n + 1) (Nat.lt_succ_self n)
  exact ⟨a, AbsRel.of_absoluteTransformation _ _ _ ha⟩

theorem PostWalk.of_walkInv {α : Type} {h0 hW : Heap α} {s : Nat} {objects J : List Nat}
    (hI : WalkInv h0 s objects hW [] J) : PostWalk h0 s hW J where
  frame := hI.frame
  joints := hI.joints
  uniq := hI.uniq
  up := fun y x hy hp => by
    rcases hI.up y x hy hp with hx | hx | hx
    · exact hx
    · rcases hI.pending x hx with hv | hm
      · exact hv
      · cases hm
    · simp at hx
  anch := hI.anch
  allVis := fun o ho => by
    rcases hI.pending o ho with hv | hm
    · exact hv
    · cases hm
  root := hI.root
  visTree := hI.visTree

theorem PostWalk.counter_inj {α : Type} {h0 hW : Heap α} {s : Nat} {J : List Nat}
    (hP : PostWalk h0 s hW J) {a b : Nat} (ha : (hW a).joint = true)
    (hb : (hW b).joint = true) (hc : (hW a).counter = (hW b).counter) : a = b := by
  have h1 := hP.joints.idx a ha
  have h2 := hP.joints.idx b hb
  rw [hc, h2] at h1
  cases h1
  rfl

theorem PostWalk.joint_of_idx {α : Type} {h0 hW : Heap α} {s : Nat} {J : List Nat}
    (hP : PostWalk h0 s hW J) {i j : Nat} (hj : J[i]? = some j) : (hW j).joint = true :=
  (hP.joints.mem j).2 (List.getElem?_mem hj)

theorem PostWalk.below_of_joint {α : Type} {h0 hW : Heap α} {s : Nat} {J : List Nat}
    (hP : PostWalk h0 s hW J) {j : Nat} (hj : (hW j).joint = true) : ∃ n, Depth h0 j n :=
  hP.visTree j (hP.allVis j hj)

/-- Effect of clearing `Visited` on the object the loop stands on. -/
theorem GoInv.afterClear {α μ : Type} {tr : Transformation α μ} {h0 hW h : Heap α} {s : Nat}
    {J : List Nat} {initial : α} {T : List α} {joint j o : Nat}
    (hG : GoInv tr h0 hW s J initial h T joint j o) :
    Frame h0 (h.modify o fun x => { x with visited := false }) ∧
    (∀ x, ((h.modify o fun x => { x with visited := false }) x).joint = (hW x).joint ∧
      ((h.modify o fun x => { x with visited := false }) x).counter = (hW x).counter) ∧
    (∀ x, ((h.modify o fun x => { x with visited := false }) x).visited = true →
      (hW x).visited = true) ∧
    (∀ y x, (hW y).visited = true → (h0 y).parent = some x → (hW x).joint = false → y ≠ o →
      (((h.modify o fun x => { x with visited := false }) y).visited = true ↔
       ((h.modify o fun x => { x with visited := false }) x).visited = true)) := by
  refine ⟨hG.frame.mark o false, fun x => ?_, fun x hx => ?_, fun y x hy hp hx hyo => ?_⟩
  · rw [joint_mark, counter_mark]
    exact hG.same x
  · exact hG.sub x ((visited_clear o x).1 hx).2
  · rw [visited_clear, visited_clear]
    by_cases hxo : x = o
    · subst hxo
      have := hG.segO y hy hp hx
      simp [this]
    · have := hG.segRest y x hy hp hx hxo
      simp [hyo, hxo, this]

theorem GoInv.joint_j {α μ : Type} {tr : Transformation α μ} {h0 hW h : Heap α} {s : Nat}
    {J : List Nat} {initial : α} {T : List α} {joint j o : Nat}
    (hP : PostWalk h0 s hW J) (hG : GoInv tr h0 hW s J initial h T joint j o) :
    (hW j).joint = true := hP.joint_of_idx hG.jidx

theorem GoInv.counter_ne {α μ : Type} {tr : Transformation α μ} {h0 hW h : Heap α} {s : Nat}
    {J : List Nat} {initial : α} {T : List α} {joint j o : Nat}
    (hP : PostWalk h0 s hW J) (hG : GoInv tr h0 hW s J initial h T joint j o)
    {x : Nat} (hx : (hW x).joint = true) (hxj : x ≠ j) : joint ≠ (hW x).counter := by
  intro hc
  apply hxj
  apply hP.counter_inj hx (hG.joint_j hP)
  rw [hG.jcnt]
  exact hc.symm

theorem GoInv.joint_lt {α μ : Type} {tr : Transformation α μ} {h0 hW h : Heap α} {s : Nat}
    {J : List Nat} {initial : α} {T : List α} {joint j o : Nat}
    (hG : GoInv tr h0 hW s J initial h T joint j o) : joint < T.length := by
  rw [hG.len]
  exact (List.getElem?_eq_some.1 hG.jidx).1

/-- The loop reaches the root: the accumulated transformation is composed with
the initial one. -/
theorem GoInv.root_post {α μ : Type} {tr : Transformation α μ} {h0 hW h : Heap α} {s : Nat}
    {J : List Nat} {initial : α} {T : List α} {joint j o : Nat}
    (hP : PostWalk h0 s hW J) (hG : GoInv tr h0 hW s J initial h T joint j o)
    (hp : (h0 o).parent = none) {t : α} (ht : T[joint]? = some t) :
    GoPost tr h0 hW J initial h T joint j (h.modify o fun x => { x with visited := false })
      (T.set joint (tr.compose initial t)) (tr.compose initial t) := by
  obtain ⟨hf, hs, hsub, hpairs⟩ := hG.afterClear
  have hjl := hG.joint_lt
  refine ⟨⟨hf, hs, hsub, ?_, by simp [hG.len]⟩, ?_, ?_, ?_, ?_, ?_⟩
  · intro y x hy hyp hx
    refine hpairs y x hy hyp hx ?_
    rintro rfl
    rw [hp] at hyp
    cases hyp
  · rw [visited_clear_false]
    rcases hG.jclr with hoj | hjc
    · exact Or.inl hoj.symm
    · exact Or.inr hjc
  · intro x hx
    exact (visited_clear_false o x).2 (Or.inr hx)
  · intro x hx _ hxj
    rw [List.getElem?_set_ne (hG.counter_ne hP hx hxj)]
  · intro hassoc x hx hvx hcl a ha
    by_cases hxj : x = j
    · subst hxj
      rw [hG.jcnt, List.getElem?_set_self hjl]
      obtain ⟨t', ht', hpt⟩ := hG.path
      rw [ht] at ht'
      cases ht'
      have := (hpt.abs_of_parent hassoc).1 hp
      rw [ha.functional this]
    · exfalso
      rcases hvx with hvx | hvx
      · rcases (visited_clear_false o x).1 hcl with hxo | hxc
        · subst hxo
          rcases hG.onon with h1 | h1
          · exact hxj h1
          · rw [hx] at h1; cases h1
        · rw [hvx] at hxc; cases hxc
      · exact hxj hvx
  · exact List.getElem?_set_self hjl

/-- The parent of the object the loop stands on is a joint: state in which
`computeJointTransformation()` is called for that joint. -/
theorem GoInv.joint_pre {α μ : Type} {tr : Transformation α μ} {h0 hW h : Heap α} {s : Nat}
    {J : List Nat} {initial : α} {T : List α} {joint j o p : Nat}
    (hP : PostWalk h0 s hW J) (hG : GoInv tr h0 hW s J initial h T joint j o)
    (hvo : (h o).visited = true) (hp : (h0 o).parent = some p) (hjp : (hW p).joint = true) :
    CJInv h0 hW J (h.modify o fun x => { x with visited := false }) T ∧
    J[(hW p).counter]? = some p ∧
    (Assoc tr → ∀ x n m, (hW x).joint = true →
      ((h.modify o fun x => { x with visited := false }) x).visited = false →
      Depth h0 x n → Depth h0 p m → n < m → Final tr h0 hW initial T x) := by
  obtain ⟨hf, hs, hsub, hpairs⟩ := hG.afterClear
  refine ⟨⟨hf, hs, hsub, ?_, hG.len⟩, hP.joints.idx p hjp, ?_⟩
  · intro y x hy hyp hx
    refine hpairs y x hy hyp hx ?_
    rintro rfl
    rw [hp] at hyp
    cases hyp
    rw [hjp] at hx
    cases hx
  · intro hassoc x n m hx hcl hbx hbp hnm
    obtain ⟨k, hbo⟩ := hP.visTree o (hG.sub o hvo)
    obtain ⟨m', hk, hbp'⟩ := hbo.parent_below hp
    have hmm := hbp.depth_unique hbp'
    rcases (visited_clear_false o x).1 hcl with hxo | hxc
    · subst hxo
      have := hbx.depth_unique hbo
      omega
    · exact hG.anc hassoc x n k hx hxc hbx hbo (by omega)

/-- The call for the parent joint has returned: the accumulated transformation
is composed with what it returned. -/
theorem GoInv.joint_post {α μ : Type} {tr : Transformation α μ} {h0 hW h : Heap α} {s : Nat}
    {J : List Nat} {initial : α} {T : List α} {joint j o p : Nat}
    (hP : PostWalk h0 s hW J) (hG : GoInv tr h0 hW s J initial h T joint j o)
    (hvo : (h o).visited = true) (hp : (h0 o).parent = some p) (hjp : (hW p).joint = true)
    {h2 : Heap α} {T2 : List α} {r : α}
    (hJP : JointPost tr h0 hW J initial (h.modify o fun x => { x with visited := false }) T
      (hW p).counter p h2 T2 r) {t2 : α} (ht2 : T2[joint]? = some t2) :
    GoPost tr h0 hW J initial h T joint j h2 (T2.set joint (tr.compose r t2))
      (tr.compose r t2) := by
  have hjl : joint < T2.length := by
    rw [hJP.inv.len]
    exact (List.getElem?_eq_some.1 hG.jidx).1
  have hjj := hG.joint_j hP
  have hj1 : ((h.modify o fun x => { x with visited := false }) j).visited = false := by
    rw [visited_clear_false]
    rcases hG.jclr with hoj | hjc
    · exact Or.inl hoj.symm
    · exact Or.inr hjc
  refine ⟨⟨hJP.inv.frame, hJP.inv.same, hJP.inv.sub, hJP.inv.seg, by simp [hJP.inv.len]⟩,
    hJP.mono j hj1, ?_, ?_, ?_, List.getElem?_set_self hjl⟩
  · intro x hx
    exact hJP.mono x ((visited_clear_false o x).2 (Or.inr hx))
  · intro x hx hxc hxj
    rw [List.getElem?_set_ne (hG.counter_ne hP hx hxj)]
    exact hJP.keep x hx ((visited_clear_false o x).2 (Or.inr hxc))
  · intro hassoc x hx hvx hcl a ha
    by_cases hxj : x = j
    · subst hxj
      rw [hG.jcnt, List.getElem?_set_self hjl]
      obtain ⟨t, ht, hpt⟩ := hG.path
      have hkeep := hJP.keep x hjj hj1
      rw [hG.jcnt, ht2, ht] at hkeep
      cases hkeep
      obtain ⟨k, hbo⟩ := hP.visTree o (hG.sub o hvo)
      obtain ⟨m, hk, hbp⟩ := hbo.parent_below hp
      obtain ⟨ap, hap⟩ := AbsRel.exists_of_depth tr hbp
      have hfin : Final tr h0 hW initial T2 p := by
        cases hv1 : ((h.modify o fun x => { x with visited := false }) p).visited with
        | true => exact hJP.fresh hassoc p hjp hv1 hJP.cleared
        | false =>
          have hpc : (h p).visited = false := by
            rcases (visited_clear_false o p).1 hv1 with hpo | hpc
            · exact ((hbo.parent_ne hp) hpo).elim
            · exact hpc
          intro a' ha'
          rw [hJP.keep p hjp hv1]
          exact hG.anc hassoc p m k hjp hpc hbp hbo (by omega) a' ha'
      have hr := hfin ap hap
      rw [hJP.ret] at hr
      cases hr
      have := (hpt.abs_of_parent hassoc).2 p ap hp hap
      rw [ha.functional this, hassoc]
    · have hvx' : (h x).visited = true := by
        rcases hvx with hvx | hvx
        · exact hvx
        · exact (hxj hvx).elim
      have hxo : x ≠ o := by
        rintro rfl
        rcases hG.onon with h1 | h1
        · exact hxj h1
        · rw [hx] at h1; cases h1
      have hv1 : ((h.modify o fun x => { x with visited := false }) x).visited = true :=
        (visited_clear o x).2 ⟨hxo, hvx'⟩
      have := hJP.fresh hassoc x hx hv1 hcl a ha
      rw [List.getElem?_set_ne (hG.counter_ne hP hx hxj)]
      exact this

/-- The parent of the object the loop stands on is not a joint: the loop moves
on to it. -/
theorem GoInv.climb_pre {α μ : Type} {tr : Transformation α μ} {h0 hW h : Heap α} {s : Nat}
    {J : List Nat} {initial : α} {T : List α} {joint j o p : Nat}
    (hP : PostWalk h0 s hW J) (hG : GoInv tr h0 hW s J initial h T joint j o)
    (hvo : (h o).visited = true) (hp : (h0 o).parent = some p) (hjp : (hW p).joint = false)
    {t : α} (ht : T[joint]? = some t) :
    GoInv tr h0 hW s J initial (h.modify o fun x => { x with visited := false })
      (T.set joint (tr.compose (h0 p).transformation t)) joint j p := by
  obtain ⟨hf, hs, hsub, hpairs⟩ := hG.afterClear
  have hjl := hG.joint_lt
  obtain ⟨k, hbo⟩ := hP.visTree o (hG.sub o hvo)
  obtain ⟨m, hk, hbp⟩ := hbo.parent_below hp
  have hj1 : ((h.modify o fun x => { x with visited := false }) j).visited = false := by
    rw [visited_clear_false]
    rcases hG.jclr with hoj | hjc
    · exact Or.inl hoj.symm
    · exact Or.inr hjc
  refine ⟨hf, hs, hsub, by simp [hG.len], ?_, ?_, hG.jidx, hG.jcnt, ?_, Or.inr hj1,
    Or.inr hjp, ?_, ?_⟩
  · intro y hy hyp _
    have := hP.uniq p y o hjp hy (hG.sub o hvo) hyp hp
    subst this
    exact (visited_clear_false y y).2 (Or.inl rfl)
  · intro y x hy hyp hx hxp
    refine hpairs y x hy hyp hx ?_
    rintro rfl
    rw [hp] at hyp
    cases hyp
    exact hxp rfl
  · obtain ⟨t', ht', hpt⟩ := hG.path
    rw [ht] at ht'
    cases ht'
    exact ⟨_, List.getElem?_set_self hjl, PathTr.up hpt hp⟩
  · intro n m' hbj hbp'
    have := hbp'.depth_unique hbp
    have := hG.deep n k hbj hbo
    omega
  · intro hassoc x n m' hx hcl hbx hbp' hnm
    have hmm := hbp'.depth_unique hbp
    have hxc : (h x).visited = false := by
      rcases (visited_clear_false o x).1 hcl with hxo | hxc
      · subst hxo
        have := hbx.depth_unique hbo
        omega
      · exact hxc
    have hxj : x ≠ j := by
      rintro rfl
      have := hG.deep n k hbx hbo
      omega
    intro a ha
    rw [List.getElem?_set_ne (hG.counter_ne hP hx hxj)]
    exact hG.anc hassoc x n k hx hxc hbx hbo (by omega) a ha

/-- Result of the loop continued from the parent, seen from the object the
loop stood on before. -/
theorem GoInv.climb_post {α μ : Type} {tr : Transformation α μ} {h0 hW h : Heap α} {s : Nat}
    {J : List Nat} {initial : α} {T : List α} {joint j o : Nat}
    (hP : PostWalk h0 s hW J) (hG : GoInv tr h0 hW s J initial h T joint j o)
    {u : α} {h' : Heap α} {T' : List α} {v : α}
    (hpost : GoPost tr h0 hW J initial (h.modify o fun x => { x with visited := false })
      (T.set joint u) joint j h' T' v) :
    GoPost tr h0 hW J initial h T joint j h' T' v := by
  refine ⟨hpost.inv, hpost.cleared, ?_, ?_, ?_, hpost.ret⟩
  · intro x hx
    exact hpost.mono x ((visited_clear_false o x).2 (Or.inr hx))
  · intro x hx hxc hxj
    rw [hpost.keep x hx ((visited_clear_false o x).2 (Or.inr hxc)) hxj,
      List.getElem?_set_ne (hG.counter_ne hP hx hxj)]
  · intro hassoc x hx hvx hcl
    refine hpost.fresh hassoc x hx ?_ hcl
    rcases hvx with hvx | hvx
    · by_cases hxo : x = o
      · subst hxo
        rcases hG.onon with h1 | h1
        · exact Or.inr h1
        · rw [hx] at h1; cases h1
      · exact Or.inl ((visited_clear o x).2 ⟨hxo, hvx⟩)
    · exact Or.inr hvx

/-- Entry of `computeJointTransformation()` for a joint that is still
visited. -/
theorem CJInv.entry_pre {α μ : Type} {tr : Transformation α μ} {h0 hW h : Heap α} {s : Nat}
    {J : List Nat} {initial : α} {T : List α} {joint j : Nat}
    (hP : PostWalk h0 s hW J) (hI : CJInv h0 hW J h T)
    (hj : J[joint]? = some j) (hc : (hW j).counter = joint)
    (hanc : Assoc tr → ∀ x n m, (hW x).joint = true → (h x).visited = false →
      Depth h0 x n → Depth h0 j m → n < m → Final tr h0 hW initial T x) :
    GoInv tr h0 hW s J initial h (T.set joint (h0 j).transformation) joint j j := by
  have hjl : joint < T.length := by
    rw [hI.len]
    exact (List.getElem?_eq_some.1 hj).1
  have hjj := hP.joint_of_idx hj
  refine ⟨hI.frame, hI.same, hI.sub, by simp [hI.len], ?_, ?_, hj, hc, ?_, Or.inl rfl,
    Or.inl rfl, ?_, ?_⟩
  · intro y _ _ hx
    rw [hjj] at hx
    cases hx
  · intro y x hy hyp hx _
    exact hI.seg y x hy hyp hx
  · exact ⟨_, List.getElem?_set_self hjl, PathTr.start⟩
  · intro n m hn hm
    exact Nat.le_of_eq (hm.depth_unique hn)
  · intro hassoc x n m hx hxc hbx hbj hnm a ha
    have hxj : x ≠ j := by
      rintro rfl
      have := hbx.depth_unique hbj
      omega
    have hne : joint ≠ (hW x).counter := by
      intro hcx
      apply hxj
      apply hP.counter_inj hx hjj
      rw [hc]
      exact hcx.symm
    rw [List.getElem?_set_ne hne]
    exact hanc hassoc x n m hx hxc hbx hbj hnm a ha

theorem CJInv.entry_post {α μ : Type} {tr : Transformation α μ} {h0 hW h : Heap α} {s : Nat}
    {J : List Nat} {initial : α} {T : List α} {joint j : Nat}
    (hP : PostWalk h0 s hW J)
    (hj : J[joint]? = some j) (hc : (hW j).counter = joint)
    (hvj : (h j).visited = true) {u : α} {h' : Heap α} {T' : List α} {v : α}
    (hpost : GoPost tr h0 hW J initial h (T.set joint u) joint j h' T' v) :
    JointPost tr h0 hW J initial h T joint j h' T' v := by
  have hjj := hP.joint_of_idx hj
  refine ⟨hpost.inv, hpost.cleared, hpost.mono, ?_, ?_, hpost.ret⟩
  · intro x hx hxc
    have hxj : x ≠ j := by
      rintro rfl
      rw [hvj] at hxc
      cases hxc
    have hne : joint ≠ (hW x).counter := by
      intro hcx
      apply hxj
      apply hP.counter_inj hx hjj
      rw [hc]
      exact hcx.symm
    rw [hpost.keep x hx hxc hxj, List.getElem?_set_ne hne]
  · intro hassoc x hx hvx hcl
    exact hpost.fresh hassoc x hx (Or.inl hvx) hcl

/-- Specification of `computeJointTransformation()` and of its loop, for every
amount of fuel with which they return. -/
theorem compute_spec {α μ : Type} {tr : Transformation α μ} {h0 hW : Heap α} {s : Nat}
    {J : List Nat} {initial : α} (hP : PostWalk h0 s hW J) : ∀ fuel : Nat,
    (∀ (h : Heap α) (T : List α) (joint j : Nat) (h' : Heap α) (T' : List α) (v : α),
      CJInv h0 hW J h T → J[joint]? = some j →
      ((hW j).counter = joint ∨ (h j).visited = false) →
      (Assoc tr → ∀ x n m, (hW x).joint = true → (h x).visited = false →
        Depth h0 x n → Depth h0 j m → n < m → Final tr h0 hW initial T x) →
      computeJointTransformation tr J initial fuel h T joint = .done (h', T', v) →
      JointPost tr h0 hW J initial h T joint j h' T' v) ∧
    (∀ (h : Heap α) (T : List α) (joint j o : Nat) (h' : Heap α) (T' : List α) (v : α),
      GoInv tr h0 hW s J initial h T joint j o →
      goUp tr J initial fuel h T joint o = .done (h', T', v) →
      GoPost tr h0 hW J initial h T joint j h' T' v) := by
  intro fuel
  induction fuel with
  | zero =>
    constructor
    · intro h T joint j h' T' v _ _ _ _ hrun
      simp [computeJointTransformation] at hrun
    · intro h T joint j o h' T' v _ hrun
      simp [goUp] at hrun
  | succ fuel ih =>
    constructor
    · intro h T joint j h' T' v hI hj hc hanc hrun
      rw [computeJointTransformation] at hrun
      simp only [hj] at hrun
      cases ht : T[joint]? with
      | none => simp [ht] at hrun
      | some t =>
        simp only [ht] at hrun
        by_cases hvj : (h j).visited = true
        · simp only [hvj, Bool.not_true, Bool.false_eq_true, if_false] at hrun
          have hc' : (hW j).counter = joint := by
            rcases hc with hc | hc
            · exact hc
            · rw [hvj] at hc; cases hc
          rw [hI.frame.transformation] at hrun
          exact CJInv.entry_post hP hj hc' hvj
            (ih.2 h _ joint j j h' T' v (hI.entry_pre hP hj hc' hanc) hrun)
        · have hvj' : (h j).visited = false := by
            cases hb : (h j).visited with
            | false => rfl
            | true => exact (hvj hb).elim
          simp only [hvj', Bool.not_false, if_true, Run.done.injEq, Prod.mk.injEq] at hrun
          obtain ⟨rfl, rfl, rfl⟩ := hrun
          refine ⟨hI, hvj', fun _ hx => hx, fun _ _ _ => rfl, ?_, ht⟩
          intro _ x _ hvx hcl
          rw [hvx] at hcl
          cases hcl
    · intro h T joint j o h' T' v hG hrun
      rw [goUp] at hrun
      by_cases hvo : (h o).visited = true
      · simp only [hvo, Bool.not_true, Bool.false_eq_true, if_false, Heap.modify_same] at hrun
        obtain ⟨t, ht, hpt⟩ := hG.path
        cases hp : (h0 o).parent with
        | none =>
          rw [hG.frame.parent, hp] at hrun
          simp only [ht] at hrun
          by_cases hsc : (h o).isScene = true
          · simp only [hsc, Bool.not_true, Bool.false_eq_true, if_false, Run.done.injEq,
              Prod.mk.injEq] at hrun
            obtain ⟨rfl, rfl, rfl⟩ := hrun
            exact hG.root_post hP hp ht
          · simp [hsc] at hrun
        | some p =>
          rw [hG.frame.parent, hp] at hrun
          simp only [joint_mark, counter_mark, (hG.same p).1, (hG.same p).2] at hrun
          cases hjp : (hW p).joint with
          | true =>
            simp only [hjp, if_true] at hrun
            obtain ⟨hI1, hidx, hanc⟩ := hG.joint_pre hP hvo hp hjp
            cases hr : computeJointTransformation tr J initial fuel
                (h.modify o fun x => { x with visited := false }) T (hW p).counter with
            | done res =>
              obtain ⟨h2, T2, r⟩ := res
              simp only [hr] at hrun
              cases ht2 : T2[joint]? with
              | none => simp [ht2] at hrun
              | some t2 =>
                simp only [ht2, Run.done.injEq, Prod.mk.injEq] at hrun
                obtain ⟨rfl, rfl, rfl⟩ := hrun
                have hJP := ih.1 _ T (hW p).counter p h2 T2 r hI1 hidx (Or.inl rfl) hanc hr
                exact hG.joint_post hP hvo hp hjp hJP ht2
            | failed h2 e => simp [hr] at hrun
            | aborted => simp [hr] at hrun
            | outOfFuel => simp [hr] at hrun
          | false =>
            simp only [hjp, Bool.false_eq_true, if_false, ht] at hrun
            have hfr : ((h.modify o fun x => { x with visited := false }) p).transformation =
                (h0 p).transformation := (hG.frame.mark o false).transformation p
            rw [hfr] at hrun
            exact hG.climb_post hP
              (ih.2 _ _ joint j p h' T' v (hG.climb_pre hP hvo hp hjp ht) hrun)
      · simp [hvo] at hrun

/-- The loop over all joints: on return every joint has been unvisited and,
with an associative `compose`, holds its final transformation. -/
theorem computeAll_spec {α μ : Type} {tr : Transformation α μ} {h0 hW : Heap α} {s : Nat}
    {J : List Nat} {initial : α} (hP : PostWalk h0 s hW J) (fuel : Nat) :
    ∀ (n i : Nat) (h : Heap α) (T : List α) (h' : Heap α) (T' : List α),
      i + n = J.length → CJInv h0 hW J h T →
      (∀ k o, k < i → J[k]? = some o → (h o).visited = false) →
      (Assoc tr → ∀ x, (hW x).joint = true → (h x).visited = false →
        Final tr h0 hW initial T x) →
      computeAll tr J initial fuel n i h T = .done (h', T') →
      CJInv h0 hW J h' T' ∧
      (∀ o, (hW o).joint = true → (h' o).visited = false) ∧
      (Assoc tr → ∀ x, (hW x).joint = true → Final tr h0 hW initial T' x)
  | 0, i, h, T, h', T', hin, hI, hcl, hval, hrun => by
    simp only [computeAll, Run.done.injEq, Prod.mk.injEq] at hrun
    obtain ⟨rfl, rfl⟩ := hrun
    have hall : ∀ o, (hW o).joint = true → (h o).visited = false := by
      intro o ho
      have hidx := hP.joints.idx o ho
      exact hcl _ o (by have := (List.getElem?_eq_some.1 hidx).1; omega) hidx
    exact ⟨hI, hall, fun ha x hx => hval ha x hx (hall x hx)⟩
  | n + 1, i, h, T, h', T', hin, hI, hcl, hval, hrun => by
    rw [computeAll] at hrun
    have hi : i < J.length := by omega
    have hj : J[i]? = some J[i] := List.getElem?_eq_getElem hi
    cases hr : computeJointTransformation tr J initial fuel h T i with
    | done res =>
      obtain ⟨h1, T1, r⟩ := res
      simp only [hr] at hrun
      have hpre : (hW J[i]).counter = i ∨ (h J[i]).visited = false := by
        have hle := hP.joints.first i _ hj
        rcases Nat.lt_or_eq_of_le hle with hlt | heq
        · exact Or.inr (hcl _ _ hlt (hP.joints.idx _ (hP.joint_of_idx hj)))
        · exact Or.inl heq
      have hJP := ((compute_spec hP fuel).1 h T i J[i] h1 T1 r hI hj hpre
        (fun ha x _ _ hx hxc _ _ _ => hval ha x hx hxc) hr)
      refine computeAll_spec hP fuel n (i + 1) h1 T1 h' T' (by omega) hJP.inv ?_ ?_ hrun
      · intro k o hk hko
        rcases Nat.lt_or_eq_of_le (Nat.le_of_lt_succ hk) with hlt | heq
        · exact hJP.mono o (hcl k o hlt hko)
        · subst heq
          rw [hj] at hko
          cases hko
          exact hJP.cleared
      · intro ha x hx hxc
        cases hvx : (h x).visited with
        | true => exact hJP.fresh ha x hx hvx hxc
        | false =>
          intro a haa
          rw [hJP.keep x hx hvx]
          exact hval ha x hx hvx a haa
    | failed h2 e => simp [hr] at hrun
    | aborted => simp [hr] at hrun
    | outOfFuel => simp [hr] at hrun

/-- Once every joint is unvisited, no object is visited any more. -/
theorem CJInv.all_cleared {α : Type} {h0 hW h : Heap α} {s : Nat} {J : List Nat} {T : List α}
    (hP : PostWalk h0 s hW J) (hI : CJInv h0 hW J h T)
    (hall : ∀ o, (hW o).joint = true → (h o).visited = false) :
    ∀ x, (h x).visited = false := by
  have key : ∀ x, Anchored h0 hW x → (h x).visited = false := by
    intro x hx
    induction hx with
    | base hj => exact hall _ hj
    | @step y x _ hvy hp ih =>
      cases hjx : (hW x).joint with
      | true => exact hall _ hjx
      | false =>
        have := hI.seg y x hvy hp hjx
        cases hvx : (h x).visited with
        | false => rfl
        | true =>
          rw [this.2 hvx] at ih
          cases ih
  intro x
  cases hvx : (h x).visited with
  | false => rfl
  | true => rw [key x (hP.anch x (hI.sub x hvx))] at hvx; cases hvx

/-- The loop copying entries to later occurrences of an object. -/
theorem patchDuplicates_spec {α : Type} {h : Heap α} {J : List Nat} (hJ : JointsOK h J) (T0 : List α) :
    ∀ (n i : Nat) (T T' : List α),
      T.length = T0.length →
      (∀ k o, k < i → J[k]? = some o → T[k]? = T0[(h o).counter]?) →
      (∀ k, i ≤ k → T[k]? = T0[k]?) →
      patchDuplicates h J n i T = some T' →
      T'.length = T0.length ∧
      (∀ k o, k < i + n → J[k]? = some o → T'[k]? = T0[(h o).counter]?)
  | 0, i, T, T', hlen, hlo, hhi, hrun => by
    simp only [patchDuplicates, Option.some.injEq] at hrun
    subst hrun
    exact ⟨hlen, fun k o hk => hlo k o (by omega)⟩
  | n + 1, i, T, T', hlen, hlo, hhi, hrun => by
    rw [patchDuplicates] at hrun
    cases hj : J[i]? with
    | none => simp [hj] at hrun
    | some o =>
      simp only [hj] at hrun
      have hjo : (h o).joint = true := (hJ.mem o).2 (List.getElem?_mem hj)
      have hle := hJ.first i o hj
      by_cases hc : (h o).counter = i
      · simp only [hc, ne_eq, not_true_eq_false, if_false] at hrun
        have := patchDuplicates_spec hJ T0 n (i + 1) T T' hlen ?_ (fun k hk => hhi k (by omega))
          hrun
        · refine ⟨this.1, fun k o' hk => this.2 k o' (by omega)⟩
        · intro k o' hk hko
          rcases Nat.lt_or_eq_of_le (Nat.le_of_lt_succ hk) with hlt | heq
          · exact hlo k o' hlt hko
          · subst heq
            rw [hj] at hko
            cases hko
            rw [hc]
            exact hhi k (Nat.le_refl k)
      · simp only [hc, ne_eq, not_false_eq_true, if_true] at hrun
        have hlt : (h o).counter < i := Nat.lt_of_le_of_ne hle hc
        cases ht : T[(h o).counter]? with
        | none => simp [ht] at hrun
        | some t =>
          simp only [ht] at hrun
          by_cases hil : i < T.length
          · simp only [hil, if_true] at hrun
            have ht0 : T0[(h o).counter]? = some t := by
              rw [← hlo _ o hlt (hJ.idx o hjo)]
              exact ht
            have := patchDuplicates_spec hJ T0 n (i + 1) (T.set i t) T' (by simp [hlen]) ?_ ?_
              hrun
            · refine ⟨this.1, fun k o' hk => this.2 k o' (by omega)⟩
            · intro k o' hk hko
              rcases Nat.lt_or_eq_of_le (Nat.le_of_lt_succ hk) with hlt' | heq
              · rw [List.getElem?_set_ne (by omega)]
                exact hlo k o' hlt' hko
              · subst heq
                rw [hj] at hko
                cases hko
                rw [List.getElem?_set_self hil, ht0]
            · intro k hk
              rw [List.getElem?_set_ne (by omega)]
              exact hhi k (by omega)
          · simp [hil] at hrun

theorem cleanJoints_apply {α : Type} : ∀ (J : List Nat) (h : Heap α) (o : Nat),
    cleanJoints h J o =
      if o ∈ J then { h o with joint := false, counter := sentinel } else h o
  | [], h, o => by simp [cleanJoints]
  | j :: J, h, o => by
    rw [cleanJoints, cleanJoints_apply J]
    by_cases hoj : o = j
    · subst hoj
      by_cases hoJ : o ∈ J <;> simp [hoJ]
    · by_cases hoJ : o ∈ J <;> simp [hoJ, hoj, Heap.modify_other _ _ hoj]

theorem Frame.eq_of_quiescent {α : Type} {h0 h : Heap α} (hf : Frame h0 h) (hq0 : Quiescent h0)
    (hq : Quiescent h) : h = h0 := by
  funext o
  obtain ⟨a, b, c, d, e, f⟩ := hf o
  obtain ⟨c0, v0, j0⟩ := hq0 o
  obtain ⟨c1, v1, j1⟩ := hq o
  cases hx : h o
  cases hy : h0 o
  simp only [hx, hy] at a b c d e f c0 v0 j0 c1 v1 j1
  simp only [Object.mk.injEq]
  exact ⟨a, b, c, d, e, v1.trans v0.symm, j1.trans j0.symm, c1.trans c0.symm, f⟩

/-- What a returning call of `transformations()` on a scene with clean scratch
state and objects of its tree has done. -/
theorem transformations_spec {α μ : Type} {tr : Transformation α μ} {h0 : Heap α} {s : Nat}
    {objects : List Nat} {initial : α} {fuel : Nat} {h' : Heap α} {ts : List α}
    (hq : Quiescent h0) (htree : ∀ o ∈ objects, ∃ n, Depth h0 o n)
    (hrun : transformations tr fuel h0 s objects initial = .done (h', ts)) :
    h' = h0 ∧ ts.length = objects.length ∧
    (∃ (T : List α) (c : Nat → Nat), ∀ (i o : Nat), objects[i]? = some o → ts[i]? = T[c o]?) ∧
    (Assoc tr → ∀ (i o : Nat) (a : α), objects[i]? = some o → AbsRel tr h0 o a →
      ts[i]? = some (tr.compose initial a)) := by
  unfold transformations at hrun
  by_cases hlen : objects.length < 0xFFFF
  · simp only [hlen, not_true_eq_false, if_false] at hrun
    cases hsc : sceneObject (markJoints h0 objects 0) fuel (some s) with
    | none => simp [hsc] at hrun
    | some sc =>
      simp only [hsc] at hrun
      by_cases hscs : sc = some s
      · simp only [hscs, ne_eq, not_true_eq_false, if_false] at hrun
        cases hw : walkUp s fuel (markJoints h0 objects 0) objects 0 objects with
        | failed h2 e => simp [hw] at hrun
        | aborted => simp [hw] at hrun
        | outOfFuel => simp [hw] at hrun
        | done res =>
          obtain ⟨hW, J⟩ := res
          simp only [hw] at hrun
          have hWI := walkUp_inv fuel _ objects objects (markJoints_walkInv hq hlen htree)
            hW J hw
          have hP := PostWalk.of_walkInv hWI
          obtain ⟨extra, hJ⟩ := hWI.pre
          cases hc : computeAll tr J initial fuel J.length 0 hW
              (List.replicate J.length tr.identity) with
          | failed h3 e => simp [hc] at hrun
          | aborted => simp [hc] at hrun
          | outOfFuel => simp [hc] at hrun
          | done res =>
            obtain ⟨h3, T3⟩ := res
            simp only [hc] at hrun
            have hI0 : CJInv h0 hW J hW (List.replicate J.length tr.identity) :=
              ⟨hP.frame, fun _ => ⟨rfl, rfl⟩, fun _ hx => hx,
                fun y x hy hp _ => ⟨fun _ => hP.up y x hy hp, fun _ => hy⟩, by simp⟩
            obtain ⟨hI3, hall, hfin⟩ := computeAll_spec hP fuel J.length 0 hW _ h3 T3
              (by simp) hI0 (fun k o hk => by omega)
              (fun _ x hx hxc => by rw [hP.allVis x hx] at hxc; cases hxc) hc
            have hnv := hI3.all_cleared hP hall
            cases hpd : patchDuplicates h3 J objects.length 0 T3 with
            | none => simp [hpd] at hrun
            | some T4 =>
              simp only [hpd, Run.done.injEq, Prod.mk.injEq] at hrun
              obtain ⟨rfl, rfl⟩ := hrun
              have hJ3 : JointsOK h3 J := hP.joints.congr hI3.same
              obtain ⟨hl4, hT4⟩ := patchDuplicates_spec hJ3 T3 objects.length 0 T3 T4 rfl
                (fun k o hk => by omega) (fun _ _ => rfl) hpd
              have hentry : ∀ (i o : Nat), objects[i]? = some o →
                  (T4.take objects.length)[i]? = T3[(h3 o).counter]? := by
                intro i o hio
                have hi : i < objects.length := (List.getElem?_eq_some.1 hio).1
                rw [List.getElem?_take_of_lt hi]
                refine hT4 i o (by omega) ?_
                rw [hJ, List.getElem?_append_left hi]
                exact hio
              refine ⟨?_, ?_, ⟨T3, fun o => (h3 o).counter, hentry⟩, ?_⟩
              · refine Frame.eq_of_quiescent ?_ hq ?_
                · intro o
                  rw [cleanJoints_apply]
                  by_cases hoJ : o ∈ J
                  · simp only [hoJ, if_true]
                    exact hI3.frame o
                  · simp only [hoJ, if_false]
                    exact hI3.frame o
                · intro o
                  rw [cleanJoints_apply]
                  by_cases hoJ : o ∈ J
                  · rw [if_pos hoJ]
                    exact ⟨rfl, hnv o, rfl⟩
                  · rw [if_neg hoJ]
                    have hjo : (h3 o).joint = false := by
                      cases hb : (h3 o).joint with
                      | false => rfl
                      | true => exact (hoJ ((hJ3.mem o).1 hb)).elim
                    exact ⟨hJ3.clear o hjo, hnv o, hjo⟩
              · rw [List.length_take, hl4, hI3.len, hJ]
                simp
              · intro ha i o a hio hab
                rw [hentry i o hio, (hI3.same o).2]
                have hoJ : o ∈ J := by
                  rw [hJ]
                  exact List.mem_append_left _ (List.getElem?_mem hio)
                exact hfin ha o ((hP.joints.mem o).2 hoJ) a hab
      · simp [hscs] at hrun
  · simp [hlen] at hrun

theorem Frame.trans {α : Type} {h0 h1 h2 : Heap α} (h01 : Frame h0 h1) (h12 : Frame h1 h2) :
    Frame h0 h2 := by
  intro o
  obtain ⟨a, b, c, d, e, f⟩ := h01 o
  obtain ⟨a', b', c', d', e', f'⟩ := h12 o
  exact ⟨a'.trans a, b'.trans b, c'.trans c, d'.trans d, e'.trans e, f'.trans f⟩

theorem markJoints_frame {α : Type} : ∀ (objects : List Nat) (h : Heap α) (i : Nat),
    Frame h (markJoints h objects i)
  | [], h, _ => Frame.refl h
  | o :: rest, h, i => by
    rw [markJoints]
    split
    · exact markJoints_frame rest h (i + 1)
    · have h1 : Frame h (h.modify o fun x => { x with counter := i % 65536, joint := true }) :=
        (Frame.refl h).modify o _ fun _ => ⟨rfl, rfl, rfl, rfl, rfl, rfl⟩
      exact Frame.trans h1 (markJoints_frame rest _ (i + 1))

/-- A failing walk-up loop has changed scratch fields only. -/
theorem walkUp_failed_frame {α : Type} (s : Nat) : ∀ (fuel : Nat) (h : Heap α) (W : List Nat) (it : Nat)
    (J : List Nat) (h' : Heap α) (e : Failure),
    walkUp s fuel h W it J = .failed h' e → Frame h h'
  | 0, _, _, _, _, _, _, hrun => by simp [walkUp] at hrun
  | fuel + 1, h, W, it, J, h', e, hrun => by
    have hm : Frame h (h.modify (W[it]?.getD 0) fun x => { x with visited := true }) :=
      (Frame.refl h).mark _ true
    rw [walkUp] at hrun
    split at hrun
    · cases hrun
    · split at hrun
      · cases hrun
      · rename_i o ho
        simp only [ho, Option.getD_some] at hm
        split at hrun
        · exact walkUp_failed_frame s fuel _ _ _ _ _ _ hrun
        · dsimp only at hrun
          split at hrun
          · split at hrun
            · simp only [Run.failed.injEq] at hrun
              rw [← hrun.1]
              exact hm
            · exact hm.trans (walkUp_failed_frame s fuel _ _ _ _ _ _ hrun)
          · split at hrun
            · split at hrun
              · split at hrun
                · simp only [Run.failed.injEq] at hrun
                  rw [← hrun.1]
                  exact hm
                · split at hrun
                  · cases hrun
                  · refine (hm.trans ?_).trans (walkUp_failed_frame s fuel _ _ _ _ _ _ hrun)
                    exact (Frame.refl _).modify _ _ fun _ => ⟨rfl, rfl, rfl, rfl, rfl, rfl⟩
              · exact hm.trans (walkUp_failed_frame s fuel _ _ _ _ _ _ hrun)
            · exact hm.trans (walkUp_failed_frame s fuel _ _ _ _ _ _ hrun)

/-- The function `computeJointTransformation()` contains no `CORRADE_ASSERT`. -/
theorem compute_not_failed {α μ : Type} {tr : Transformation α μ} {J : List Nat} {initial : α} :
    ∀ fuel : Nat,
    (∀ (h : Heap α) (T : List α) (joint : Nat) (h' : Heap α) (e : Failure),
      computeJointTransformation tr J initial fuel h T joint ≠ .failed h' e) ∧
    (∀ (h : Heap α) (T : List α) (joint o : Nat) (h' : Heap α) (e : Failure),
      goUp tr J initial fuel h T joint o ≠ .failed h' e) := by
  intro fuel
  induction fuel with
  | zero =>
    constructor
    · intro h T joint h' e hrun
      simp [computeJointTransformation] at hrun
    · intro h T joint o h' e hrun
      simp [goUp] at hrun
  | succ fuel ih =>
    constructor
    · intro h T joint h' e hrun
      rw [computeJointTransformation] at hrun
      split at hrun
      · cases hrun
      · split at hrun
        · cases hrun
        · split at hrun
          · cases hrun
          · exact ih.2 _ _ _ _ _ _ hrun
    · intro h T joint o h' e hrun
      rw [goUp] at hrun
      split at hrun
      · cases hrun
      · dsimp only at hrun
        split at hrun
        · split at hrun
          · cases hrun
          · split at hrun <;> cases hrun
        · split at hrun
          · split at hrun
            · split at hrun <;> cases hrun
            · rename_i hr
              exact ih.1 _ _ _ _ _ hr
            · cases hrun
            · cases hrun
          · split at hrun
            · cases hrun
            · exact ih.2 _ _ _ _ _ _ hrun

theorem computeAll_not_failed {α μ : Type} {tr : Transformation α μ} {J : List Nat} {initial : α}
    (fuel : Nat) : ∀ (n i : Nat) (h : Heap α) (T : List α) (h' : Heap α) (e : Failure),
    computeAll tr J initial fuel n i h T ≠ .failed h' e
  | 0, _, _, _, _, _, hrun => by simp [computeAll] at hrun
  | n + 1, i, h, T, h', e, hrun => by
    rw [computeAll] at hrun
    split at hrun
    · exact computeAll_not_failed fuel n _ _ _ _ _ hrun
    · rename_i hr
      exact (compute_not_failed fuel).1 _ _ _ _ _ hr
    · cases hrun
    · cases hrun

/-- When `transformations()` returns through a failed `CORRADE_ASSERT`, only
scratch fields of objects can differ from before the call; when the failed
assertion is the one on entry, nothing differs. -/
theorem transformations_failed_frame {α μ : Type} {tr : Transformation α μ} {fuel : Nat} {h : Heap α}
    {this : Nat} {objects : List Nat} {initial : α} {h' : Heap α} {e : Failure}
    (hrun : transformations tr fuel h this objects initial = .failed h' e) :
    Frame h h' ∧ (¬ objects.length < 0xFFFF → h' = h ∧ e = .tooLargeScene) := by
  unfold transformations at hrun
  by_cases hlen : objects.length < 0xFFFF
  · refine ⟨?_, fun hn => (hn hlen).elim⟩
    simp only [hlen, not_true_eq_false, if_false] at hrun
    have hmj := markJoints_frame objects h 0
    split at hrun
    · cases hrun
    · split at hrun
      · simp only [Run.failed.injEq] at hrun
        rw [← hrun.1]
        exact hmj
      · split at hrun
        · rename_i hw
          simp only [Run.failed.injEq] at hrun
          rw [← hrun.1]
          exact hmj.trans (walkUp_failed_frame _ _ _ _ _ _ _ _ hw)
        · cases hrun
        · cases hrun
        · split at hrun
          · rename_i hc
            exact (computeAll_not_failed _ _ _ _ _ _ _ hc).elim
          · cases hrun
          · cases hrun
          · split at hrun <;> cases hrun
  · simp only [hlen, not_false_eq_true, if_true, Run.failed.injEq] at hrun
    exact ⟨by rw [← hrun.1]; exact Frame.refl h, fun _ => ⟨hrun.1.symm, hrun.2.symm⟩⟩

theorem Below.parent_in_tree {α : Type} {h : Heap α} {s o p n : Nat} (hb : Below h s o n)
    (hp : (h o).parent = some p) : ∃ m, n = m + 1 ∧ Below h s p m := by
  cases hb with
  | root hs => rw [hs] at hp; cases hp
  | child hp' hb' =>
    rw [hp] at hp'
    cases hp'
    exact ⟨_, rfl, hb'⟩

theorem Budget.exists_for {α : Type} {h0 : Heap α} : ∀ (W : List Nat),
    (∀ w ∈ W, ∃ n, Depth h0 w n) → ∃ b, Budget h0 W b
  | [], _ => ⟨0, Budget.nil⟩
  | w :: W, h => by
    obtain ⟨n, hn⟩ := h w (List.mem_cons_self _ _)
    obtain ⟨b, hb⟩ := Budget.exists_for W fun x hx => h x (List.mem_cons_of_mem _ hx)
    exact ⟨_, Budget.cons hn hb⟩

theorem Budget.depth_lt {α : Type} {h0 : Heap α} {W : List Nat} {b : Nat} (hB : Budget h0 W b) :
    ∀ w ∈ W, ∀ n, Depth h0 w n → n < b := by
  induction hB with
  | nil => intro w hw; cases hw
  | @cons w' n' W' b' hd _ ih =>
    intro w hw n hn
    rcases List.mem_cons.1 hw with rfl | hw
    · have := hn.depth_unique hd
      omega
    · have := ih w hw n hn
      omega

/-- With enough fuel the walk-up loop on objects of the tree of `s` ends with
an empty working vector, unless the joint list is full; no internal assertion
fails and no object is found outside the tree. -/
theorem walkUp_total {α : Type} {h0 : Heap α} {s : Nat} {objects : List Nat} (B : Nat) :
    ∀ (fuel : Nat) (h : Heap α) (W J : List Nat) (b : Nat),
      WalkInv h0 s objects h W J → (∀ w ∈ W, ∃ n, Below h0 s w n) →
      Budget h0 W b → b < fuel → b ≤ B →
      (∀ x, (h x).joint = true → ∀ n, Depth h0 x n → n < B) →
      (∃ h' J', walkUp s fuel h W 0 J = .done (h', J') ∧
        ∀ x, (h' x).joint = true → ∀ n, Depth h0 x n → n < B) ∨
      (0xFFFF < J.length + W.length ∧ ∃ h', walkUp s fuel h W 0 J = .failed h' .tooLargeScene)
  | 0, _, _, _, _, _, _, _, hfuel, _, _ => by omega
  | fuel + 1, h, [], J, b, hI, hWs, hB, hfuel, hbB, hJd => by
    left
    exact ⟨h, J, by simp [walkUp], hJd⟩
  | fuel + 1, h, e :: rest, J, b, hI, hWs, hB, hfuel, hbB, hJd => by
    cases hB with
    | @cons _ ne _ b' hde hBrest =>
    have hrestS : ∀ w ∈ rest, ∃ n, Below h0 s w n := fun w hw =>
      hWs w (List.mem_cons_of_mem _ hw)
    obtain ⟨ne', hbe⟩ := hWs e (List.mem_cons_self _ _)
    rw [walkUp]
    simp only [List.isEmpty_cons, Bool.false_eq_true, if_false, List.getElem?_cons_zero,
      List.eraseIdx_cons_zero, wrapIt_zero, List.set_cons_zero]
    by_cases hve : (h e).visited = true
    · simp only [hve, if_true]
      rcases walkUp_total B fuel h rest J b' (hI.pop_visited hve) hrestS hBrest (by omega)
        (by omega) hJd with hd | ⟨hlen, hf⟩
      · exact Or.inl hd
      · exact Or.inr ⟨by simp only [List.length_cons]; omega, hf⟩
    · simp only [hve, if_false, Heap.modify_same]
      cases hp : (h e).parent with
      | none =>
        simp only []
        have hp0 : (h0 e).parent = none := by rw [← hI.frame.parent, hp]
        have hes : e = s := hbe.root_eq hp0
        simp only [hes, ne_eq, not_true_eq_false, if_false]
        subst hes
        have hI' : WalkInv h0 e objects (h.modify e fun x => { x with visited := true }) rest J := by
          refine hI.step (hI.frame.mark e true) (hI.joints.setVisited e true) hI.pre
            (visited_mark e) (fun x hx => by rw [joint_mark]; exact hx)
            (fun x hx => by rw [joint_mark] at hx; exact Or.inl hx) ?_ (Or.inl rfl)
            (fun _ => rfl)
          intro p hp'
          rw [hp0] at hp'
          cases hp'
        rcases walkUp_total B fuel _ rest J b' hI' hrestS hBrest (by omega) (by omega)
          (fun x hx => by rw [joint_mark] at hx; exact hJd x hx) with hd | ⟨hlen, hf⟩
        · exact Or.inl hd
        · exact Or.inr ⟨by simp only [List.length_cons]; omega, hf⟩
      | some p =>
        simp only []
        have hp0 : (h0 e).parent = some p := by rw [← hI.frame.parent, hp]
        have hpe : p ≠ e := hde.parent_ne hp0
        have hnr : (h0 e).parent = none → e = s := by
          intro hn
          rw [hp0] at hn
          cases hn
        obtain ⟨mp, hmp, hdp⟩ := hde.parent_below hp0
        rw [Heap.modify_other h _ hpe]
        by_cases hvj : ((h p).visited || (h p).joint) = true
        · simp only [hvj, if_true]
          cases hjp : (h p).joint with
          | true =>
            simp only [Bool.not_true, Bool.false_eq_true, if_false]
            have hI' : WalkInv h0 s objects (h.modify e fun x => { x with visited := true })
                rest J := by
              refine hI.step (hI.frame.mark e true) (hI.joints.setVisited e true) hI.pre
                (visited_mark e) (fun x hx => by rw [joint_mark]; exact hx)
                (fun x hx => by rw [joint_mark] at hx; exact Or.inl hx) ?_ (Or.inl rfl) hnr
              intro q hq
              rw [hp0] at hq
              cases hq
              exact Or.inl (by rw [joint_mark]; exact hjp)
            rcases walkUp_total B fuel _ rest J b' hI' hrestS hBrest (by omega) (by omega)
              (fun x hx => by rw [joint_mark] at hx; exact hJd x hx) with hd | ⟨hlen, hf⟩
            · exact Or.inl hd
            · exact Or.inr ⟨by simp only [List.length_cons]; omega, hf⟩
          | false =>
            simp only [Bool.not_false, if_true]
            have hvp : (h p).visited = true := by simpa [hjp] using hvj
            by_cases hlen : J.length < 0xFFFF
            · simp only [hlen, not_true_eq_false, if_false]
              have hcnt : (h p).counter = sentinel := hI.joints.clear p hjp
              simp only [hcnt, ne_eq, not_true_eq_false, if_false]
              have hj1 : JointsOK (h.modify e fun x => { x with visited := true }) J :=
                hI.joints.setVisited e true
              have hjp1 : ((h.modify e fun x => { x with visited := true }) p).joint = false := by
                rw [joint_mark]; exact hjp
              have hj2 := hj1.push hjp1 hlen
              have hI' : WalkInv h0 s objects
                  ((h.modify e fun x => { x with visited := true }).modify p fun x =>
                    { x with counter := J.length % 65536, joint := true }) rest (J ++ [p]) := by
                refine hI.step ?_ hj2 ?_ ?_ ?_ ?_ ?_ (Or.inl rfl) hnr
                · exact (hI.frame.mark e true).modify p _ fun _ => ⟨rfl, rfl, rfl, rfl, rfl, rfl⟩
                · obtain ⟨extra, hex⟩ := hI.pre
                  exact ⟨extra ++ [p], by rw [hex, List.append_assoc]⟩
                · intro x
                  rw [← visited_mark (h := h) e x]
                  by_cases hx : x = p
                  · subst hx; simp
                  · rw [Heap.modify_other _ _ hx]
                · intro x hx
                  by_cases hxp : x = p
                  · subst hxp; simp
                  · rw [Heap.modify_other _ _ hxp, joint_mark]; exact hx
                · intro x hx
                  by_cases hxp : x = p
                  · subst hxp
                    right
                    simp only [Heap.modify_same]
                    exact (visited_mark e x).2 (Or.inr hvp)
                  · rw [Heap.modify_other _ _ hxp, joint_mark] at hx
                    exact Or.inl hx
                · intro q hq
                  rw [hp0] at hq
                  cases hq
                  left
                  simp
              rcases walkUp_total B fuel _ rest (J ++ [p]) b' hI' hrestS hBrest (by omega)
                (by omega) (fun x hx n hn => by
                  by_cases hxp : x = p
                  · subst hxp
                    have := hn.depth_unique hdp
                    omega
                  · rw [Heap.modify_other _ _ hxp, joint_mark] at hx
                    exact hJd x hx n hn) with hd | ⟨hlen', hf⟩
              · exact Or.inl hd
              · refine Or.inr ⟨?_, hf⟩
                simp only [List.length_append, List.length_cons, List.length_nil] at hlen' ⊢
                omega
            · simp only [hlen, not_false_eq_true, if_true]
              exact Or.inr ⟨by simp only [List.length_cons]; omega, _, rfl⟩
        · simp only [hvj, Bool.false_eq_true, if_false]
          have hvp : (h p).visited = false := by
            cases hc : (h p).visited with
            | false => rfl
            | true => simp [hc] at hvj
          have hjp : (h p).joint = false := by
            cases hc : (h p).joint with
            | false => rfl
            | true => simp [hc] at hvj
          have hI' : WalkInv h0 s objects (h.modify e fun x => { x with visited := true })
              (p :: rest) J := by
            refine hI.step (hI.frame.mark e true) (hI.joints.setVisited e true) hI.pre
              (visited_mark e) (fun x hx => by rw [joint_mark]; exact hx)
              (fun x hx => by rw [joint_mark] at hx; exact Or.inl hx) ?_
              (Or.inr ⟨p, hp0, rfl⟩) hnr
            intro q hq
            rw [hp0] at hq
            cases hq
            exact Or.inr ⟨hvp, hjp, rfl⟩
          obtain ⟨mb, _, hbp⟩ := hbe.parent_in_tree hp0
          rcases walkUp_total B fuel _ (p :: rest) J (mp + 1 + b') hI'
            (fun w hw => by
              rcases List.mem_cons.1 hw with rfl | hw
              · exact ⟨mb, hbp⟩
              · exact hrestS w hw)
            (Budget.cons hdp hBrest) (by omega) (by omega)
            (fun x hx => by rw [joint_mark] at hx; exact hJd x hx) with hd | ⟨hlen, hf⟩
          · exact Or.inl hd
          · exact Or.inr ⟨by simpa using hlen, hf⟩

/-- With enough fuel `computeJointTransformation()` and its loop return: no
internal assertion fails and no vector is read out of range. -/
theorem compute_total {α μ : Type} {tr : Transformation α μ} {h0 hW : Heap α} {s : Nat}
    {J : List Nat} {initial : α} (hP : PostWalk h0 s hW J)
    (hs : (h0 s).isScene = true) : ∀ fuel : Nat,
    (∀ (h : Heap α) (T : List α) (joint j n : Nat),
      CJInv h0 hW J h T → J[joint]? = some j →
      ((hW j).counter = joint ∨ (h j).visited = false) →
      (Assoc tr → ∀ x n m, (hW x).joint = true → (h x).visited = false →
        Depth h0 x n → Depth h0 j m → n < m → Final tr h0 hW initial T x) →
      Depth h0 j n → 2 * n + 2 ≤ fuel →
      ∃ h' T' v, computeJointTransformation tr J initial fuel h T joint = .done (h', T', v)) ∧
    (∀ (h : Heap α) (T : List α) (joint j o n : Nat),
      GoInv tr h0 hW s J initial h T joint j o → (h o).visited = true →
      Depth h0 o n → 2 * n + 1 ≤ fuel →
      ∃ h' T' v, goUp tr J initial fuel h T joint o = .done (h', T', v)) := by
  intro fuel
  induction fuel with
  | zero =>
    constructor
    · intro h T joint j n _ _ _ _ _ hf
      omega
    · intro h T joint j o n _ _ _ hf
      omega
  | succ fuel ih =>
    constructor
    · intro h T joint j n hI hj hc hanc hd hf
      have hjl : joint < T.length := by
        rw [hI.len]
        exact (List.getElem?_eq_some.1 hj).1
      rw [computeJointTransformation]
      simp only [hj, List.getElem?_eq_getElem hjl]
      by_cases hvj : (h j).visited = true
      · simp only [hvj, Bool.not_true, Bool.false_eq_true, if_false]
        have hc' : (hW j).counter = joint := by
          rcases hc with hc | hc
          · exact hc
          · rw [hvj] at hc; cases hc
        rw [hI.frame.transformation]
        exact ih.2 h _ joint j j n (hI.entry_pre hP hj hc' hanc) hvj hd (by omega)
      · have hvj' : (h j).visited = false := by
          cases hb : (h j).visited with
          | false => rfl
          | true => exact (hvj hb).elim
        simp only [hvj', Bool.not_false, if_true]
        exact ⟨_, _, _, rfl⟩
    · intro h T joint j o n hG hvo hd hf
      obtain ⟨t, ht, hpt⟩ := hG.path
      rw [goUp]
      simp only [hvo, Bool.not_true, Bool.false_eq_true, if_false, Heap.modify_same]
      cases hp : (h0 o).parent with
      | none =>
        rw [hG.frame.parent, hp]
        simp only [ht]
        have hos : o = s := hP.root o (hG.sub o hvo) hp
        have hsc : (h o).isScene = true := by
          rw [hG.frame.isScene, hos]
          exact hs
        simp only [hsc, Bool.not_true, Bool.false_eq_true, if_false]
        exact ⟨_, _, _, rfl⟩
      | some p =>
        rw [hG.frame.parent, hp]
        simp only [joint_mark, counter_mark, (hG.same p).1, (hG.same p).2]
        obtain ⟨m, hm, hdp⟩ := hd.parent_below hp
        cases hjp : (hW p).joint with
        | true =>
          simp only [if_true]
          obtain ⟨hI1, hidx, hanc⟩ := hG.joint_pre hP hvo hp hjp
          obtain ⟨h2, T2, r, hr⟩ := ih.1 _ T (hW p).counter p m hI1 hidx (Or.inl rfl) hanc hdp
            (by omega)
          have hJP := (compute_spec hP fuel).1 _ T (hW p).counter p h2 T2 r hI1 hidx
            (Or.inl rfl) hanc hr
          have hjl : joint < T2.length := by
            rw [hJP.inv.len]
            exact (List.getElem?_eq_some.1 hG.jidx).1
          simp only [hr, List.getElem?_eq_getElem hjl]
          exact ⟨_, _, _, rfl⟩
        | false =>
          simp only [Bool.false_eq_true, if_false, ht]
          have hfr : ((h.modify o fun x => { x with visited := false }) p).transformation =
              (h0 p).transformation := (hG.frame.mark o false).transformation p
          rw [hfr]
          have hpo : p ≠ o := hd.parent_ne hp
          have hvp : ((h.modify o fun x => { x with visited := false }) p).visited = true := by
            rw [visited_clear]
            exact ⟨hpo, (hG.segRest o p (hG.sub o hvo) hp hjp hpo).1 hvo⟩
          exact ih.2 _ _ joint j p m (hG.climb_pre hP hvo hp hjp ht) hvp hdp (by omega)

/-- With enough fuel the loop over all joints returns. -/
theorem computeAll_total {α μ : Type} (tr : Transformation α μ) {h0 hW : Heap α} {s : Nat}
    {J : List Nat} (initial : α) (hP : PostWalk h0 s hW J) (hs : (h0 s).isScene = true)
    (B fuel : Nat) (hfuel : 2 * B + 2 ≤ fuel)
    (hB : ∀ x, (hW x).joint = true → ∀ n, Depth h0 x n → n < B) :
    ∀ (n i : Nat) (h : Heap α) (T : List α),
      i + n = J.length → CJInv h0 hW J h T →
      (∀ k o, k < i → J[k]? = some o → (h o).visited = false) →
      (Assoc tr → ∀ x, (hW x).joint = true → (h x).visited = false →
        Final tr h0 hW initial T x) →
      ∃ h' T', computeAll tr J initial fuel n i h T = .done (h', T')
  | 0, i, h, T, _, _, _, _ => ⟨h, T, rfl⟩
  | n + 1, i, h, T, hin, hI, hcl, hval => by
    rw [computeAll]
    have hi : i < J.length := by omega
    have hj : J[i]? = some J[i] := List.getElem?_eq_getElem hi
    have hjj := hP.joint_of_idx hj
    obtain ⟨d, hd⟩ := hP.visTree _ (hP.allVis _ hjj)
    have hpre : (hW J[i]).counter = i ∨ (h J[i]).visited = false := by
      have hle := hP.joints.first i _ hj
      rcases Nat.lt_or_eq_of_le hle with hlt | heq
      · exact Or.inr (hcl _ _ hlt (hP.joints.idx _ hjj))
      · exact Or.inl heq
    have hdB := hB _ hjj d hd
    obtain ⟨h1, T1, r, hr⟩ := (compute_total hP hs fuel).1 h T i J[i] d hI hj hpre
      (fun ha x _ _ hx hxc _ _ _ => hval ha x hx hxc) hd (by omega)
    have hJP := ((compute_spec hP fuel).1 h T i J[i] h1 T1 r hI hj hpre
      (fun ha x _ _ hx hxc _ _ _ => hval ha x hx hxc) hr)
    simp only [hr]
    refine computeAll_total tr initial hP hs B fuel hfuel hB n (i + 1) h1 T1 (by omega) hJP.inv ?_ ?_
    · intro k o hk hko
      rcases Nat.lt_or_eq_of_le (Nat.le_of_lt_succ hk) with hlt | heq
      · exact hJP.mono o (hcl k o hlt hko)
      · subst heq
        rw [hj] at hko
        cases hko
        exact hJP.cleared
    · intro ha x hx hxc
      cases hvx : (h x).visited with
      | true => exact hJP.fresh ha x hx hvx hxc
      | false =>
        intro a haa
        rw [hJP.keep x hx hvx]
        exact hval ha x hx hvx a haa

/-- The loop patching later occurrences reads and writes inside the vector. -/
theorem patchDuplicates_total {α : Type} {h : Heap α} {J : List Nat} (hJ : JointsOK h J) :
    ∀ (n i : Nat) (T : List α), T.length = J.length → i + n ≤ J.length →
      ∃ T', patchDuplicates h J n i T = some T'
  | 0, i, T, _, _ => ⟨T, rfl⟩
  | n + 1, i, T, hlen, hin => by
    rw [patchDuplicates]
    have hi : i < J.length := by omega
    have hj : J[i]? = some J[i] := List.getElem?_eq_getElem hi
    have hjo : (h J[i]).joint = true := (hJ.mem _).2 (List.getElem?_mem hj)
    have hc := hJ.counter_lt hjo
    simp only [hj]
    by_cases hne : (h J[i]).counter = i
    · simp only [hne, ne_eq, not_true_eq_false, if_false]
      exact patchDuplicates_total hJ n (i + 1) T hlen (by omega)
    · simp only [hne, ne_eq, not_false_eq_true, if_true]
      rw [List.getElem?_eq_getElem (by omega : (h J[i]).counter < T.length)]
      simp only [show i < T.length by omega, if_true]
      exact patchDuplicates_total hJ n (i + 1) _ (by simp [hlen]) (by omega)

/-- On a scene with clean scratch state and objects of its tree, a call of
`transformations()` with enough fuel returns its result, unless it reports a
too large scene (which needs more than `0xFFFF / 2` objects). -/
theorem transformations_total {α μ : Type} (tr : Transformation α μ) (h0 : Heap α) (s : Nat)
    (objects : List Nat) (initial : α)
    (hq : Quiescent h0) (hs : (h0 s).isScene = true)
    (htree : ∀ o ∈ objects, ∃ n, Below h0 s o n) :
    ∃ N, ∀ fuel, N ≤ fuel →
      (∃ h' ts, transformations tr fuel h0 s objects initial = .done (h', ts)) ∨
      (0xFFFF < 2 * objects.length ∧
        ∃ h', transformations tr fuel h0 s objects initial = .failed h' .tooLargeScene) := by
  have hdepth : ∀ o ∈ objects, ∃ n, Depth h0 o n := fun o ho => by
    obtain ⟨n, hn⟩ := htree o ho
    exact ⟨n, hn.depth⟩
  obtain ⟨b0, hB0⟩ := Budget.exists_for objects hdepth
  refine ⟨2 * b0 + 2, fun fuel hfuel => ?_⟩
  unfold transformations
  by_cases hlen : objects.length < 0xFFFF
  · simp only [hlen, not_true_eq_false, if_false]
    obtain ⟨f, rfl⟩ : ∃ f, fuel = f + 1 := ⟨fuel - 1, by omega⟩
    have hsc : sceneObject (markJoints h0 objects 0) (f + 1) (some s) = some (some s) := by
      simp only [sceneObject]
      rw [(markJoints_frame objects h0 0).isScene, hs]
      rfl
    simp only [hsc, ne_eq, not_true_eq_false, if_false]
    have hWI := markJoints_walkInv (s := s) hq hlen hdepth
    rcases walkUp_total b0 (f + 1) _ objects objects b0 hWI htree hB0 (by omega) (Nat.le_refl _)
      (fun x hx n hn => hB0.depth_lt x ((hWI.joints.mem x).1 hx) n hn)
      with ⟨hW, J, hw, hJd⟩ | ⟨hbig, h', hf⟩
    · left
      simp only [hw]
      have hWI' := walkUp_inv (f + 1) _ objects objects hWI hW J hw
      have hP := PostWalk.of_walkInv hWI'
      obtain ⟨extra, hJ⟩ := hWI'.pre
      have hI0 : CJInv h0 hW J hW (List.replicate J.length tr.identity) :=
        ⟨hP.frame, fun _ => ⟨rfl, rfl⟩, fun _ hx => hx,
          fun y x hy hp _ => ⟨fun _ => hP.up y x hy hp, fun _ => hy⟩, by simp⟩
      obtain ⟨h3, T3, hc⟩ := computeAll_total tr initial hP hs b0 (f + 1)
        hfuel hJd J.length 0 hW _ (by simp) hI0 (fun k o hk => by omega)
        (fun _ x hx hxc => by rw [hP.allVis x hx] at hxc; cases hxc)
      obtain ⟨hI3, _, _⟩ := computeAll_spec hP (f + 1) J.length 0 hW _ h3 T3
        (by simp) hI0 (fun k o hk => by omega)
        (fun _ x hx hxc => by rw [hP.allVis x hx] at hxc; cases hxc) hc
      simp only [hc]
      have hJ3 : JointsOK h3 J := hP.joints.congr hI3.same
      obtain ⟨T4, hpd⟩ := patchDuplicates_total hJ3 objects.length 0 T3 hI3.len
        (by rw [hJ]; simp)
      simp only [hpd]
      exact ⟨_, _, rfl⟩
    · right
      simp only [hf]
      exact ⟨by omega, h', rfl⟩
  · right
    simp only [hlen, not_false_eq_true, if_true]
    exact ⟨by omega, h0, rfl⟩

theorem chainHeap_quiescent : Quiescent chainHeap := fun _ => ⟨rfl, rfl, rfl⟩

theorem chainHeap_below : ∀ o ∈ [3, 1, 2, 0], ∃ n, Below chainHeap 0 o n := by
  have h0 : Below chainHeap 0 0 0 := Below.root rfl
  have h1 : Below chainHeap 0 1 1 := Below.child (p := 0) rfl h0
  have h2 : Below chainHeap 0 2 2 := Below.child (p := 1) rfl h1
  have h3 : Below chainHeap 0 3 3 := Below.child (p := 2) rfl h2
  intro o ho
  simp only [List.mem_cons, List.mem_singleton, List.not_mem_nil, or_false] at ho
  rcases ho with rfl | rfl | rfl | rfl
  · exact ⟨3, h3⟩
  · exact ⟨1, h1⟩
  · exact ⟨2, h2⟩
  · exact ⟨0, h0⟩

theorem wordTransformation_assoc : Assoc wordTransformation := fun a b c =>
  List.append_assoc a b c

/-- C1: batched equals naive. On a scene `s` whose objects all have counter
0xFFFF and `Visited`/`Joint` clear, for a list of objects of the tree of `s`
(duplicates allowed) and any initial transformation: whenever
`transformations` returns, it returns as many entries as there are objects
and, `compose` being associative, entry `i` is `compose(initial,
objects[i].absoluteTransformation())`; and with enough fuel the call does
return, unless it reports a too large scene. -/
theorem transformations_eq_naive {α μ : Type} (tr : Transformation α μ) (h : Heap α) (s : Nat)
    (objects : List Nat) (initial : α)
    (hq : Quiescent h) (hs : (h s).isScene = true)
    (htree : ∀ o ∈ objects, ∃ n, Below h s o n) :
    (∀ fuel h' ts, transformations tr fuel h s objects initial = .done (h', ts) →
      ts.length = objects.length ∧
      (Assoc tr → ∀ (i o : Nat), objects[i]? = some o →
        (∃ f a, absoluteTransformation tr h f o = some a) ∧
        ∀ f a, absoluteTransformation tr h f o = some a →
          ts[i]? = some (tr.compose initial a))) ∧
    (∃ N, ∀ fuel, N ≤ fuel →
      (∃ h' ts, transformations tr fuel h s objects initial = .done (h', ts)) ∨
      (0xFFFF < 2 * objects.length ∧
        ∃ h', transformations tr fuel h s objects initial = .failed h' .tooLargeScene)) := by
  have hdepth : ∀ o ∈ objects, ∃ n, Depth h o n := fun o ho => by
    obtain ⟨n, hn⟩ := htree o ho
    exact ⟨n, hn.depth⟩
  refine ⟨fun fuel h' ts hrun => ?_, transformations_total tr h s objects initial hq hs htree⟩
  obtain ⟨_, hlen, _, hval⟩ := transformations_spec hq hdepth hrun
  refine ⟨hlen, fun ha i o hio => ⟨?_, fun f a hfa => ?_⟩⟩
  · obtain ⟨n, hn⟩ := hdepth o (List.getElem?_mem hio)
    obtain ⟨a, ha'⟩ := absoluteTransformation_of_depth tr hn (n + 1) (Nat.lt_succ_self n)
    exact ⟨n + 1, a, ha'⟩
  · exact hval ha i o a hio (AbsRel.of_absoluteTransformation f o a hfa)

/-- C1, the scene `0` with the chain `0 <- 1 <- 2 <- 3`, objects `[3, 1]`
and the identity as initial transformation: the result is `[1.2.3, 1]`. -/
theorem transformations_eq_naive_witness :
    (∃ h', transformations wordTransformation 20 chainHeap 0 [3, 1] [] =
      .done (h', [[1, 2, 3], [1]])) ∧
    absoluteTransformation wordTransformation chainHeap 4 3 = some [1, 2, 3] ∧
    ∀ fuel h' ts, transformations wordTransformation fuel chainHeap 0 [3, 1] [] =
        .done (h', ts) →
      ts.length = [3, 1].length ∧
      (Assoc wordTransformation → ∀ (i o : Nat), [3, 1][i]? = some o →
        (∃ f a, absoluteTransformation wordTransformation chainHeap f o = some a) ∧
        ∀ f a, absoluteTransformation wordTransformation chainHeap f o = some a →
          ts[i]? = some (wordTransformation.compose [] a)) :=
  ⟨⟨_, rfl⟩, by decide,
    (transformations_eq_naive wordTransformation chainHeap 0 [3, 1] [] chainHeap_quiescent rfl
      (fun o ho => chainHeap_below o (by
        simp only [List.mem_cons, List.mem_singleton, List.not_mem_nil, or_false] at ho ⊢
        rcases ho with rfl | rfl <;> simp))).1⟩

/-- C3: scratch state is restored. A call of `transformations` that returns,
started with every counter at 0xFFFF and `Visited` and `Joint` clear (the
parent chains of the listed objects being finite), leaves every object
exactly as it was: counter 0xFFFF, `Visited` and `Joint` clear, links, local
transformation and `Dirty` unchanged. -/
theorem transformations_restores_state {α μ : Type} (tr : Transformation α μ) (h : Heap α) (s : Nat)
    (objects : List Nat) (initial : α) (fuel : Nat) (h' : Heap α) (ts : List α)
    (hq : Quiescent h) (hacyclic : ∀ o ∈ objects, ∃ n, Depth h o n)
    (hrun : transformations tr fuel h s objects initial = .done (h', ts)) :
    h' = h ∧ Quiescent h' ∧ Frame h h' := by
  obtain ⟨heq, _, _, _⟩ := transformations_spec hq hacyclic hrun
  subst heq
  exact ⟨rfl, hq, Frame.refl _⟩

/-- C3, on the chain with objects `[3, 1]`. -/
theorem transformations_restores_state_witness :
    ∃ h', transformations wordTransformation 20 chainHeap 0 [3, 1] [] =
        .done (h', [[1, 2, 3], [1]]) ∧
      h' = chainHeap ∧ Quiescent h' ∧ Frame chainHeap h' :=
  ⟨_, rfl, transformations_restores_state wordTransformation chainHeap 0 [3, 1] [] 20 _
    [[1, 2, 3], [1]] chainHeap_quiescent
    (fun o ho => by
      obtain ⟨n, hn⟩ := chainHeap_below o (by
        simp only [List.mem_cons, List.mem_singleton, List.not_mem_nil, or_false] at ho ⊢
        rcases ho with rfl | rfl <;> simp)
      exact ⟨n, hn.depth⟩) rfl⟩

/-- C9: duplicates in the input produce identical outputs. For a call of
`transformations` that returns (started from clean scratch state, the parent
chains of the listed objects being finite) and positions `i`, `j` holding the
same object, the entries `i` and `j` of the result are present and equal;
nothing is assumed of `compose`. -/
theorem transformations_duplicates_equal {α μ : Type} (tr : Transformation α μ) (h : Heap α) (s : Nat)
    (objects : List Nat) (initial : α) (fuel : Nat) (h' : Heap α) (ts : List α)
    (hq : Quiescent h) (hacyclic : ∀ o ∈ objects, ∃ n, Depth h o n)
    (hrun : transformations tr fuel h s objects initial = .done (h', ts)) :
    ∀ (i j o : Nat), objects[i]? = some o → objects[j]? = some o →
      ts[i]? = ts[j]? ∧ ∃ t, ts[i]? = some t := by
  obtain ⟨_, hlen, ⟨T, c, hT⟩, _⟩ := transformations_spec hq hacyclic hrun
  intro i j o hi hj
  refine ⟨by rw [hT i o hi, hT j o hj], ?_⟩
  have hil : i < ts.length := by
    rw [hlen]
    exact (List.getElem?_eq_some.1 hi).1
  exact ⟨ts[i], List.getElem?_eq_getElem hil⟩

/-- C9, on the chain with objects `[3, 1, 3]`: entries 0 and 2 agree. -/
theorem transformations_duplicates_equal_witness :
    ∃ h' ts, transformations wordTransformation 20 chainHeap 0 [3, 1, 3] [] = .done (h', ts) ∧
      ts = [[1, 2, 3], [1], [1, 2, 3]] ∧
      ∀ (i j o : Nat), [3, 1, 3][i]? = some o → [3, 1, 3][j]? = some o →
        ts[i]? = ts[j]? ∧ ∃ t, ts[i]? = some t :=
  ⟨_, _, rfl, by decide,
    transformations_duplicates_equal wordTransformation chainHeap 0 [3, 1, 3] [] 20 _ _
      chainHeap_quiescent
      (fun o ho => by
        obtain ⟨n, hn⟩ := chainHeap_below o (by
          simp only [List.mem_cons, List.mem_singleton, List.not_mem_nil, or_false] at ho ⊢
          rcases ho with rfl | rfl | rfl <;> simp)
        exact ⟨n, hn.depth⟩) rfl⟩

/-- C5: `Dirty` is not kept downward closed by the batch `setClean(objects)`.
On the chain `0 <- 1 <- 2 <- 3` with every object dirty, `setClean({3})`
returns with object 3 clean while its parent 2 is still dirty. -/
theorem batch_setClean_breaks_dirty_closure :
    DirtyClosed dirtyChainHeap ∧
    ∃ h' ev, setCleanObjects wordTransformation 10 dirtyChainHeap [3] = .done (h', ev) ∧
      (h' 3).parent = some 2 ∧ (h' 2).dirty = true ∧ (h' 3).dirty = false ∧
      ¬ DirtyClosed h' := by
  refine ⟨fun _ _ _ _ => rfl, _, _, rfl, by decide, by decide, by decide, fun hc => ?_⟩
  have := hc 3 2 (by decide) (by decide)
  revert this
  decide

/-- C6 as stated fails: called on the object `1`, which is not a scene, with
the object `2`, `transformations` returns through the failed assertion and
leaves `Joint` and the counter 0 on object `2`. -/
theorem cleanup_on_failure_counterexample :
    Quiescent chainHeap ∧
    ∃ h', transformations wordTransformation 5 chainHeap 1 [2] [] = .failed h' .notScene ∧
      (h' 2).joint = true ∧ (h' 2).counter = 0 ∧ ¬ Quiescent h' := by
  refine ⟨chainHeap_quiescent, _, rfl, by decide, by decide, fun hq => ?_⟩
  have := (hq 2).2.2
  revert this
  decide

/-- C6 as amended: when `transformations` returns through a failed assertion,
only scratch fields (counter, `Visited`, `Joint`) of objects can differ from
before the call; and when the failed assertion is the one on entry
(`objects.size() >= 0xFFFF`), every object is exactly as before. -/
theorem failed_call_keeps_frame {α μ : Type} (tr : Transformation α μ) (fuel : Nat) (h : Heap α)
    (this : Nat) (objects : List Nat) (initial : α) (h' : Heap α) (e : Failure)
    (hrun : transformations tr fuel h this objects initial = .failed h' e) :
    Frame h h' ∧ (¬ objects.length < 0xFFFF → h' = h ∧ e = .tooLargeScene) :=
  transformations_failed_frame hrun

/-- C6 as amended, on the call of the counterexample. -/
theorem failed_call_keeps_frame_witness :
    Frame chainHeap (markJoints chainHeap [2] 0) ∧
    (¬ [2].length < 0xFFFF → markJoints chainHeap [2] 0 = chainHeap ∧
      Failure.notScene = .tooLargeScene) :=
  failed_call_keeps_frame wordTransformation 5 chainHeap 1 [2] [] (markJoints chainHeap [2] 0)
    .notScene rfl

theorem subtreeWithin_succ {α : Type} (h : Heap α) :
    ∀ n o, subtreeWithin h n o = true → subtreeWithin h (n + 1) o = true
  | 0, _, hn => by simp [subtreeWithin] at hn
  | n + 1, o, hn => by
    rw [subtreeWithin, List.all_eq_true] at hn ⊢
    exact fun c hc => subtreeWithin_succ h n c (hn c hc)

theorem subtreeWithin_mono {α : Type} (h : Heap α) {n m o : Nat} (hnm : n ≤ m)
    (hn : subtreeWithin h n o = true) : subtreeWithin h m o = true := by
  induction hnm with
  | refl => exact hn
  | step _ ih => exact subtreeWithin_succ h _ o ih

theorem subtreeWithin_congr {α : Type} {h h' : Heap α} (hc : ∀ x, (h' x).children = (h x).children) :
    ∀ n o, subtreeWithin h' n o = subtreeWithin h n o
  | 0, _ => rfl
  | n + 1, o => by
    rw [subtreeWithin, subtreeWithin, hc]
    congr 1
    funext c
    exact subtreeWithin_congr hc n c

theorem Sub.comp {α : Type} {h : Heap α} {o c x : Nat} (h1 : Sub h o c) (h2 : Sub h c x) : Sub h o x := by
  induction h2 with
  | self => exact h1
  | down _ hmem ih => exact Sub.down ih hmem

theorem Sub.transfer {α : Type} {h h' : Heap α} (hc : ∀ x, (h' x).children = (h x).children) {o x : Nat}
    (hs : Sub h' o x) : Sub h o x := by
  induction hs with
  | self => exact Sub.self
  | down _ hmem ih => exact Sub.down ih (by rwa [hc] at hmem)

theorem Sub.cases_top {α : Type} {h : Heap α} {o x : Nat} (hs : Sub h o x) :
    x = o ∨ ∃ c ∈ (h o).children, Sub h c x := by
  induction hs with
  | self => exact Or.inl rfl
  | down hprev hmem ih =>
    rcases ih with rfl | ⟨c, hc, hcx⟩
    · exact Or.inr ⟨_, hmem, Sub.self⟩
    · exact Or.inr ⟨c, hc, Sub.down hcx hmem⟩

theorem Sub.within {α : Type} {h : Heap α} {n c x : Nat} (hs : Sub h c x)
    (hn : subtreeWithin h n c = true) : subtreeWithin h n x = true := by
  induction hs with
  | self => exact hn
  | down _ hmem ih =>
    cases n with
    | zero => simp [subtreeWithin] at ih
    | succ n =>
      rw [subtreeWithin, List.all_eq_true] at ih
      exact subtreeWithin_succ h n _ (ih _ hmem)

theorem Sub.no_cycle {α : Type} {h : Heap α} : ∀ n o c, subtreeWithin h n o = true →
    c ∈ (h o).children → Sub h c o → False
  | 0, _, _, hn, _, _ => by simp [subtreeWithin] at hn
  | n + 1, o, c, hn, hc, hs => by
    rw [subtreeWithin, List.all_eq_true] at hn
    exact Sub.no_cycle n o c (hs.within (hn c hc)) hc hs

theorem Sub.dirty {α : Type} {h : Heap α} (hcl : ChildClosed h) {o x : Nat} (hs : Sub h o x)
    (ho : (h o).dirty = true) : (h x).dirty = true := by
  induction hs with
  | self => exact ho
  | down _ hmem ih => exact hcl _ _ hmem ih

theorem DirtyOnly.same {α : Type} (h : Heap α) : DirtyOnly h h := fun _ => rfl

theorem DirtyOnly.children_eq {α : Type} {h h' : Heap α} (hf : DirtyOnly h h') (x : Nat) :
    (h' x).children = (h x).children := by
  rw [hf x]

theorem DirtyOnly.parent_eq {α : Type} {h h' : Heap α} (hf : DirtyOnly h h') (x : Nat) :
    (h' x).parent = (h x).parent := by
  rw [hf x]

theorem DirtyOnly.features_eq {α : Type} {h h' : Heap α} (hf : DirtyOnly h h') (x : Nat) :
    (h' x).features = (h x).features := by
  rw [hf x]

theorem DirtyOnly.transformation_eq {α : Type} {h h' : Heap α} (hf : DirtyOnly h h') (x : Nat) :
    (h' x).transformation = (h x).transformation := by
  rw [hf x]

theorem DirtyOnly.andThen {α : Type} {h h1 h2 : Heap α} (a : DirtyOnly h h1) (b : DirtyOnly h1 h2) :
    DirtyOnly h h2 := fun x => by
  rw [b x, a x]

theorem DirtyOnly.setFlag {α : Type} (h : Heap α) (o : Nat) (b : Bool) :
    DirtyOnly h (h.modify o fun x => { x with dirty := b }) := fun x => by
  by_cases hx : x = o
  · simp [Heap.modify, hx]
  · simp [Heap.modify, hx]

/-- Nothing is to do. -/
theorem DirtyPost.nil {α μ : Type} (h : Heap α) : DirtyPost (μ := μ) h [] h [] where
  frame := DirtyOnly.same h
  mono := fun _ hx => hx
  rootsDirty := fun _ hc => absurd hc (List.not_mem_nil _)
  inside := fun x h1 h2 => by rw [h1] at h2; cases h2
  below := fun x h1 h2 => by rw [h1] at h2; cases h2
  nodup := List.nodup_nil
  mem := fun e => by
    constructor
    · intro he
      cases he
    · rintro ⟨x, f, _, h1, h2, _⟩
      rw [h1] at h2
      cases h2
  closed := fun hcl => ⟨hcl, fun _ hc => absurd hc (List.not_mem_nil _)⟩

/-- The object is dirty already. -/
theorem DirtyPost.skip {α μ : Type} (h : Heap α) (o : Nat) (ho : (h o).dirty = true) :
    DirtyPost (μ := μ) h [o] h [] where
  frame := DirtyOnly.same h
  mono := fun _ hx => hx
  rootsDirty := fun c hc => by
    rw [List.mem_singleton] at hc
    rw [hc]
    exact ho
  inside := fun x h1 h2 => by rw [h1] at h2; cases h2
  below := fun x h1 h2 => by rw [h1] at h2; cases h2
  nodup := List.nodup_nil
  mem := fun e => by
    constructor
    · intro he
      cases he
    · rintro ⟨x, f, _, h1, h2, _⟩
      rw [h1] at h2
      cases h2
  closed := fun hcl => ⟨hcl, fun c hc x hs => by
    rw [List.mem_singleton] at hc
    subst hc
    exact hs.dirty hcl ho⟩

/-- Two runs one after the other. -/
theorem DirtyPost.append {α μ : Type} {h h1 h2 : Heap α} {r1 r2 : List Nat} {ev1 ev2 : List (Event μ)}
    (a : DirtyPost h r1 h1 ev1) (b : DirtyPost h1 r2 h2 ev2) :
    DirtyPost h (r1 ++ r2) h2 (ev1 ++ ev2) where
  frame := a.frame.andThen b.frame
  mono := fun x hx => b.mono x (a.mono x hx)
  rootsDirty := fun c hc => by
    rcases List.mem_append.1 hc with hc | hc
    · exact b.mono c (a.rootsDirty c hc)
    · exact b.rootsDirty c hc
  inside := fun x hx0 hx2 => by
    cases hx1 : (h1 x).dirty with
    | true =>
      obtain ⟨c, hc, hs⟩ := a.inside x hx0 hx1
      exact ⟨c, List.mem_append_left _ hc, hs⟩
    | false =>
      obtain ⟨c, hc, hs⟩ := b.inside x hx1 hx2
      exact ⟨c, List.mem_append_right _ hc, hs.transfer a.frame.children_eq⟩
  below := fun x hx0 hx2 c hc => by
    cases hx1 : (h1 x).dirty with
    | true => exact b.mono c (a.below x hx0 hx1 c hc)
    | false =>
      rw [← a.frame.children_eq] at hc
      exact b.below x hx1 hx2 c hc
  nodup := by
    refine List.Nodup.append a.nodup b.nodup ?_
    intro e he1 he2
    obtain ⟨x, f, rfl, _, hx1, _⟩ := (a.mem e).1 he1
    obtain ⟨x', f', he, hx1', _, _⟩ := (b.mem _).1 he2
    cases he
    rw [hx1] at hx1'
    cases hx1'
  mem := fun e => by
    rw [List.mem_append]
    constructor
    · rintro (he | he)
      · obtain ⟨x, f, rfl, hx0, hx1, hf⟩ := (a.mem e).1 he
        exact ⟨x, f, rfl, hx0, b.mono x hx1, hf⟩
      · obtain ⟨x, f, rfl, hx1, hx2, hf⟩ := (b.mem e).1 he
        refine ⟨x, f, rfl, ?_, hx2, ?_⟩
        · cases hx0 : (h x).dirty with
          | false => rfl
          | true =>
            rw [a.mono x hx0] at hx1
            cases hx1
        · rwa [a.frame.features_eq] at hf
    · rintro ⟨x, f, rfl, hx0, hx2, hf⟩
      cases hx1 : (h1 x).dirty with
      | true => exact Or.inl ((a.mem _).2 ⟨x, f, rfl, hx0, hx1, hf⟩)
      | false =>
        refine Or.inr ((b.mem _).2 ⟨x, f, rfl, hx1, hx2, ?_⟩)
        rwa [a.frame.features_eq]
  closed := fun hcl => by
    obtain ⟨hcl1, hd1⟩ := a.closed hcl
    obtain ⟨hcl2, hd2⟩ := b.closed hcl1
    refine ⟨hcl2, fun c hc x hs => ?_⟩
    rcases List.mem_append.1 hc with hc | hc
    · exact b.mono x (hd1 c hc x hs)
    · refine hd2 c hc x ?_
      exact Sub.transfer (fun y => (a.frame.children_eq y).symm) hs

theorem markDirtyAll_mem {μ : Type} (o n : Nat) (e : Event μ) :
    e ∈ markDirtyAll o n ↔ ∃ f, e = Event.markDirty o f ∧ f < n := by
  simp only [markDirtyAll, List.mem_map, List.mem_range]
  constructor
  · rintro ⟨f, hf, rfl⟩
    exact ⟨f, rfl, hf⟩
  · rintro ⟨f, rfl, hf⟩
    exact ⟨f, hf, rfl⟩

theorem markDirtyAll_nodup {μ : Type} (o n : Nat) : (markDirtyAll o n : List (Event μ)).Nodup := by
  refine List.Nodup.map ?_ (List.nodup_range n)
  intro a b hab
  cases hab
  rfl

/-- The loop over the children, given what `setDirty()` does on each. -/
theorem forChildren_spec {α μ : Type} (fuel : Nat)
    (ih : ∀ (h : Heap α) (c : Nat), subtreeWithin h fuel c = true →
      ∃ h' ev, setDirty fuel h c = some (h', ev) ∧ DirtyPost (μ := μ) h [c] h' ev) :
    ∀ (cs : List Nat) (h : Heap α), (∀ c ∈ cs, subtreeWithin h fuel c = true) →
      ∃ h' ev, forChildren (setDirty fuel) h cs = some (h', ev) ∧
        DirtyPost (μ := μ) h cs h' ev
  | [], h, _ => ⟨h, [], rfl, DirtyPost.nil h⟩
  | c :: cs, h, hcs => by
    obtain ⟨h1, ev1, hrun1, p1⟩ := ih h c (hcs c (List.mem_cons_self _ _))
    have hcs1 : ∀ c' ∈ cs, subtreeWithin h1 fuel c' = true := fun c' hc' => by
      rw [subtreeWithin_congr p1.frame.children_eq]
      exact hcs c' (List.mem_cons_of_mem _ hc')
    obtain ⟨h2, ev2, hrun2, p2⟩ := forChildren_spec fuel ih cs h1 hcs1
    refine ⟨h2, ev1 ++ ev2, ?_, p1.append p2⟩
    simp only [forChildren, hrun1, hrun2]

/-- The object `o`, not dirty, after its children have been handled. -/
theorem DirtyPost.close {α μ : Type} {h h1 : Heap α} {o n : Nat} {ev : List (Event μ)}
    (hn : subtreeWithin h n o = true) (ho : (h o).dirty = false)
    (p : DirtyPost h (h o).children h1 ev) :
    DirtyPost h [o] (h1.modify o fun x => { x with dirty := true })
      (markDirtyAll o (h o).features.length ++ ev) := by
  have ho1 : (h1 o).dirty = false := by
    cases hd : (h1 o).dirty with
    | false => rfl
    | true =>
      obtain ⟨c, hc, hs⟩ := p.inside o ho hd
      exact (Sub.no_cycle n o c hn hc hs).elim
  have hself : ((h1.modify o fun x => { x with dirty := true }) o).dirty = true := by
    simp [Heap.modify]
  have hother : ∀ x, x ≠ o → (h1.modify o fun x => { x with dirty := true }) x = h1 x :=
    fun x hx => by simp [Heap.modify, hx]
  have hup : ∀ x, (h1 x).dirty = true →
      ((h1.modify o fun x => { x with dirty := true }) x).dirty = true := fun x hx => by
    by_cases hxo : x = o
    · rw [hxo]
      exact hself
    · rw [hother x hxo]
      exact hx
  refine ⟨p.frame.andThen (DirtyOnly.setFlag h1 o true), fun x hx => hup x (p.mono x hx), ?_, ?_,
    ?_, ?_, ?_, ?_⟩
  · intro c hc
    rw [List.mem_singleton] at hc
    rw [hc]
    exact hself
  · intro x hx0 hx2
    refine ⟨o, List.mem_singleton_self o, ?_⟩
    by_cases hxo : x = o
    · rw [hxo]
      exact Sub.self
    · rw [hother x hxo] at hx2
      obtain ⟨c, hc, hs⟩ := p.inside x hx0 hx2
      exact (Sub.down Sub.self hc).comp hs
  · intro x hx0 hx2 c hc
    by_cases hxo : x = o
    · subst hxo
      exact hup c (p.rootsDirty c hc)
    · rw [hother x hxo] at hx2
      exact hup c (p.below x hx0 hx2 c hc)
  · refine List.Nodup.append (markDirtyAll_nodup o _) p.nodup ?_
    intro e he1 he2
    obtain ⟨f, rfl, _⟩ := (markDirtyAll_mem o _ e).1 he1
    obtain ⟨x, f', he, _, hx1, _⟩ := (p.mem _).1 he2
    cases he
    rw [ho1] at hx1
    cases hx1
  · intro e
    rw [List.mem_append, markDirtyAll_mem]
    constructor
    · rintro (⟨f, rfl, hf⟩ | he)
      · exact ⟨o, f, rfl, ho, hself, hf⟩
      · obtain ⟨x, f, rfl, hx0, hx1, hf⟩ := (p.mem e).1 he
        exact ⟨x, f, rfl, hx0, hup x hx1, hf⟩
    · rintro ⟨x, f, rfl, hx0, hx2, hf⟩
      by_cases hxo : x = o
      · subst hxo
        exact Or.inl ⟨f, rfl, hf⟩
      · rw [hother x hxo] at hx2
        exact Or.inr ((p.mem _).2 ⟨x, f, rfl, hx0, hx2, hf⟩)
  · intro hcl
    obtain ⟨hcl1, hd1⟩ := p.closed hcl
    have hkids : ∀ c ∈ (h o).children,
        ((h1.modify o fun x => { x with dirty := true }) c).dirty = true :=
      fun c hc => hup c (p.rootsDirty c hc)
    refine ⟨fun q c hc hq => ?_, fun c hc x hs => ?_⟩
    · rw [(DirtyOnly.setFlag h1 o true).children_eq] at hc
      by_cases hqo : q = o
      · subst hqo
        rw [p.frame.children_eq] at hc
        exact hkids c hc
      · rw [hother q hqo] at hq
        exact hup c (hcl1 q c hc hq)
    · rw [List.mem_singleton] at hc
      subst hc
      rcases hs.cases_top with rfl | ⟨c', hc', hs'⟩
      · exact hself
      · exact hup x (hd1 c' hc' x hs')

/-- What `setDirty()` does, with enough fuel for the subtree below `o`. -/
theorem setDirty_spec {α μ : Type} : ∀ (fuel : Nat) (h : Heap α) (o : Nat), subtreeWithin h fuel o = true →
    ∃ h' ev, setDirty fuel h o = some (h', ev) ∧ DirtyPost (μ := μ) h [o] h' ev
  | 0, _, _, hn => by simp [subtreeWithin] at hn
  | fuel + 1, h, o, hn => by
    cases ho : (h o).dirty with
    | true =>
      refine ⟨h, [], ?_, DirtyPost.skip h o ho⟩
      simp only [setDirty, ho, if_true]
    | false =>
      have hkids : ∀ c ∈ (h o).children, subtreeWithin h fuel c = true := by
        rw [subtreeWithin, List.all_eq_true] at hn
        exact hn
      obtain ⟨h1, ev, hrun, p⟩ :=
        forChildren_spec fuel (fun h c hc => setDirty_spec fuel h c hc) (h o).children h hkids
      refine ⟨_, _, ?_, DirtyPost.close hn ho p⟩
      simp only [setDirty, ho, hrun]
      simp

/-- Whatever the fuel, a call of `setDirty()` that returns has changed only
`Dirty` flags. -/
theorem setDirty_frame {α μ : Type} : ∀ (fuel : Nat) (h : Heap α) (o : Nat) (h' : Heap α)
    (ev : List (Event μ)), setDirty fuel h o = some (h', ev) → DirtyOnly h h'
  | 0, _, _, _, _, hrun => by simp [setDirty] at hrun
  | fuel + 1, h, o, h', ev, hrun => by
    have hloop : ∀ (cs : List Nat) (h : Heap α) (h' : Heap α) (ev : List (Event μ)),
        forChildren (setDirty fuel) h cs = some (h', ev) → DirtyOnly h h' := by
      intro cs
      induction cs with
      | nil =>
        intro h h' ev hr
        simp only [forChildren, Option.some.injEq, Prod.mk.injEq] at hr
        rw [← hr.1]
        exact DirtyOnly.same h
      | cons c cs ih =>
        intro h h' ev hr
        simp only [forChildren] at hr
        cases h1 : setDirty (μ := μ) fuel h c with
        | none => simp [h1] at hr
        | some r1 =>
          obtain ⟨ha, eva⟩ := r1
          simp only [h1] at hr
          cases h2 : forChildren (setDirty (μ := μ) fuel) ha cs with
          | none => simp [h2] at hr
          | some r2 =>
            obtain ⟨hb, evb⟩ := r2
            simp only [h2, Option.some.injEq, Prod.mk.injEq] at hr
            rw [← hr.1]
            exact (setDirty_frame fuel h c ha eva h1).andThen (ih ha hb evb h2)
    simp only [setDirty] at hrun
    split at hrun
    · simp only [Option.some.injEq, Prod.mk.injEq] at hrun
      rw [← hrun.1]
      exact DirtyOnly.same h
    · cases h1 : forChildren (setDirty (μ := μ) fuel) h (h o).children with
      | none => simp [h1] at hrun
      | some r1 =>
        obtain ⟨ha, eva⟩ := r1
        simp only [h1, Option.some.injEq, Prod.mk.injEq] at hrun
        rw [← hrun.1]
        exact (hloop _ h ha eva h1).andThen (DirtyOnly.setFlag ha o true)

/-- Whatever the fuel, the object `setDirty()` was called on is dirty when the
call returns. -/
theorem setDirty_dirty {α μ : Type} (fuel : Nat) (h : Heap α) (o : Nat) (h' : Heap α)
    (ev : List (Event μ)) (hrun : setDirty fuel h o = some (h', ev)) : (h' o).dirty = true := by
  cases fuel with
  | zero => simp [setDirty] at hrun
  | succ fuel =>
    simp only [setDirty] at hrun
    split at hrun
    · rename_i hd
      simp only [Option.some.injEq, Prod.mk.injEq] at hrun
      rw [← hrun.1]
      exact hd
    · cases h1 : forChildren (setDirty (μ := μ) fuel) h (h o).children with
      | none => simp [h1] at hrun
      | some r1 =>
        obtain ⟨ha, eva⟩ := r1
        simp only [h1, Option.some.injEq, Prod.mk.injEq] at hrun
        rw [← hrun.1]
        simp [Heap.modify]

/-- Going up from a descendant of `this`, the loop never ends at a null
parent. -/
theorem reachesThis_ne_false {α : Type} {h : Heap α} {this p k : Nat} (ha : Ancestor h this p k) :
    ∀ fuel, reachesThis h this fuel (some p) ≠ some false := by
  induction ha with
  | self =>
    intro fuel
    cases fuel with
    | zero => simp [reachesThis]
    | succ fuel => simp [reachesThis]
  | @up o q n hp _ ih =>
    intro fuel
    cases fuel with
    | zero => simp [reachesThis]
    | succ fuel =>
      by_cases ho : o = this
      · simp [reachesThis, ho]
      · simp only [reachesThis, ho, if_false, hp]
        exact ih fuel

/-- Going up from a descendant of `this`, the loop meets `this`. -/
theorem reachesThis_of_ancestor {α : Type} {h : Heap α} {this p k : Nat} (ha : Ancestor h this p k) :
    ∀ fuel, k < fuel → reachesThis h this fuel (some p) = some true := by
  induction ha with
  | self =>
    intro fuel hf
    obtain ⟨f, rfl⟩ : ∃ f, fuel = f + 1 := ⟨fuel - 1, by omega⟩
    simp [reachesThis]
  | @up o q n hp _ ih =>
    intro fuel hf
    obtain ⟨f, rfl⟩ : ∃ f, fuel = f + 1 := ⟨fuel - 1, by omega⟩
    by_cases ho : o = this
    · simp [reachesThis, ho]
    · simp only [reachesThis, ho, if_false, hp]
      exact ih f (by omega)

/-- Going up from an object that is not below `this`, the loop ends at the
null parent of the root. -/
theorem reachesThis_of_depth {α : Type} {h : Heap α} {this p d : Nat} (hd : Depth h p d)
    (hna : ∀ k, ¬ Ancestor h this p k) :
    ∀ fuel, d + 2 ≤ fuel → reachesThis h this fuel (some p) = some false := by
  induction hd with
  | @root o hp =>
    intro fuel hf
    obtain ⟨f, rfl⟩ : ∃ f, fuel = f + 2 := ⟨fuel - 2, by omega⟩
    have ho : o ≠ this := fun e => hna 0 (e ▸ Ancestor.self)
    simp [reachesThis, ho, hp]
  | @child o q n hp _ ih =>
    intro fuel hf
    obtain ⟨f, rfl⟩ : ∃ f, fuel = f + 1 := ⟨fuel - 1, by omega⟩
    have ho : o ≠ this := fun e => hna 0 (e ▸ Ancestor.self)
    simp only [reachesThis, ho, if_false, hp]
    exact ih (fun k hk => hna (k + 1) (Ancestor.up hp hk)) f (by omega)

/-- With child lists that agree with `parent()`, what is reached going down
child lists is a descendant. -/
theorem Sub.ancestor {α : Type} {h : Heap α} (hchild : ∀ p c, c ∈ (h p).children ↔ (h c).parent = some p)
    {o x : Nat} (hs : Sub h o x) : ∃ k, Ancestor h o x k := by
  induction hs with
  | self => exact ⟨0, Ancestor.self⟩
  | down _ hmem ih =>
    obtain ⟨k, hk⟩ := ih
    exact ⟨k + 1, Ancestor.up ((hchild _ _).1 hmem) hk⟩

/-- With child lists that agree with `parent()`, a descendant is reached going
down child lists. -/
theorem Ancestor.sub {α : Type} {h : Heap α} (hchild : ∀ p c, c ∈ (h p).children ↔ (h c).parent = some p)
    {o x k : Nat} (ha : Ancestor h o x k) : Sub h o x := by
  induction ha with
  | self => exact Sub.self
  | up hp _ ih => exact Sub.down ih ((hchild _ _).2 hp)

/-- A subtree whose child lists have not grown has not grown. -/
theorem subtreeWithin_of_subset {α : Type} {h h' : Heap α} :
    ∀ (n o : Nat), (∀ x, Sub h o x → ∀ c ∈ (h' x).children, c ∈ (h x).children) →
      subtreeWithin h n o = true → subtreeWithin h' n o = true
  | 0, _, _, hn => by simp [subtreeWithin] at hn
  | n + 1, o, hsub, hn => by
    rw [subtreeWithin, List.all_eq_true] at hn ⊢
    intro c hc
    have hc' := hsub o Sub.self c hc
    exact subtreeWithin_of_subset n c
      (fun x hx => hsub x ((Sub.down Sub.self hc').comp hx)) (hn c hc')

/-- The links after lines 71-75, when the old parent, the new parent and
`this` are three different things. -/
theorem relink_apply {α : Type} (h : Heap α) (this : Nat) (parent : Option Nat)
    (hold : (h this).parent ≠ some this) (hnew : parent ≠ some this)
    (hne : (h this).parent ≠ parent) (x : Nat) :
    relink h this parent x =
      { h x with
        parent := if x = this then parent else (h x).parent
        children :=
          if some x = parent then (h x).children ++ [this]
          else if some x = (h this).parent then (h x).children.erase this
          else (h x).children } := by
  cases hq : (h this).parent with
  | none =>
    cases parent with
    | none => exact absurd hq hne
    | some p =>
      have hp : p ≠ this := fun e => hnew (by rw [e])
      simp only [relink, hq, LinkedList.insert, Heap.modify]
      by_cases hx : x = this
      · subst hx
        have : ¬ x = p := fun e => hp e.symm
        simp [this, hp.symm]
      · by_cases hxp : x = p
        · subst hxp
          simp [hx]
        · have : ¬ p = x := fun e => hxp e.symm
          simp [hx, hxp, this]
  | some q =>
    have hqt : q ≠ this := fun e => hold (by rw [hq, e])
    cases parent with
    | none =>
      simp only [relink, hq, LinkedList.cut, Heap.modify]
      by_cases hx : x = this
      · subst hx
        have : ¬ x = q := fun e => hqt e.symm
        simp [this, hqt.symm]
      · by_cases hxq : x = q
        · subst hxq
          simp [hx]
        · have : ¬ q = x := fun e => hxq e.symm
          simp [hx, hxq, this]
    | some p =>
      have hp : p ≠ this := fun e => hnew (by rw [e])
      have hqp : q ≠ p := fun e => hne (by rw [hq, e])
      simp only [relink, hq, LinkedList.cut, LinkedList.insert, Heap.modify]
      by_cases hx : x = this
      · subst hx
        have h1 : ¬ x = p := fun e => hp e.symm
        have h2 : ¬ x = q := fun e => hqt e.symm
        simp [h1, h2, hp.symm, hqt.symm]
      · by_cases hxp : x = p
        · subst hxp
          have : ¬ x = q := fun e => hqp e.symm
          simp [hx, this]
        · have h1 : ¬ p = x := fun e => hxp e.symm
          by_cases hxq : x = q
          · subst hxq
            simp [hx, hxp, h1]
          · have h2 : ¬ q = x := fun e => hxq e.symm
            simp [hx, hxp, hxq, h1, h2]

theorem Depth.of_parent_eq {α : Type} {h h' : Heap α} (hp : ∀ x, (h' x).parent = (h x).parent) {o n : Nat}
    (hd : Depth h o n) : Depth h' o n := by
  induction hd with
  | root hr => exact Depth.root (by rw [hp, hr])
  | child hc _ ih => exact Depth.child (by rw [hp, hc]) ih

/-- Changing `Dirty` flags keeps the links consistent. -/
theorem TreeOK.of_dirtyOnly {α : Type} {h h' : Heap α} (hf : DirtyOnly h h') (ht : TreeOK h) : TreeOK h' where
  acyclic := fun o => by
    obtain ⟨n, hn⟩ := ht.acyclic o
    exact ⟨n, hn.of_parent_eq hf.parent_eq⟩
  child := fun p c => by
    rw [hf.children_eq, hf.parent_eq]
    exact ht.child p c
  nodup := fun p => by
    rw [hf.children_eq]
    exact ht.nodup p

theorem TreeOK.old_ne {α : Type} {h : Heap α} (ht : TreeOK h) (this : Nat) :
    (h this).parent ≠ some this := fun e => by
  obtain ⟨n, hn⟩ := ht.acyclic this
  exact hn.parent_ne e rfl

/-- The chain of parents of an object that is not below `this` is the same
after `this` has been given another parent. -/
theorem Depth.avoid {α : Type} {h h' : Heap α} {this : Nat}
    (hp : ∀ x, x ≠ this → (h' x).parent = (h x).parent) {x d : Nat} (hd : Depth h x d)
    (hna : ∀ k, ¬ Ancestor h this x k) : Depth h' x d := by
  induction hd with
  | @root o hr =>
    have ho : o ≠ this := fun e => hna 0 (e ▸ Ancestor.self)
    exact Depth.root (by rw [hp o ho, hr])
  | @child o q n hc _ ih =>
    have ho : o ≠ this := fun e => hna 0 (e ▸ Ancestor.self)
    exact Depth.child (by rw [hp o ho, hc]) (ih fun k hk => hna (k + 1) (Ancestor.up hc hk))

/-- Lines 71-75 keep the links consistent when the new parent is not `this`
or below it. -/
theorem relink_treeOK {α : Type} {h : Heap α} (ht : TreeOK h) (this : Nat) (parent : Option Nat)
    (hne : (h this).parent ≠ parent)
    (hdesc : ∀ p, parent = some p → ∀ k, ¬ Ancestor h this p k) :
    TreeOK (relink h this parent) := by
  have hold := ht.old_ne this
  have hnew : parent ≠ some this := fun e => hdesc this e 0 Ancestor.self
  have happ := relink_apply h this parent hold hnew hne
  have hpar : ∀ x, (relink h this parent x).parent =
      if x = this then parent else (h x).parent := fun x => by rw [happ x]
  have hkids : ∀ x, (relink h this parent x).children =
      if some x = parent then (h x).children ++ [this]
      else if some x = (h this).parent then (h x).children.erase this
      else (h x).children := fun x => by rw [happ x]
  have hthis : ∀ p, this ∈ (h p).children ↔ (h this).parent = some p := fun p => ht.child p this
  refine ⟨?_, ?_, ?_⟩
  · have hself : ∃ n, Depth (relink h this parent) this n := by
      obtain hpa | ⟨p, hpa⟩ : parent = none ∨ ∃ p, parent = some p := by
        cases parent with
        | none => exact Or.inl rfl
        | some p => exact Or.inr ⟨p, rfl⟩
      · exact ⟨0, Depth.root (by rw [hpar, if_pos rfl, hpa])⟩
      · obtain ⟨d, hd⟩ := ht.acyclic p
        have hd' : Depth (relink h this parent) p d :=
          hd.avoid (fun x hx => by rw [hpar, if_neg hx]) (hdesc p hpa)
        exact ⟨d + 1, Depth.child (by rw [hpar, if_pos rfl, hpa]) hd'⟩
    intro o
    obtain ⟨n, hn⟩ := ht.acyclic o
    induction hn with
    | @root o hr =>
      by_cases ho : o = this
      · rw [ho]
        exact hself
      · exact ⟨0, Depth.root (by rw [hpar, if_neg ho, hr])⟩
    | @child o q n hc _ ih =>
      by_cases ho : o = this
      · rw [ho]
        exact hself
      · obtain ⟨m, hm⟩ := ih
        exact ⟨m + 1, Depth.child (by rw [hpar, if_neg ho, hc]) hm⟩
  · intro p c
    rw [hkids, hpar]
    by_cases hpn : some p = parent
    · rw [if_pos hpn, List.mem_append, List.mem_singleton]
      by_cases hc : c = this
      · simp [hc, hpn]
      · simp only [hc, or_false, if_false]
        exact ht.child p c
    · rw [if_neg hpn]
      by_cases hpo : some p = (h this).parent
      · rw [if_pos hpo, (ht.nodup p).mem_erase_iff]
        by_cases hc : c = this
        · simp only [hc, ne_eq, not_true_eq_false, false_and, if_true, false_iff]
          exact fun e => hpn e.symm
        · simp only [hc, ne_eq, not_false_eq_true, true_and, if_false]
          exact ht.child p c
      · rw [if_neg hpo]
        by_cases hc : c = this
        · simp only [hc, if_true]
          rw [hthis]
          constructor
          · intro e
            exact absurd e.symm hpo
          · intro e
            exact absurd e.symm hpn
        · simp only [hc, if_false]
          exact ht.child p c
  · intro p
    rw [hkids]
    by_cases hpn : some p = parent
    · rw [if_pos hpn]
      refine List.Nodup.append (ht.nodup p) (List.nodup_singleton this) ?_
      intro c hc hc'
      rw [List.mem_singleton] at hc'
      subst hc'
      exact hne (((hthis p).1 hc).trans hpn)
    · rw [if_neg hpn]
      by_cases hpo : some p = (h this).parent
      · rw [if_pos hpo]
        exact (ht.nodup p).erase this
      · rw [if_neg hpo]
        exact ht.nodup p

/-- Lines 71-75 leave the subtree below `this` as it is. -/
theorem relink_within {α : Type} {h : Heap α} (ht : TreeOK h) (this : Nat) (parent : Option Nat)
    (hne : (h this).parent ≠ parent)
    (hdesc : ∀ p, parent = some p → ∀ k, ¬ Ancestor h this p k) {n : Nat}
    (hn : subtreeWithin h n this = true) : subtreeWithin (relink h this parent) n this = true := by
  have hold := ht.old_ne this
  have hnew : parent ≠ some this := fun e => hdesc this e 0 Ancestor.self
  have happ := relink_apply h this parent hold hnew hne
  refine subtreeWithin_of_subset n this (fun x hx c hc => ?_) hn
  rw [happ x] at hc
  obtain ⟨k, hk⟩ := hx.ancestor ht.child
  have hxp : ¬ some x = parent := fun e => hdesc x e.symm k hk
  simp only [hxp, if_false] at hc
  split at hc
  · exact List.mem_of_mem_erase hc
  · exact hc

/-- The ways `setParent()` returns: without a change, or after the links have
been changed and `this` made dirty. -/
theorem setParent_cases {α μ : Type} {fuel : Nat} {h h' : Heap α} {this r : Nat} {parent : Option Nat}
    {ev : List (Event μ)} (hrun : setParent fuel h this parent = some (h', ev, r)) :
    r = this ∧
    ((h' = h ∧ ev = []) ∨
      ((h this).parent ≠ parent ∧ (h this).isScene = false ∧
        reachesThis h this fuel parent = some false ∧
        setDirty fuel (relink h this parent) this = some (h', ev))) := by
  unfold setParent at hrun
  split at hrun
  · simp only [Option.some.injEq, Prod.mk.injEq] at hrun
    exact ⟨hrun.2.2.symm, Or.inl ⟨hrun.1.symm, hrun.2.1.symm⟩⟩
  · rename_i hcond
    have hc1 : (h this).parent ≠ parent := fun e => hcond (Or.inl e)
    have hc2 : (h this).isScene = false := by
      cases hs : (h this).isScene with
      | false => rfl
      | true => exact absurd (Or.inr hs) hcond
    cases hreach : reachesThis h this fuel parent with
    | none => simp [hreach] at hrun
    | some b =>
      cases b with
      | true =>
        simp only [hreach, Option.some.injEq, Prod.mk.injEq] at hrun
        exact ⟨hrun.2.2.symm, Or.inl ⟨hrun.1.symm, hrun.2.1.symm⟩⟩
      | false =>
        simp only [hreach] at hrun
        cases hd : setDirty (μ := μ) fuel (relink h this parent) this with
        | none => simp [hd] at hrun
        | some res =>
          obtain ⟨h3, ev3⟩ := res
          simp only [hd, Option.some.injEq, Prod.mk.injEq] at hrun
          obtain ⟨rfl, rfl, rfl⟩ := hrun
          exact ⟨rfl, Or.inr ⟨hc1, hc2, rfl, rfl⟩⟩

/-- A call of `setParent()` that returns keeps the links consistent. -/
theorem setParent_treeOK {α μ : Type} {fuel : Nat} {h h' : Heap α} {this r : Nat} {parent : Option Nat}
    {ev : List (Event μ)} (ht : TreeOK h)
    (hrun : setParent fuel h this parent = some (h', ev, r)) : TreeOK h' := by
  obtain ⟨_, ⟨rfl, _⟩ | ⟨hne, _, hreach, hd⟩⟩ := setParent_cases hrun
  · exact ht
  · have hdesc : ∀ p, parent = some p → ∀ k, ¬ Ancestor h this p k := by
      intro p hp k hk
      rw [hp] at hreach
      exact reachesThis_ne_false hk fuel hreach
    exact (relink_treeOK ht this parent hne hdesc).of_dirtyOnly (setDirty_frame _ _ _ _ _ hd)

/-- Lines 71-75 do not lengthen any subtree by more than the subtree below
`this`. -/
theorem relink_finite {α : Type} {h : Heap α} (ht : TreeOK h) (this : Nat) (parent : Option Nat)
    (hne : (h this).parent ≠ parent)
    (hdesc : ∀ p, parent = some p → ∀ k, ¬ Ancestor h this p k) {N : Nat}
    (hN : subtreeWithin h N this = true) :
    ∀ n o, subtreeWithin h n o = true → subtreeWithin (relink h this parent) (n + N) o = true
  | 0, _, hn => by simp [subtreeWithin] at hn
  | n + 1, o, hn => by
    have hold := ht.old_ne this
    have hnew : parent ≠ some this := fun e => hdesc this e 0 Ancestor.self
    have happ := relink_apply h this parent hold hnew hne
    rw [subtreeWithin, List.all_eq_true] at hn
    rw [show n + 1 + N = (n + N) + 1 by omega, subtreeWithin, List.all_eq_true]
    intro c hc
    rw [happ o] at hc
    have hcases : c ∈ (h o).children ∨ c = this := by
      simp only at hc
      split at hc
      · rcases List.mem_append.1 hc with hc | hc
        · exact Or.inl hc
        · exact Or.inr (List.mem_singleton.1 hc)
      · split at hc
        · exact Or.inl (List.mem_of_mem_erase hc)
        · exact Or.inl hc
    rcases hcases with hc | rfl
    · exact relink_finite ht this parent hne hdesc hN n c (hn c hc)
    · exact subtreeWithin_mono _ (Nat.le_add_left N n) (relink_within ht c parent hne hdesc hN)

/-- With consistent links and a finite subtree below `this`, `setParent()`
returns when given enough fuel. -/
theorem setParent_total {α μ : Type} {h : Heap α} (ht : TreeOK h) (this : Nat) (parent : Option Nat) {n : Nat}
    (hn : subtreeWithin h n this = true) :
    ∃ N, ∀ fuel, N ≤ fuel →
      ∃ (h' : Heap α) (ev : List (Event μ)), setParent fuel h this parent = some (h', ev, this) := by
  by_cases hcond : (h this).parent = parent ∨ (h this).isScene = true
  · exact ⟨0, fun fuel _ => ⟨h, [], by simp only [setParent, hcond, if_true]⟩⟩
  · have hne : (h this).parent ≠ parent := fun e => hcond (Or.inl e)
    by_cases hanc : ∃ p k, parent = some p ∧ Ancestor h this p k
    · obtain ⟨p, k, hp, hk⟩ := hanc
      refine ⟨k + 1, fun fuel hf => ⟨h, [], ?_⟩⟩
      subst hp
      simp only [setParent, hcond, if_false, reachesThis_of_ancestor hk fuel (by omega)]
    · have hdesc : ∀ p, parent = some p → ∀ k, ¬ Ancestor h this p k :=
        fun p hp k hk => hanc ⟨p, k, hp, hk⟩
      have hreach : ∃ M, ∀ fuel, M ≤ fuel → reachesThis h this fuel parent = some false := by
        obtain hpa | ⟨p, hpa⟩ : parent = none ∨ ∃ p, parent = some p := by
          cases parent with
          | none => exact Or.inl rfl
          | some p => exact Or.inr ⟨p, rfl⟩
        · refine ⟨1, fun fuel hf => ?_⟩
          obtain ⟨f, rfl⟩ : ∃ f, fuel = f + 1 := ⟨fuel - 1, by omega⟩
          rw [hpa]
          rfl
        · obtain ⟨d, hd⟩ := ht.acyclic p
          refine ⟨d + 2, fun fuel hf => ?_⟩
          rw [hpa]
          exact reachesThis_of_depth hd (hdesc p hpa) fuel hf
      obtain ⟨M, hM⟩ := hreach
      refine ⟨M + n, fun fuel hf => ?_⟩
      have hsub : subtreeWithin (relink h this parent) fuel this = true :=
        subtreeWithin_mono _ (by omega) (relink_within ht this parent hne hdesc hn)
      obtain ⟨h', ev, hrun, _⟩ := setDirty_spec (μ := μ) fuel _ this hsub
      exact ⟨h', ev, by simp only [setParent, hcond, if_false, hM fuel (by omega), hrun]⟩

/-- A call of `setParent()` that returns keeps every subtree finite. -/
theorem setParent_finite {α μ : Type} {fuel : Nat} {h h' : Heap α} {this r : Nat} {parent : Option Nat}
    {ev : List (Event μ)} (ht : TreeOK h) (hfin : ∀ o, ∃ n, subtreeWithin h n o = true)
    (hrun : setParent fuel h this parent = some (h', ev, r)) :
    ∀ o, ∃ n, subtreeWithin h' n o = true := by
  obtain ⟨_, ⟨rfl, _⟩ | ⟨hne, _, hreach, hd⟩⟩ := setParent_cases hrun
  · exact hfin
  · have hdesc : ∀ p, parent = some p → ∀ k, ¬ Ancestor h this p k := by
      intro p hp k hk
      rw [hp] at hreach
      exact reachesThis_ne_false hk fuel hreach
    intro o
    obtain ⟨N, hN⟩ := hfin this
    obtain ⟨n, hn⟩ := hfin o
    refine ⟨n + N, ?_⟩
    rw [subtreeWithin_congr (setDirty_frame _ _ _ _ _ hd).children_eq]
    exact relink_finite ht this parent hne hdesc hN n o hn

/-- States reached from parentless objects have consistent links and finite
subtrees. -/
theorem Reachable.invariant {α μ : Type} {h0 h : Heap α} (hinit : ∀ o, (h0 o).parent = none ∧
    (h0 o).children = []) (hreach : Reachable μ h0 h) :
    TreeOK h ∧ ∀ o, ∃ n, subtreeWithin h n o = true := by
  induction hreach with
  | init =>
    refine ⟨⟨fun o => ⟨0, Depth.root (hinit o).1⟩, fun p c => ?_, fun p => ?_⟩, fun o => ⟨1, ?_⟩⟩
    · rw [(hinit p).2, (hinit c).1]
      simp
    · rw [(hinit p).2]
      exact List.nodup_nil
    · rw [subtreeWithin, (hinit o).2]
      rfl
  | step fuel this parent ev r _ hrun ih =>
    exact ⟨setParent_treeOK ih.1 hrun, setParent_finite ih.1 ih.2 hrun⟩

theorem chainHeap_treeOK : TreeOK chainHeap := by
  have d0 : Depth chainHeap 0 0 := Depth.root rfl
  have d1 : Depth chainHeap 1 1 := Depth.child (p := 0) rfl d0
  have d2 : Depth chainHeap 2 2 := Depth.child (p := 1) rfl d1
  have d3 : Depth chainHeap 3 3 := Depth.child (p := 2) rfl d2
  refine ⟨fun o => ?_, fun p c => ?_, fun p => ?_⟩
  · by_cases h1 : o = 1
    · exact ⟨1, h1 ▸ d1⟩
    · by_cases h2 : o = 2
      · exact ⟨2, h2 ▸ d2⟩
      · by_cases h3 : o = 3
        · exact ⟨3, h3 ▸ d3⟩
        · exact ⟨0, Depth.root (by simp [chainHeap, h1, h2, h3])⟩
  · simp only [chainHeap]
    split_ifs <;> simp_all <;> omega
  · simp only [chainHeap]
    split_ifs <;> simp

/-- C13: effect of `setParent` when it is not a no-op. With consistent links,
`this` not a scene, `parent` different from the current parent and neither
`this` nor below it, and fuel for the walk up from `parent` and for the
subtree below `this`: the call returns `this`; afterwards the parent of `this`
is `parent`; the child list of the old parent is the old one without `this`,
in the same order; the child list of the new parent is the old one followed
by `this`; every other child list and every other parent link is unchanged;
`this` is dirty; nothing but links and `Dirty` flags has changed and no
`Dirty` flag has been cleared. -/
theorem setParent_effect {α μ : Type} (h : Heap α) (this : Nat) (parent : Option Nat) (fuel : Nat)
    (ht : TreeOK h) (hscene : (h this).isScene = false) (hne : (h this).parent ≠ parent)
    (hdesc : ∀ p, parent = some p → ∀ k, ¬ Ancestor h this p k)
    (hsub : subtreeWithin h fuel this = true)
    (hfuel : ∀ p d, parent = some p → Depth h p d → d + 2 ≤ fuel) :
    ∃ (h' : Heap α) (ev : List (Event μ)),
      setParent fuel h this parent = some (h', ev, this) ∧
      (h' this).parent = parent ∧
      (∀ q, (h this).parent = some q →
        (h' q).children = (h q).children.filter (fun c => c != this) ∧
        this ∉ (h' q).children) ∧
      (∀ p, parent = some p → (h' p).children = (h p).children ++ [this]) ∧
      (∀ x, some x ≠ (h this).parent → some x ≠ parent → (h' x).children = (h x).children) ∧
      (∀ o, o ≠ this → (h' o).parent = (h o).parent) ∧
      (h' this).dirty = true ∧
      (∀ x, (h x).dirty = true → (h' x).dirty = true) ∧
      (∀ x, (h' x).features = (h x).features ∧ (h' x).transformation = (h x).transformation ∧
        (h' x).isScene = (h x).isScene ∧ (h' x).visited = (h x).visited ∧
        (h' x).joint = (h x).joint ∧ (h' x).counter = (h x).counter) := by
  have hcond : ¬ ((h this).parent = parent ∨ (h this).isScene = true) := by
    rintro (e | e)
    · exact hne e
    · rw [hscene] at e
      cases e
  have hreach : reachesThis h this fuel parent = some false := by
    obtain hpa | ⟨p, hpa⟩ : parent = none ∨ ∃ p, parent = some p := by
      cases parent with
      | none => exact Or.inl rfl
      | some p => exact Or.inr ⟨p, rfl⟩
    · cases fuel with
      | zero => simp [subtreeWithin] at hsub
      | succ f =>
        rw [hpa]
        rfl
    · obtain ⟨d, hd⟩ := ht.acyclic p
      rw [hpa]
      exact reachesThis_of_depth hd (hdesc p hpa) fuel (hfuel p d hpa hd)
  have hold := ht.old_ne this
  have hnew : parent ≠ some this := fun e => hdesc this e 0 Ancestor.self
  have happ := relink_apply h this parent hold hnew hne
  obtain ⟨h', ev, hrun, post⟩ := setDirty_spec (μ := μ) fuel _ this
    (relink_within ht this parent hne hdesc hsub)
  have hfr := post.frame
  refine ⟨h', ev, by simp only [setParent, hcond, if_false, hreach, hrun], ?_, ?_, ?_, ?_, ?_,
    post.rootsDirty this (List.mem_singleton_self this), ?_, ?_⟩
  · rw [hfr.parent_eq, happ]
    simp
  · intro q hq
    have h1 : (h' q).children = (h q).children.erase this := by
      rw [hfr.children_eq, happ]
      have hqp : ¬ some q = parent := fun e => hne (hq.trans e)
      simp [hqp, hq]
    rw [h1]
    exact ⟨(ht.nodup q).erase_eq_filter this, fun hm => ((ht.nodup q).mem_erase_iff.1 hm).1 rfl⟩
  · intro p hp
    rw [hfr.children_eq, happ]
    simp [hp]
  · intro x hx1 hx2
    rw [hfr.children_eq, happ]
    simp [hx1, hx2]
  · intro o ho
    rw [hfr.parent_eq, happ]
    simp [ho]
  · intro x hx
    refine post.mono x ?_
    rw [happ]
    exact hx
  · intro x
    rw [hfr x, happ]
    exact ⟨rfl, rfl, rfl, rfl, rfl, rfl⟩

/-- C13, on the chain `0 <- 1 <- 2 <- 3`: the leaf `3` is moved from its
parent `2` to the parent `1`. -/
theorem setParent_effect_witness :
    (∃ h', setParent 5 chainHeap 3 (some 1) = some (h', ([] : List (Event (List Nat))), 3) ∧
      (h' 1).children = [2, 3] ∧ (h' 2).children = [] ∧ (h' 3).parent = some 1 ∧
      (h' 3).dirty = true) ∧
    ∃ (h' : Heap (List Nat)) (ev : List (Event (List Nat))),
      setParent 5 chainHeap 3 (some 1) = some (h', ev, 3) ∧
      (h' 3).parent = some 1 ∧
      (∀ q, (chainHeap 3).parent = some q →
        (h' q).children = (chainHeap q).children.filter (fun c => c != 3) ∧
        3 ∉ (h' q).children) ∧
      (∀ p, some 1 = some p → (h' p).children = (chainHeap p).children ++ [3]) ∧
      (∀ x, some x ≠ (chainHeap 3).parent → some x ≠ some 1 →
        (h' x).children = (chainHeap x).children) ∧
      (∀ o, o ≠ 3 → (h' o).parent = (chainHeap o).parent) ∧
      (h' 3).dirty = true ∧
      (∀ x, (chainHeap x).dirty = true → (h' x).dirty = true) ∧
      (∀ x, (h' x).features = (chainHeap x).features ∧
        (h' x).transformation = (chainHeap x).transformation ∧
        (h' x).isScene = (chainHeap x).isScene ∧ (h' x).visited = (chainHeap x).visited ∧
        (h' x).joint = (chainHeap x).joint ∧ (h' x).counter = (chainHeap x).counter) :=
  ⟨⟨_, rfl, by decide, by decide, by decide, by decide⟩,
  setParent_effect chainHeap 3 (some 1) 5 chainHeap_treeOK rfl (by decide)
    (fun p hp k hk => by
      cases hp
      cases hk with
      | up hpar hk' =>
        cases hpar
        cases hk' with
        | up hpar' hk'' =>
          cases hpar')
    (by decide)
    (fun p d hp hd => by
      cases hp
      have d1 : Depth chainHeap 1 1 := Depth.child (p := 0) rfl (Depth.root rfl)
      have := hd.depth_unique d1
      omega)⟩

/-- C14: no-op cases of `setParent`. When `this` is a scene, or `parent` is
the current parent (null for a parentless object), or `parent` is `this` or a
descendant of `this` reached from it within the fuel, the call returns `this`,
leaves the heap as it is and makes no callback. -/
theorem setParent_noop {α μ : Type} (h : Heap α) (this : Nat) (parent : Option Nat) (fuel : Nat)
    (hnoop : (h this).isScene = true ∨ (h this).parent = parent ∨
      ∃ p k, parent = some p ∧ Ancestor h this p k ∧ k < fuel) :
    setParent fuel h this parent = some (h, ([] : List (Event μ)), this) := by
  by_cases hcond : (h this).parent = parent ∨ (h this).isScene = true
  · simp only [setParent, hcond, if_true]
  · rcases hnoop with hs | hp | ⟨p, k, hp, hk, hf⟩
    · exact absurd (Or.inr hs) hcond
    · exact absurd (Or.inl hp) hcond
    · subst hp
      simp only [setParent, hcond, if_false, reachesThis_of_ancestor hk fuel hf]

/-- C14, on the chain `0 <- 1 <- 2 <- 3` with the scene `0`: the scene is
given the parent `3`; `2` is given its parent `1` again; the parentless object
`7` is given no parent; `1` is given itself and its descendant `3`. -/
theorem setParent_noop_witness :
    setParent 5 chainHeap 0 (some 3) = some (chainHeap, ([] : List (Event (List Nat))), 0) ∧
    setParent 5 chainHeap 2 (some 1) = some (chainHeap, ([] : List (Event (List Nat))), 2) ∧
    setParent 5 chainHeap 7 none = some (chainHeap, ([] : List (Event (List Nat))), 7) ∧
    setParent 5 chainHeap 1 (some 1) = some (chainHeap, ([] : List (Event (List Nat))), 1) ∧
    setParent 5 chainHeap 1 (some 3) = some (chainHeap, ([] : List (Event (List Nat))), 1) :=
  ⟨setParent_noop chainHeap 0 (some 3) 5 (Or.inl rfl),
    setParent_noop chainHeap 2 (some 1) 5 (Or.inr (Or.inl rfl)),
    setParent_noop chainHeap 7 none 5 (Or.inr (Or.inl rfl)),
    setParent_noop chainHeap 1 (some 1) 5 (Or.inr (Or.inr ⟨1, 0, rfl, Ancestor.self, by decide⟩)),
    setParent_noop chainHeap 1 (some 3) 5 (Or.inr (Or.inr ⟨3, 2, rfl,
      Ancestor.up (p := 2) rfl (Ancestor.up (p := 1) rfl Ancestor.self), by decide⟩))⟩

/-- C15: cycle prevention. In every state reached from objects without parent
and without children by calls of `setParent` that return, every parent chain
ends at a parentless object after finitely many steps, an object is in the
child list of `p` exactly when its parent is `p` (and it is there once); and
in such a state every call of `setParent` returns when given enough fuel. -/
theorem setParent_keeps_tree {α : Type} (μ : Type) (h0 h : Heap α)
    (hinit : ∀ o, (h0 o).parent = none ∧ (h0 o).children = [])
    (hreach : Reachable μ h0 h) :
    (∀ o, ∃ n, Depth h o n) ∧
    (∀ p c, c ∈ (h p).children ↔ (h c).parent = some p) ∧
    (∀ p, (h p).children.Nodup) ∧
    (∀ this parent, ∃ N, ∀ fuel, N ≤ fuel →
      ∃ (h' : Heap α) (ev : List (Event μ)),
        setParent fuel h this parent = some (h', ev, this)) := by
  obtain ⟨ht, hfin⟩ := Reachable.invariant hinit hreach
  refine ⟨ht.acyclic, ht.child, ht.nodup, fun this parent => ?_⟩
  obtain ⟨n, hn⟩ := hfin this
  exact setParent_total ht this parent hn

/-- C15, from four detached objects: `1` is put under `0`, `2` under `1`, and
then the attempt to put `0` under its descendant `2` changes nothing. -/
theorem setParent_keeps_tree_witness :
    ∃ (h1 h2 : Heap (List Nat)) (ev1 ev2 : List (Event (List Nat))),
      setParent 5 detachedHeap 1 (some 0) = some (h1, ev1, 1) ∧
      setParent 5 h1 2 (some 1) = some (h2, ev2, 2) ∧
      setParent 5 h2 0 (some 2) = some (h2, ([] : List (Event (List Nat))), 0) ∧
      (h2 2).parent = some 1 ∧ (h2 1).parent = some 0 ∧ (h2 0).parent = none ∧
      (h2 0).children = [1] ∧ (h2 1).children = [2] ∧
      ((∀ o, ∃ n, Depth h2 o n) ∧
        (∀ p c, c ∈ (h2 p).children ↔ (h2 c).parent = some p) ∧
        (∀ p, (h2 p).children.Nodup) ∧
        (∀ this parent, ∃ N, ∀ fuel, N ≤ fuel →
          ∃ (h' : Heap (List Nat)) (ev : List (Event (List Nat))),
            setParent fuel h2 this parent = some (h', ev, this))) :=
  ⟨_, _, _, _, rfl, rfl, rfl, by decide, by decide, by decide, by decide, by decide,
    setParent_keeps_tree (List Nat) detachedHeap _ (fun _ => ⟨rfl, rfl⟩)
      (Reachable.step 5 2 (some 1) _ 2
        (Reachable.step 5 1 (some 0) _ 1 Reachable.init rfl) rfl)⟩

theorem absoluteTransformation_of_absRel {α μ : Type} {tr : Transformation α μ} {h : Heap α} {o n : Nat}
    {a : α} (ha : AbsRel tr h o a) (hd : Depth h o n) (fuel : Nat) (hf : n < fuel) :
    absoluteTransformation tr h fuel o = some a := by
  obtain ⟨b, hb⟩ := absoluteTransformation_of_depth tr hd fuel hf
  rw [hb, ha.functional (AbsRel.of_absoluteTransformation fuel o b hb)]

theorem AbsRel.unchanged_by_dirty {α μ : Type} {tr : Transformation α μ} {h h' : Heap α} (hf : DirtyOnly h h')
    {o : Nat} {a : α} (ha : AbsRel tr h' o a) : AbsRel tr h o a := by
  induction ha with
  | @root o hp =>
    rw [hf.transformation_eq]
    exact AbsRel.root (by rw [← hf.parent_eq, hp])
  | @child o p a hp _ ih =>
    rw [hf.transformation_eq]
    exact AbsRel.child (by rw [← hf.parent_eq, hp]) ih

/-- The first loop of `setClean()`, started on a dirty object `p` of depth `d`:
the stack it builds is `p` and its consecutive dirty ancestors, the base is
the identity when the root was reached and the absolute transformation of the
clean parent met otherwise. -/
theorem collectDirty_spec {α μ : Type} (tr : Transformation α μ) {h : Heap α} {p d : Nat} (hd : Depth h p d) :
    ∀ fuel, d < fuel → (h p).dirty = true →
      ∃ (L : List Nat) (base : α), DirtyChain h p L ∧
        (∀ objects, collectDirty tr h fuel p objects = some (L ++ objects, base)) ∧
        List.Chain' (fun a b => (h b).parent = some a) L ∧
        L.getLast? = some p ∧
        (∃ top, L.head? = some top ∧ (((h top).parent = none ∧ base = tr.identity) ∨
          ∃ q, (h top).parent = some q ∧ AbsRel tr h q base)) ∧
        (∀ x ∈ L, ∃ n, n ≤ d ∧ Depth h x n) := by
  induction hd with
  | @root o hp =>
    intro fuel hf hdirty
    obtain ⟨f, rfl⟩ : ∃ f, fuel = f + 1 := ⟨fuel - 1, by omega⟩
    refine ⟨[o], tr.identity, DirtyChain.root hdirty hp, fun objects => ?_,
      List.chain'_singleton o, rfl, ⟨o, rfl, Or.inl ⟨hp, rfl⟩⟩, fun x hx => ?_⟩
    · simp only [collectDirty, hp, List.singleton_append]
    · rw [List.mem_singleton] at hx
      rw [hx]
      exact ⟨0, Nat.le_refl 0, Depth.root hp⟩
  | @child o q n hp hq ih =>
    intro fuel hf hdirty
    obtain ⟨f, rfl⟩ : ∃ f, fuel = f + 1 := ⟨fuel - 1, by omega⟩
    cases hqd : (h q).dirty with
    | false =>
      obtain ⟨a, ha⟩ := absoluteTransformation_of_depth tr hq f (by omega)
      refine ⟨[o], a, DirtyChain.clean hdirty hp hqd, fun objects => ?_,
        List.chain'_singleton o, rfl,
        ⟨o, rfl, Or.inr ⟨q, hp, AbsRel.of_absoluteTransformation f q a ha⟩⟩, fun x hx => ?_⟩
      · simp [collectDirty, hp, hqd, ha]
      · rw [List.mem_singleton] at hx
        rw [hx]
        exact ⟨n + 1, Nat.le_refl _, Depth.child hp hq⟩
    | true =>
      obtain ⟨L, base, hchain, hrun, hadj, hlast, ⟨top, htop, hstart⟩, hdep⟩ :=
        ih f (by omega) hqd
      refine ⟨L ++ [o], base, DirtyChain.dirty hdirty hp hchain, fun objects => ?_, ?_,
        List.getLast?_concat L, ⟨top, ?_, hstart⟩, fun x hx => ?_⟩
      · simp [collectDirty, hp, hqd, hrun]
      · refine hadj.append (List.chain'_singleton o) ?_
        intro x hx y hy
        rw [hlast] at hx
        cases hx
        cases hy
        exact hp
      · cases L with
        | nil => cases htop
        | cons t rest => exact htop
      · rcases List.mem_append.1 hx with hx | hx
        · obtain ⟨m, hm, hdm⟩ := hdep x hx
          exact ⟨m, by omega, hdm⟩
        · rw [List.mem_singleton] at hx
          rw [hx]
          exact ⟨n + 1, Nat.le_refl _, Depth.child hp hq⟩

/-- The second loop of `setClean()`, on a stack that is a chain of parents and
children (top first) whose first object has `compose(base, local)` as its
absolute transformation. -/
theorem cleanStack_spec {α μ : Type} (tr : Transformation α μ) (h0 : Heap α) (fuel : Nat) :
    ∀ (L : List Nat) (h : Heap α) (base : α) (log : List (Event μ)), DirtyOnly h0 h →
      List.Chain' (fun a b => (h0 b).parent = some a) L →
      (∀ x, L.head? = some x → AbsRel tr h0 x (tr.compose base (h0 x).transformation)) →
      (∀ x ∈ L, ∃ n, n < fuel ∧ Depth h0 x n) →
      ∃ as, List.Forall₂ (fun x a => absoluteTransformation tr h0 fuel x = some a) L as ∧
        cleanStack tr h L base log =
          (fun x => if x ∈ L then { h x with dirty := false } else h x,
            log ++ (List.zipWith (fun x a => cleanFeatures tr a x (h0 x).features 0 none none)
              L as).flatten)
  | [], h, base, log, _, _, _, _ => by
    refine ⟨[], List.Forall₂.nil, ?_⟩
    simp [cleanStack]
  | o :: rest, h, base, log, hf, hadj, hstart, hdep => by
    have ha : AbsRel tr h0 o (tr.compose base (h0 o).transformation) := hstart o rfl
    obtain ⟨n, hn, hdn⟩ := hdep o (List.mem_cons_self _ _)
    have hfun := absoluteTransformation_of_absRel ha hdn fuel hn
    have hf1 : DirtyOnly h0 (h.modify o fun x => { x with dirty := false }) :=
      hf.andThen (DirtyOnly.setFlag h o false)
    have hstart1 : ∀ y, rest.head? = some y →
        AbsRel tr h0 y (tr.compose (tr.compose base (h0 o).transformation)
          (h0 y).transformation) := fun y hy =>
      AbsRel.child (hadj.rel_head? hy) ha
    obtain ⟨as, hall, hrun⟩ := cleanStack_spec tr h0 fuel rest
      (h.modify o fun x => { x with dirty := false })
      (tr.compose base (h0 o).transformation)
      (log ++ cleanFeatures tr (tr.compose base (h0 o).transformation) o (h0 o).features 0
        none none) hf1 hadj.tail hstart1 (fun x hx => hdep x (List.mem_cons_of_mem _ hx))
    refine ⟨tr.compose base (h0 o).transformation :: as, List.Forall₂.cons hfun hall, ?_⟩
    have e1 : (h o).transformation = (h0 o).transformation := hf.transformation_eq o
    have e2 : (h o).features = (h0 o).features := hf.features_eq o
    have hstep : cleanStack tr h (o :: rest) base log =
        cleanStack tr (h.modify o fun x => { x with dirty := false }) rest
          (tr.compose base (h0 o).transformation)
          (log ++ cleanFeatures tr (tr.compose base (h0 o).transformation) o (h0 o).features 0
            none none) := by
      simp only [cleanStack, setCleanWith, e1, e2]
    rw [hstep, hrun]
    refine Prod.ext ?_ ?_
    · funext x
      by_cases hxo : x = o
      · subst hxo
        by_cases hxr : x ∈ rest
        · simp [Heap.modify, hxr]
        · simp [Heap.modify, hxr]
      · by_cases hxr : x ∈ rest
        · simp [Heap.modify, hxo, hxr]
        · simp [Heap.modify, hxo, hxr]
    · simp [List.append_assoc]

/-- The chain of consecutive dirty ancestors of an object is determined. -/
theorem DirtyChain.unique {α : Type} {h : Heap α} {o : Nat} {L L' : List Nat} (a : DirtyChain h o L)
    (b : DirtyChain h o L') : L = L' := by
  induction a generalizing L' with
  | root _ hp =>
    cases b with
    | root _ _ => rfl
    | clean _ hp' _ => exact absurd (hp.symm.trans hp') (by simp)
    | dirty _ hp' _ => exact absurd (hp.symm.trans hp') (by simp)
  | clean _ hp hq =>
    cases b with
    | root _ hp' => exact absurd (hp.symm.trans hp') (by simp)
    | clean _ _ _ => rfl
    | dirty _ hp' hc =>
      rw [hp] at hp'
      cases hp'
      cases hc with
      | root hq' _ => exact absurd (hq.symm.trans hq') (by simp)
      | clean hq' _ _ => exact absurd (hq.symm.trans hq') (by simp)
      | dirty hq' _ _ => exact absurd (hq.symm.trans hq') (by simp)
  | dirty _ hp hc ih =>
    cases b with
    | root _ hp' => exact absurd (hp.symm.trans hp') (by simp)
    | clean _ hp' hq' =>
      rw [hp] at hp'
      cases hp'
      cases hc with
      | root hq _ => exact absurd (hq.symm.trans hq') (by simp)
      | clean hq _ _ => exact absurd (hq.symm.trans hq') (by simp)
      | dirty hq _ _ => exact absurd (hq.symm.trans hq') (by simp)
    | dirty _ hp' hc' =>
      rw [hp] at hp'
      cases hp'
      rw [ih hc']

/-- C16: the single-target `setClean()`. On a clean object nothing changes and
no callback is made. On a dirty object `this` whose parent chain ends after
`d` steps, with `L` the list of `this` and its consecutive dirty ancestors,
topmost first (the `DirtyChain` of `this`): given the fuel, the call returns;
the objects of `L` are clean afterwards and no other object has changed; the
callbacks are those of the cached-feature update of each object of `L`, in the
order of `L`, each with the value `absoluteTransformation()` gives for that
object. When the topmost object of the chain is a root, `compose(identity, x)
= x` is assumed. -/
theorem setClean_cleans_dirty_chain {α μ : Type} (tr : Transformation α μ) (h : Heap α) (this d : Nat)
    (hd : Depth h this d)
    (hid : ∀ L top, DirtyChain h this L → L.head? = some top → (h top).parent = none →
      ∀ x, tr.compose tr.identity x = x) :
    ((h this).dirty = false → ∀ fuel, setClean tr fuel h this = some (h, [])) ∧
    ((h this).dirty = true →
      ∃ (L : List Nat) (as : List α), DirtyChain h this L ∧
        List.Forall₂ (fun x a => absoluteTransformation tr h (d + 1) x = some a) L as ∧
        ∀ fuel, d < fuel → setClean tr fuel h this =
          some (fun x => if x ∈ L then { h x with dirty := false } else h x,
            (List.zipWith (fun x a => cleanFeatures tr a x (h x).features 0 none none)
              L as).flatten)) := by
  refine ⟨fun hc fuel => by simp [setClean, hc], fun hdirty => ?_⟩
  obtain ⟨L, base, hchain, _, hadj, _, ⟨top, htop, hstart⟩, hdep⟩ :=
    collectDirty_spec tr hd (d + 1) (Nat.lt_succ_self d) hdirty
  have hfirst : ∀ x, L.head? = some x → AbsRel tr h x (tr.compose base (h x).transformation) := by
    intro x hx
    rw [htop] at hx
    cases hx
    rcases hstart with ⟨hroot, hbase⟩ | ⟨q, hq, hbase⟩
    · rw [hbase, hid L top hchain htop hroot]
      exact AbsRel.root hroot
    · exact AbsRel.child hq hbase
  obtain ⟨as, hall, hclean⟩ := cleanStack_spec tr h (d + 1) L h base ([] : List (Event μ))
    (DirtyOnly.same h) hadj hfirst
    (fun x hx => by
      obtain ⟨n, hn, hdn⟩ := hdep x hx
      exact ⟨n, by omega, hdn⟩)
  refine ⟨L, as, hchain, hall, fun fuel hf => ?_⟩
  obtain ⟨L', base', hchain', hrun', _, _, ⟨top', htop', hstart'⟩, _⟩ :=
    collectDirty_spec tr hd fuel hf hdirty
  have hL : L' = L := DirtyChain.unique hchain' hchain
  subst hL
  have hb : tr.compose base' (h top).transformation = tr.compose base (h top).transformation := by
    rw [htop] at htop'
    cases htop'
    have h1 : AbsRel tr h top (tr.compose base' (h top).transformation) := by
      rcases hstart' with ⟨hroot, hbase⟩ | ⟨q, hq, hbase⟩
      · rw [hbase, hid L' top hchain htop hroot]
        exact AbsRel.root hroot
      · exact AbsRel.child hq hbase
    exact h1.functional (hfirst top htop)
  have hsame : cleanStack tr h L' base' ([] : List (Event μ)) = cleanStack tr h L' base [] := by
    cases L' with
    | nil => cases htop
    | cons t rest =>
      cases htop
      simp only [cleanStack, hb]
  simp only [setClean, hdirty, hrun' [], List.append_nil, hsame, hclean]
  simp

/-- C16, on the chain `0 <- 1 <- 2 <- 3` with every object dirty and the
identity of words under concatenation: `setClean()` on `2` cleans `0`, `1`, `2`
in this order with the words `[]`, `[1]`, `[1, 2]` and leaves `3` dirty. -/
theorem setClean_cleans_dirty_chain_witness :
    (∃ h', setClean wordTransformation 5 dirtyFeaturedHeap 2 =
        some (h', [Event.clean 0 0 [], Event.cleanInverted 0 0 [], Event.clean 1 0 [1],
          Event.cleanInverted 1 0 [1], Event.clean 2 0 [1, 2],
          Event.cleanInverted 2 0 [2, 1]]) ∧
      (h' 0).dirty = false ∧ (h' 1).dirty = false ∧ (h' 2).dirty = false ∧
      (h' 3).dirty = true) ∧
    ((dirtyFeaturedHeap 2).dirty = false →
      ∀ fuel, setClean wordTransformation fuel dirtyFeaturedHeap 2 =
        some (dirtyFeaturedHeap, [])) ∧
    ((dirtyFeaturedHeap 2).dirty = true →
      ∃ (L : List Nat) (as : List (List Nat)), DirtyChain dirtyFeaturedHeap 2 L ∧
        List.Forall₂ (fun x a =>
          absoluteTransformation wordTransformation dirtyFeaturedHeap (2 + 1) x = some a) L as ∧
        ∀ fuel, 2 < fuel → setClean wordTransformation fuel dirtyFeaturedHeap 2 =
          some (fun x => if x ∈ L then { dirtyFeaturedHeap x with dirty := false }
              else dirtyFeaturedHeap x,
            (List.zipWith (fun x a =>
              cleanFeatures wordTransformation a x (dirtyFeaturedHeap x).features 0 none none)
              L as).flatten)) :=
  ⟨⟨_, rfl, by decide, by decide, by decide, by decide⟩,
    setClean_cleans_dirty_chain wordTransformation dirtyFeaturedHeap 2 2
      (Depth.child (p := 1) rfl (Depth.child (p := 0) rfl (Depth.root rfl)))
      (fun _ _ _ _ _ _ => rfl)⟩

/-- From an object of the tree of the scene `s`, scenes having no parent,
`sceneObject()` finds `s`. -/
theorem sceneObject_of_below {α : Type} {h : Heap α} {s o n : Nat} (hb : Below h s o n)
    (hs : (h s).isScene = true) (hscenes : ∀ x, (h x).isScene = true → (h x).parent = none) :
    (∀ fuel r, sceneObject h fuel (some o) = some r → r = some s) ∧
    (∀ fuel, n < fuel → sceneObject h fuel (some o) = some (some s)) := by
  induction hb with
  | root _ =>
    constructor
    · intro fuel r hr
      cases fuel with
      | zero => simp [sceneObject] at hr
      | succ f =>
        simp only [sceneObject, hs, if_true, Option.some.injEq] at hr
        exact hr.symm
    · intro fuel hf
      obtain ⟨f, rfl⟩ : ∃ f, fuel = f + 1 := ⟨fuel - 1, by omega⟩
      simp only [sceneObject, hs, if_true]
  | @child o p n hp _ ih =>
    have ho : (h o).isScene = false := by
      cases hsc : (h o).isScene with
      | false => rfl
      | true =>
        rw [hscenes o hsc] at hp
        cases hp
    constructor
    · intro fuel r hr
      cases fuel with
      | zero => simp [sceneObject] at hr
      | succ f =>
        simp only [sceneObject, ho, hp] at hr
        exact ih.1 f r (by simpa using hr)
    · intro fuel hf
      obtain ⟨f, rfl⟩ : ∃ f, fuel = f + 1 := ⟨fuel - 1, by omega⟩
      simp only [sceneObject, ho, hp]
      simpa using ih.2 f (by omega)

theorem cleanFeatures_target {α μ : Type} (tr : Transformation α μ) (a : α) (o : Nat) :
    ∀ (fs : List Feature) (i : Nat) (m m' : Option μ),
      ∀ e ∈ cleanFeatures tr a o fs i m m', e.target = o
  | [], _, _, _, e, he => by simp [cleanFeatures] at he
  | f :: fs, i, m, m', e, he => by
    simp only [cleanFeatures, List.mem_append] at he
    rcases he with (he | he) | he
    · split at he
      · rw [List.mem_singleton] at he
        rw [he]
        rfl
      · cases he
    · split at he
      · rw [List.mem_singleton] at he
        rw [he]
        rfl
      · cases he
    · exact cleanFeatures_target tr a o fs _ _ _ e he

/-- The loop of lines 323-324 on as many transformations as objects. -/
theorem setCleanEach_spec {α μ : Type} (tr : Transformation α μ) :
    ∀ (objects : List Nat) (ts : List α) (h : Heap α) (log : List (Event μ)),
      ts.length = objects.length →
      setCleanEach tr h objects ts log =
        .done (fun x => if x ∈ objects then { h x with dirty := false } else h x,
          log ++ (List.zipWith (fun o t => cleanFeatures tr t o (h o).features 0 none none)
            objects ts).flatten)
  | [], ts, h, log, _ => by
    simp [setCleanEach]
  | o :: objects, [], h, log, hl => by simp at hl
  | o :: objects, t :: ts, h, log, hl => by
    have hfeat : (fun (x : Nat) (a : α) => cleanFeatures tr a x
        ((h.modify o fun y => { y with dirty := false }) x).features 0 none none) =
        fun x a => cleanFeatures tr a x (h x).features 0 none none := by
      funext x a
      rw [(DirtyOnly.setFlag h o false).features_eq]
    rw [setCleanEach]
    simp only [setCleanWith]
    rw [setCleanEach_spec tr objects ts _ _ (by simpa using hl), hfeat]
    congr 1
    refine Prod.ext ?_ ?_
    · funext x
      by_cases hxo : x = o
      · subst hxo
        by_cases hxr : x ∈ objects
        · simp [Heap.modify, hxr]
        · simp [Heap.modify, hxr]
      · by_cases hxr : x ∈ objects
        · simp [Heap.modify, hxo, hxr]
        · simp [Heap.modify, hxo, hxr]
    · simp [List.append_assoc]

theorem clearDirty_of_clean {α : Type} {h : Heap α} {x : Nat} (hx : (h x).dirty = false) :
    ({ h x with dirty := false } : Object α) = h x := by
  cases hobj : h x with
  | mk parent children features transformation dirty visited joint counter isScene =>
    rw [hobj] at hx
    simp only at hx
    rw [hx]

/-- A call of the batch `setClean(objects)` that returns: what it was given by
`transformations()` and what it did with it. -/
theorem setCleanObjects_done {α μ : Type} {tr : Transformation α μ} {h : Heap α} {s : Nat}
    {objects : List Nat} (hq : Quiescent h) (hs : (h s).isScene = true)
    (hscenes : ∀ x, (h x).isScene = true → (h x).parent = none)
    (htree : ∀ o ∈ objects, (h o).dirty = true → ∃ n, Below h s o n)
    {fuel : Nat} {h' : Heap α} {ev : List (Event μ)}
    (hrun : setCleanObjects tr fuel h objects = .done (h', ev)) :
    ∃ ts, ts.length = (objects.filter fun o => (h o).dirty).length ∧
      ((objects.filter fun o => (h o).dirty) = [] ∨
        transformations tr fuel h s (objects.filter fun o => (h o).dirty) tr.identity =
          .done (h, ts)) ∧
      h' = (fun x => if x ∈ (objects.filter fun o => (h o).dirty)
        then { h x with dirty := false } else h x) ∧
      ev = (List.zipWith (fun o t => cleanFeatures tr t o (h o).features 0 none none)
        (objects.filter fun o => (h o).dirty) ts).flatten := by
  unfold setCleanObjects at hrun
  generalize hD : (objects.filter fun o => (h o).dirty) = D at hrun ⊢
  cases D with
  | nil =>
    simp only [Run.done.injEq, Prod.mk.injEq] at hrun
    refine ⟨[], rfl, Or.inl rfl, ?_, ?_⟩
    · rw [← hrun.1]
      funext x
      simp
    · rw [← hrun.2]
      rfl
  | cons first rest =>
    have hfirst : first ∈ objects.filter fun o => (h o).dirty := by
      rw [hD]
      exact List.mem_cons_self _ _
    rw [List.mem_filter] at hfirst
    obtain ⟨n, hn⟩ := htree first hfirst.1 hfirst.2
    have hsc := (sceneObject_of_below hn hs hscenes).1 fuel
    simp only at hrun
    cases hso : sceneObject h fuel (some first) with
    | none => simp [hso] at hrun
    | some r =>
      have hr := hsc r hso
      subst hr
      simp only [hso] at hrun
      have hdepth : ∀ o ∈ first :: rest, ∃ n, Depth h o n := fun o ho => by
        rw [← hD, List.mem_filter] at ho
        obtain ⟨m, hm⟩ := htree o ho.1 ho.2
        exact ⟨m, hm.depth⟩
      cases hT : transformations tr fuel h s (first :: rest) tr.identity with
      | failed h1 e =>
        simp [hT, setCleanEach] at hrun
      | aborted => simp [hT] at hrun
      | outOfFuel => simp [hT] at hrun
      | done res =>
        obtain ⟨h1, ts⟩ := res
        obtain ⟨rfl, hlen, _, _⟩ := transformations_spec hq hdepth hT
        simp only [hT] at hrun
        rw [setCleanEach_spec tr _ ts h1 [] hlen] at hrun
        simp only [Run.done.injEq, Prod.mk.injEq, List.nil_append] at hrun
        exact ⟨ts, hlen, Or.inr rfl, hrun.1.symm, hrun.2.symm⟩

/-- The batch `setClean(objects)` returns when given enough fuel, the dirty
objects being few enough for the 16-bit counters. -/
theorem setCleanObjects_total {α μ : Type} (tr : Transformation α μ) {h : Heap α} {s : Nat}
    {objects : List Nat} (hq : Quiescent h) (hs : (h s).isScene = true)
    (hscenes : ∀ x, (h x).isScene = true → (h x).parent = none)
    (htree : ∀ o ∈ objects, (h o).dirty = true → ∃ n, Below h s o n)
    (hsmall : 2 * (objects.filter fun o => (h o).dirty).length ≤ 0xFFFF) :
    ∃ N, ∀ fuel, N ≤ fuel →
      ∃ (h' : Heap α) (ev : List (Event μ)),
        setCleanObjects tr fuel h objects = .done (h', ev) := by
  unfold setCleanObjects
  generalize hD : (objects.filter fun o => (h o).dirty) = D at hsmall ⊢
  cases D with
  | nil => exact ⟨0, fun fuel _ => ⟨h, [], rfl⟩⟩
  | cons first rest =>
    have hfirst : first ∈ objects.filter fun o => (h o).dirty := by
      rw [hD]
      exact List.mem_cons_self _ _
    rw [List.mem_filter] at hfirst
    obtain ⟨n, hn⟩ := htree first hfirst.1 hfirst.2
    have hbelow : ∀ o ∈ first :: rest, ∃ n, Below h s o n := fun o ho => by
      rw [← hD, List.mem_filter] at ho
      exact htree o ho.1 ho.2
    have hdepth : ∀ o ∈ first :: rest, ∃ n, Depth h o n := fun o ho => by
      obtain ⟨m, hm⟩ := hbelow o ho
      exact ⟨m, hm.depth⟩
    obtain ⟨N, hN⟩ := transformations_total tr h s (first :: rest) tr.identity hq hs hbelow
    refine ⟨N + n + 1, fun fuel hf => ?_⟩
    have hso := (sceneObject_of_below hn hs hscenes).2 fuel (by omega)
    rcases hN fuel (by omega) with ⟨h1, ts, hT⟩ | ⟨hbig, _⟩
    · obtain ⟨rfl, hlen, _, _⟩ := transformations_spec hq hdepth hT
      simp only [hso, hT]
      rw [setCleanEach_spec tr _ ts h1 [] hlen]
      exact ⟨_, _, rfl⟩
    · omega

theorem zipWith_cleanFeatures_target {α μ : Type} (tr : Transformation α μ) (h : Heap α) :
    ∀ (D : List Nat) (ts : List α),
      ∀ e ∈ (List.zipWith (fun o t => cleanFeatures tr t o (h o).features 0 none none)
        D ts).flatten, e.target ∈ D
  | [], _, e, he => by simp at he
  | _ :: _, [], e, he => by simp at he
  | o :: D, t :: ts, e, he => by
    rw [List.zipWith_cons_cons, List.flatten_cons, List.mem_append] at he
    rcases he with he | he
    · rw [cleanFeatures_target tr t o _ _ _ _ e he]
      exact List.mem_cons_self _ _
    · exact List.mem_cons_of_mem _ (zipWith_cleanFeatures_target tr h D ts e he)

/-- C17: the batch `setClean(objects)`. Starting with clean scratch state, `s`
being a scene, scenes having no parent and the dirty objects of the list
belonging to the tree of `s`: when the call returns, every listed object is
clean and nothing else has changed on any object (so `Dirty` of the objects
that are not listed is as before); the callbacks are, for the dirty objects of
the list in list order, those of the cached-feature update of the object with
the entry of `s.transformations(the dirty objects, identity)` at its position;
every callback goes to a listed object that was dirty; and the call does
return when given enough fuel, the dirty objects being few enough for the
16-bit counters. -/
theorem batch_setClean_effect {α μ : Type} (tr : Transformation α μ) (h : Heap α) (s : Nat)
    (objects : List Nat) (hq : Quiescent h) (hs : (h s).isScene = true)
    (hscenes : ∀ x, (h x).isScene = true → (h x).parent = none)
    (htree : ∀ o ∈ objects, (h o).dirty = true → ∃ n, Below h s o n) :
    (∀ fuel h' (ev : List (Event μ)), setCleanObjects tr fuel h objects = .done (h', ev) →
      (∀ o ∈ objects, (h' o).dirty = false) ∧
      (∀ x, h' x = if x ∈ objects then { h x with dirty := false } else h x) ∧
      (∃ ts, ts.length = (objects.filter fun o => (h o).dirty).length ∧
        ((objects.filter fun o => (h o).dirty) = [] ∨
          transformations tr fuel h s (objects.filter fun o => (h o).dirty) tr.identity =
            .done (h, ts)) ∧
        ev = (List.zipWith (fun o t => cleanFeatures tr t o (h o).features 0 none none)
          (objects.filter fun o => (h o).dirty) ts).flatten) ∧
      (∀ e ∈ ev, e.target ∈ objects ∧ (h e.target).dirty = true)) ∧
    (2 * (objects.filter fun o => (h o).dirty).length ≤ 0xFFFF →
      ∃ N, ∀ fuel, N ≤ fuel →
        ∃ (h' : Heap α) (ev : List (Event μ)),
          setCleanObjects tr fuel h objects = .done (h', ev)) := by
  refine ⟨fun fuel h' ev hrun => ?_, setCleanObjects_total tr hq hs hscenes htree⟩
  obtain ⟨ts, hlen, hT, hh', hev⟩ := setCleanObjects_done hq hs hscenes htree hrun
  have hheap : ∀ x, h' x = if x ∈ objects then { h x with dirty := false } else h x := by
    intro x
    rw [hh']
    by_cases hx : x ∈ objects
    · cases hd : (h x).dirty with
      | true =>
        have : x ∈ objects.filter fun o => (h o).dirty := List.mem_filter.2 ⟨hx, hd⟩
        simp only [this, hx, if_true]
      | false =>
        have : x ∉ objects.filter fun o => (h o).dirty := fun hm => by
          rw [List.mem_filter, hd] at hm
          cases hm.2
        simp only [this, hx, if_true, if_false]
        exact (clearDirty_of_clean hd).symm
    · have : x ∉ objects.filter fun o => (h o).dirty := fun hm => hx (List.mem_filter.1 hm).1
      simp only [this, hx, if_false]
  refine ⟨fun o ho => ?_, hheap, ⟨ts, hlen, hT, hev⟩, fun e he => ?_⟩
  · rw [hheap o, if_pos ho]
  · rw [hev] at he
    have := zipWith_cleanFeatures_target tr h _ ts e he
    rw [List.mem_filter] at this
    exact this

/-- C17, on the chain `0 <- 1 <- 2 <- 3` with one feature on every object and
only the leaf `3` dirty: `setClean({3, 1})` cleans `3` with the word
`[1, 2, 3]` and makes no callback on `1`. -/
theorem batch_setClean_effect_witness :
    (∃ h', setCleanObjects wordTransformation 20 leafDirtyHeap [3, 1] =
        .done (h', [Event.clean 3 0 [1, 2, 3], Event.cleanInverted 3 0 [3, 2, 1]]) ∧
      (h' 3).dirty = false ∧ (h' 1).dirty = false) ∧
    (∃ h1, transformations wordTransformation 20 leafDirtyHeap 0 [3] [] =
      .done (h1, [[1, 2, 3]])) ∧
    (∀ fuel h' (ev : List (Event (List Nat))),
      setCleanObjects wordTransformation fuel leafDirtyHeap [3, 1] = .done (h', ev) →
      (∀ o ∈ [3, 1], (h' o).dirty = false) ∧
      (∀ x, h' x = if x ∈ [3, 1] then { leafDirtyHeap x with dirty := false }
        else leafDirtyHeap x) ∧
      (∃ ts, ts.length = ([3, 1].filter fun o => (leafDirtyHeap o).dirty).length ∧
        (([3, 1].filter fun o => (leafDirtyHeap o).dirty) = [] ∨
          transformations wordTransformation fuel leafDirtyHeap 0
            ([3, 1].filter fun o => (leafDirtyHeap o).dirty) wordTransformation.identity =
            .done (leafDirtyHeap, ts)) ∧
        ev = (List.zipWith (fun o t =>
            cleanFeatures wordTransformation t o (leafDirtyHeap o).features 0 none none)
          ([3, 1].filter fun o => (leafDirtyHeap o).dirty) ts).flatten) ∧
      (∀ e ∈ ev, e.target ∈ [3, 1] ∧ (leafDirtyHeap e.target).dirty = true)) ∧
    (2 * ([3, 1].filter fun o => (leafDirtyHeap o).dirty).length ≤ 0xFFFF →
      ∃ N, ∀ fuel, N ≤ fuel →
        ∃ (h' : Heap (List Nat)) (ev : List (Event (List Nat))),
          setCleanObjects wordTransformation fuel leafDirtyHeap [3, 1] = .done (h', ev)) :=
  ⟨⟨_, rfl, by decide, by decide⟩, ⟨_, rfl⟩,
    batch_setClean_effect wordTransformation leafDirtyHeap 0 [3, 1]
      (fun _ => ⟨rfl, rfl, rfl⟩) rfl
      (fun x hx => by
        have hx0 : x = 0 := by simpa [leafDirtyHeap, chainHeap] using hx
        rw [hx0]
        rfl)
      (fun o ho hd => by
        have ho3 : o = 3 := by simpa [leafDirtyHeap] using hd
        rw [ho3]
        exact ⟨3, Below.child (p := 2) rfl (Below.child (p := 1) rfl
          (Below.child (p := 0) rfl (Below.root rfl)))⟩)⟩

/-- With child lists that agree with `parent()`, the two forms of downward
closure agree. -/
theorem dirtyClosed_iff_childClosed {α : Type} {h : Heap α}
    (hchild : ∀ p c, c ∈ (h p).children ↔ (h c).parent = some p) :
    DirtyClosed h ↔ ChildClosed h :=
  ⟨fun hd p c hc hp => hd c p ((hchild p c).1 hc) hp,
    fun hc o p hp hd => hc p o ((hchild p o).2 hp) hd⟩

/-- C18: `setDirty()`. With fuel for the subtree below `o`, the call returns.
If `o` is dirty already, nothing changes and no callback is made. Otherwise
the callbacks start with one `markDirty` for every feature of `o`, in order,
and `o` is dirty afterwards. In both cases only `Dirty` flags change, none is
cleared, an object that became dirty is `o` or below it and its children are
dirty afterwards; the callbacks are, without repetition, one `markDirty` for
every feature of every object that became dirty, so none for an object that
was dirty before. With child lists that agree with `parent()` and `Dirty`
downward closed before the call, `Dirty` is downward closed afterwards and
`o` and every descendant of `o` is dirty. -/
theorem setDirty_marks_subtree {α μ : Type} (h : Heap α) (o fuel : Nat)
    (hfuel : subtreeWithin h fuel o = true) :
    ∃ (h' : Heap α) (ev : List (Event μ)), setDirty fuel h o = some (h', ev) ∧
      ((h o).dirty = true → h' = h ∧ ev = []) ∧
      ((h o).dirty = false → ∃ rest, ev = markDirtyAll o (h o).features.length ++ rest) ∧
      DirtyOnly h h' ∧ (h' o).dirty = true ∧
      (∀ x, (h x).dirty = true → (h' x).dirty = true) ∧
      (∀ x, (h x).dirty = false → (h' x).dirty = true →
        Sub h o x ∧ ∀ c ∈ (h x).children, (h' c).dirty = true) ∧
      ev.Nodup ∧
      (∀ e, e ∈ ev ↔ ∃ x f, e = Event.markDirty x f ∧ (h x).dirty = false ∧
        (h' x).dirty = true ∧ f < (h x).features.length) ∧
      ((∀ p c, c ∈ (h p).children ↔ (h c).parent = some p) → DirtyClosed h →
        DirtyClosed h' ∧ ∀ x k, Ancestor h o x k → (h' x).dirty = true) := by
  obtain ⟨h', ev, hrun, post⟩ := setDirty_spec (μ := μ) fuel h o hfuel
  refine ⟨h', ev, hrun, ?_, ?_, post.frame, post.rootsDirty o (List.mem_singleton_self o),
    post.mono, ?_, post.nodup, post.mem, ?_⟩
  · intro hd
    cases fuel with
    | zero => simp [subtreeWithin] at hfuel
    | succ f =>
      simp only [setDirty, hd, if_true, Option.some.injEq, Prod.mk.injEq] at hrun
      exact ⟨hrun.1.symm, hrun.2.symm⟩
  · intro hd
    cases fuel with
    | zero => simp [subtreeWithin] at hfuel
    | succ f =>
      simp only [setDirty, hd] at hrun
      cases hloop : forChildren (setDirty (μ := μ) f) h (h o).children with
      | none => simp [hloop] at hrun
      | some res =>
        obtain ⟨h1, ev1⟩ := res
        simp only [hloop, Bool.false_eq_true, if_false, Option.some.injEq, Prod.mk.injEq] at hrun
        exact ⟨ev1, hrun.2.symm⟩
  · intro x hx0 hx1
    obtain ⟨c, hc, hs⟩ := post.inside x hx0 hx1
    rw [List.mem_singleton] at hc
    subst hc
    exact ⟨hs, post.below x hx0 hx1⟩
  · intro hchild hclosed
    obtain ⟨hcl', hall⟩ := post.closed ((dirtyClosed_iff_childClosed hchild).1 hclosed)
    have hchild' : ∀ p c, c ∈ (h' p).children ↔ (h' c).parent = some p := fun p c => by
      rw [post.frame.children_eq, post.frame.parent_eq]
      exact hchild p c
    exact ⟨(dirtyClosed_iff_childClosed hchild').2 hcl',
      fun x k hk => hall o (List.mem_singleton_self o) x (hk.sub hchild)⟩

/-- C18, on the chain `0 <- 1 <- 2 <- 3` with one feature on every object and
only the leaf `3` dirty: `setDirty()` on `1` notifies the features of `1` and
`2`, not that of `3`, and leaves `1`, `2`, `3` dirty and the scene `0` clean. -/
theorem setDirty_marks_subtree_witness :
    (∃ h', setDirty 3 leafDirtyHeap 1 =
        some (h', ([Event.markDirty 1 0, Event.markDirty 2 0] : List (Event (List Nat)))) ∧
      (h' 0).dirty = false ∧ (h' 1).dirty = true ∧ (h' 2).dirty = true ∧
      (h' 3).dirty = true) ∧
    ∃ (h' : Heap (List Nat)) (ev : List (Event (List Nat))),
      setDirty 3 leafDirtyHeap 1 = some (h', ev) ∧
      ((leafDirtyHeap 1).dirty = true → h' = leafDirtyHeap ∧ ev = []) ∧
      ((leafDirtyHeap 1).dirty = false →
        ∃ rest, ev = markDirtyAll 1 (leafDirtyHeap 1).features.length ++ rest) ∧
      DirtyOnly leafDirtyHeap h' ∧ (h' 1).dirty = true ∧
      (∀ x, (leafDirtyHeap x).dirty = true → (h' x).dirty = true) ∧
      (∀ x, (leafDirtyHeap x).dirty = false → (h' x).dirty = true →
        Sub leafDirtyHeap 1 x ∧ ∀ c ∈ (leafDirtyHeap x).children, (h' c).dirty = true) ∧
      ev.Nodup ∧
      (∀ e, e ∈ ev ↔ ∃ x f, e = Event.markDirty x f ∧ (leafDirtyHeap x).dirty = false ∧
        (h' x).dirty = true ∧ f < (leafDirtyHeap x).features.length) ∧
      ((∀ p c, c ∈ (leafDirtyHeap p).children ↔ (leafDirtyHeap c).parent = some p) →
        DirtyClosed leafDirtyHeap →
        DirtyClosed h' ∧ ∀ x k, Ancestor leafDirtyHeap 1 x k → (h' x).dirty = true) :=
  ⟨⟨_, rfl, by decide, by decide, by decide, by decide⟩,
    setDirty_marks_subtree leafDirtyHeap 1 3 (by decide)⟩

/-- The callbacks of the feature loop, `b` and `b'` telling whether `matrix`
and `invertedMatrix` have been computed. -/
theorem cleanFeatures_eq_allCallbacks {α μ : Type} (tr : Transformation α μ) (a : α) (o : Nat) :
    ∀ (fs : List Feature) (i : Nat) (b b' : Bool),
      cleanFeatures tr a o fs i (if b then some (tr.toMatrix a) else none)
        (if b' then some (tr.toMatrix (tr.inverted a)) else none) = allCallbacks tr a o fs i
  | [], _, _, _ => rfl
  | f :: fs, i, b, b' => by
    have ih := cleanFeatures_eq_allCallbacks tr a o fs (i + 1) (b || f.cachedAbsolute)
      (b' || f.cachedInvertedAbsolute)
    obtain ⟨ca, ci⟩ := f
    cases b <;> cases b' <;> cases ca <;> cases ci <;>
      simpa [cleanFeatures, allCallbacks, featureCallbacks] using ih

/-- The callbacks recorded in the trace are those of `cleanFeatures`. -/
theorem cleanFeaturesTrace_events {α μ : Type} (tr : Transformation α μ) (a : α) (o : Nat) :
    ∀ (fs : List Feature) (i : Nat) (m m' : Option μ),
      Action.events (cleanFeaturesTrace tr a o fs i m m') = cleanFeatures tr a o fs i m m'
  | [], _, _, _ => rfl
  | f :: fs, i, m, m' => by
    have ih := cleanFeaturesTrace_events tr a o fs (i + 1)
    obtain ⟨ca, ci⟩ := f
    cases m <;> cases m' <;> cases ca <;> cases ci <;>
      simp [cleanFeaturesTrace, cleanFeatures, Action.events, ih]

/-- How often the trace computes `matrix`. -/
theorem cleanFeaturesTrace_toMatrix {α μ : Type} (tr : Transformation α μ) (a : α) (o : Nat) :
    ∀ (fs : List Feature) (i : Nat) (m m' : Option μ),
      (cleanFeaturesTrace tr a o fs i m m').countP Action.isToMatrix =
        if m.isNone && fs.any (fun f => f.cachedAbsolute) then 1 else 0
  | [], _, _, _ => by simp [cleanFeaturesTrace]
  | f :: fs, i, m, m' => by
    have ih := cleanFeaturesTrace_toMatrix tr a o fs (i + 1)
    obtain ⟨ca, ci⟩ := f
    cases m <;> cases m' <;> cases ca <;> cases ci <;>
      simp [cleanFeaturesTrace, List.countP_append, List.countP_cons, Action.isToMatrix, ih]

/-- How often the trace computes `invertedMatrix`. -/
theorem cleanFeaturesTrace_toMatrixInverted {α μ : Type} (tr : Transformation α μ) (a : α) (o : Nat) :
    ∀ (fs : List Feature) (i : Nat) (m m' : Option μ),
      (cleanFeaturesTrace tr a o fs i m m').countP Action.isToMatrixInverted =
        if m'.isNone && fs.any (fun f => f.cachedInvertedAbsolute) then 1 else 0
  | [], _, _, _ => by simp [cleanFeaturesTrace]
  | f :: fs, i, m, m' => by
    have ih := cleanFeaturesTrace_toMatrixInverted tr a o fs (i + 1)
    obtain ⟨ca, ci⟩ := f
    cases m <;> cases m' <;> cases ca <;> cases ci <;>
      simp [cleanFeaturesTrace, List.countP_append, List.countP_cons,
        Action.isToMatrixInverted, ih]

/-- Which callbacks `allCallbacks` holds. -/
theorem mem_allCallbacks {α μ : Type} (tr : Transformation α μ) (a : α) (o : Nat) :
    ∀ (fs : List Feature) (j : Nat) (e : Event μ),
      e ∈ allCallbacks tr a o fs j ↔
        ∃ k f, fs[k]? = some f ∧
          ((f.cachedAbsolute = true ∧ e = Event.clean o (j + k) (tr.toMatrix a)) ∨
            (f.cachedInvertedAbsolute = true ∧
              e = Event.cleanInverted o (j + k) (tr.toMatrix (tr.inverted a))))
  | [], _, _ => by simp [allCallbacks]
  | f :: fs, j, e => by
    rw [allCallbacks, List.mem_append, mem_allCallbacks tr a o fs (j + 1) e]
    constructor
    · rintro (he | ⟨k, g, hk, hg⟩)
      · refine ⟨0, f, List.getElem?_cons_zero, ?_⟩
        simp only [featureCallbacks, List.mem_append] at he
        rcases he with he | he
        · split at he
          · rename_i hc
            exact Or.inl ⟨hc, List.mem_singleton.1 he⟩
          · cases he
        · split at he
          · rename_i hc
            exact Or.inr ⟨hc, List.mem_singleton.1 he⟩
          · cases he
      · refine ⟨k + 1, g, by simpa using hk, ?_⟩
        rw [show j + (k + 1) = j + 1 + k by omega]
        exact hg
    · rintro ⟨k, g, hk, hg⟩
      cases k with
      | zero =>
        simp only [List.getElem?_cons_zero, Option.some.injEq] at hk
        subst hk
        left
        simp only [featureCallbacks, List.mem_append]
        rcases hg with ⟨hc, he⟩ | ⟨hc, he⟩
        · left
          rw [if_pos hc, he]
          exact List.mem_singleton_self _
        · right
          rw [if_pos hc, he]
          exact List.mem_singleton_self _
      | succ k =>
        right
        refine ⟨k, g, by simpa using hk, ?_⟩
        rw [show j + 1 + k = j + (k + 1) by omega]
        exact hg

/-- C19: the cached-feature update `setClean(absolute)` on the object `o`.
Its callbacks are, for the features in list order, `clean(toMatrix(absolute))`
for a feature that caches the absolute transformation and then
`cleanInverted(toMatrix(inverted(absolute)))` for one that caches the inverted
one, and no others; the loop computes `matrix` once when some feature caches
the absolute transformation and not at all otherwise, and likewise
`invertedMatrix`; afterwards `Dirty` is clear on `o`, whatever its features,
and nothing else has changed. -/
theorem cached_feature_update {α μ : Type} (tr : Transformation α μ) (h : Heap α) (o : Nat) (a : α) :
    (setCleanWith tr h o a).2 = allCallbacks tr a o (h o).features 0 ∧
    (∀ e, e ∈ (setCleanWith tr h o a).2 ↔
      ∃ k f, (h o).features[k]? = some f ∧
        ((f.cachedAbsolute = true ∧ e = Event.clean o k (tr.toMatrix a)) ∨
          (f.cachedInvertedAbsolute = true ∧
            e = Event.cleanInverted o k (tr.toMatrix (tr.inverted a))))) ∧
    Action.events (cleanFeaturesTrace tr a o (h o).features 0 none none) =
      (setCleanWith tr h o a).2 ∧
    (cleanFeaturesTrace tr a o (h o).features 0 none none).countP Action.isToMatrix =
      (if (h o).features.any (fun f => f.cachedAbsolute) then 1 else 0) ∧
    (cleanFeaturesTrace tr a o (h o).features 0 none none).countP Action.isToMatrixInverted =
      (if (h o).features.any (fun f => f.cachedInvertedAbsolute) then 1 else 0) ∧
    ((setCleanWith tr h o a).1 o).dirty = false ∧
    (∀ x, (setCleanWith tr h o a).1 x = if x = o then { h x with dirty := false } else h x) := by
  have hev : (setCleanWith tr h o a).2 = allCallbacks tr a o (h o).features 0 :=
    cleanFeatures_eq_allCallbacks tr a o (h o).features 0 false false
  refine ⟨hev, fun e => ?_, cleanFeaturesTrace_events tr a o _ 0 none none, ?_, ?_, ?_, ?_⟩
  · rw [hev, mem_allCallbacks]
    simp only [Nat.zero_add]
  · rw [cleanFeaturesTrace_toMatrix]
    simp
  · rw [cleanFeaturesTrace_toMatrixInverted]
    simp
  · simp [setCleanWith, Heap.modify]
  · intro x
    rfl

/-- The walk of `sceneObject()` reads `parent()` and `isScene()` only. -/
theorem sceneObject_frame {α : Type} {h0 h : Heap α} (hf : Frame h0 h) :
    ∀ (fuel : Nat) (p : Option Nat), sceneObject h fuel p = sceneObject h0 fuel p
  | 0, _ => rfl
  | _ + 1, none => rfl
  | fuel + 1, some p => by
    simp only [sceneObject, hf.isScene, hf.parent, sceneObject_frame hf fuel]

/-- What `sceneObject()` gives back is a scene. -/
theorem sceneObject_isScene {α : Type} {h : Heap α} :
    ∀ (fuel : Nat) (p : Option Nat) (q : Nat), sceneObject h fuel p = some (some q) →
      (h q).isScene = true
  | 0, _, _, hrun => by simp [sceneObject] at hrun
  | _ + 1, none, _, hrun => by simp [sceneObject] at hrun
  | fuel + 1, some p, q, hrun => by
    simp only [sceneObject] at hrun
    split at hrun
    · rename_i hp
      simp only [Option.some.injEq] at hrun
      subst hrun
      exact hp
    · exact sceneObject_isScene fuel _ q hrun

/-- On a finite chain of parents `sceneObject()` returns. -/
theorem sceneObject_total {α : Type} {h : Heap α} {o n : Nat} (hd : Depth h o n) :
    ∀ fuel, n + 2 ≤ fuel → ∃ r, sceneObject h fuel (some o) = some r := by
  induction hd with
  | @root o hp =>
    intro fuel hfuel
    obtain ⟨f, rfl⟩ : ∃ f, fuel = f + 2 := ⟨fuel - 2, by omega⟩
    simp only [sceneObject, hp]
    split
    · exact ⟨_, rfl⟩
    · exact ⟨_, rfl⟩
  | @child o p n hp _ ih =>
    intro fuel hfuel
    obtain ⟨f, rfl⟩ : ∃ f, fuel = f + 1 := ⟨fuel - 1, by omega⟩
    simp only [sceneObject, hp]
    split
    · exact ⟨_, rfl⟩
    · exact ih f (by omega)

/-- The walk-up loop has no assertion on the scene of the caller. -/
theorem walkUp_not_notScene {α : Type} (s : Nat) : ∀ (fuel : Nat) (h : Heap α) (W : List Nat) (it : Nat)
    (J : List Nat) (h' : Heap α), walkUp s fuel h W it J ≠ .failed h' .notScene
  | 0, _, _, _, _, _, hc => by simp [walkUp] at hc
  | fuel + 1, h, W, it, J, h', hc => by
    rw [walkUp] at hc
    split at hc
    · cases hc
    · split at hc
      · cases hc
      · split at hc
        · exact walkUp_not_notScene s fuel _ _ _ _ _ hc
        · dsimp only at hc
          split at hc
          · split at hc
            · cases hc
            · exact walkUp_not_notScene s fuel _ _ _ _ _ hc
          · split at hc
            · split at hc
              · split at hc
                · cases hc
                · split at hc
                  · cases hc
                  · exact walkUp_not_notScene s fuel _ _ _ _ _ hc
              · exact walkUp_not_notScene s fuel _ _ _ _ _ hc
            · exact walkUp_not_notScene s fuel _ _ _ _ _ hc

/-- A failure of `transformations()` with `notScene` comes from the check of
the scene: the caller is not a scene. -/
theorem transformations_notScene {α μ : Type} {tr : Transformation α μ} {fuel : Nat} {h : Heap α}
    {this : Nat} {objects : List Nat} {initial : α} {h' : Heap α}
    (hrun : transformations tr fuel h this objects initial = .failed h' .notScene) :
    (h this).isScene = false := by
  unfold transformations at hrun
  by_cases hlen : objects.length < 0xFFFF
  · simp only [hlen, not_true_eq_false, if_false] at hrun
    split at hrun
    · cases hrun
    · rename_i scene hsc
      split at hrun
      · rename_i hne
        cases hs : (h this).isScene with
        | false => rfl
        | true =>
          exfalso
          apply hne
          rw [sceneObject_frame (markJoints_frame objects h 0)] at hsc
          cases fuel with
          | zero => simp [sceneObject] at hsc
          | succ f =>
            simp only [sceneObject, hs, if_true, Option.some.injEq] at hsc
            exact hsc.symm
      · split at hrun
        · rename_i hw
          simp only [Run.failed.injEq] at hrun
          rw [hrun.2] at hw
          exact (walkUp_not_notScene _ _ _ _ _ _ _ hw).elim
        · cases hrun
        · cases hrun
        · split at hrun
          · rename_i hc
            exact (computeAll_not_failed _ _ _ _ _ _ _ hc).elim
          · cases hrun
          · cases hrun
          · split at hrun <;> cases hrun
  · simp only [hlen, not_false_eq_true, if_true, Run.failed.injEq] at hrun
    cases hrun.2

/-- C29: preconditions of `transformations`. Called with `objects.size() >=
0xFFFF` it fails with the too-large-scene assertion and the heap is the one
before the call: no object is modified. Called with fewer objects on an object
that is not a scene (a scene cannot have a parent, so this is an object that
is not the scene at the root of its own tree), whose chain of parents is
finite, it fails with the assertion that it is implemented only for a scene,
whatever the objects are, having changed scratch fields only; called on a
scene it never fails with that assertion. -/
theorem transformations_preconditions {α μ : Type} (tr : Transformation α μ) (h : Heap α) (this : Nat)
    (objects : List Nat) (initial : α) :
    (0xFFFF ≤ objects.length →
      ∀ fuel, transformations tr fuel h this objects initial = .failed h .tooLargeScene) ∧
    (objects.length < 0xFFFF → (h this).isScene = false → ∀ n, Depth h this n →
      ∀ fuel, n + 2 ≤ fuel →
        ∃ h', transformations tr fuel h this objects initial = .failed h' .notScene ∧
          Frame h h') ∧
    ((h this).isScene = true →
      ∀ fuel h', transformations tr fuel h this objects initial ≠ .failed h' .notScene) := by
  refine ⟨fun hlen fuel => ?_, fun hlen hs n hd fuel hfuel => ?_, fun hs fuel h' hrun => ?_⟩
  · have : ¬ objects.length < 0xFFFF := by omega
    simp only [transformations, this, not_false_eq_true, if_true]
  · obtain ⟨r, hr⟩ := sceneObject_total hd fuel hfuel
    have hne : r ≠ some this := by
      rintro rfl
      have := sceneObject_isScene _ _ _ hr
      rw [hs] at this
      cases this
    have hrun : transformations tr fuel h this objects initial =
        .failed (markJoints h objects 0) .notScene := by
      unfold transformations
      simp only [hlen, not_true_eq_false, if_false,
        sceneObject_frame (markJoints_frame objects h 0), hr, ne_eq, hne, not_false_eq_true,
        if_true]
    exact ⟨_, hrun, markJoints_frame objects h 0⟩
  · have := transformations_notScene hrun
    rw [hs] at this
    cases this

/-- C29, on the chain `0 <- 1 <- 2 <- 3` with the scene `0`: 65535 objects are
too many, and a call on the object `1`, which is not a scene, with the object
`3` fails as implemented only for a scene. -/
theorem transformations_preconditions_witness :
    (∀ fuel, transformations wordTransformation fuel chainHeap 0 (List.replicate 0xFFFF 3) [] =
      .failed chainHeap .tooLargeScene) ∧
    (∃ h', transformations wordTransformation 3 chainHeap 1 [3] [] = .failed h' .notScene ∧
      Frame chainHeap h') ∧
    (∀ fuel h', transformations wordTransformation fuel chainHeap 0 [3] [] ≠
      .failed h' .notScene) :=
  ⟨(transformations_preconditions wordTransformation chainHeap 0 (List.replicate 0xFFFF 3)
      []).1 (le_of_eq (List.length_replicate _ _).symm),
    (transformations_preconditions wordTransformation chainHeap 1 [3] []).2.1 (by decide) rfl 1
      (Depth.child (p := 0) rfl (Depth.root rfl)) 3 (by decide),
    (transformations_preconditions wordTransformation chainHeap 0 [3] []).2.2 rfl⟩

theorem Below.same_parents {α : Type} {h h' : Heap α} (hp : ∀ o, (h' o).parent = (h o).parent)
    {s o n : Nat} (hb : Below h s o n) : Below h' s o n := by
  induction hb with
  | root hs => exact Below.root (by rw [hp]; exact hs)
  | child hpar _ ih => exact Below.child (by rw [hp]; exact hpar) ih

theorem parent_modify_scratch {α : Type} (h : Heap α) (o : Nat) (f : Object α → Object α)
    (hf : ∀ x, (f x).parent = x.parent) (x : Nat) :
    (h.modify o f x).parent = (h x).parent := by
  rw [Heap.modify_apply]
  split
  · exact hf _
  · rfl

/-- On objects of the tree of `s` the walk-up loop never fails with the
assertion that the objects are not part of the same tree. -/
theorem walkUp_no_foreign {α : Type} (s : Nat) : ∀ (fuel : Nat) (h : Heap α) (W : List Nat) (it : Nat)
    (J : List Nat) (h' : Heap α), (∀ w ∈ W, ∃ n, Below h s w n) →
      walkUp s fuel h W it J ≠ .failed h' .notSameTree
  | 0, _, _, _, _, _, _, hc => by simp [walkUp] at hc
  | fuel + 1, h, W, it, J, h', hW, hc => by
    rw [walkUp] at hc
    have herase : ∀ (g : Heap α), (∀ o, (g o).parent = (h o).parent) →
        ∀ w ∈ W.eraseIdx it, ∃ n, Below g s w n := fun g hg w hw => by
      obtain ⟨n, hn⟩ := hW w (List.mem_of_mem_eraseIdx hw)
      exact ⟨n, hn.same_parents hg⟩
    split at hc
    · cases hc
    · split at hc
      · cases hc
      · rename_i o ho
        have hoW : o ∈ W := List.getElem?_mem ho
        obtain ⟨no, hbo⟩ := hW o hoW
        split at hc
        · exact walkUp_no_foreign s fuel _ _ _ _ _ (herase h fun _ => rfl) hc
        · dsimp only at hc
          have hpar1 : ∀ x, ((h.modify o fun x => { x with visited := true }) x).parent =
              (h x).parent := parent_modify_scratch h o _ fun _ => rfl
          split at hc
          · rename_i hnone
            rw [hpar1] at hnone
            split at hc
            · rename_i hne
              exact hne (hbo.root_eq hnone)
            · exact walkUp_no_foreign s fuel _ _ _ _ _ (herase _ hpar1) hc
          · rename_i p hsome
            rw [hpar1] at hsome
            obtain ⟨mp, -, hbp⟩ := hbo.parent_in_tree hsome
            split at hc
            · split at hc
              · split at hc
                · cases hc
                · split at hc
                  · cases hc
                  · refine walkUp_no_foreign s fuel _ _ _ _ _ (herase _ fun x => ?_) hc
                    rw [Heap.modify_apply]
                    split <;> exact hpar1 x
              · exact walkUp_no_foreign s fuel _ _ _ _ _ (herase _ hpar1) hc
            · refine walkUp_no_foreign s fuel _ _ _ _ _ (fun w hw => ?_) hc
              rcases List.mem_or_eq_of_mem_set hw with hw | rfl
              · obtain ⟨n, hn⟩ := hW w hw
                exact ⟨n, hn.same_parents hpar1⟩
              · exact ⟨mp, hbp.same_parents hpar1⟩

/-- On objects of the tree of `s`, `transformations()` never fails with the
assertion that the objects are not part of the same tree. -/
theorem transformations_no_foreign {α μ : Type} {tr : Transformation α μ} {fuel : Nat} {h : Heap α}
    {s : Nat} {objects : List Nat} {initial : α} {h' : Heap α}
    (htree : ∀ o ∈ objects, ∃ n, Below h s o n) :
    transformations tr fuel h s objects initial ≠ .failed h' .notSameTree := by
  intro hrun
  unfold transformations at hrun
  by_cases hlen : objects.length < 0xFFFF
  · simp only [hlen, not_true_eq_false, if_false] at hrun
    split at hrun
    · cases hrun
    · split at hrun
      · simp only [Run.failed.injEq] at hrun
        cases hrun.2
      · split at hrun
        · rename_i hw
          simp only [Run.failed.injEq] at hrun
          rw [hrun.2] at hw
          refine walkUp_no_foreign s _ _ _ _ _ _ (fun w hw' => ?_) hw
          obtain ⟨n, hn⟩ := htree w hw'
          exact ⟨n, hn.same_parents (markJoints_frame objects h 0).parent⟩
        · cases hrun
        · cases hrun
        · split at hrun
          · rename_i hc
            exact (computeAll_not_failed _ _ _ _ _ _ _ hc).elim
          · cases hrun
          · cases hrun
          · split at hrun <;> cases hrun
  · simp only [hlen, not_false_eq_true, if_true, Run.failed.injEq] at hrun
    cases hrun.2

/-- With enough fuel the walk-up loop on objects with finite chains of parents
ends: with an empty working vector, with the assertion that the objects are
not part of the same tree, or with a full joint list. -/
theorem walkUp_ends {α : Type} {h0 : Heap α} {s : Nat} {objects : List Nat} :
    ∀ (fuel : Nat) (h : Heap α) (W J : List Nat) (b : Nat),
      WalkInv h0 s objects h W J → Budget h0 W b → b < fuel →
      (∃ h' J', walkUp s fuel h W 0 J = .done (h', J')) ∨
      (∃ h', walkUp s fuel h W 0 J = .failed h' .notSameTree) ∨
      (0xFFFF < J.length + W.length ∧ ∃ h', walkUp s fuel h W 0 J = .failed h' .tooLargeScene)
  | 0, _, _, _, _, _, _, hfuel => by omega
  | fuel + 1, h, [], J, b, hI, hB, hfuel => by
    left
    exact ⟨h, J, by simp [walkUp]⟩
  | fuel + 1, h, e :: rest, J, b, hI, hB, hfuel => by
    cases hB with
    | @cons _ ne _ b' hde hBrest =>
    have hlift : ∀ {g : Heap α} {W' J' : List Nat}, W'.length ≤ rest.length + 1 →
        J'.length + W'.length ≤ J.length + (rest.length + 1) →
        ((∃ h' J2, walkUp s fuel g W' 0 J' = .done (h', J2)) ∨
          (∃ h', walkUp s fuel g W' 0 J' = .failed h' .notSameTree) ∨
          (0xFFFF < J'.length + W'.length ∧
            ∃ h', walkUp s fuel g W' 0 J' = .failed h' .tooLargeScene)) →
        ((∃ h' J2, walkUp s fuel g W' 0 J' = .done (h', J2)) ∨
          (∃ h', walkUp s fuel g W' 0 J' = .failed h' .notSameTree) ∨
          (0xFFFF < J.length + (e :: rest).length ∧
            ∃ h', walkUp s fuel g W' 0 J' = .failed h' .tooLargeScene)) := by
      intro g W' J' _ hle hr
      rcases hr with hd | hn | ⟨hlen, hf⟩
      · exact Or.inl hd
      · exact Or.inr (Or.inl hn)
      · exact Or.inr (Or.inr ⟨by simp only [List.length_cons]; omega, hf⟩)
    rw [walkUp]
    simp only [List.isEmpty_cons, Bool.false_eq_true, if_false, List.getElem?_cons_zero,
      List.eraseIdx_cons_zero, wrapIt_zero, List.set_cons_zero]
    by_cases hve : (h e).visited = true
    · simp only [hve, if_true]
      exact hlift (by omega) (by omega)
        (walkUp_ends fuel h rest J b' (hI.pop_visited hve) hBrest (by omega))
    · simp only [hve, if_false, Heap.modify_same]
      cases hp : (h e).parent with
      | none =>
        simp only []
        have hp0 : (h0 e).parent = none := by rw [← hI.frame.parent, hp]
        by_cases hes : e = s
        · simp only [hes, ne_eq, not_true_eq_false, if_false]
          subst hes
          have hI' : WalkInv h0 e objects (h.modify e fun x => { x with visited := true })
              rest J := by
            refine hI.step (hI.frame.mark e true) (hI.joints.setVisited e true) hI.pre
              (visited_mark e) (fun x hx => by rw [joint_mark]; exact hx)
              (fun x hx => by rw [joint_mark] at hx; exact Or.inl hx) ?_ (Or.inl rfl)
              (fun _ => rfl)
            intro p hp'
            rw [hp0] at hp'
            cases hp'
          exact hlift (by omega) (by omega)
            (walkUp_ends fuel _ rest J b' hI' hBrest (by omega))
        · simp only [ne_eq, hes, not_false_eq_true, if_true]
          exact Or.inr (Or.inl ⟨_, rfl⟩)
      | some p =>
        simp only []
        have hp0 : (h0 e).parent = some p := by rw [← hI.frame.parent, hp]
        have hpe : p ≠ e := hde.parent_ne hp0
        have hnr : (h0 e).parent = none → e = s := by
          intro hn
          rw [hp0] at hn
          cases hn
        obtain ⟨mp, hmp, hdp⟩ := hde.parent_below hp0
        rw [Heap.modify_other h _ hpe]
        by_cases hvj : ((h p).visited || (h p).joint) = true
        · simp only [hvj, if_true]
          cases hjp : (h p).joint with
          | true =>
            simp only [Bool.not_true, Bool.false_eq_true, if_false]
            have hI' : WalkInv h0 s objects (h.modify e fun x => { x with visited := true })
                rest J := by
              refine hI.step (hI.frame.mark e true) (hI.joints.setVisited e true) hI.pre
                (visited_mark e) (fun x hx => by rw [joint_mark]; exact hx)
                (fun x hx => by rw [joint_mark] at hx; exact Or.inl hx) ?_ (Or.inl rfl) hnr
              intro q hq
              rw [hp0] at hq
              cases hq
              exact Or.inl (by rw [joint_mark]; exact hjp)
            exact hlift (by omega) (by omega)
              (walkUp_ends fuel _ rest J b' hI' hBrest (by omega))
          | false =>
            simp only [Bool.not_false, if_true]
            have hvp : (h p).visited = true := by simpa [hjp] using hvj
            by_cases hlen : J.length < 0xFFFF
            · simp only [hlen, not_true_eq_false, if_false]
              have hcnt : (h p).counter = sentinel := hI.joints.clear p hjp
              simp only [hcnt, ne_eq, not_true_eq_false, if_false]
              have hj1 : JointsOK (h.modify e fun x => { x with visited := true }) J :=
                hI.joints.setVisited e true
              have hjp1 : ((h.modify e fun x => { x with visited := true }) p).joint = false := by
                rw [joint_mark]; exact hjp
              have hj2 := hj1.push hjp1 hlen
              have hI' : WalkInv h0 s objects
                  ((h.modify e fun x => { x with visited := true }).modify p fun x =>
                    { x with counter := J.length % 65536, joint := true }) rest (J ++ [p]) := by
                refine hI.step ?_ hj2 ?_ ?_ ?_ ?_ ?_ (Or.inl rfl) hnr
                · exact (hI.frame.mark e true).modify p _ fun _ => ⟨rfl, rfl, rfl, rfl, rfl, rfl⟩
                · obtain ⟨extra, hex⟩ := hI.pre
                  exact ⟨extra ++ [p], by rw [hex, List.append_assoc]⟩
                · intro x
                  rw [← visited_mark (h := h) e x]
                  by_cases hx : x = p
                  · subst hx; simp
                  · rw [Heap.modify_other _ _ hx]
                · intro x hx
                  by_cases hxp : x = p
                  · subst hxp; simp
                  · rw [Heap.modify_other _ _ hxp, joint_mark]; exact hx
                · intro x hx
                  by_cases hxp : x = p
                  · subst hxp
                    right
                    simp only [Heap.modify_same]
                    exact (visited_mark e x).2 (Or.inr hvp)
                  · rw [Heap.modify_other _ _ hxp, joint_mark] at hx
                    exact Or.inl hx
                · intro q hq
                  rw [hp0] at hq
                  cases hq
                  left
                  simp
              exact hlift (by omega)
                (by simp only [List.length_append, List.length_cons, List.length_nil]; omega)
                (walkUp_ends fuel _ rest (J ++ [p]) b' hI' hBrest (by omega))
            · simp only [hlen, not_false_eq_true, if_true]
              exact Or.inr (Or.inr ⟨by simp only [List.length_cons]; omega, _, rfl⟩)
        · simp only [hvj, Bool.false_eq_true, if_false]
          have hvp : (h p).visited = false := by
            cases hc : (h p).visited with
            | false => rfl
            | true => simp [hc] at hvj
          have hjp : (h p).joint = false := by
            cases hc : (h p).joint with
            | false => rfl
            | true => simp [hc] at hvj
          have hI' : WalkInv h0 s objects (h.modify e fun x => { x with visited := true })
              (p :: rest) J := by
            refine hI.step (hI.frame.mark e true) (hI.joints.setVisited e true) hI.pre
              (visited_mark e) (fun x hx => by rw [joint_mark]; exact hx)
              (fun x hx => by rw [joint_mark] at hx; exact Or.inl hx) ?_
              (Or.inr ⟨p, hp0, rfl⟩) hnr
            intro q hq
            rw [hp0] at hq
            cases hq
            exact Or.inr ⟨hvp, hjp, rfl⟩
          exact hlift (by simp) (by simp)
            (walkUp_ends fuel _ (p :: rest) J (mp + 1 + b') hI' (Budget.cons hdp hBrest)
              (by omega))

/-- After the walk every visited object is in the tree of the scene. -/
theorem PostWalk.below_of_visited {α : Type} {h0 hW : Heap α} {s : Nat} {J : List Nat}
    (hP : PostWalk h0 s hW J) {x n : Nat} (hd : Depth h0 x n) (hv : (hW x).visited = true) :
    Below h0 s x n := by
  induction hd with
  | @root o hp =>
    have := hP.root o hv hp
    subst this
    exact Below.root hp
  | @child o p n hp _ ih => exact Below.child hp (ih (hP.up o p hv hp))

/-- A walk that ends with an empty working vector has found every listed
object in the tree of the scene. -/
theorem walkUp_done_below {α : Type} {h0 : Heap α} {s : Nat} {objects : List Nat} {fuel : Nat}
    {hW : Heap α} {J : List Nat} (hq : Quiescent h0) (hlen : objects.length < 0xFFFF)
    (hdepth : ∀ o ∈ objects, ∃ n, Depth h0 o n)
    (hrun : walkUp s fuel (markJoints h0 objects 0) objects 0 objects = .done (hW, J)) :
    ∀ o ∈ objects, ∃ n, Below h0 s o n := by
  have hWI := markJoints_walkInv (s := s) hq hlen hdepth
  have hWI' := walkUp_inv fuel _ objects objects hWI hW J hrun
  have hP := PostWalk.of_walkInv hWI'
  obtain ⟨extra, hJ⟩ := hWI'.pre
  intro o ho
  have hj : (hW o).joint = true := (hP.joints.mem o).2 (by rw [hJ]; exact List.mem_append_left _ ho)
  obtain ⟨n, hn⟩ := hdepth o ho
  exact ⟨n, hP.below_of_visited hn (hP.allVis o hj)⟩

/-- C30 as amended: foreign objects are detected unless the joint list
overflows first. For a scene `s` with clean scratch state and a list of fewer
than 0xFFFF objects with finite chains of parents: if some listed object's
root is not `s` then, with enough fuel, `s.transformations` fails, with the
assertion that the objects are not part of the same tree or, only when the
list has more than 0x7FFF objects, with the assertion of a too large scene;
and if every listed object is in the tree of `s` the call never fails with the
assertion that the objects are not part of the same tree. -/
theorem foreign_objects_detected {α μ : Type} (tr : Transformation α μ) (h : Heap α) (s : Nat)
    (objects : List Nat) (initial : α) :
    (Quiescent h → (h s).isScene = true → objects.length < 0xFFFF →
      (∀ o ∈ objects, ∃ n, Depth h o n) → (∃ o ∈ objects, ¬ ∃ n, Below h s o n) →
      ∃ N, ∀ fuel, N ≤ fuel →
        (∃ h', transformations tr fuel h s objects initial = .failed h' .notSameTree) ∨
        (0x7FFF < objects.length ∧
          ∃ h', transformations tr fuel h s objects initial = .failed h' .tooLargeScene)) ∧
    ((∀ o ∈ objects, ∃ n, Below h s o n) →
      ∀ fuel h', transformations tr fuel h s objects initial ≠ .failed h' .notSameTree) := by
  refine ⟨fun hq hs hlen hdepth hforeign => ?_, fun htree fuel h' =>
    transformations_no_foreign htree⟩
  obtain ⟨b0, hB0⟩ := Budget.exists_for objects hdepth
  refine ⟨b0 + 1, fun fuel hfuel => ?_⟩
  obtain ⟨f, rfl⟩ : ∃ f, fuel = f + 1 := ⟨fuel - 1, by omega⟩
  have hsc : sceneObject (markJoints h objects 0) (f + 1) (some s) = some (some s) := by
    simp only [sceneObject]
    rw [(markJoints_frame objects h 0).isScene, hs]
    rfl
  have hWI := markJoints_walkInv (s := s) hq hlen hdepth
  unfold transformations
  simp only [hlen, not_true_eq_false, if_false, hsc, ne_eq]
  rcases walkUp_ends (f + 1) _ objects objects b0 hWI hB0 (by omega) with
    ⟨hW, J, hw⟩ | ⟨h', hw⟩ | ⟨hbig, h', hw⟩
  · exfalso
    obtain ⟨o, ho, hno⟩ := hforeign
    exact hno (walkUp_done_below hq hlen hdepth hw o ho)
  · left
    simp only [hw]
    exact ⟨h', rfl⟩
  · right
    simp only [hw]
    exact ⟨by omega, h', rfl⟩

/-- One iteration of the walk-up loop on an object whose parent is neither
visited nor a joint: the object is marked and replaced by its parent. -/
theorem walkUp_up {α : Type} (s fuel : Nat) (h : Heap α) (e p : Nat) (rest J : List Nat)
    (hv : (h e).visited = false) (hp : (h e).parent = some p) (hpe : p ≠ e)
    (hvp : (h p).visited = false) (hjp : (h p).joint = false) :
    walkUp s (fuel + 1) h (e :: rest) 0 J =
      walkUp s fuel (h.modify e fun x => { x with visited := true }) (p :: rest) 0 J := by
  rw [walkUp]
  simp only [List.isEmpty_cons, Bool.false_eq_true, if_false, List.getElem?_cons_zero,
    List.eraseIdx_cons_zero, wrapIt_zero, List.set_cons_zero, hv, Heap.modify_same, hp,
    Heap.modify_other h _ hpe, hvp, hjp, Bool.or_self]

/-- One iteration of the walk-up loop on the scene: it is marked and dropped. -/
theorem walkUp_root {α : Type} (s fuel : Nat) (h : Heap α) (rest J : List Nat)
    (hv : (h s).visited = false) (hp : (h s).parent = none) :
    walkUp s (fuel + 1) h (s :: rest) 0 J =
      walkUp s fuel (h.modify s fun x => { x with visited := true }) rest 0 J := by
  rw [walkUp]
  simp only [List.isEmpty_cons, Bool.false_eq_true, if_false, List.getElem?_cons_zero,
    List.eraseIdx_cons_zero, wrapIt_zero, hv, Heap.modify_same, hp, ne_eq, not_true_eq_false]

/-- One iteration of the walk-up loop on an object whose parent is visited and
not a joint, the joint list having room: the object is marked and dropped, the
parent becomes a joint. -/
theorem walkUp_join {α : Type} (s fuel : Nat) (h : Heap α) (e p : Nat) (rest J : List Nat)
    (hv : (h e).visited = false) (hp : (h e).parent = some p) (hpe : p ≠ e)
    (hvp : (h p).visited = true) (hjp : (h p).joint = false) (hlen : J.length < 0xFFFF)
    (hc : (h p).counter = sentinel) :
    walkUp s (fuel + 1) h (e :: rest) 0 J =
      walkUp s fuel ((h.modify e fun x => { x with visited := true }).modify p fun x =>
        { x with counter := J.length % 65536, joint := true }) rest 0 (J ++ [p]) := by
  rw [walkUp]
  simp only [List.isEmpty_cons, Bool.false_eq_true, if_false, List.getElem?_cons_zero,
    List.eraseIdx_cons_zero, wrapIt_zero, hv, Heap.modify_same, hp,
    Heap.modify_other h _ hpe, hvp, hjp, Bool.or_false, if_true, Bool.not_false, hlen,
    not_true_eq_false, hc, ne_eq]

/-- One iteration of the walk-up loop on an object whose parent is visited and
not a joint, the joint list being full: the assertion on its size fails. -/
theorem walkUp_full {α : Type} (s fuel : Nat) (h : Heap α) (e p : Nat) (rest J : List Nat)
    (hv : (h e).visited = false) (hp : (h e).parent = some p) (hpe : p ≠ e)
    (hvp : (h p).visited = true) (hjp : (h p).joint = false) (hlen : ¬ J.length < 0xFFFF) :
    walkUp s (fuel + 1) h (e :: rest) 0 J =
      .failed (h.modify e fun x => { x with visited := true }) .tooLargeScene := by
  rw [walkUp]
  simp only [List.isEmpty_cons, Bool.false_eq_true, if_false, List.getElem?_cons_zero,
    List.eraseIdx_cons_zero, hv, Heap.modify_same, hp,
    Heap.modify_other h _ hpe, hvp, hjp, Bool.or_false, if_true, Bool.not_false, hlen,
    not_false_eq_true]

/-- The walk on the fan: `2` goes up through `1` to the scene, `3` makes `1`
the joint number 65534, and at `4` the joint list is full. -/
theorem fan_walk (h1 : Heap (List Nat)) (rest J : List Nat)
    (hpar : ∀ o, (h1 o).parent = (fanHeap o).parent) (hvis : ∀ o, (h1 o).visited = false)
    (hj0 : (h1 0).joint = false) (hj1 : (h1 1).joint = false)
    (hc1 : (h1 1).counter = sentinel) (hJ : J.length = 65534) (fuel : Nat) :
    (fuel < 5 ∧ walkUp 0 fuel h1 (2 :: 3 :: 4 :: rest) 0 J = .outOfFuel) ∨
      (5 ≤ fuel ∧
        ∃ h', walkUp 0 fuel h1 (2 :: 3 :: 4 :: rest) 0 J = .failed h' .tooLargeScene) := by
  have hp2 : (h1 2).parent = some 1 := by rw [hpar]; rfl
  have hp1 : (h1 1).parent = some 0 := by rw [hpar]; rfl
  have hp0 : (h1 0).parent = none := by rw [hpar]; rfl
  have hp3 : (h1 3).parent = some 1 := by rw [hpar]; rfl
  have hp4 : (h1 4).parent = some 0 := by rw [hpar]; rfl
  rcases fuel with _ | fuel
  · exact Or.inl ⟨by omega, rfl⟩
  rw [walkUp_up 0 fuel h1 2 1 _ J (hvis 2) hp2 (by decide) (hvis 1) hj1]
  rcases fuel with _ | fuel
  · exact Or.inl ⟨by omega, rfl⟩
  rw [walkUp_up 0 fuel _ 1 0 _ J (by simp [Heap.modify_apply, hvis])
    (by simp [Heap.modify_apply, hp1]) (by decide) (by simp [Heap.modify_apply, hvis])
    (by simp [Heap.modify_apply, hj0])]
  rcases fuel with _ | fuel
  · exact Or.inl ⟨by omega, rfl⟩
  rw [walkUp_root 0 fuel _ _ J (by simp [Heap.modify_apply, hvis])
    (by simp [Heap.modify_apply, hp0])]
  rcases fuel with _ | fuel
  · exact Or.inl ⟨by omega, rfl⟩
  rw [walkUp_join 0 fuel _ 3 1 _ J (by simp [Heap.modify_apply, hvis])
    (by simp [Heap.modify_apply, hp3]) (by decide) (by simp [Heap.modify_apply])
    (by simp [Heap.modify_apply, hj1]) (by omega) (by simp [Heap.modify_apply, hc1])]
  rcases fuel with _ | fuel
  · exact Or.inl ⟨by omega, rfl⟩
  rw [walkUp_full 0 fuel _ 4 0 _ (J ++ [1]) (by simp [Heap.modify_apply, hvis])
    (by simp [Heap.modify_apply, hp4]) (by decide) (by simp [Heap.modify_apply])
    (by simp [Heap.modify_apply, hj0])
    (by simp only [List.length_append, List.length_cons, List.length_nil]; omega)]
  exact Or.inr ⟨by omega, _, rfl⟩

theorem crowd_length : crowd.length = 65534 := by
  unfold crowd
  rw [List.length_cons, List.length_cons, List.length_cons, List.length_append,
    List.length_replicate]
  rfl

theorem mem_crowd (x : Nat) : x ∈ crowd ↔ x = 2 ∨ x = 3 ∨ x = 4 ∨ x = 5 := by
  unfold crowd
  simp only [List.mem_cons, List.mem_append, List.mem_replicate, List.mem_singleton, ne_eq,
    List.mem_nil_iff, or_false]
  constructor
  · rintro (h | h | h | ⟨_, h⟩ | h) <;> simp [h]
  · rintro (h | h | h | h) <;> simp [h]

theorem fanHeap_quiescent : Quiescent fanHeap := fun _ => ⟨rfl, rfl, rfl⟩

theorem fanHeap_depth : ∀ o, ∃ n, Depth fanHeap o n := by
  intro o
  have h0 : Depth fanHeap 0 0 := Depth.root rfl
  have h1 : Depth fanHeap 1 1 := Depth.child (p := 0) rfl h0
  by_cases ho : o = 1 ∨ o = 4
  · rcases ho with rfl | rfl
    · exact ⟨1, h1⟩
    · exact ⟨1, Depth.child (p := 0) rfl h0⟩
  · by_cases ho' : o = 2 ∨ o = 3
    · rcases ho' with rfl | rfl
      · exact ⟨2, Depth.child (p := 1) rfl h1⟩
      · exact ⟨2, Depth.child (p := 1) rfl h1⟩
    · exact ⟨0, Depth.root (by simp [fanHeap, ho, ho'])⟩

/-- The call of the scene `0` of the fan on the 65534 objects of `crowd`: with
fuel below 5 the fuel runs out, otherwise the call fails as a too large
scene. -/
theorem fan_transformations (fuel : Nat) :
    (fuel < 5 ∧ transformations wordTransformation fuel fanHeap 0 crowd [] = .outOfFuel) ∨
    (5 ≤ fuel ∧ ∃ h',
      transformations wordTransformation fuel fanHeap 0 crowd [] = .failed h' .tooLargeScene) := by
  have hlen : crowd.length < 0xFFFF := by rw [crowd_length]; decide
  have hseed : Frame fanHeap (markJoints fanHeap crowd 0) ∧
      JointsOK (markJoints fanHeap crowd 0) crowd ∧
      ∀ o, (markJoints fanHeap crowd 0 o).visited = false :=
    markJoints_seed fanHeap crowd [] fanHeap hlen (Frame.refl _)
      (JointsOK.of_quiescent fanHeap_quiescent) (fun _ => rfl)
  obtain ⟨hf, hj, hv⟩ := hseed
  have hnj : ∀ x, x ∉ crowd → (markJoints fanHeap crowd 0 x).joint = false := fun x hx => by
    cases hc : (markJoints fanHeap crowd 0 x).joint with
    | false => rfl
    | true => exact absurd ((hj.mem x).1 hc) hx
  have hj0 := hnj 0 (by rw [mem_crowd]; decide)
  have hj1 := hnj 1 (by rw [mem_crowd]; decide)
  have hw := fan_walk (markJoints fanHeap crowd 0) (List.replicate 65530 4 ++ [5]) crowd
    hf.parent hv hj0 hj1 (hj.clear 1 hj1) crowd_length fuel
  unfold transformations
  simp only [hlen, not_true_eq_false, if_false]
  rcases fuel with _ | f
  · exact Or.inl ⟨by omega, rfl⟩
  · have hsc : sceneObject (markJoints fanHeap crowd 0) (f + 1) (some 0) = some (some 0) := by
      simp only [sceneObject]
      rw [hf.isScene]
      rfl
    simp only [hsc, ne_eq, not_true_eq_false, if_false]
    have hcrowd : crowd = 2 :: 3 :: 4 :: (List.replicate 65530 4 ++ [5]) := rfl
    rcases hw with ⟨hlt, hw⟩ | ⟨hge, h', hw⟩
    · left
      refine ⟨hlt, ?_⟩
      rw [hcrowd] at hw ⊢
      rw [hw]
    · right
      refine ⟨hge, h', ?_⟩
      rw [hcrowd] at hw ⊢
      rw [hw]

/-- C30 as stated fails: in the heap with the scene `0`, its children `1` and
`4` and the children `2` and `3` of `1`, the list of the 65534 objects `2`,
`3`, 65531 times `4` and the detached object `5` has fewer than 0xFFFF
objects and contains `5`, whose root is `5` and not the scene; yet the call
`transformations` on the scene fails as a too large scene (given fuel for five
iterations of the loop) and for no fuel as objects that are not part of the
same tree: the joint list, which starts with the 65534 objects, is full when
`4` is reached, before the loop comes to `5`. -/
theorem foreign_undetected_counterexample :
    Quiescent fanHeap ∧ (fanHeap 0).isScene = true ∧ crowd.length < 0xFFFF ∧
    (∀ o ∈ crowd, ∃ n, Depth fanHeap o n) ∧
    5 ∈ crowd ∧ (fanHeap 5).parent = none ∧ (¬ ∃ n, Below fanHeap 0 5 n) ∧
    (∀ fuel, 5 ≤ fuel → ∃ h',
      transformations wordTransformation fuel fanHeap 0 crowd [] = .failed h' .tooLargeScene) ∧
    (∀ fuel h',
      transformations wordTransformation fuel fanHeap 0 crowd [] ≠ .failed h' .notSameTree) := by
  refine ⟨fanHeap_quiescent, rfl, by rw [crowd_length]; decide, fun o _ => fanHeap_depth o,
    (mem_crowd 5).2 (by decide), rfl, ?_, fun fuel hfuel => ?_, fun fuel h' hrun => ?_⟩
  · rintro ⟨n, hn⟩
    have := hn.root_eq rfl
    cases this
  · rcases fan_transformations fuel with ⟨hlt, _⟩ | ⟨_, hr⟩
    · omega
    · exact hr
  · rcases fan_transformations fuel with ⟨_, hr⟩ | ⟨_, h2, hr⟩
    · rw [hr] at hrun
      cases hrun
    · rw [hr] at hrun
      cases hrun

/-- C30 as amended, on the chain `0 <- 1 <- 2 <- 3` with the scene `0`: the
list `[3, 7]` contains the detached object `7` and the call fails as objects
that are not part of the same tree; the objects of `[3, 1]` are in the tree of
the scene and the call never fails so. -/
theorem foreign_objects_detected_witness :
    (∃ N, ∀ fuel, N ≤ fuel →
      (∃ h', transformations wordTransformation fuel chainHeap 0 [3, 7] [] =
        .failed h' .notSameTree) ∨
      (0x7FFF < [3, 7].length ∧
        ∃ h', transformations wordTransformation fuel chainHeap 0 [3, 7] [] =
          .failed h' .tooLargeScene)) ∧
    (∀ fuel h', transformations wordTransformation fuel chainHeap 0 [3, 1] [] ≠
      .failed h' .notSameTree) :=
  ⟨(foreign_objects_detected wordTransformation chainHeap 0 [3, 7] []).1 chainHeap_quiescent rfl
      (by decide)
      (fun o ho => by
        rcases List.mem_cons.1 ho with rfl | ho
        · exact ⟨3, Depth.child (p := 2) rfl (Depth.child (p := 1) rfl
            (Depth.child (p := 0) rfl (Depth.root rfl)))⟩
        · rcases List.mem_cons.1 ho with rfl | ho
          · exact ⟨0, Depth.root rfl⟩
          · cases ho)
      ⟨7, by decide, fun ⟨n, hn⟩ => by
        have := hn.root_eq rfl
        cases this⟩,
    (foreign_objects_detected wordTransformation chainHeap 0 [3, 1] []).2 fun o ho =>
      chainHeap_below o (by
        rcases List.mem_cons.1 ho with rfl | ho
        · decide
        · rcases List.mem_cons.1 ho with rfl | ho
          · decide
          · cases ho)⟩

theorem Ancestor.of_root {α : Type} {h : Heap α} {a o k : Nat} (ha : Ancestor h a o k)
    (hp : (h o).parent = none) : a = o := by
  cases ha with
  | self => rfl
  | up hp' _ => rw [hp] at hp'; cases hp'

/-- What `sceneObject()` gives back, whatever the fuel: the first scene met
going up from the object, or null when there is no scene on the way up. -/
theorem sceneObject_sound {α : Type} {h : Heap α} : ∀ (fuel o : Nat),
    (sceneObject h fuel (some o) = some none →
      ∀ a k, Ancestor h a o k → (h a).isScene = false) ∧
    (∀ s, sceneObject h fuel (some o) = some (some s) →
      (h s).isScene = true ∧ ∃ k, Ancestor h s o k)
  | 0, o => by simp [sceneObject]
  | fuel + 1, o => by
    simp only [sceneObject]
    cases hs : (h o).isScene with
    | true =>
      simp only [if_true]
      refine ⟨fun hc => (by cases hc), fun s hso => ?_⟩
      simp only [Option.some.injEq] at hso
      subst hso
      exact ⟨hs, 0, Ancestor.self⟩
    | false =>
      simp only [Bool.false_eq_true, if_false]
      cases hp : (h o).parent with
      | none =>
        refine ⟨fun _ a k ha => ?_, fun s hso => ?_⟩
        · rw [ha.of_root hp]
          exact hs
        · cases fuel <;> simp [sceneObject] at hso
      | some p =>
        obtain ⟨ih1, ih2⟩ := sceneObject_sound fuel p
        refine ⟨fun hn a k ha => ?_, fun s hso => ?_⟩
        · cases ha with
          | self => exact hs
          | up hp' ha' =>
            rw [hp] at hp'
            cases hp'
            exact ih1 hn a _ ha'
        · obtain ⟨h1, k, hk⟩ := ih2 s hso
          exact ⟨h1, k + 1, Ancestor.up hp hk⟩

/-- The loop of lines 323-324 has no `CORRADE_ASSERT`. -/
theorem setCleanEach_not_failed {α μ : Type} (tr : Transformation α μ) :
    ∀ (objects : List Nat) (ts : List α) (h : Heap α) (log : List (Event μ)) (h' : Heap α)
      (e : Failure), setCleanEach tr h objects ts log ≠ .failed h' e
  | [], _, _, _, _, _ => by simp [setCleanEach]
  | _ :: _, [], _, _, _, _ => by simp [setCleanEach]
  | o :: objects, t :: ts, h, log, h', e => by
    rw [setCleanEach]
    exact setCleanEach_not_failed tr objects ts _ _ h' e

/-- C31: the batch `setClean(objects)` on nothing to do and on detached input.
When the list is empty or holds clean objects only, the call returns at once:
the heap is as before and no callback is made. Otherwise, `first` being the
first dirty object in list order: the only `CORRADE_ASSERT` the call can fail
is the one on the scene, and then the heap is the one before the call (no
callback has been made at that point) and there is no scene on the way up from
`first`; and, the chain of parents of `first` being finite and the fuel enough
for walking it, the call fails so iff there is no scene on the way up from
`first`, `first` included. -/
theorem batch_setClean_detached {α μ : Type} (tr : Transformation α μ) (h : Heap α) (objects : List Nat) :
    ((∀ o ∈ objects, (h o).dirty = false) →
      ∀ fuel, setCleanObjects tr fuel h objects = .done (h, ([] : List (Event μ)))) ∧
    (∀ first rest, (objects.filter fun o => (h o).dirty) = first :: rest →
      (∀ fuel h' e,
        setCleanObjects tr fuel h objects = (.failed h' e : Run α (Heap α × List (Event μ))) →
        h' = h ∧ e = .noScene ∧ ∀ a k, Ancestor h a first k → (h a).isScene = false) ∧
      (∀ n, Depth h first n → ∀ fuel, n + 2 ≤ fuel →
        (setCleanObjects tr fuel h objects =
            (.failed h .noScene : Run α (Heap α × List (Event μ))) ↔
          ∀ a k, Ancestor h a first k → (h a).isScene = false))) := by
  constructor
  · intro hclean fuel
    have : (objects.filter fun o => (h o).dirty) = [] := by
      rw [List.filter_eq_nil_iff]
      intro o ho
      simp [hclean o ho]
    simp only [setCleanObjects, this]
  · intro first rest hfilter
    have hfail : ∀ fuel h' e,
        setCleanObjects tr fuel h objects = (.failed h' e : Run α (Heap α × List (Event μ))) →
        h' = h ∧ e = .noScene ∧ ∀ a k, Ancestor h a first k → (h a).isScene = false := by
      intro fuel h' e hrun
      simp only [setCleanObjects, hfilter] at hrun
      split at hrun
      · cases hrun
      · rename_i hsc
        simp only [Run.failed.injEq] at hrun
        exact ⟨hrun.1.symm, hrun.2.symm, (sceneObject_sound fuel first).1 hsc⟩
      · split at hrun
        · exact (setCleanEach_not_failed tr _ _ _ _ _ _ hrun).elim
        · exact (setCleanEach_not_failed tr _ _ _ _ _ _ hrun).elim
        · cases hrun
        · cases hrun
    refine ⟨hfail, fun n hd fuel hfuel => ⟨fun hrun => (hfail fuel h _ hrun).2.2, fun hno => ?_⟩⟩
    obtain ⟨r, hr⟩ := sceneObject_total hd fuel hfuel
    cases r with
    | none => simp only [setCleanObjects, hfilter, hr]
    | some s =>
      obtain ⟨hs, k, hk⟩ := (sceneObject_sound fuel first).2 s hr
      rw [hno s k hk] at hs
      cases hs

/-- C31, on the chain `0 <- 1 <- 2 <- 3` with the scene `0`, the other
addresses being detached objects: with every object clean, the list `[1, 7]`
and the empty list change nothing; with every object dirty, the list `[7, 3]`,
whose first dirty object `7` is detached, fails on the scene with the heap as
before, and the list `[3, 7]` does not. -/
theorem batch_setClean_detached_witness :
    setCleanObjects wordTransformation 5 chainHeap [1, 7] =
      .done (chainHeap, ([] : List (Event (List Nat)))) ∧
    setCleanObjects wordTransformation 5 chainHeap [] =
      .done (chainHeap, ([] : List (Event (List Nat)))) ∧
    setCleanObjects wordTransformation 5 dirtyChainHeap [7, 3] =
      (.failed dirtyChainHeap .noScene : Run (List Nat) (Heap (List Nat) ×
        List (Event (List Nat)))) ∧
    setCleanObjects wordTransformation 5 dirtyChainHeap [3, 7] ≠
      (.failed dirtyChainHeap .noScene : Run (List Nat) (Heap (List Nat) ×
        List (Event (List Nat)))) :=
  ⟨(batch_setClean_detached wordTransformation chainHeap [1, 7]).1 (by decide) 5,
    (batch_setClean_detached wordTransformation chainHeap []).1 (by decide) 5,
    ((batch_setClean_detached wordTransformation dirtyChainHeap [7, 3]).2 7 [3] rfl).2 0
      (Depth.root rfl) 5 (by decide) |>.2 (fun a k ha => by
        rw [ha.of_root rfl]
        rfl),
    fun hrun => by
      have := ((batch_setClean_detached wordTransformation dirtyChainHeap [3, 7]).2 3 [7]
        rfl).1 5 _ _ hrun |>.2.2 0 3
        (Ancestor.up (p := 2) rfl (Ancestor.up (p := 1) rfl (Ancestor.up (p := 0) rfl
          Ancestor.self)))
      cases this⟩

/-- Lines 71-75 change links only. -/
theorem relink_isScene {α : Type} (h : Heap α) (this : Nat) (parent : Option Nat) (x : Nat) :
    (relink h this parent x).isScene = (h x).isScene := by
  unfold relink
  cases (h this).parent <;> cases parent <;>
    simp only [LinkedList.cut, LinkedList.insert, Heap.modify_apply] <;>
    repeat (split <;> try rfl)

/-- Lines 71-75 change the parent link of `this` only. -/
theorem relink_parent_other {α : Type} (h : Heap α) (this : Nat) (parent : Option Nat) {x : Nat}
    (hx : x ≠ this) : (relink h this parent x).parent = (h x).parent := by
  unfold relink
  cases (h this).parent <;> cases parent <;>
    simp only [LinkedList.cut, LinkedList.insert, Heap.modify_apply, hx, if_false] <;>
    repeat (split <;> try rfl)

/-- A call of `setParent()` that returns gives no scene a parent. -/
theorem setParent_scenes {α μ : Type} {fuel : Nat} {h h' : Heap α} {this r : Nat} {parent : Option Nat}
    {ev : List (Event μ)} (hsc : ∀ x, (h x).isScene = true → (h x).parent = none)
    (hrun : setParent fuel h this parent = some (h', ev, r)) :
    (∀ x, (h' x).isScene = (h x).isScene) ∧
    ∀ x, (h' x).isScene = true → (h' x).parent = none := by
  obtain ⟨_, ⟨rfl, _⟩ | ⟨_, hns, _, hd⟩⟩ := setParent_cases hrun
  · exact ⟨fun _ => rfl, hsc⟩
  · have hf := setDirty_frame _ _ _ _ _ hd
    have hsame : ∀ x, (h' x).isScene = (h x).isScene := fun x => by
      rw [hf x]
      exact relink_isScene h this parent x
    refine ⟨hsame, fun x hx => ?_⟩
    rw [hsame] at hx
    have hxt : x ≠ this := fun e => by
      rw [e, hns] at hx
      cases hx
    rw [hf.parent_eq, relink_parent_other h this parent hxt]
    exact hsc x hx

/-- In states reached from parentless objects no scene has a parent, and the
scenes are those of the beginning. -/
theorem Reachable.scenes_parentless {α μ : Type} {h0 h : Heap α} (hinit : ∀ o, (h0 o).parent = none)
    (hreach : Reachable μ h0 h) :
    (∀ x, (h x).isScene = (h0 x).isScene) ∧
    ∀ x, (h x).isScene = true → (h x).parent = none := by
  induction hreach with
  | init => exact ⟨fun _ => rfl, fun x _ => hinit x⟩
  | step fuel this parent ev r _ hrun ih =>
    obtain ⟨h1, h2⟩ := setParent_scenes ih.2 hrun
    exact ⟨fun x => (h1 x).trans (ih.1 x), h2⟩

/-- A finite chain of parents ends at a root. -/
theorem Depth.root_exists {α : Type} {h : Heap α} {o n : Nat} (hd : Depth h o n) : ∃ r, Below h r o n := by
  induction hd with
  | @root o hp => exact ⟨o, Below.root hp⟩
  | child hp _ ih =>
    obtain ⟨r, hr⟩ := ih
    exact ⟨r, Below.child hp hr⟩

/-- A parentless object on the way up from `o` is the root of `o`. -/
theorem Ancestor.eq_root {α : Type} {h : Heap α} {a o k : Nat} (ha : Ancestor h a o k) :
    ∀ {r n : Nat}, Below h r o n → (h a).parent = none → a = r := by
  induction ha with
  | self => exact fun hb hp => hb.root_eq hp
  | up hpar _ ih =>
    intro r n hb hp
    obtain ⟨m, _, hbp⟩ := hb.parent_in_tree hpar
    exact ih hbp hp

/-- C32: `scene()`. In every state reached from parentless objects by calls of
`setParent` that return: a scene never has a parent; every object `o` has a
root `r`, reached after some `n` steps, and `sceneObject()`, which `scene()`
casts, gives `r` when `r` is a scene and null when it is not, given fuel for
the walk; two scenes of one tree are the same object; and `sceneObject()` of a
scene is the scene itself. -/
theorem scene_of_reachable {α : Type} (μ : Type) (h0 h : Heap α)
    (hinit : ∀ o, (h0 o).parent = none ∧ (h0 o).children = [])
    (hreach : Reachable μ h0 h) :
    (∀ x, (h x).isScene = true → (h x).parent = none) ∧
    (∀ o, ∃ r n, Below h r o n ∧
      ((h r).isScene = true →
        ∀ fuel, n < fuel → sceneObject h fuel (some o) = some (some r)) ∧
      ((h r).isScene = false →
        ∀ fuel, n + 2 ≤ fuel → sceneObject h fuel (some o) = some none)) ∧
    (∀ r x y n m, Below h r x n → Below h r y m → (h x).isScene = true →
      (h y).isScene = true → x = y) ∧
    (∀ s, (h s).isScene = true → ∀ fuel, 0 < fuel →
      sceneObject h fuel (some s) = some (some s)) := by
  have hsc := (Reachable.scenes_parentless (fun o => (hinit o).1) hreach).2
  obtain ⟨ht, _⟩ := Reachable.invariant hinit hreach
  refine ⟨hsc, fun o => ?_, fun r x y n m hx hy hsx hsy => ?_, fun s hs fuel hfuel => ?_⟩
  · obtain ⟨n, hd⟩ := ht.acyclic o
    obtain ⟨r, hb⟩ := hd.root_exists
    refine ⟨r, n, hb, fun hs => (sceneObject_of_below hb hs hsc).2, fun hs fuel hfuel => ?_⟩
    obtain ⟨res, hres⟩ := sceneObject_total hd fuel hfuel
    cases res with
    | none => exact hres
    | some s =>
      obtain ⟨hss, k, hk⟩ := (sceneObject_sound fuel o).2 s hres
      rw [hk.eq_root hb (hsc s hss), hs] at hss
      cases hss
  · rw [hx.root_eq (hsc x hsx), hy.root_eq (hsc y hsy)]
  · obtain ⟨f, rfl⟩ : ∃ f, fuel = f + 1 := ⟨fuel - 1, by omega⟩
    simp only [sceneObject, hs, if_true]

/-- C32, from parentless objects with the scene `0`: `1` is put under the
scene and `2` under `1`; the attempt to give the scene the parent `2` changes
nothing; `scene()` of `2` is the scene `0`, that of the detached object `7` is
null. -/
theorem scene_of_reachable_witness :
    ∃ (h1 h2 : Heap (List Nat)) (ev1 ev2 : List (Event (List Nat))),
      setParent 5 looseHeap 1 (some 0) = some (h1, ev1, 1) ∧
      setParent 5 h1 2 (some 1) = some (h2, ev2, 2) ∧
      setParent 5 h2 0 (some 2) = some (h2, ([] : List (Event (List Nat))), 0) ∧
      sceneObject h2 5 (some 2) = some (some 0) ∧ sceneObject h2 5 (some 7) = some none ∧
      sceneObject h2 5 (some 0) = some (some 0) ∧
      ((∀ x, (h2 x).isScene = true → (h2 x).parent = none) ∧
        (∀ o, ∃ r n, Below h2 r o n ∧
          ((h2 r).isScene = true →
            ∀ fuel, n < fuel → sceneObject h2 fuel (some o) = some (some r)) ∧
          ((h2 r).isScene = false →
            ∀ fuel, n + 2 ≤ fuel → sceneObject h2 fuel (some o) = some none)) ∧
        (∀ r x y n m, Below h2 r x n → Below h2 r y m → (h2 x).isScene = true →
          (h2 y).isScene = true → x = y) ∧
        (∀ s, (h2 s).isScene = true → ∀ fuel, 0 < fuel →
          sceneObject h2 fuel (some s) = some (some s))) :=
  ⟨_, _, _, _, rfl, rfl, rfl, rfl, rfl, rfl,
    scene_of_reachable (List Nat) looseHeap _ (fun _ => ⟨rfl, rfl⟩)
      (Reachable.step 5 2 (some 1) _ 2
        (Reachable.step 5 1 (some 0) _ 1 Reachable.init rfl) rfl)⟩

/-- The walk-up loop only appends to the joint list. -/
theorem walkUp_joints_grow {α : Type} (s : Nat) : ∀ (fuel : Nat) (h : Heap α) (W : List Nat) (it : Nat)
    (J : List Nat) (h' : Heap α) (J' : List Nat),
    walkUp s fuel h W it J = .done (h', J') → J.length ≤ J'.length
  | 0, _, _, _, _, _, _, hrun => by simp [walkUp] at hrun
  | fuel + 1, h, W, it, J, h', J', hrun => by
    rw [walkUp] at hrun
    split at hrun
    · simp only [Run.done.injEq, Prod.mk.injEq] at hrun
      rw [hrun.2]
    · split at hrun
      · cases hrun
      · split at hrun
        · exact walkUp_joints_grow s fuel _ _ _ _ _ _ hrun
        · dsimp only at hrun
          split at hrun
          · split at hrun
            · cases hrun
            · exact walkUp_joints_grow s fuel _ _ _ _ _ _ hrun
          · split at hrun
            · split at hrun
              · split at hrun
                · cases hrun
                · split at hrun
                  · cases hrun
                  · have := walkUp_joints_grow s fuel _ _ _ _ _ _ hrun
                    simp only [List.length_append, List.length_cons, List.length_nil] at this
                    omega
              · exact walkUp_joints_grow s fuel _ _ _ _ _ _ hrun
            · exact walkUp_joints_grow s fuel _ _ _ _ _ _ hrun

/-- The function `computeJointTransformation()` and its loop keep the size of the vector
of joint transformations. -/
theorem compute_length {α μ : Type} {tr : Transformation α μ} {J : List Nat} {initial : α} :
    ∀ fuel : Nat,
    (∀ (h : Heap α) (T : List α) (joint : Nat) (h' : Heap α) (T' : List α) (v : α),
      computeJointTransformation tr J initial fuel h T joint = .done (h', T', v) →
      T'.length = T.length) ∧
    (∀ (h : Heap α) (T : List α) (joint o : Nat) (h' : Heap α) (T' : List α) (v : α),
      goUp tr J initial fuel h T joint o = .done (h', T', v) → T'.length = T.length) := by
  intro fuel
  induction fuel with
  | zero =>
    constructor
    · intro h T joint h' T' v hrun
      simp [computeJointTransformation] at hrun
    · intro h T joint o h' T' v hrun
      simp [goUp] at hrun
  | succ fuel ih =>
    constructor
    · intro h T joint h' T' v hrun
      rw [computeJointTransformation] at hrun
      split at hrun
      · cases hrun
      · split at hrun
        · cases hrun
        · split at hrun
          · simp only [Run.done.injEq, Prod.mk.injEq] at hrun
            rw [← hrun.2.1]
          · have := ih.2 _ _ _ _ _ _ _ hrun
            rw [this, List.length_set]
    · intro h T joint o h' T' v hrun
      rw [goUp] at hrun
      split at hrun
      · cases hrun
      · dsimp only at hrun
        split at hrun
        · split at hrun
          · cases hrun
          · split at hrun
            · cases hrun
            · simp only [Run.done.injEq, Prod.mk.injEq] at hrun
              rw [← hrun.2.1, List.length_set]
        · split at hrun
          · split at hrun
            · rename_i hr
              split at hrun
              · cases hrun
              · simp only [Run.done.injEq, Prod.mk.injEq] at hrun
                rw [← hrun.2.1, List.length_set]
                exact ih.1 _ _ _ _ _ _ hr
            · cases hrun
            · cases hrun
            · cases hrun
          · split at hrun
            · cases hrun
            · have := ih.2 _ _ _ _ _ _ _ hrun
              rw [this, List.length_set]

theorem computeAll_length {α μ : Type} {tr : Transformation α μ} {J : List Nat} {initial : α}
    (fuel : Nat) : ∀ (n i : Nat) (h : Heap α) (T : List α) (h' : Heap α) (T' : List α),
    computeAll tr J initial fuel n i h T = .done (h', T') → T'.length = T.length
  | 0, _, _, _, _, _, hrun => by
    simp only [computeAll, Run.done.injEq, Prod.mk.injEq] at hrun
    rw [hrun.2]
  | n + 1, i, h, T, h', T', hrun => by
    rw [computeAll] at hrun
    split at hrun
    · rename_i hr
      rw [computeAll_length fuel n _ _ _ _ _ hrun]
      exact (compute_length fuel).1 _ _ _ _ _ _ hr
    · cases hrun
    · cases hrun
    · cases hrun

theorem patchDuplicates_length {α : Type} (h : Heap α) (J : List Nat) :
    ∀ (n i : Nat) (T T' : List α), patchDuplicates h J n i T = some T' → T'.length = T.length
  | 0, _, _, _, hrun => by
    simp only [patchDuplicates, Option.some.injEq] at hrun
    rw [hrun]
  | n + 1, i, T, T', hrun => by
    rw [patchDuplicates] at hrun
    split at hrun
    · cases hrun
    · split at hrun
      · split at hrun
        · cases hrun
        · split at hrun
          · rw [patchDuplicates_length h J n _ _ _ hrun, List.length_set]
          · cases hrun
      · exact patchDuplicates_length h J n _ _ _ hrun

/-- A returning call of `transformations()` gives one transformation for each
object of the list, whatever the state it is called in. -/
theorem transformations_length {α μ : Type} {tr : Transformation α μ} {fuel : Nat} {h : Heap α}
    {this : Nat} {objects : List Nat} {initial : α} {h' : Heap α} {ts : List α}
    (hrun : transformations tr fuel h this objects initial = .done (h', ts)) :
    ts.length = objects.length := by
  unfold transformations at hrun
  split at hrun
  · cases hrun
  · dsimp only at hrun
    split at hrun
    · cases hrun
    · split at hrun
      · cases hrun
      · split at hrun
        · cases hrun
        · cases hrun
        · cases hrun
        · rename_i hW J hw
          have hJ := walkUp_joints_grow _ _ _ _ _ _ _ _ hw
          split at hrun
          · cases hrun
          · cases hrun
          · cases hrun
          · rename_i h3 T3 hc
            have hT3 := computeAll_length _ _ _ _ _ _ _ hc
            split at hrun
            · cases hrun
            · rename_i T4 hpd
              have hT4 := patchDuplicates_length _ _ _ _ _ _ hpd
              simp only [Run.done.injEq, Prod.mk.injEq] at hrun
              rw [← hrun.2, List.length_take, hT4, hT3, List.length_replicate]
              omega

/-- The loop of `transformationMatrices()` over the positions from `i` on,
when both vectors have the size the loop runs to: every read and write is
inside, the result is the vector of the matrices. -/
theorem toMatrices_spec {α μ : Type} (tr : Transformation α μ) (ts : List α) :
    ∀ (n i : Nat) (ms : List (Option μ)), i + n = ts.length → ms.length = ts.length →
      (∀ k, k < i → ms[k]? = (ts.map fun t => some (tr.toMatrix t))[k]?) →
      toMatrices tr ts n i ms = some (ts.map fun t => some (tr.toMatrix t))
  | 0, i, ms, hin, hlen, hpre => by
    simp only [toMatrices, Option.some.injEq]
    apply List.ext_getElem?
    intro k
    by_cases hk : k < i
    · exact hpre k hk
    · rw [List.getElem?_eq_none (by omega), List.getElem?_eq_none (by simp; omega)]
  | n + 1, i, ms, hin, hlen, hpre => by
    have hi : i < ts.length := by omega
    rw [toMatrices, List.getElem?_eq_getElem hi]
    simp only [hlen, hi, if_true]
    refine toMatrices_spec tr ts n (i + 1) _ (by omega) (by rw [List.length_set, hlen]) ?_
    intro k hk
    by_cases hki : k = i
    · subst hki
      rw [List.getElem?_set_self (by omega), List.getElem?_map, List.getElem?_eq_getElem hi]
      rfl
    · rw [List.getElem?_set_ne (fun hc => hki hc.symm)]
      exact hpre k (by omega)

/-- C40 as stated fails: on the chain `0 <- 1 <- 2 <- 3` with the scene `0`,
the call `transformationMatrices` of the object `1`, which is not a scene, on
the list `[2]`: the call of `transformations` fails its check on the scene and
gives back the empty vector, the vector of matrices is created with 0 entries,
and the loop, which runs over the positions of the list of objects, reads
`transformations[0]` and writes `transformationMatrices[0]` outside both;
the call does not return the empty list. -/
theorem matrices_out_of_bounds_counterexample :
    (∃ h', transformations wordTransformation 5 chainHeap 1 [2]
      (wordTransformation.fromMatrix []) = .failed h' .notScene) ∧
    toMatrices wordTransformation ([] : List (List Nat)) [2].length 0 (List.replicate 0 none)
      = none ∧
    transformationMatrices wordTransformation 5 chainHeap 1 [2] [] = .aborted ∧
    (∀ fuel, 2 ≤ fuel →
      transformationMatrices wordTransformation fuel chainHeap 1 [2] [] = .aborted) := by
  refine ⟨⟨_, rfl⟩, rfl, rfl, fun fuel hfuel => ?_⟩
  obtain ⟨f, rfl⟩ : ∃ f, fuel = f + 2 := ⟨fuel - 2, by omega⟩
  rfl

/-- C40, amended: `transformationMatrices` stays in bounds whenever the call
of `transformations` returns its result, and when that call fails a
precondition on an empty list of objects. When `transformations` returns the
list `t`, which has the length of the list of objects, every read and write of
the loop is at a valid index and the call returns, in the same state, the list
of the same length with `result[i] = toMatrix(t[i])`. When `transformations`
fails a precondition, it yields the empty list: on an empty list of objects
the call returns the empty list, on any other list the loop reads and writes
position 0 of two empty vectors. -/
theorem matrices_in_bounds {α μ : Type} (tr : Transformation α μ) (fuel : Nat) (h : Heap α) (this : Nat)
    (objects : List Nat) (initialTransformationMatrix : μ) :
    (∀ h1 t, transformations tr fuel h this objects (tr.fromMatrix initialTransformationMatrix)
        = .done (h1, t) →
      t.length = objects.length ∧
      transformationMatrices tr fuel h this objects initialTransformationMatrix =
        .done (h1, t.map fun x => some (tr.toMatrix x))) ∧
    (∀ h1 e, transformations tr fuel h this objects (tr.fromMatrix initialTransformationMatrix)
        = .failed h1 e →
      (objects = [] →
        transformationMatrices tr fuel h this objects initialTransformationMatrix =
          .done (h1, [])) ∧
      (objects ≠ [] →
        transformationMatrices tr fuel h this objects initialTransformationMatrix =
          .aborted)) := by
  constructor
  · intro h1 t hrun
    have hlen := transformations_length hrun
    refine ⟨hlen, ?_⟩
    simp only [transformationMatrices, hrun]
    rw [toMatrices_spec tr t objects.length 0 _ (by omega) (by simp)
      (fun k hk => by omega)]
  · intro h1 e hrun
    constructor
    · intro hnil
      subst hnil
      simp only [transformationMatrices, hrun]
      rfl
    · intro hne
      obtain ⟨o, rest, rfl⟩ := List.exists_cons_of_ne_nil hne
      simp only [transformationMatrices, hrun]
      rfl

/-- C40 as amended, on the chain `0 <- 1 <- 2 <- 3` with the scene `0`: the
scene gives the matrices of `[3, 1]`, one for each object; the object `1`,
not a scene, gives the empty list on the empty list of objects. -/
theorem matrices_in_bounds_witness :
    (∃ h1, transformationMatrices wordTransformation 9 chainHeap 0 [3, 1] [] =
      .done (h1, [some [1, 2, 3], some [1]])) ∧
    (∃ h1, transformationMatrices wordTransformation 9 chainHeap 1 [] [] = .done (h1, [])) :=
  ⟨⟨_, ((matrices_in_bounds wordTransformation 9 chainHeap 0 [3, 1] []).1 _ [[1, 2, 3], [1]]
      rfl).2⟩,
    ⟨_, ((matrices_in_bounds wordTransformation 9 chainHeap 1 [] []).2 _ .notScene rfl).1 rfl⟩⟩

/-- More fuel does not change a result of `sceneObject`. -/
theorem sceneObject_mono {α : Type} (h : Heap α) : ∀ (fuel : Nat) (o : Option Nat) (r : Option Nat),
    sceneObject h fuel o = some r → sceneObject h (fuel + 1) o = some r
  | 0, _, _, hrun => by simp [sceneObject] at hrun
  | fuel + 1, none, r, hrun => by
    simp only [sceneObject] at hrun ⊢
    exact hrun
  | fuel + 1, some p, r, hrun => by
    rw [sceneObject] at hrun ⊢
    split
    · rename_i hs
      simpa only [hs, if_true] using hrun
    · rename_i hs
      simp only [hs, Bool.false_eq_true, if_false] at hrun
      exact sceneObject_mono h fuel _ r hrun

/-- More fuel does not change an outcome of the walk-up loop other than
running out of fuel. -/
theorem walkUp_mono {α : Type} (s : Nat) : ∀ (fuel : Nat) (h : Heap α) (W : List Nat) (it : Nat)
    (J : List Nat), walkUp s fuel h W it J ≠ .outOfFuel →
    walkUp s (fuel + 1) h W it J = walkUp s fuel h W it J
  | 0, _, _, _, _, hne => absurd rfl hne
  | fuel + 1, h, W, it, J, hne => by
    rw [walkUp] at hne
    conv_lhs => rw [walkUp]
    conv_rhs => rw [walkUp]
    revert hne
    split
    · intro _; rfl
    · split
      · intro _; rfl
      · split
        · exact walkUp_mono s fuel _ _ _ _
        · dsimp only
          split
          · split
            · intro _; rfl
            · exact walkUp_mono s fuel _ _ _ _
          · split
            · split
              · split
                · intro _; rfl
                · split
                  · intro _; rfl
                  · exact walkUp_mono s fuel _ _ _ _
              · exact walkUp_mono s fuel _ _ _ _
            · exact walkUp_mono s fuel _ _ _ _

/-- More fuel does not change an outcome of `computeJointTransformation()` and
of its loop other than running out of fuel. -/
theorem compute_mono {α μ : Type} {tr : Transformation α μ} {J : List Nat} {initial : α} :
    ∀ fuel : Nat,
    (∀ (h : Heap α) (T : List α) (joint : Nat),
      computeJointTransformation tr J initial fuel h T joint ≠ .outOfFuel →
      computeJointTransformation tr J initial (fuel + 1) h T joint =
        computeJointTransformation tr J initial fuel h T joint) ∧
    (∀ (h : Heap α) (T : List α) (joint o : Nat),
      goUp tr J initial fuel h T joint o ≠ .outOfFuel →
      goUp tr J initial (fuel + 1) h T joint o = goUp tr J initial fuel h T joint o) := by
  intro fuel
  induction fuel with
  | zero =>
    constructor
    · intro h T joint hne
      exact absurd rfl hne
    · intro h T joint o hne
      exact absurd rfl hne
  | succ fuel ih =>
    constructor
    · intro h T joint hne
      rw [computeJointTransformation] at hne
      conv_lhs => rw [computeJointTransformation]
      conv_rhs => rw [computeJointTransformation]
      revert hne
      split
      · intro _; rfl
      · split
        · intro _; rfl
        · split
          · intro _; rfl
          · exact ih.2 _ _ _ _
    · intro h T joint o hne
      rw [goUp] at hne
      conv_lhs => rw [goUp]
      conv_rhs => rw [goUp]
      revert hne
      split
      · intro _; rfl
      · dsimp only
        split
        · intro _; rfl
        · split
          · intro hne
            rename_i p hp hj
            have hX : computeJointTransformation tr J initial fuel
                (h.modify o fun x => { x with visited := false }) T
                ((h.modify o fun x => { x with visited := false }) p).counter ≠ .outOfFuel := by
              intro hc
              rw [hc] at hne
              exact hne rfl
            rw [ih.1 _ _ _ hX]
          · split
            · intro _; rfl
            · exact ih.2 _ _ _ _

/-- More fuel does not change an outcome of the loop over the joints other
than running out of fuel. -/
theorem computeAll_mono {α μ : Type} {tr : Transformation α μ} {J : List Nat} {initial : α}
    (fuel : Nat) : ∀ (n i : Nat) (h : Heap α) (T : List α),
    computeAll tr J initial fuel n i h T ≠ .outOfFuel →
    computeAll tr J initial (fuel + 1) n i h T = computeAll tr J initial fuel n i h T
  | 0, _, _, _, _ => rfl
  | n + 1, i, h, T, hne => by
    rw [computeAll] at hne
    conv_lhs => rw [computeAll]
    conv_rhs => rw [computeAll]
    have hX : computeJointTransformation tr J initial fuel h T i ≠ .outOfFuel := by
      intro hc
      rw [hc] at hne
      exact hne rfl
    rw [(compute_mono fuel).1 _ _ _ hX]
    revert hne
    split
    · exact computeAll_mono fuel n _ _ _
    · intro _; rfl
    · intro _; rfl
    · intro _; rfl

/-- More fuel does not change an outcome of `transformations()` other than
running out of fuel. -/
theorem transformations_mono {α μ : Type} (tr : Transformation α μ) (fuel : Nat) (h : Heap α) (this : Nat)
    (objects : List Nat) (initial : α)
    (hne : transformations tr fuel h this objects initial ≠ .outOfFuel) :
    transformations tr (fuel + 1) h this objects initial =
      transformations tr fuel h this objects initial := by
  unfold transformations at hne ⊢
  revert hne
  split
  · intro _; rfl
  · dsimp only
    cases hsc : sceneObject (markJoints h objects 0) fuel (some this) with
    | none =>
      intro hne
      exact absurd rfl hne
    | some sc =>
      rw [sceneObject_mono _ _ _ _ hsc]
      dsimp only
      split
      · intro _; rfl
      · intro hne
        have hX : walkUp this fuel (markJoints h objects 0) objects 0 objects ≠ .outOfFuel := by
          intro hc
          rw [hc] at hne
          exact hne rfl
        rw [walkUp_mono _ _ _ _ _ _ hX]
        revert hne
        split
        · intro _; rfl
        · intro _; rfl
        · intro hne
          exact absurd rfl hne
        · rename_i hW J2 hw
          intro hne
          have hY : computeAll tr J2 initial fuel J2.length 0 hW
              (List.replicate J2.length tr.identity) ≠ .outOfFuel := by
            intro hc
            rw [hc] at hne
            exact hne rfl
          rw [computeAll_mono _ _ _ _ _ hY]

/-- An outcome of `transformations()` other than running out of fuel is the
outcome for every larger fuel. -/
theorem transformations_mono_le {α μ : Type} (tr : Transformation α μ) (h : Heap α) (this : Nat)
    (objects : List Nat) (initial : α) (fuel : Nat)
    (hne : transformations tr fuel h this objects initial ≠ .outOfFuel) :
    ∀ k, transformations tr (fuel + k) h this objects initial =
      transformations tr fuel h this objects initial
  | 0 => rfl
  | k + 1 => by
    have ih := transformations_mono_le tr h this objects initial fuel hne k
    rw [← Nat.add_assoc, transformations_mono tr (fuel + k) h this objects initial
      (by rw [ih]; exact hne), ih]

/-- An outcome of the walk-up loop other than running out of fuel is the
outcome for every larger fuel. -/
theorem walkUp_mono_le {α : Type} (s : Nat) (h : Heap α) (W : List Nat) (it : Nat) (J : List Nat)
    (fuel : Nat) (hne : walkUp s fuel h W it J ≠ .outOfFuel) :
    ∀ k, walkUp s (fuel + k) h W it J = walkUp s fuel h W it J
  | 0 => rfl
  | k + 1 => by
    have ih := walkUp_mono_le s h W it J fuel hne k
    rw [← Nat.add_assoc, walkUp_mono s (fuel + k) h W it J (by rw [ih]; exact hne), ih]

/-- An outcome of the loop over the joints other than running out of fuel is
the outcome for every larger fuel. -/
theorem computeAll_mono_le {α μ : Type} {tr : Transformation α μ} {J : List Nat} {initial : α}
    (n i : Nat) (h : Heap α) (T : List α) (fuel : Nat)
    (hne : computeAll tr J initial fuel n i h T ≠ .outOfFuel) :
    ∀ k, computeAll tr J initial (fuel + k) n i h T = computeAll tr J initial fuel n i h T
  | 0 => rfl
  | k + 1 => by
    have ih := computeAll_mono_le n i h T fuel hne k
    rw [← Nat.add_assoc, computeAll_mono (fuel + k) n i h T (by rw [ih]; exact hne), ih]

/-- C38: internal assertions are unreachable under the precondition. For a
call of `transformations` on a scene `s`, with clean scratch state and every
listed object in the tree of `s`: whatever the fuel, the call does not stop at
an internal assertion or at a read outside a vector, and with enough fuel it
returns its result in the state it was called in, or reports a too large
scene. Phase by phase: the walk-up loop never stops at the assertion of line
222 (a new joint has counter 0xFFFF); after the walk, the calls of
`computeJointTransformation` never stop at the assertions of lines 276 (the
object walked carries `Visited`) and 283 (a parentless object is a scene); and
the cleanup loop, whose check at line 253 is an assignment that is always
true, resets the `Joint` flag and the counter of every object of the joint
list, whatever its counter was, and touches no other object. -/
theorem internal_assertions_unreachable {α μ : Type} (tr : Transformation α μ) (h0 : Heap α) (s : Nat)
    (objects : List Nat) (initial : α)
    (hq : Quiescent h0) (hs : (h0 s).isScene = true)
    (htree : ∀ o ∈ objects, ∃ n, Below h0 s o n) :
    (∀ fuel, transformations tr fuel h0 s objects initial ≠ .aborted) ∧
    (∃ N, ∀ fuel, N ≤ fuel →
      (∃ ts, transformations tr fuel h0 s objects initial = .done (h0, ts)) ∨
      (∃ h', transformations tr fuel h0 s objects initial = .failed h' .tooLargeScene)) ∧
    (objects.length < 0xFFFF →
      (∀ fuel, walkUp s fuel (markJoints h0 objects 0) objects 0 objects ≠ .aborted) ∧
      (∀ fuel hW J, walkUp s fuel (markJoints h0 objects 0) objects 0 objects = .done (hW, J) →
        ∀ fuel2, computeAll tr J initial fuel2 J.length 0 hW
          (List.replicate J.length tr.identity) ≠ .aborted)) ∧
    (∀ (h : Heap α) (J : List Nat) (o : Nat),
      (o ∈ J → (cleanJoints h J o).joint = false ∧ (cleanJoints h J o).counter = sentinel) ∧
      (o ∉ J → cleanJoints h J o = h o)) := by
  have hdepth : ∀ o ∈ objects, ∃ n, Depth h0 o n := fun o ho => by
    obtain ⟨n, hn⟩ := htree o ho
    exact ⟨n, hn.depth⟩
  obtain ⟨N, hN⟩ := transformations_total tr h0 s objects initial hq hs htree
  refine ⟨fun fuel hab => ?_, ⟨N, fun fuel hfuel => ?_⟩, fun hlen => ?_, fun h J o => ?_⟩
  · have hmono := transformations_mono_le tr h0 s objects initial fuel
      (by rw [hab]; exact fun hc => by cases hc) N
    rw [hab] at hmono
    rcases hN (fuel + N) (by omega) with ⟨h', ts, hd⟩ | ⟨_, h', hf⟩
    · rw [hd] at hmono
      cases hmono
    · rw [hf] at hmono
      cases hmono
  · rcases hN fuel hfuel with ⟨h', ts, hd⟩ | ⟨_, h', hf⟩
    · left
      obtain ⟨heq, _⟩ := transformations_spec hq hdepth hd
      subst heq
      exact ⟨ts, hd⟩
    · exact Or.inr ⟨h', hf⟩
  · obtain ⟨b0, hB0⟩ := Budget.exists_for objects hdepth
    have hWI := markJoints_walkInv (s := s) hq hlen hdepth
    have hbig : ∀ fuel, b0 < fuel →
        (∃ h' J', walkUp s fuel (markJoints h0 objects 0) objects 0 objects = .done (h', J') ∧
          ∀ x, (h' x).joint = true → ∀ n, Depth h0 x n → n < b0) ∨
        (0xFFFF < objects.length + objects.length ∧
          ∃ h', walkUp s fuel (markJoints h0 objects 0) objects 0 objects =
            .failed h' .tooLargeScene) := fun fuel hfuel =>
      walkUp_total b0 fuel _ objects objects b0 hWI htree hB0 hfuel (Nat.le_refl _)
        (fun x hx n hn => hB0.depth_lt x ((hWI.joints.mem x).1 hx) n hn)
    constructor
    · intro fuel hab
      have hmono := walkUp_mono_le s (markJoints h0 objects 0) objects 0 objects fuel
        (by rw [hab]; exact fun hc => by cases hc) (b0 + 1)
      rw [hab] at hmono
      rcases hbig (fuel + (b0 + 1)) (by omega) with ⟨h', J', hd, _⟩ | ⟨_, h', hf⟩
      · rw [hd] at hmono
        cases hmono
      · rw [hf] at hmono
        cases hmono
    · intro fuel hW J hw fuel2 hab
      have hmono := walkUp_mono_le s (markJoints h0 objects 0) objects 0 objects fuel
        (by rw [hw]; exact fun hc => by cases hc) (b0 + 1)
      rw [hw] at hmono
      have hJd : ∀ x, (hW x).joint = true → ∀ n, Depth h0 x n → n < b0 := by
        rcases hbig (fuel + (b0 + 1)) (by omega) with ⟨h', J', hd, hJd⟩ | ⟨_, h', hf⟩
        · rw [hd] at hmono
          simp only [Run.done.injEq, Prod.mk.injEq] at hmono
          rw [← hmono.1]
          exact hJd
        · rw [hf] at hmono
          cases hmono
      have hWI' := walkUp_inv fuel _ objects objects hWI hW J hw
      have hP := PostWalk.of_walkInv hWI'
      have hI0 : CJInv h0 hW J hW (List.replicate J.length tr.identity) :=
        ⟨hP.frame, fun _ => ⟨rfl, rfl⟩, fun _ hx => hx,
          fun y x hy hp _ => ⟨fun _ => hP.up y x hy hp, fun _ => hy⟩, by simp⟩
      have hmono2 := @computeAll_mono_le α μ tr J initial J.length 0 hW
        (List.replicate J.length tr.identity) fuel2
        (by rw [hab]; exact fun hc => by cases hc) (2 * b0 + 2)
      rw [hab] at hmono2
      obtain ⟨h3, T3, hc⟩ := computeAll_total tr initial hP hs b0 (fuel2 + (2 * b0 + 2))
        (by omega) hJd J.length 0 hW _ (by simp) hI0 (fun k o hk => by omega)
        (fun _ x hx hxc => by rw [hP.allVis x hx] at hxc; cases hxc)
      rw [hc] at hmono2
      cases hmono2
  · rw [cleanJoints_apply]
    constructor
    · intro ho
      simp only [ho, if_true]
      exact ⟨trivial, trivial⟩
    · intro ho
      simp only [ho, if_false]

/-- C38, on the chain `0 <- 1 <- 2 <- 3` with the scene `0` and the objects
`[3, 1]`. -/
theorem internal_assertions_unreachable_witness :
    (∀ fuel, transformations wordTransformation fuel chainHeap 0 [3, 1] [] ≠ .aborted) ∧
    (∃ N, ∀ fuel, N ≤ fuel →
      (∃ ts, transformations wordTransformation fuel chainHeap 0 [3, 1] [] =
        .done (chainHeap, ts)) ∨
      (∃ h', transformations wordTransformation fuel chainHeap 0 [3, 1] [] =
        .failed h' .tooLargeScene)) :=
  have hc := internal_assertions_unreachable wordTransformation chainHeap 0 [3, 1] []
    chainHeap_quiescent rfl (fun o ho => chainHeap_below o (by
      simp only [List.mem_cons, List.mem_singleton, List.not_mem_nil, or_false] at ho ⊢
      rcases ho with rfl | rfl <;> simp))
  ⟨hc.1, hc.2.1⟩

/-- The seeding loop from position `i` on, the positions staying below
0xFFFF: a counter is as before or holds the position of the object, stored
without reduction. -/
theorem markJoints_counter {α : Type} : ∀ (objects : List Nat) (h : Heap α) (i : Nat),
    i + objects.length ≤ 0xFFFF → ∀ o,
      (markJoints h objects i o).counter = (h o).counter ∨
      ∃ k, objects[k]? = some o ∧ (markJoints h objects i o).counter = i + k ∧
        i + k < 0xFFFF
  | [], h, i, _, o => Or.inl rfl
  | x :: rest, h, i, hlen, o => by
    simp only [List.length_cons] at hlen
    rw [markJoints]
    have lift : ∀ g : Heap α, ((markJoints g rest (i + 1) o).counter = (g o).counter ∨
        ∃ k, rest[k]? = some o ∧ (markJoints g rest (i + 1) o).counter = i + 1 + k ∧
          i + 1 + k < 0xFFFF) →
        ((markJoints g rest (i + 1) o).counter = (g o).counter ∨
        ∃ k, (x :: rest)[k]? = some o ∧ (markJoints g rest (i + 1) o).counter = i + k ∧
          i + k < 0xFFFF) := by
      intro g hg
      rcases hg with hg | ⟨k, hk, hc, hlt⟩
      · exact Or.inl hg
      · exact Or.inr ⟨k + 1, by simpa using hk, by omega, by omega⟩
    split
    · exact lift h (markJoints_counter rest h (i + 1) (by omega) o)
    · rcases lift _ (markJoints_counter rest
        (h.modify x fun y => { y with counter := i % 65536, joint := true }) (i + 1)
        (by omega) o) with hg | hg
      · by_cases hox : o = x
        · subst hox
          right
          refine ⟨0, List.getElem?_cons_zero, ?_, by omega⟩
          rw [hg, Heap.modify_same]
          show i % 65536 = i + 0
          omega
        · left
          rw [hg, Heap.modify_other _ _ hox]
      · exact Or.inr hg

/-- The walk-up loop, whatever the state it runs in: a counter is as before or
holds a length the joint list had, stored without reduction; and while the
joint list holds 0xFFFF entries or more no counter is stored. -/
theorem walkUp_counter {α : Type} (s : Nat) : ∀ (fuel : Nat) (h : Heap α) (W : List Nat) (it : Nat)
    (J : List Nat) (h' : Heap α),
    ((∃ J', walkUp s fuel h W it J = .done (h', J')) ∨
      (∃ e, walkUp s fuel h W it J = .failed h' e)) →
    ∀ o, (h' o).counter = (h o).counter ∨
      (J.length ≤ (h' o).counter ∧ (h' o).counter < 0xFFFF)
  | 0, _, _, _, _, _, hrun => by
    rcases hrun with ⟨J', hrun⟩ | ⟨e, hrun⟩ <;> simp [walkUp] at hrun
  | fuel + 1, h, W, it, J, h', hrun => by
    intro o
    have hm : ∀ (x : Nat) (g : Heap α),
        ((g o).counter = ((h.modify x fun y => { y with visited := true }) o).counter ∨
          (J.length ≤ (g o).counter ∧ (g o).counter < 0xFFFF)) →
        ((g o).counter = (h o).counter ∨
          (J.length ≤ (g o).counter ∧ (g o).counter < 0xFFFF)) := by
      intro x g hg
      rwa [counter_mark] at hg
    rw [walkUp] at hrun
    split at hrun
    · rcases hrun with ⟨J', hrun⟩ | ⟨e, hrun⟩
      · simp only [Run.done.injEq, Prod.mk.injEq] at hrun
        rw [hrun.1]
        exact Or.inl rfl
      · cases hrun
    · split at hrun
      · rcases hrun with ⟨J', hrun⟩ | ⟨e, hrun⟩ <;> cases hrun
      · rename_i x hx
        split at hrun
        · exact walkUp_counter s fuel _ _ _ _ _ hrun o
        · dsimp only at hrun
          split at hrun
          · split at hrun
            · rcases hrun with ⟨J', hrun⟩ | ⟨e, hrun⟩
              · cases hrun
              · simp only [Run.failed.injEq] at hrun
                rw [← hrun.1]
                exact hm x _ (Or.inl rfl)
            · exact hm x _ (walkUp_counter s fuel _ _ _ _ _ hrun o)
          · rename_i p hp
            split at hrun
            · split at hrun
              · split at hrun
                · rcases hrun with ⟨J', hrun⟩ | ⟨e, hrun⟩
                  · cases hrun
                  · simp only [Run.failed.injEq] at hrun
                    rw [← hrun.1]
                    exact hm x _ (Or.inl rfl)
                · rename_i hlen
                  split at hrun
                  · rcases hrun with ⟨J', hrun⟩ | ⟨e, hrun⟩ <;> cases hrun
                  · have hlen' : J.length < 0xFFFF := by
                      by_contra hc
                      exact hlen hc
                    have ih := walkUp_counter s fuel _ _ _ _ _ hrun o
                    simp only [List.length_append, List.length_cons, List.length_nil] at ih
                    rcases ih with ih | ih
                    · by_cases hop : o = p
                      · subst hop
                        right
                        rw [ih, Heap.modify_same]
                        show J.length ≤ J.length % 65536 ∧ J.length % 65536 < 0xFFFF
                        omega
                      · rw [Heap.modify_other _ _ hop] at ih
                        exact hm x _ (Or.inl ih)
                    · exact Or.inr ⟨by omega, ih.2⟩
              · exact hm x _ (walkUp_counter s fuel _ _ _ _ _ hrun o)
            · exact hm x _ (walkUp_counter s fuel _ _ _ _ _ hrun o)

/-- With a joint list of 0xFFFF entries or more the walk-up loop stores no
counter. -/
theorem walkUp_full_counter {α : Type} (s : Nat) : ∀ (fuel : Nat) (h : Heap α) (W : List Nat) (it : Nat)
    (J : List Nat) (h' : Heap α), ¬ J.length < 0xFFFF →
    ((∃ J', walkUp s fuel h W it J = .done (h', J')) ∨
      (∃ e, walkUp s fuel h W it J = .failed h' e)) →
    ∀ o, (h' o).counter = (h o).counter
  | 0, _, _, _, _, _, _, hrun => by
    rcases hrun with ⟨J', hrun⟩ | ⟨e, hrun⟩ <;> simp [walkUp] at hrun
  | fuel + 1, h, W, it, J, h', hfull, hrun => by
    intro o
    have hm : ∀ (x : Nat) (g : Heap α),
        (g o).counter = ((h.modify x fun y => { y with visited := true }) o).counter →
        (g o).counter = (h o).counter := by
      intro x g hg
      rwa [counter_mark] at hg
    rw [walkUp] at hrun
    split at hrun
    · rcases hrun with ⟨J', hrun⟩ | ⟨e, hrun⟩
      · simp only [Run.done.injEq, Prod.mk.injEq] at hrun
        rw [hrun.1]
      · cases hrun
    · split at hrun
      · rcases hrun with ⟨J', hrun⟩ | ⟨e, hrun⟩ <;> cases hrun
      · rename_i x hx
        split at hrun
        · exact walkUp_full_counter s fuel _ _ _ _ _ hfull hrun o
        · dsimp only at hrun
          split at hrun
          · split at hrun
            · rcases hrun with ⟨J', hrun⟩ | ⟨e, hrun⟩
              · cases hrun
              · simp only [Run.failed.injEq] at hrun
                rw [← hrun.1]
                exact hm x _ rfl
            · exact hm x _ (walkUp_full_counter s fuel _ _ _ _ _ hfull hrun o)
          · split at hrun
            · split at hrun
              · rcases hrun with ⟨J', hrun⟩ | ⟨e, hrun⟩
                · cases hrun
                · simp only [Run.failed.injEq] at hrun
                  rw [← hrun.1]
                  exact hm x _ rfl
              · exact hm x _ (walkUp_full_counter s fuel _ _ _ _ _ hfull hrun o)
            · exact hm x _ (walkUp_full_counter s fuel _ _ _ _ _ hfull hrun o)

/-- C37: counters never collide with the sentinel. In a call of
`transformations` on fewer than 0xFFFF objects: after the seeding loop the
counter of an object is as before or is the position `i` of the object in the
list, which is below 0xFFFF, is stored without wrap-around and differs from
the sentinel; in the walk-up loop, whatever the state it runs in, the counter
of an object at the end (or at a failed check) is as at the start or is a
length the joint list had when a joint was discovered, which is below 0xFFFF,
stored without wrap-around and different from the sentinel; with a joint list
of 0xFFFF entries the loop stores no counter, and the iteration that discovers
a joint fails as a too large scene, the counters being as they were. -/
theorem counters_below_sentinel {α : Type} (h : Heap α) (s : Nat) (objects : List Nat)
    (hlen : objects.length < 0xFFFF) :
    (∀ o, (markJoints h objects 0 o).counter = (h o).counter ∨
      ∃ i, objects[i]? = some o ∧ (markJoints h objects 0 o).counter = i ∧
        i % 65536 = i ∧ i < 0xFFFF ∧ i ≠ sentinel) ∧
    (∀ (fuel : Nat) (h1 : Heap α) (W : List Nat) (it : Nat) (J : List Nat) (h' : Heap α),
      ((∃ J', walkUp s fuel h1 W it J = .done (h', J')) ∨
        (∃ e, walkUp s fuel h1 W it J = .failed h' e)) →
      ∀ o, (h' o).counter = (h1 o).counter ∨
        (J.length ≤ (h' o).counter ∧ (h' o).counter < 0xFFFF ∧
          (h' o).counter ≠ sentinel)) ∧
    (∀ (fuel : Nat) (h1 : Heap α) (W : List Nat) (it : Nat) (J : List Nat) (h' : Heap α),
      ¬ J.length < 0xFFFF →
      ((∃ J', walkUp s fuel h1 W it J = .done (h', J')) ∨
        (∃ e, walkUp s fuel h1 W it J = .failed h' e)) →
      ∀ o, (h' o).counter = (h1 o).counter) ∧
    (∀ (fuel : Nat) (h1 : Heap α) (e p : Nat) (rest J : List Nat),
      (h1 e).visited = false → (h1 e).parent = some p → p ≠ e →
      (h1 p).visited = true → (h1 p).joint = false → ¬ J.length < 0xFFFF →
      walkUp s (fuel + 1) h1 (e :: rest) 0 J =
        .failed (h1.modify e fun x => { x with visited := true }) .tooLargeScene ∧
      ∀ o, ((h1.modify e fun x => { x with visited := true }) o).counter =
        (h1 o).counter) := by
  refine ⟨fun o => ?_, fun fuel h1 W it J h' hrun o => ?_,
    fun fuel h1 W it J h' hfull hrun o => walkUp_full_counter s fuel h1 W it J h' hfull hrun o,
    fun fuel h1 e p rest J hv hp hpe hvp hjp hfull =>
      ⟨walkUp_full s fuel h1 e p rest J hv hp hpe hvp hjp hfull, fun o => counter_mark e o true⟩⟩
  · rcases markJoints_counter objects h 0 (by omega) o with hc | ⟨k, hk, hc, hlt⟩
    · exact Or.inl hc
    · refine Or.inr ⟨k, hk, by omega, by omega, by omega, ?_⟩
      show k ≠ 0xFFFF
      omega
  · rcases walkUp_counter s fuel h1 W it J h' hrun o with hc | ⟨hge, hlt⟩
    · exact Or.inl hc
    · refine Or.inr ⟨hge, hlt, ?_⟩
      show (h' o).counter ≠ 0xFFFF
      omega

/-- C37, on the chain `0 <- 1 <- 2 <- 3` with the scene `0`: the objects of
`[3, 1]` get the counters 0 and 1; and with `1` visited, the object `2` under
it and a joint list of 0xFFFF entries, the iteration on `2` fails as a too
large scene and stores no counter. -/
theorem counters_below_sentinel_witness :
    (markJoints chainHeap [3, 1] 0 3).counter = 0 ∧
    (markJoints chainHeap [3, 1] 0 1).counter = 1 ∧
    (∀ o, (markJoints chainHeap [3, 1] 0 o).counter = (chainHeap o).counter ∨
      ∃ i, [3, 1][i]? = some o ∧ (markJoints chainHeap [3, 1] 0 o).counter = i ∧
        i % 65536 = i ∧ i < 0xFFFF ∧ i ≠ sentinel) ∧
    (walkUp 0 (4 + 1) (chainHeap.modify 1 fun x => { x with visited := true }) (2 :: []) 0
        (List.replicate 0xFFFF 0) =
        .failed ((chainHeap.modify 1 fun x => { x with visited := true }).modify 2
          fun x => { x with visited := true }) .tooLargeScene ∧
      ∀ o, (((chainHeap.modify 1 fun x => { x with visited := true }).modify 2
          fun x => { x with visited := true }) o).counter =
        ((chainHeap.modify 1 fun x => { x with visited := true }) o).counter) :=
  ⟨rfl, rfl, (counters_below_sentinel chainHeap 0 [3, 1] (by decide)).1,
    (counters_below_sentinel chainHeap 0 [3, 1] (by decide)).2.2.2 4
      (chainHeap.modify 1 fun x => { x with visited := true }) 2 1 [] (List.replicate 0xFFFF 0)
      rfl rfl (by decide) rfl rfl (by rw [List.length_replicate]; decide)⟩

/-- The loop over the children returns the same with a function that returns
the same wherever the first one returns. -/
theorem forChildren_mono {α μ : Type} {f g : Heap α → Nat → Option (Heap α × List (Event μ))}
    (hfg : ∀ h c r, f h c = some r → g h c = some r) :
    ∀ (cs : List Nat) (h : Heap α) (r : Heap α × List (Event μ)),
      forChildren f h cs = some r → forChildren g h cs = some r
  | [], _, _, hrun => by
    simpa only [forChildren] using hrun
  | c :: cs, h, r, hrun => by
    rw [forChildren] at hrun ⊢
    cases hf : f h c with
    | none => simp [hf] at hrun
    | some r1 =>
      obtain ⟨h1, ev1⟩ := r1
      simp only [hf] at hrun
      rw [hfg h c _ hf]
      simp only
      cases hl : forChildren f h1 cs with
      | none => simp [hl] at hrun
      | some r2 =>
        obtain ⟨h2, ev2⟩ := r2
        simp only [hl] at hrun
        rw [forChildren_mono hfg cs h1 _ hl]
        exact hrun

/-- More fuel does not change what `setDirty()` returns. -/
theorem setDirty_mono {α μ : Type} : ∀ (fuel : Nat) (h : Heap α) (o : Nat) (r : Heap α × List (Event μ)),
    setDirty fuel h o = some r → setDirty (fuel + 1) h o = some r
  | 0, _, _, _, hrun => by simp [setDirty] at hrun
  | fuel + 1, h, o, r, hrun => by
    rw [setDirty] at hrun ⊢
    split
    · rename_i hd
      simpa only [hd, if_true] using hrun
    · rename_i hd
      simp only [hd, if_false] at hrun
      cases hl : forChildren (setDirty (μ := μ) fuel) h (h o).children with
      | none => simp [hl] at hrun
      | some r1 =>
        obtain ⟨h1, ev1⟩ := r1
        simp only [hl] at hrun
        rw [forChildren_mono (fun h c r => setDirty_mono fuel h c r) _ _ _ hl]
        exact hrun

theorem setDirty_mono_le {α μ : Type} (h : Heap α) (o : Nat) (r : Heap α × List (Event μ)) (fuel : Nat)
    (hrun : setDirty fuel h o = some r) : ∀ k, setDirty (fuel + k) h o = some r
  | 0 => hrun
  | k + 1 => setDirty_mono (fuel + k) h o r (setDirty_mono_le h o r fuel hrun k)

/-- What a returning call of `setDirty()` on a finite subtree has done. -/
theorem setDirty_run_post {α μ : Type} {h h' : Heap α} {o n fuel : Nat} {ev : List (Event μ)}
    (hn : subtreeWithin h n o = true) (hrun : setDirty fuel h o = some (h', ev)) :
    DirtyPost h [o] h' ev := by
  obtain ⟨h2, ev2, hrun2, hpost⟩ := setDirty_spec (μ := μ) (fuel + n) h o
    (subtreeWithin_mono h (by omega) hn)
  rw [setDirty_mono_le h o _ fuel hrun n] at hrun2
  simp only [Option.some.injEq, Prod.mk.injEq] at hrun2
  obtain ⟨rfl, rfl⟩ := hrun2
  exact hpost

/-- A heap with the links of a consistent heap has consistent links. -/
theorem TreeOK.of_links {α : Type} {h h' : Heap α} (hp : ∀ x, (h' x).parent = (h x).parent)
    (hc : ∀ x, (h' x).children = (h x).children) (ht : TreeOK h) : TreeOK h' where
  acyclic := fun o => by
    obtain ⟨n, hn⟩ := ht.acyclic o
    exact ⟨n, hn.of_parent_eq hp⟩
  child := fun p c => by
    rw [hc, hp]
    exact ht.child p c
  nodup := fun p => by
    rw [hc]
    exact ht.nodup p

/-- With `Dirty` downward closed, an object below a dirty one is dirty. -/
theorem Ancestor.dirty_down {α : Type} {h : Heap α} (hcl : DirtyClosed h) {a o k : Nat}
    (ha : Ancestor h a o k) (hd : (h a).dirty = true) : (h o).dirty = true := by
  induction ha with
  | self => exact hd
  | up hp _ ih => exact hcl _ _ hp ih

/-- The heap `setDirty()` leaves when called on `this` after the links of
`this` have been changed: `Dirty` is downward closed if it was before the
change. -/
theorem relink_dirty_closed {α μ : Type} {h h' : Heap α} (ht : TreeOK h) (hcl : DirtyClosed h)
    (this : Nat) (parent : Option Nat) (hne : (h this).parent ≠ parent)
    (hdesc : ∀ p, parent = some p → ∀ k, ¬ Ancestor h this p k) {ev : List (Event μ)}
    (hpost : DirtyPost (relink h this parent) [this] h' ev) : DirtyClosed h' := by
  have hold := ht.old_ne this
  have hnew : parent ≠ some this := fun e => hdesc this e 0 Ancestor.self
  have happ := relink_apply h this parent hold hnew hne
  have htr := relink_treeOK ht this parent hne hdesc
  have ht' : TreeOK h' := TreeOK.of_dirtyOnly hpost.frame htr
  rw [dirtyClosed_iff_childClosed ht'.child]
  have hch : ChildClosed h := (dirtyClosed_iff_childClosed ht.child).1 hcl
  intro p c hc hp
  rw [hpost.frame.children_eq] at hc
  cases hpr : (relink h this parent p).dirty with
  | false => exact hpost.below p hpr hp c hc
  | true =>
    by_cases hct : c = this
    · rw [hct]
      exact hpost.rootsDirty this (List.mem_singleton_self _)
    · apply hpost.mono
      rw [happ c]
      show (h c).dirty = true
      have hpd : (h p).dirty = true := by
        rw [happ p] at hpr
        exact hpr
      rw [happ p] at hc
      have hc' : c ∈ (h p).children := by
        dsimp only at hc
        split at hc
        · rcases List.mem_append.1 hc with hc | hc
          · exact hc
          · exact absurd (List.mem_singleton.1 hc) hct
        · split at hc
          · exact List.mem_of_mem_erase hc
          · exact hc
      exact hch p c hc' hpd

/-- The heap the loop emptying the stack leaves: the objects of the stack are
clean, nothing else has changed. -/
theorem cleanStack_heap {α μ : Type} (tr : Transformation α μ) :
    ∀ (L : List Nat) (h : Heap α) (base : α) (log : List (Event μ)),
      (cleanStack tr h L base log).1 =
        fun x => if x ∈ L then { h x with dirty := false } else h x
  | [], h, _, _ => by
    simp [cleanStack]
  | o :: L, h, base, log => by
    rw [cleanStack]
    simp only [setCleanWith]
    rw [cleanStack_heap tr L]
    funext x
    by_cases hxo : x = o
    · subst hxo
      by_cases hxL : x ∈ L <;> simp [hxL]
    · by_cases hxL : x ∈ L <;> simp [hxL, hxo, Heap.modify_other _ _ hxo]

theorem DirtyChain.mem_self {α : Type} {h : Heap α} {o : Nat} {L : List Nat} (hc : DirtyChain h o L) :
    o ∈ L := by
  cases hc with
  | root _ _ => exact List.mem_singleton_self _
  | clean _ _ _ => exact List.mem_singleton_self _
  | dirty _ _ _ => exact List.mem_append_right _ (List.mem_singleton_self _)

/-- The parent of an object of the chain is in the chain or is clean. -/
theorem DirtyChain.parent_mem {α : Type} {h : Heap α} {o : Nat} {L : List Nat} (hc : DirtyChain h o L) :
    ∀ x ∈ L, ∀ p, (h x).parent = some p → p ∈ L ∨ (h p).dirty = false := by
  induction hc with
  | root _ hp =>
    intro x hx p hxp
    rw [List.mem_singleton.1 hx, hp] at hxp
    cases hxp
  | clean _ hp hq =>
    intro x hx p hxp
    rw [List.mem_singleton.1 hx, hp] at hxp
    cases hxp
    exact Or.inr hq
  | dirty _ hp hq ih =>
    intro x hx p hxp
    rcases List.mem_append.1 hx with hx | hx
    · rcases ih x hx p hxp with hm | hd
      · exact Or.inl (List.mem_append_left _ hm)
      · exact Or.inr hd
    · rw [List.mem_singleton.1 hx, hp] at hxp
      cases hxp
      exact Or.inl (List.mem_append_left _ hq.mem_self)

/-- With `Dirty` downward closed, an ancestor of the object the chain starts
at is in the chain or is clean. -/
theorem DirtyChain.ancestor_mem {α : Type} {h : Heap α} (hcl : DirtyClosed h) {o : Nat} {L : List Nat}
    (hc : DirtyChain h o L) :
    ∀ a k, Ancestor h a o k → a ∈ L ∨ (h a).dirty = false := by
  induction hc with
  | root _ hp =>
    intro a k ha
    cases ha with
    | self => exact Or.inl (List.mem_singleton_self _)
    | up hpar _ => rw [hp] at hpar; cases hpar
  | clean _ hp hq =>
    intro a k ha
    cases ha with
    | self => exact Or.inl (List.mem_singleton_self _)
    | up hpar ha' =>
      rw [hp] at hpar
      cases hpar
      right
      cases hd : (h a).dirty with
      | false => rfl
      | true =>
        rw [ha'.dirty_down hcl hd] at hq
        cases hq
  | dirty _ hp _ ih =>
    intro a k ha
    cases ha with
    | self => exact Or.inl (List.mem_append_right _ (List.mem_singleton_self _))
    | up hpar ha' =>
      rw [hp] at hpar
      cases hpar
      rcases ih a _ ha' with hm | hd
      · exact Or.inl (List.mem_append_left _ hm)
      · exact Or.inr hd

theorem chainHeap_finite : ∀ o, subtreeWithin chainHeap 4 o = true := by
  intro o
  by_cases h0 : o = 0
  · subst h0; decide
  · by_cases h1 : o = 1
    · subst h1; decide
    · by_cases h2 : o = 2
      · subst h2; decide
      · by_cases h3 : o = 3
        · subst h3; decide
        · simp [subtreeWithin, chainHeap, h0, h1, h2, h3]

/-- C39: `setParent`, `setDirty` and the single-target `setClean()` each
preserve downward closure of `Dirty`. On a heap with consistent links and
finite subtrees in which `Dirty` on an object implies `Dirty` on its children
(hence on all its descendants): every call of `setParent` that returns leaves
`Dirty` downward closed, and with enough fuel the call returns; the same for
`setDirty`; and with enough fuel `setClean()` on an object returns, leaves
`Dirty` downward closed, and afterwards the object and every one of its
ancestors is clean. -/
theorem dirty_closure_preserved {α μ : Type} (tr : Transformation α μ) (h : Heap α) (ht : TreeOK h)
    (hfin : ∀ o, ∃ n, subtreeWithin h n o = true) (hcl : DirtyClosed h) :
    (∀ this parent,
      (∀ fuel h' (ev : List (Event μ)) r,
        setParent fuel h this parent = some (h', ev, r) → DirtyClosed h') ∧
      (∃ N, ∀ fuel, N ≤ fuel → ∃ (h' : Heap α) (ev : List (Event μ)),
        setParent fuel h this parent = some (h', ev, this))) ∧
    (∀ o,
      (∀ fuel h' (ev : List (Event μ)), setDirty fuel h o = some (h', ev) → DirtyClosed h') ∧
      (∃ N, ∀ fuel, N ≤ fuel → ∃ (h' : Heap α) (ev : List (Event μ)),
        setDirty fuel h o = some (h', ev))) ∧
    (∀ this, ∃ N, ∀ fuel, N ≤ fuel → ∃ (h' : Heap α) (ev : List (Event μ)),
      setClean tr fuel h this = some (h', ev) ∧ DirtyClosed h' ∧
      ∀ a k, Ancestor h a this k → (h' a).dirty = false) := by
  refine ⟨fun this parent => ⟨fun fuel h' ev r hrun => ?_, ?_⟩,
    fun o => ⟨fun fuel h' ev hrun => ?_, ?_⟩, fun this => ?_⟩
  · obtain ⟨_, ⟨rfl, _⟩ | ⟨hne, _, hreach, hd⟩⟩ := setParent_cases hrun
    · exact hcl
    · have hdesc : ∀ p, parent = some p → ∀ k, ¬ Ancestor h this p k := by
        intro p hp k hk
        rw [hp] at hreach
        exact reachesThis_ne_false hk fuel hreach
      obtain ⟨n, hn⟩ := hfin this
      exact relink_dirty_closed ht hcl this parent hne hdesc
        (setDirty_run_post (relink_within ht this parent hne hdesc hn) hd)
  · obtain ⟨n, hn⟩ := hfin this
    exact setParent_total ht this parent hn
  · obtain ⟨n, hn⟩ := hfin o
    have hpost := setDirty_run_post hn hrun
    have ht' : TreeOK h' := TreeOK.of_dirtyOnly hpost.frame ht
    rw [dirtyClosed_iff_childClosed ht'.child]
    exact (hpost.closed ((dirtyClosed_iff_childClosed ht.child).1 hcl)).1
  · obtain ⟨n, hn⟩ := hfin o
    refine ⟨n, fun fuel hfuel => ?_⟩
    obtain ⟨h', ev, hrun, _⟩ := setDirty_spec (μ := μ) fuel h o (subtreeWithin_mono h hfuel hn)
    exact ⟨h', ev, hrun⟩
  · obtain ⟨d, hd⟩ := ht.acyclic this
    refine ⟨d + 1, fun fuel hfuel => ?_⟩
    cases hdirty : (h this).dirty with
    | false =>
      refine ⟨h, [], by simp only [setClean, hdirty, Bool.not_false, if_true], hcl,
        fun a k ha => ?_⟩
      cases hda : (h a).dirty with
      | false => rfl
      | true =>
        rw [ha.dirty_down hcl hda] at hdirty
        cases hdirty
    | true =>
      obtain ⟨L, base, hchain, hcol, _⟩ := collectDirty_spec tr hd fuel (by omega) hdirty
      have hrun : setClean tr fuel h this = some (cleanStack tr h L base []) := by
        simp only [setClean, hdirty, Bool.not_true, Bool.false_eq_true, if_false, hcol [],
          List.append_nil]
      refine ⟨(cleanStack tr h L base ([] : List (Event μ))).1,
        (cleanStack tr h L base ([] : List (Event μ))).2, hrun, ?_, fun a k ha => ?_⟩
      · rw [cleanStack_heap]
        intro o p hp hpd
        have hp0 : (h o).parent = some p := by
          by_cases hoL : o ∈ L
          · simpa only [hoL, if_true] using hp
          · simpa only [hoL, if_false] using hp
        have hpL : p ∉ L := by
          intro hpL
          simp only [hpL, if_true] at hpd
          cases hpd
        have hpd0 : (h p).dirty = true := by
          simpa only [hpL, if_false] using hpd
        have hoL : o ∉ L := by
          intro hoL
          rcases hchain.parent_mem o hoL p hp0 with hm | hc
          · exact hpL hm
          · rw [hc] at hpd0
            cases hpd0
        simp only [hoL, if_false]
        exact hcl o p hp0 hpd0
      · rw [cleanStack_heap]
        rcases hchain.ancestor_mem hcl a k ha with hm | hc
        · simp only [hm, if_true]
        · by_cases haL : a ∈ L
          · simp only [haL, if_true]
          · simp only [haL, if_false]
            exact hc

/-- C39 on the chain `0 <- 1 <- 2 <- 3`: with every object clean, the calls
`setParent(1)` on `3` and `setDirty()` on `1` return and leave `Dirty`
downward closed; with every object dirty, `setClean()` on `2` returns, leaves
`Dirty` downward closed, and `2`, `1` and `0` are clean afterwards. -/
theorem dirty_closure_preserved_witness :
    (∃ N, ∀ fuel, N ≤ fuel → ∃ (h' : Heap (List Nat)) (ev : List (Event (List Nat))),
      setParent fuel chainHeap 3 (some 1) = some (h', ev, 3) ∧ DirtyClosed h') ∧
    (∃ N, ∀ fuel, N ≤ fuel → ∃ (h' : Heap (List Nat)) (ev : List (Event (List Nat))),
      setDirty fuel chainHeap 1 = some (h', ev) ∧ DirtyClosed h') ∧
    (∃ N, ∀ fuel, N ≤ fuel → ∃ (h' : Heap (List Nat)) (ev : List (Event (List Nat))),
      setClean wordTransformation fuel dirtyFeaturedHeap 2 = some (h', ev) ∧ DirtyClosed h' ∧
      ∀ a k, Ancestor dirtyFeaturedHeap a 2 k → (h' a).dirty = false) := by
  have hc := dirty_closure_preserved wordTransformation chainHeap chainHeap_treeOK
    (fun o => ⟨4, chainHeap_finite o⟩) (fun o p _ hd => by cases hd)
  have hd := dirty_closure_preserved wordTransformation dirtyFeaturedHeap
    (@TreeOK.of_links _ chainHeap dirtyFeaturedHeap (fun _ => rfl) (fun _ => rfl)
      chainHeap_treeOK)
    (fun o => ⟨4, by
      rw [@subtreeWithin_congr _ chainHeap dirtyFeaturedHeap (fun _ => rfl)]
      exact chainHeap_finite o⟩)
    (fun o p _ _ => rfl)
  refine ⟨?_, ?_, hd.2.2 2⟩
  · obtain ⟨N, hN⟩ := (hc.1 3 (some 1)).2
    refine ⟨N, fun fuel hfuel => ?_⟩
    obtain ⟨h', ev, hrun⟩ := hN fuel hfuel
    exact ⟨h', ev, hrun, (hc.1 3 (some 1)).1 fuel h' ev 3 hrun⟩
  · obtain ⟨N, hN⟩ := (hc.2.1 1).2
    refine ⟨N, fun fuel hfuel => ?_⟩
    obtain ⟨h', ev, hrun⟩ := hN fuel hfuel
    exact ⟨h', ev, hrun, (hc.2.1 1).1 fuel h' ev hrun⟩

/-- Dropping the ghost result of `computeJointTransformationCalls` and of its
loop gives what `computeJointTransformation` and its loop return. -/
theorem computeCalls_erase {α μ : Type} {tr : Transformation α μ} {J : List Nat} {initial : α} :
    ∀ fuel : Nat,
    (∀ (h : Heap α) (T : List α) (joint : Nat) (h' : Heap α) (T' : List α) (v : α)
      (calls : List Nat),
      computeJointTransformationCalls tr J initial fuel h T joint = .done (h', T', v, calls) →
      computeJointTransformation tr J initial fuel h T joint = .done (h', T', v)) ∧
    (∀ (h : Heap α) (T : List α) (joint o : Nat) (h' : Heap α) (T' : List α) (v : α)
      (calls : List Nat),
      goUpCalls tr J initial fuel h T joint o = .done (h', T', v, calls) →
      goUp tr J initial fuel h T joint o = .done (h', T', v)) := by
  intro fuel
  induction fuel with
  | zero =>
    constructor
    · intro h T joint h' T' v calls hrun
      simp [computeJointTransformationCalls] at hrun
    · intro h T joint o h' T' v calls hrun
      simp [goUpCalls] at hrun
  | succ fuel ih =>
    constructor
    · intro h T joint h' T' v calls hrun
      rw [computeJointTransformationCalls] at hrun
      rw [computeJointTransformation]
      split at hrun
      · cases hrun
      · rename_i o ho
        try simp only [ho]
        split at hrun
        · cases hrun
        · rename_i t ht
          try simp only [ht]
          split at hrun
          · rename_i hv
            simp only [Run.done.injEq, Prod.mk.injEq] at hrun
            obtain ⟨rfl, rfl, rfl, _⟩ := hrun
            try simp only [hv, if_true]
            try rfl
          · rename_i hv
            try simp only [hv, if_false]
            exact ih.2 _ _ _ _ _ _ _ _ hrun
    · intro h T joint o h' T' v calls hrun
      rw [goUpCalls] at hrun
      rw [goUp]
      split at hrun
      · cases hrun
      · rename_i hv
        try simp only [hv, if_false]
        try dsimp only at hrun
        try dsimp only
        split at hrun
        · rename_i hp
          try simp only [hp]
          split at hrun
          · cases hrun
          · rename_i hs
            try simp only [hs, if_false]
            split at hrun
            · cases hrun
            · rename_i t ht
              try simp only [ht]
              simp only [Run.done.injEq, Prod.mk.injEq] at hrun
              obtain ⟨rfl, rfl, rfl, _⟩ := hrun
              rfl
        · rename_i p hp
          try simp only [hp]
          split at hrun
          · rename_i hj
            try simp only [hj, if_true]
            split at hrun
            · rename_i h2 ts2 r calls2 hr
              rw [ih.1 _ _ _ _ _ _ _ hr]
              try simp only
              split at hrun
              · cases hrun
              · rename_i t ht
                try simp only [ht]
                simp only [Run.done.injEq, Prod.mk.injEq] at hrun
                obtain ⟨rfl, rfl, rfl, _⟩ := hrun
                rfl
            · cases hrun
            · cases hrun
            · cases hrun
          · rename_i hj
            try simp only [hj, if_false]
            split at hrun
            · cases hrun
            · rename_i t ht
              try simp only [ht]
              exact ih.2 _ _ _ _ _ _ _ _ hrun

/-- Dropping the ghost result of `computeAllCalls` gives what `computeAll`
returns. -/
theorem computeAllCalls_erase {α μ : Type} {tr : Transformation α μ} {J : List Nat} {initial : α}
    (fuel : Nat) : ∀ (n i : Nat) (h : Heap α) (T : List α) (h' : Heap α) (T' : List α)
      (chains : List (List Nat)),
    computeAllCalls tr J initial fuel n i h T = .done (h', T', chains) →
    computeAll tr J initial fuel n i h T = .done (h', T')
  | 0, _, _, _, _, _, _, hrun => by
    simp only [computeAllCalls, Run.done.injEq, Prod.mk.injEq] at hrun
    obtain ⟨rfl, rfl, _⟩ := hrun
    rfl
  | n + 1, i, h, T, h', T', chains, hrun => by
    rw [computeAllCalls] at hrun
    rw [computeAll]
    split at hrun
    · rename_i h1 ts1 r calls hr
      rw [(computeCalls_erase fuel).1 _ _ _ _ _ _ _ hr]
      try simp only
      split at hrun
      · rename_i h2 ts2 rest hrest
        simp only [Run.done.injEq, Prod.mk.injEq] at hrun
        obtain ⟨rfl, rfl, _⟩ := hrun
        exact computeAllCalls_erase fuel n _ _ _ _ _ _ hrest
      · cases hrun
      · cases hrun
      · cases hrun
    · cases hrun
    · cases hrun
    · cases hrun

/-- The object the loop of `computeJointTransformation()` stands on is the
joint it started at or one of its ancestors. -/
theorem PathTr.to_ancestor {α μ : Type} {tr : Transformation α μ} {h : Heap α} {j o : Nat} {t : α}
    (hp : PathTr tr h j o t) : ∃ k, Ancestor h o j k := by
  induction hp with
  | start => exact ⟨0, Ancestor.self⟩
  | up _ hpar ih =>
    obtain ⟨k, hk⟩ := ih
    refine ⟨k + 1, ?_⟩
    clear * - hk hpar
    induction hk with
    | self => exact Ancestor.up hpar Ancestor.self
    | up hq _ ih2 => exact Ancestor.up hq ih2

/-- One more step to the parent at the upper end of a chain of parents. -/
theorem Ancestor.snoc {α : Type} {h : Heap α} {a o p k : Nat} (ha : Ancestor h a o k)
    (hp : (h a).parent = some p) : Ancestor h p o (k + 1) := by
  induction ha with
  | self => exact Ancestor.up hp Ancestor.self
  | up hq _ ih => exact Ancestor.up hq ih

/-- With enough fuel `computeJointTransformation()` and its loop return, and
every recursive call is for a joint strictly closer to the root than the one
of the call that makes it. -/
theorem computeCalls_total {α μ : Type} {tr : Transformation α μ} {h0 hW : Heap α} {s : Nat}
    {J : List Nat} {initial : α} (hP : PostWalk h0 s hW J)
    (hs : (h0 s).isScene = true) : ∀ fuel : Nat,
    (∀ (h : Heap α) (T : List α) (joint j n : Nat),
      CJInv h0 hW J h T → J[joint]? = some j →
      ((hW j).counter = joint ∨ (h j).visited = false) →
      (Assoc tr → ∀ x n m, (hW x).joint = true → (h x).visited = false →
        Depth h0 x n → Depth h0 j m → n < m → Final tr h0 hW initial T x) →
      Depth h0 j n → 2 * n + 2 ≤ fuel →
      ∃ h' T' v calls,
        computeJointTransformationCalls tr J initial fuel h T joint = .done (h', T', v, calls) ∧
        List.Chain (CloserJoint h0 J) joint calls) ∧
    (∀ (h : Heap α) (T : List α) (joint j o n : Nat),
      GoInv tr h0 hW s J initial h T joint j o → (h o).visited = true →
      Depth h0 o n → 2 * n + 1 ≤ fuel →
      ∃ h' T' v calls, goUpCalls tr J initial fuel h T joint o = .done (h', T', v, calls) ∧
        List.Chain (CloserJoint h0 J) joint calls) := by
  intro fuel
  induction fuel with
  | zero =>
    constructor
    · intro h T joint j n _ _ _ _ _ hf
      omega
    · intro h T joint j o n _ _ _ hf
      omega
  | succ fuel ih =>
    constructor
    · intro h T joint j n hI hj hc hanc hd hf
      have hjl : joint < T.length := by
        rw [hI.len]
        exact (List.getElem?_eq_some.1 hj).1
      rw [computeJointTransformationCalls]
      simp only [hj, List.getElem?_eq_getElem hjl]
      by_cases hvj : (h j).visited = true
      · simp only [hvj, Bool.not_true, Bool.false_eq_true, if_false]
        have hc' : (hW j).counter = joint := by
          rcases hc with hc | hc
          · exact hc
          · rw [hvj] at hc; cases hc
        rw [hI.frame.transformation]
        exact ih.2 h _ joint j j n (hI.entry_pre hP hj hc' hanc) hvj hd (by omega)
      · have hvj' : (h j).visited = false := by
          cases hb : (h j).visited with
          | false => rfl
          | true => exact (hvj hb).elim
        simp only [hvj', Bool.not_false, if_true]
        exact ⟨_, _, _, _, rfl, List.Chain.nil⟩
    · intro h T joint j o n hG hvo hd hf
      obtain ⟨t, ht, hpt⟩ := hG.path
      rw [goUpCalls]
      simp only [hvo, Bool.not_true, Bool.false_eq_true, if_false, Heap.modify_same]
      cases hp : (h0 o).parent with
      | none =>
        rw [hG.frame.parent, hp]
        simp only [ht]
        have hos : o = s := hP.root o (hG.sub o hvo) hp
        have hsc : (h o).isScene = true := by
          rw [hG.frame.isScene, hos]
          exact hs
        simp only [hsc, Bool.not_true, Bool.false_eq_true, if_false]
        exact ⟨_, _, _, _, rfl, List.Chain.nil⟩
      | some p =>
        rw [hG.frame.parent, hp]
        simp only [joint_mark, counter_mark, (hG.same p).1, (hG.same p).2]
        obtain ⟨m, hm, hdp⟩ := hd.parent_below hp
        cases hjp : (hW p).joint with
        | true =>
          simp only [if_true]
          obtain ⟨hI1, hidx, hanc⟩ := hG.joint_pre hP hvo hp hjp
          obtain ⟨h2, T2, r, calls, hr, hchain⟩ := ih.1 _ T (hW p).counter p m hI1 hidx
            (Or.inl rfl) hanc hdp (by omega)
          have hJP := (compute_spec hP fuel).1 _ T (hW p).counter p h2 T2 r hI1 hidx
            (Or.inl rfl) hanc ((computeCalls_erase fuel).1 _ _ _ _ _ _ _ hr)
          have hjl : joint < T2.length := by
            rw [hJP.inv.len]
            exact (List.getElem?_eq_some.1 hG.jidx).1
          simp only [hr, List.getElem?_eq_getElem hjl]
          refine ⟨_, _, _, _, rfl, List.Chain.cons ?_ hchain⟩
          obtain ⟨k, hk⟩ := hpt.to_ancestor
          exact ⟨j, p, k, hG.jidx, hidx, hk.snoc hp⟩
        | false =>
          simp only [Bool.false_eq_true, if_false, ht]
          have hfr : ((h.modify o fun x => { x with visited := false }) p).transformation =
              (h0 p).transformation := (hG.frame.mark o false).transformation p
          rw [hfr]
          have hpo : p ≠ o := hd.parent_ne hp
          have hvp : ((h.modify o fun x => { x with visited := false }) p).visited = true := by
            rw [visited_clear]
            exact ⟨hpo, (hG.segRest o p (hG.sub o hvo) hp hjp hpo).1 hvo⟩
          exact ih.2 _ _ joint j p m (hG.climb_pre hP hvo hp hjp ht) hvp hdp (by omega)

/-- With enough fuel the loop over all joints returns, and in each of its
calls of `computeJointTransformation()` the recursion goes only to joints
strictly closer to the root. -/
theorem computeAllCalls_total {α μ : Type} (tr : Transformation α μ) {h0 hW : Heap α} {s : Nat}
    {J : List Nat} (initial : α) (hP : PostWalk h0 s hW J) (hs : (h0 s).isScene = true)
    (B fuel : Nat) (hfuel : 2 * B + 2 ≤ fuel)
    (hB : ∀ x, (hW x).joint = true → ∀ n, Depth h0 x n → n < B) :
    ∀ (n i : Nat) (h : Heap α) (T : List α),
      i + n = J.length → CJInv h0 hW J h T →
      (∀ k o, k < i → J[k]? = some o → (h o).visited = false) →
      (Assoc tr → ∀ x, (hW x).joint = true → (h x).visited = false →
        Final tr h0 hW initial T x) →
      ∃ h' T' chains, computeAllCalls tr J initial fuel n i h T = .done (h', T', chains) ∧
        chains.length = n ∧
        ∀ k calls, chains[k]? = some calls → List.Chain (CloserJoint h0 J) (i + k) calls
  | 0, i, h, T, _, _, _, _ => ⟨h, T, [], rfl, rfl, fun k calls hk => by simp at hk⟩
  | n + 1, i, h, T, hin, hI, hcl, hval => by
    rw [computeAllCalls]
    have hi : i < J.length := by omega
    have hj : J[i]? = some J[i] := List.getElem?_eq_getElem hi
    have hjj := hP.joint_of_idx hj
    obtain ⟨d, hd⟩ := hP.visTree _ (hP.allVis _ hjj)
    have hpre : (hW J[i]).counter = i ∨ (h J[i]).visited = false := by
      have hle := hP.joints.first i _ hj
      rcases Nat.lt_or_eq_of_le hle with hlt | heq
      · exact Or.inr (hcl _ _ hlt (hP.joints.idx _ hjj))
      · exact Or.inl heq
    have hdB := hB _ hjj d hd
    obtain ⟨h1, T1, r, calls, hr, hchain⟩ := (computeCalls_total hP hs fuel).1 h T i J[i] d hI hj
      hpre (fun ha x _ _ hx hxc _ _ _ => hval ha x hx hxc) hd (by omega)
    have hJP := ((compute_spec hP fuel).1 h T i J[i] h1 T1 r hI hj hpre
      (fun ha x _ _ hx hxc _ _ _ => hval ha x hx hxc)
      ((computeCalls_erase fuel).1 _ _ _ _ _ _ _ hr))
    simp only [hr]
    obtain ⟨h2, T2, rest, hrest, hlen, hall⟩ :=
      computeAllCalls_total tr initial hP hs B fuel hfuel hB n (i + 1) h1 T1 (by omega) hJP.inv
        (by
          intro k o hk hko
          rcases Nat.lt_or_eq_of_le (Nat.le_of_lt_succ hk) with hlt | heq
          · exact hJP.mono o (hcl k o hlt hko)
          · subst heq
            rw [hj] at hko
            cases hko
            exact hJP.cleared)
        (by
          intro ha x hx hxc
          cases hvx : (h x).visited with
          | true => exact hJP.fresh ha x hx hvx hxc
          | false =>
            intro a haa
            rw [hJP.keep x hx hvx]
            exact hval ha x hx hvx a haa)
    simp only [hrest]
    refine ⟨h2, T2, calls :: rest, rfl, by simp [hlen], fun k cs hk => ?_⟩
    cases k with
    | zero =>
      simp only [List.getElem?_cons_zero, Option.some.injEq] at hk
      subst hk
      exact hchain
    | succ k =>
      simp only [List.getElem?_cons_succ] at hk
      have := hall k cs hk
      rwa [show i + 1 + k = i + (k + 1) by omega] at this

/-- One iteration of the walk-up loop on a non-empty working vector removes
the element the iterator stands on, or replaces it by its parent, or ends the
call at an assertion. -/
theorem walkUp_step {α : Type} (s : Nat) (h : Heap α) (W : List Nat) (it : Nat) (J : List Nat) (o : Nat)
    (ho : W[it]? = some o) :
    (∃ h1 it1 J1, ∀ fuel,
      walkUp s (fuel + 1) h W it J = walkUp s fuel h1 (W.eraseIdx it) it1 J1) ∨
    (∃ p h1 it1, (h o).parent = some p ∧ ∀ fuel,
      walkUp s (fuel + 1) h W it J = walkUp s fuel h1 (W.set it p) it1 J) ∨
    (∃ h1 e, ∀ fuel, walkUp s (fuel + 1) h W it J = .failed h1 e) ∨
    (∀ fuel, walkUp s (fuel + 1) h W it J = .aborted) := by
  have hne : W.isEmpty = false := by
    cases W with
    | nil => simp at ho
    | cons _ _ => rfl
  by_cases hv : (h o).visited = true
  · left
    refine ⟨h, it, J, fun fuel => ?_⟩
    rw [walkUp]
    simp only [hne, Bool.false_eq_true, if_false, ho, hv, if_true]
  · cases hp : (h o).parent with
    | none =>
      by_cases hos : o = s
      · left
        subst hos
        refine ⟨h.modify o fun x => { x with visited := true }, wrapIt (W.eraseIdx it) it, J,
          fun fuel => ?_⟩
        rw [walkUp]
        simp only [hne, Bool.false_eq_true, if_false, ho, hv, Heap.modify_same, hp,
          ne_eq, not_true_eq_false]
      · right; right; left
        refine ⟨h.modify o fun x => { x with visited := true }, .notSameTree, fun fuel => ?_⟩
        rw [walkUp]
        simp only [hne, Bool.false_eq_true, if_false, ho, hv, Heap.modify_same, hp, hos,
          ne_eq, not_false_eq_true, if_true]
    | some p =>
      cases hj : ((h.modify o fun x => { x with visited := true }) p).joint with
      | true =>
        left
        refine ⟨h.modify o fun x => { x with visited := true }, wrapIt (W.eraseIdx it) it, J,
          fun fuel => ?_⟩
        rw [walkUp]
        simp only [hne, Bool.false_eq_true, if_false, ho, hv, Heap.modify_same, hp, hj,
          Bool.or_true, if_true, Bool.not_true]
      | false =>
        cases hvp : ((h.modify o fun x => { x with visited := true }) p).visited with
        | true =>
          by_cases hlen : J.length < 0xFFFF
          · by_cases hc : ((h.modify o fun x => { x with visited := true }) p).counter = sentinel
            · left
              refine ⟨(h.modify o fun x => { x with visited := true }).modify p fun x =>
                  { x with counter := J.length % 65536, joint := true },
                wrapIt (W.eraseIdx it) it, J ++ [p], fun fuel => ?_⟩
              rw [walkUp]
              simp only [hne, Bool.false_eq_true, if_false, ho, hv, Heap.modify_same, hp, hj,
                hvp, Bool.or_false, if_true, Bool.not_false, hlen, not_true_eq_false, hc, ne_eq]
            · right; right; right
              intro fuel
              rw [walkUp]
              simp only [hne, Bool.false_eq_true, if_false, ho, hv, Heap.modify_same, hp, hj,
                hvp, Bool.or_false, if_true, Bool.not_false, hlen, not_true_eq_false, hc, ne_eq,
                not_false_eq_true]
          · right; right; left
            refine ⟨h.modify o fun x => { x with visited := true }, .tooLargeScene,
              fun fuel => ?_⟩
            rw [walkUp]
            simp only [hne, Bool.false_eq_true, if_false, ho, hv, Heap.modify_same, hp, hj,
              hvp, Bool.or_false, if_true, Bool.not_false, hlen, not_false_eq_true]
        | false =>
          right; left
          refine ⟨p, h.modify o fun x => { x with visited := true }, wrapIt (W.set it p) it, rfl,
            fun fuel => ?_⟩
          rw [walkUp]
          simp only [hne, Bool.false_eq_true, if_false, ho, hv, Heap.modify_same, hp, hj,
            hvp, Bool.or_false]

theorem crowdInTree_length : crowdInTree.length = 65534 := by
  unfold crowdInTree
  rw [List.length_cons, List.length_cons, List.length_cons, List.length_replicate]

theorem mem_crowdInTree (x : Nat) : x ∈ crowdInTree ↔ x = 2 ∨ x = 3 ∨ x = 4 := by
  unfold crowdInTree
  simp only [List.mem_cons, List.mem_replicate, ne_eq]
  constructor
  · rintro (h | h | h | ⟨_, h⟩) <;> simp [h]
  · rintro (h | h | h) <;> simp [h]

/-- The walk-up loop of the scene `0` of the fan on the 65534 objects of
`crowdInTree`: with fuel below 5 the fuel runs out, otherwise the loop ends at
the assertion on the size of the joint list. -/
theorem fan_walk_in_tree (fuel : Nat) :
    (fuel < 5 ∧
      walkUp 0 fuel (markJoints fanHeap crowdInTree 0) crowdInTree 0 crowdInTree = .outOfFuel) ∨
    (5 ≤ fuel ∧ ∃ h',
      walkUp 0 fuel (markJoints fanHeap crowdInTree 0) crowdInTree 0 crowdInTree =
        .failed h' .tooLargeScene) := by
  have hlen : crowdInTree.length < 0xFFFF := by rw [crowdInTree_length]; decide
  have hseed : Frame fanHeap (markJoints fanHeap crowdInTree 0) ∧
      JointsOK (markJoints fanHeap crowdInTree 0) crowdInTree ∧
      ∀ o, (markJoints fanHeap crowdInTree 0 o).visited = false :=
    markJoints_seed fanHeap crowdInTree [] fanHeap hlen (Frame.refl _)
      (JointsOK.of_quiescent fanHeap_quiescent) (fun _ => rfl)
  obtain ⟨hf, hj, hv⟩ := hseed
  have hnj : ∀ x, x ∉ crowdInTree → (markJoints fanHeap crowdInTree 0 x).joint = false :=
    fun x hx => by
      cases hc : (markJoints fanHeap crowdInTree 0 x).joint with
      | false => rfl
      | true => exact absurd ((hj.mem x).1 hc) hx
  have hj0 := hnj 0 (by rw [mem_crowdInTree]; decide)
  have hj1 := hnj 1 (by rw [mem_crowdInTree]; decide)
  have hw := fan_walk (markJoints fanHeap crowdInTree 0) (List.replicate 65531 4) crowdInTree
    hf.parent hv hj0 hj1 (hj.clear 1 hj1) crowdInTree_length fuel
  have hcrowd : crowdInTree = 2 :: 3 :: 4 :: List.replicate 65531 4 := rfl
  rcases hw with ⟨hlt, hw⟩ | ⟨hge, h', hw⟩
  · left
    refine ⟨hlt, ?_⟩
    rw [hcrowd] at hw ⊢
    rw [hw]
  · right
    refine ⟨hge, h', ?_⟩
    rw [hcrowd] at hw ⊢
    rw [hw]

/-- C36 as stated fails: the walk-up loop can end with a working set that is
not empty. In the heap with the scene `0`, its children `1` and `4` and the
children `2` and `3` of `1`, on the list of the 65534 objects `2`, `3` and
65532 times `4`, all of them in the tree of the scene: the loop ends at the
assertion on the size of the joint list, which is full when the first `4` is
reached, and for no fuel with an empty working set. And on the chain
`0 <- 1 <- 2 <- 3` with the list `[3, 7]`, the object `7` being detached, the
loop ends at the assertion that the objects are part of the same tree. -/
theorem walk_ends_nonempty_counterexample :
    Quiescent fanHeap ∧ (fanHeap 0).isScene = true ∧ crowdInTree.length < 0xFFFF ∧
    (∀ o ∈ crowdInTree, ∃ n, Below fanHeap 0 o n) ∧
    (∀ fuel, 5 ≤ fuel → ∃ h',
      walkUp 0 fuel (markJoints fanHeap crowdInTree 0) crowdInTree 0 crowdInTree =
        .failed h' .tooLargeScene) ∧
    (∀ fuel h' J',
      walkUp 0 fuel (markJoints fanHeap crowdInTree 0) crowdInTree 0 crowdInTree ≠
        .done (h', J')) ∧
    (∃ h', walkUp 0 9 (markJoints chainHeap [3, 7] 0) [3, 7] 0 [3, 7] =
      .failed h' .notSameTree) := by
  have b0 : Below fanHeap 0 0 0 := Below.root rfl
  have b1 : Below fanHeap 0 1 1 := Below.child (p := 0) rfl b0
  refine ⟨fanHeap_quiescent, rfl, by rw [crowdInTree_length]; decide, fun o ho => ?_,
    fun fuel hfuel => ?_, fun fuel h' J' hrun => ?_, ⟨_, rfl⟩⟩
  · rcases (mem_crowdInTree o).1 ho with rfl | rfl | rfl
    · exact ⟨2, Below.child (p := 1) rfl b1⟩
    · exact ⟨2, Below.child (p := 1) rfl b1⟩
    · exact ⟨1, Below.child (p := 0) rfl b0⟩
  · rcases fan_walk_in_tree fuel with ⟨hlt, _⟩ | ⟨_, hr⟩
    · omega
    · exact hr
  · rcases fan_walk_in_tree fuel with ⟨_, hr⟩ | ⟨_, h2, hr⟩
    · rw [hr] at hrun
      cases hrun
    · rw [hr] at hrun
      cases hrun

/-- C36, amended: the walk-up loop and `computeJointTransformation` terminate.
For a call of `transformations` with clean scratch state on a list of fewer
than 0xFFFF objects with finite chains of parents: with enough fuel the
walk-up loop ends, with the working set empty or at one of its two assertions
(the objects are not part of the same tree; the joint list is full, which
needs more than 0x7FFF objects), and it ends with the working set empty when
the caller is a scene, every listed object is in its tree and the list has at
most 0x7FFF objects; each iteration on a non-empty working set removes the
element the iterator stands on, or replaces it by its parent, or ends the call
at an assertion; and, the caller being a scene, after a walk that ended with
the working set empty the loop over the joints returns given enough fuel, so
every call of `computeJointTransformation` returns, and for every joint the
recursive calls made for it go, one after the other, to a joint strictly
closer to the root. -/
theorem walk_and_joints_terminate {α μ : Type} (tr : Transformation α μ) (h0 : Heap α) (s : Nat)
    (objects : List Nat) (initial : α) (hq : Quiescent h0) (hlen : objects.length < 0xFFFF)
    (hacyclic : ∀ o ∈ objects, ∃ n, Depth h0 o n) :
    (∃ N, ∀ fuel, N ≤ fuel →
      (∃ h' J', walkUp s fuel (markJoints h0 objects 0) objects 0 objects = .done (h', J')) ∨
      (∃ h', walkUp s fuel (markJoints h0 objects 0) objects 0 objects =
        .failed h' .notSameTree) ∨
      (0x7FFF < objects.length ∧
        ∃ h', walkUp s fuel (markJoints h0 objects 0) objects 0 objects =
          .failed h' .tooLargeScene)) ∧
    ((h0 s).isScene = true → (∀ o ∈ objects, ∃ n, Below h0 s o n) →
      objects.length ≤ 0x7FFF →
      ∃ N, ∀ fuel, N ≤ fuel →
        ∃ h' J', walkUp s fuel (markJoints h0 objects 0) objects 0 objects = .done (h', J')) ∧
    (∀ (h : Heap α) (W : List Nat) (it : Nat) (J : List Nat) (o : Nat), W[it]? = some o →
      (∃ h1 it1 J1, ∀ fuel,
        walkUp s (fuel + 1) h W it J = walkUp s fuel h1 (W.eraseIdx it) it1 J1) ∨
      (∃ p h1 it1, (h o).parent = some p ∧ ∀ fuel,
        walkUp s (fuel + 1) h W it J = walkUp s fuel h1 (W.set it p) it1 J) ∨
      (∃ h1 e, ∀ fuel, walkUp s (fuel + 1) h W it J = .failed h1 e) ∨
      (∀ fuel, walkUp s (fuel + 1) h W it J = .aborted)) ∧
    ((h0 s).isScene = true → ∀ fuel hW J,
      walkUp s fuel (markJoints h0 objects 0) objects 0 objects = .done (hW, J) →
      ∃ N, ∀ fuel2, N ≤ fuel2 → ∃ h' T' chains,
        computeAllCalls tr J initial fuel2 J.length 0 hW
          (List.replicate J.length tr.identity) = .done (h', T', chains) ∧
        computeAll tr J initial fuel2 J.length 0 hW
          (List.replicate J.length tr.identity) = .done (h', T') ∧
        chains.length = J.length ∧
        ∀ i calls, chains[i]? = some calls → List.Chain (CloserJoint h0 J) i calls) := by
  obtain ⟨b0, hB0⟩ := Budget.exists_for objects hacyclic
  have hWI := markJoints_walkInv (s := s) hq hlen hacyclic
  have hbig : (∀ o ∈ objects, ∃ n, Below h0 s o n) → ∀ fuel, b0 < fuel →
      (∃ h' J', walkUp s fuel (markJoints h0 objects 0) objects 0 objects = .done (h', J') ∧
        ∀ x, (h' x).joint = true → ∀ n, Depth h0 x n → n < b0) ∨
      (0xFFFF < objects.length + objects.length ∧
        ∃ h', walkUp s fuel (markJoints h0 objects 0) objects 0 objects =
          .failed h' .tooLargeScene) := fun htree fuel hfuel =>
    walkUp_total b0 fuel _ objects objects b0 hWI htree hB0 hfuel (Nat.le_refl _)
      (fun x hx n hn => hB0.depth_lt x ((hWI.joints.mem x).1 hx) n hn)
  refine ⟨⟨b0 + 1, fun fuel hfuel => ?_⟩, fun hs htree hsmall => ⟨b0 + 1, fun fuel hfuel => ?_⟩,
    walkUp_step s, fun hs fuel hW J hw => ?_⟩
  · rcases walkUp_ends fuel _ objects objects b0 hWI hB0 (by omega) with hd | hn | ⟨hl, hf⟩
    · exact Or.inl hd
    · exact Or.inr (Or.inl hn)
    · exact Or.inr (Or.inr ⟨by omega, hf⟩)
  · rcases hbig htree fuel (by omega) with ⟨h', J', hd, _⟩ | ⟨hl, _⟩
    · exact ⟨h', J', hd⟩
    · omega
  · have htree := walkUp_done_below hq hlen hacyclic hw
    have hmono := walkUp_mono_le s (markJoints h0 objects 0) objects 0 objects fuel
      (by rw [hw]; exact fun hc => by cases hc) (b0 + 1)
    rw [hw] at hmono
    have hJd : ∀ x, (hW x).joint = true → ∀ n, Depth h0 x n → n < b0 := by
      rcases hbig htree (fuel + (b0 + 1)) (by omega) with ⟨h', J', hd, hJd⟩ | ⟨_, h', hf⟩
      · rw [hd] at hmono
        simp only [Run.done.injEq, Prod.mk.injEq] at hmono
        rw [← hmono.1]
        exact hJd
      · rw [hf] at hmono
        cases hmono
    have hWI' := walkUp_inv fuel _ objects objects hWI hW J hw
    have hP := PostWalk.of_walkInv hWI'
    have hI0 : CJInv h0 hW J hW (List.replicate J.length tr.identity) :=
      ⟨hP.frame, fun _ => ⟨rfl, rfl⟩, fun _ hx => hx,
        fun y x hy hp _ => ⟨fun _ => hP.up y x hy hp, fun _ => hy⟩, by simp⟩
    refine ⟨2 * b0 + 2, fun fuel2 hfuel2 => ?_⟩
    obtain ⟨h3, T3, chains, hc, hcl, hall⟩ := computeAllCalls_total tr initial hP hs b0 fuel2
      hfuel2 hJd J.length 0 hW _ (by simp) hI0 (fun k o hk => by omega)
      (fun _ x hx hxc => by rw [hP.allVis x hx] at hxc; cases hxc)
    refine ⟨h3, T3, chains, hc, computeAllCalls_erase _ _ _ _ _ _ _ _ hc, hcl, fun i calls hi => ?_⟩
    have := hall i calls hi
    rwa [Nat.zero_add] at this

/-- C36 as amended, on the chain `0 <- 1 <- 2 <- 3` with the scene `0` and
the objects `[3, 1]`: the walk ends with the working set empty; the call of
`computeJointTransformation` for `3` makes one recursive call, for the joint
`1` at position 1, the one for `1` makes none; and the general statement at
this input. -/
theorem walk_and_joints_terminate_witness :
    (∃ hW J, walkUp 0 9 (markJoints chainHeap [3, 1] 0) [3, 1] 0 [3, 1] = .done (hW, J) ∧
      ∃ h' T', computeAllCalls wordTransformation J [] 9 J.length 0 hW
        (List.replicate J.length wordTransformation.identity) = .done (h', T', [[1], []])) ∧
    (∃ N, ∀ fuel, N ≤ fuel →
      ∃ h' J', walkUp 0 fuel (markJoints chainHeap [3, 1] 0) [3, 1] 0 [3, 1] =
        .done (h', J')) ∧
    (∀ fuel hW J,
      walkUp 0 fuel (markJoints chainHeap [3, 1] 0) [3, 1] 0 [3, 1] = .done (hW, J) →
      ∃ N, ∀ fuel2, N ≤ fuel2 → ∃ h' T' chains,
        computeAllCalls wordTransformation J [] fuel2 J.length 0 hW
          (List.replicate J.length wordTransformation.identity) = .done (h', T', chains) ∧
        computeAll wordTransformation J [] fuel2 J.length 0 hW
          (List.replicate J.length wordTransformation.identity) = .done (h', T') ∧
        chains.length = J.length ∧
        ∀ i calls, chains[i]? = some calls → List.Chain (CloserJoint chainHeap J) i calls) :=
  have hc := walk_and_joints_terminate wordTransformation chainHeap 0 [3, 1] []
    chainHeap_quiescent (by decide) (fun o ho => by
      obtain ⟨n, hn⟩ := chainHeap_below o (by
        simp only [List.mem_cons, List.mem_singleton, List.not_mem_nil, or_false] at ho ⊢
        rcases ho with rfl | rfl <;> simp)
      exact ⟨n, hn.depth⟩)
  ⟨⟨_, _, rfl, _, _, rfl⟩,
    hc.2.1 rfl (fun o ho => chainHeap_below o (by
      simp only [List.mem_cons, List.mem_singleton, List.not_mem_nil, or_false] at ho ⊢
      rcases ho with rfl | rfl <;> simp)) (by decide),
    hc.2.2.2 rfl⟩

/-- The iterator leaves a visited object: the rest of the working vector. -/
theorem PathInv.pop {α : Type} {h0 h : Heap α} {objects rest : List Nat} {e : Nat}
    (hI : PathInv h0 objects h (e :: rest)) : PathInv h0 objects h rest where
  parents := hI.parents
  visPath := hI.visPath
  workPath := fun w hw => hI.workPath w (List.mem_cons_of_mem _ hw)
  visChild := hI.visChild
  headChild := fun w hw => Or.inl (hI.tailJoint w (List.mem_of_mem_head? hw))
  tailJoint := fun w hw => hI.tailJoint w (List.mem_of_mem_tail hw)
  jointWhy := hI.jointWhy

/-- The object the iterator stands on is marked and dropped. -/
theorem PathInv.mark_drop {α : Type} {h0 h : Heap α} {objects rest : List Nat} {e : Nat}
    (hI : PathInv h0 objects h (e :: rest)) :
    PathInv h0 objects (h.modify e fun x => { x with visited := true }) rest where
  parents := fun x => by
    rw [Heap.modify_apply]
    split <;> exact hI.parents x
  visPath := fun x hx => by
    rcases (visited_mark e x).1 hx with rfl | hx
    · exact hI.workPath _ (List.mem_cons_self _ _)
    · exact hI.visPath x hx
  workPath := fun w hw => hI.workPath w (List.mem_cons_of_mem _ hw)
  visChild := fun x hx => by
    rw [joint_mark]
    have lift : ((h x).joint = true ∨ ∃ y, (h y).visited = true ∧ (h0 y).parent = some x) →
        ((h x).joint = true ∨ ∃ y, ((h.modify e fun x => { x with visited := true }) y).visited
          = true ∧ (h0 y).parent = some x) := by
      rintro (hj | ⟨y, hy, hp⟩)
      · exact Or.inl hj
      · exact Or.inr ⟨y, (visited_mark e y).2 (Or.inr hy), hp⟩
    rcases (visited_mark e x).1 hx with rfl | hx
    · exact lift (hI.headChild _ rfl)
    · exact lift (hI.visChild x hx)
  headChild := fun w hw => by
    rw [joint_mark]
    exact Or.inl (hI.tailJoint w (List.mem_of_mem_head? hw))
  tailJoint := fun w hw => by
    rw [joint_mark]
    exact hI.tailJoint w (List.mem_of_mem_tail hw)
  jointWhy := fun x hx => by
    rw [joint_mark] at hx
    rcases hI.jointWhy x hx with ho | ⟨c, c', hne, hc, hc', hv, hv'⟩
    · exact Or.inl ho
    · exact Or.inr ⟨c, c', hne, hc, hc', (visited_mark e c).2 (Or.inr hv),
        (visited_mark e c').2 (Or.inr hv')⟩

/-- The object the iterator stands on is marked and replaced by its parent. -/
theorem PathInv.mark_up {α : Type} {h0 h : Heap α} {objects rest : List Nat} {e p : Nat}
    (hI : PathInv h0 objects h (e :: rest)) (hp : (h0 e).parent = some p) :
    PathInv h0 objects (h.modify e fun x => { x with visited := true }) (p :: rest) where
  parents := hI.mark_drop.parents
  visPath := hI.mark_drop.visPath
  workPath := fun w hw => by
    rcases List.mem_cons.1 hw with rfl | hw
    · obtain ⟨o, ho, k, hk⟩ := hI.workPath e (List.mem_cons_self _ _)
      exact ⟨o, ho, k + 1, hk.snoc hp⟩
    · exact hI.workPath w (List.mem_cons_of_mem _ hw)
  visChild := hI.mark_drop.visChild
  headChild := fun w hw => by
    simp only [List.head?_cons, Option.some.injEq] at hw
    subst hw
    exact Or.inr ⟨e, (visited_mark e e).2 (Or.inl rfl), hp⟩
  tailJoint := fun w hw => by
    rw [joint_mark]
    exact hI.tailJoint w hw
  jointWhy := hI.mark_drop.jointWhy

/-- The object the iterator stands on is marked and dropped, and its parent,
visited before, becomes a joint. -/
theorem PathInv.join {α : Type} {h0 h : Heap α} {objects rest : List Nat} {e p : Nat} (c : Nat)
    (hI : PathInv h0 objects h (e :: rest)) (hve : (h e).visited = false)
    (hp : (h0 e).parent = some p) (hjp : (h p).joint = false)
    (hvp : ((h.modify e fun x => { x with visited := true }) p).visited = true) :
    PathInv h0 objects ((h.modify e fun x => { x with visited := true }).modify p fun x =>
      { x with counter := c, joint := true }) rest := by
  have hI1 := hI.mark_drop
  have hv2 : ∀ x, (((h.modify e fun x => { x with visited := true }).modify p fun x =>
      { x with counter := c, joint := true }) x).visited =
      ((h.modify e fun x => { x with visited := true }) x).visited := by
    intro x
    rw [Heap.modify_apply]
    split
    · rename_i hx; rw [hx]
    · rfl
  have hj2 : ∀ x, ((h.modify e fun x => { x with visited := true }) x).joint = true →
      (((h.modify e fun x => { x with visited := true }).modify p fun x =>
        { x with counter := c, joint := true }) x).joint = true := by
    intro x hx
    rw [Heap.modify_apply]
    split
    · rfl
    · exact hx
  have hj2' : ∀ x, (((h.modify e fun x => { x with visited := true }).modify p fun x =>
        { x with counter := c, joint := true }) x).joint = true →
      x = p ∨ ((h.modify e fun x => { x with visited := true }) x).joint = true := by
    intro x hx
    rw [Heap.modify_apply] at hx
    split at hx
    · rename_i hxp; exact Or.inl hxp
    · exact Or.inr hx
  have hchild : ∃ y, (h y).visited = true ∧ (h0 y).parent = some p := by
    rcases (visited_mark e p).1 hvp with hpe | hvp0
    · rcases hI.headChild e rfl with hj | hy
      · rw [← hpe, hjp] at hj
        cases hj
      · rw [hpe]
        exact hy
    · rcases hI.visChild p hvp0 with hj | hy
      · rw [hjp] at hj
        cases hj
      · exact hy
  refine ⟨fun x => ?_, fun x hx => ?_, hI1.workPath, fun x hx => ?_, fun w hw => ?_,
    fun w hw => ?_, fun x hx => ?_⟩
  · rw [Heap.modify_apply]
    split <;> exact hI1.parents x
  · rw [hv2] at hx
    exact hI1.visPath x hx
  · rw [hv2] at hx
    rcases hI1.visChild x hx with hj | ⟨y, hy, hyp⟩
    · exact Or.inl (hj2 x hj)
    · exact Or.inr ⟨y, by rw [hv2]; exact hy, hyp⟩
  · rcases hI1.headChild w hw with hj | ⟨y, hy, hyp⟩
    · exact Or.inl (hj2 w hj)
    · exact Or.inr ⟨y, by rw [hv2]; exact hy, hyp⟩
  · exact hj2 w (hI1.tailJoint w hw)
  · rcases hj2' x hx with rfl | hx1
    · obtain ⟨y, hy, hyp⟩ := hchild
      refine Or.inr ⟨e, y, ?_, hp, hyp, ?_, ?_⟩
      · rintro rfl
        rw [hve] at hy
        cases hy
      · rw [hv2]
        exact (visited_mark e e).2 (Or.inl rfl)
      · rw [hv2]
        exact (visited_mark e y).2 (Or.inr hy)
    · rcases hI1.jointWhy x hx1 with ho | ⟨c1, c2, hne, hc1, hc2, hv, hv'⟩
      · exact Or.inl ho
      · exact Or.inr ⟨c1, c2, hne, hc1, hc2, by rw [hv2]; exact hv, by rw [hv2]; exact hv'⟩

/-- The walk-up loop, started with the iterator on the first element, keeps
what it knows about root paths until the working vector is empty. -/
theorem walkUp_pathInv {α : Type} {h0 : Heap α} {s : Nat} {objects : List Nat} :
    ∀ (fuel : Nat) (h : Heap α) (W J : List Nat), PathInv h0 objects h W →
    ∀ h' J', walkUp s fuel h W 0 J = .done (h', J') → PathInv h0 objects h' []
  | 0, _, _, _, _, _, _, hrun => by simp [walkUp] at hrun
  | fuel + 1, h, [], J, hI, h', J', hrun => by
    simp only [walkUp, List.isEmpty_nil, if_true, Run.done.injEq, Prod.mk.injEq] at hrun
    obtain ⟨rfl, rfl⟩ := hrun
    exact hI
  | fuel + 1, h, e :: rest, J, hI, h', J', hrun => by
    rw [walkUp] at hrun
    simp only [List.isEmpty_cons, Bool.false_eq_true, if_false, List.getElem?_cons_zero,
      List.eraseIdx_cons_zero, wrapIt_zero, List.set_cons_zero] at hrun
    by_cases hve : (h e).visited = true
    · simp only [hve, if_true] at hrun
      exact walkUp_pathInv fuel h rest J hI.pop h' J' hrun
    · have hve' : (h e).visited = false := by
        cases hb : (h e).visited with
        | false => rfl
        | true => exact (hve hb).elim
      simp only [hve, Bool.false_eq_true, if_false, Heap.modify_same] at hrun
      cases hp : (h e).parent with
      | none =>
        simp only [hp] at hrun
        split at hrun
        · cases hrun
        · exact walkUp_pathInv fuel _ rest J hI.mark_drop h' J' hrun
      | some p =>
        simp only [hp] at hrun
        have hp0 : (h0 e).parent = some p := by rw [← hI.parents, hp]
        split at hrun
        · split at hrun
          · rename_i hvj hnj
            split at hrun
            · cases hrun
            · split at hrun
              · cases hrun
              · have hjp : (h p).joint = false := by
                  rw [joint_mark] at hnj
                  simpa using hnj
                have hvp : ((h.modify e fun x => { x with visited := true }) p).visited
                    = true := by
                  rw [joint_mark, hjp] at hvj
                  simpa using hvj
                exact walkUp_pathInv fuel _ rest _
                  (hI.join (J.length % 65536) hve' hp0 hjp hvp) h' J' hrun
          · exact walkUp_pathInv fuel _ rest J hI.mark_drop h' J' hrun
        · exact walkUp_pathInv fuel _ (p :: rest) J (hI.mark_up hp0) h' J' hrun

/-- After seeding, the walk-up loop starts in a state in which the joints are
the listed objects and nothing is visited. -/
theorem markJoints_pathInv {α : Type} {h0 : Heap α} {objects : List Nat} (hq : Quiescent h0)
    (hlen : objects.length < 0xFFFF) :
    PathInv h0 objects (markJoints h0 objects 0) objects := by
  have hseed : Frame h0 (markJoints h0 objects 0) ∧
      JointsOK (markJoints h0 objects 0) objects ∧
      ∀ o, (markJoints h0 objects 0 o).visited = false :=
    markJoints_seed h0 objects [] h0 hlen (Frame.refl h0) (JointsOK.of_quiescent hq)
      (fun o => (hq o).2.1)
  obtain ⟨hf, hj, hv⟩ := hseed
  refine ⟨hf.parent, fun x hx => ?_, fun w hw => ⟨w, hw, 0, Ancestor.self⟩, fun x hx => ?_,
    fun w hw => Or.inl ((hj.mem w).2 (List.mem_of_mem_head? hw)),
    fun w hw => (hj.mem w).2 (List.mem_of_mem_tail hw), fun x hx => Or.inl ((hj.mem x).1 hx)⟩
  · rw [hv] at hx
    cases hx
  · rw [hv] at hx
    cases hx

/-- After the walk every object on the root path of a listed object is
visited. -/
theorem PostWalk.onPath_visited {α : Type} {h0 hW : Heap α} {s : Nat} {objects J : List Nat}
    (hP : PostWalk h0 s hW J) (hpre : ∃ extra, J = objects ++ extra) {x : Nat}
    (hx : OnPath h0 objects x) : (hW x).visited = true := by
  obtain ⟨o, ho, k, hk⟩ := hx
  obtain ⟨extra, hJ⟩ := hpre
  have hvo : (hW o).visited = true :=
    hP.allVis o ((hP.joints.mem o).2 (by rw [hJ]; exact List.mem_append_left _ ho))
  clear ho
  induction hk with
  | self => exact hvo
  | up hpar _ ih => exact ih (hP.up _ _ hvo hpar)

/-- C35: which objects become joints. For a call of `transformations` that
returns its result, started with clean scratch state on objects with finite
chains of parents: the walk-up loop has ended with an empty working set, and
in the state it has left an object carries `Joint` iff it is one of the listed
objects or it has two different children that lie on root paths of listed
objects; an object carries `Visited` iff it lies on the root path of a listed
object, so every object on those paths other than the joints is visited and
not a joint; and the joint list holds exactly the objects carrying `Joint`. -/
theorem joints_characterised {α μ : Type} (tr : Transformation α μ) (h0 : Heap α) (s : Nat)
    (objects : List Nat) (initial : α) (fuel : Nat) (h' : Heap α) (ts : List α)
    (hq : Quiescent h0) (hacyclic : ∀ o ∈ objects, ∃ n, Depth h0 o n)
    (hrun : transformations tr fuel h0 s objects initial = .done (h', ts)) :
    ∃ hW J, walkUp s fuel (markJoints h0 objects 0) objects 0 objects = .done (hW, J) ∧
      (∀ x, (hW x).joint = true ↔ x ∈ objects ∨
        ∃ c c', c ≠ c' ∧ (h0 c).parent = some x ∧ (h0 c').parent = some x ∧
          OnPath h0 objects c ∧ OnPath h0 objects c') ∧
      (∀ x, (hW x).visited = true ↔ OnPath h0 objects x) ∧
      (∀ x, OnPath h0 objects x → x ∉ objects →
        (¬ ∃ c c', c ≠ c' ∧ (h0 c).parent = some x ∧ (h0 c').parent = some x ∧
          OnPath h0 objects c ∧ OnPath h0 objects c') →
        (hW x).visited = true ∧ (hW x).joint = false) ∧
      (∀ x, x ∈ J ↔ (hW x).joint = true) := by
  have hlen : objects.length < 0xFFFF := by
    by_contra hc
    simp only [transformations, hc, not_false_eq_true, if_true] at hrun
    cases hrun
  have hwalk : ∃ hW J,
      walkUp s fuel (markJoints h0 objects 0) objects 0 objects = .done (hW, J) := by
    unfold transformations at hrun
    simp only [hlen, not_true_eq_false, if_false] at hrun
    split at hrun
    · cases hrun
    · split at hrun
      · cases hrun
      · split at hrun
        · cases hrun
        · cases hrun
        · cases hrun
        · rename_i hW J hw
          exact ⟨hW, J, hw⟩
  obtain ⟨hW, J, hw⟩ := hwalk
  have hWI := walkUp_inv fuel _ objects objects (markJoints_walkInv (s := s) hq hlen hacyclic)
    hW J hw
  have hP := PostWalk.of_walkInv hWI
  have hPI := walkUp_pathInv fuel _ objects objects (markJoints_pathInv hq hlen) hW J hw
  have hjoint : ∀ x, (hW x).joint = true ↔ x ∈ objects ∨
      ∃ c c', c ≠ c' ∧ (h0 c).parent = some x ∧ (h0 c').parent = some x ∧
        OnPath h0 objects c ∧ OnPath h0 objects c' := by
    intro x
    constructor
    · intro hx
      rcases hPI.jointWhy x hx with ho | ⟨c, c', hne, hc, hc', hv, hv'⟩
      · exact Or.inl ho
      · exact Or.inr ⟨c, c', hne, hc, hc', hPI.visPath c hv, hPI.visPath c' hv'⟩
    · rintro (ho | ⟨c, c', hne, hc, hc', hv, hv'⟩)
      · obtain ⟨extra, hJ⟩ := hWI.pre
        exact (hP.joints.mem x).2 (by rw [hJ]; exact List.mem_append_left _ ho)
      · cases hjx : (hW x).joint with
        | true => rfl
        | false =>
          exact absurd (hP.uniq x c c' hjx (hP.onPath_visited hWI.pre hv)
            (hP.onPath_visited hWI.pre hv') hc hc') hne
  refine ⟨hW, J, hw, hjoint, fun x => ⟨hPI.visPath x, hP.onPath_visited hWI.pre⟩,
    fun x hx hno hnc => ⟨hP.onPath_visited hWI.pre hx, ?_⟩,
    fun x => ((hP.joints.mem x).symm)⟩
  cases hjx : (hW x).joint with
  | false => rfl
  | true =>
    rcases (hjoint x).1 hjx with ho | hc
    · exact absurd ho hno
    · exact absurd hc hnc

/-- C35, on the heap with the scene `0`, its children `1` and `4` and the
children `2` and `3` of `1`, with the objects `[2, 3]`: the joints are `2`,
`3` and their parent `1`, where the two paths meet; the scene `0` is visited
and not a joint; `4` is not on a path. -/
theorem joints_characterised_witness :
    (∃ hW, walkUp 0 9 (markJoints fanHeap [2, 3] 0) [2, 3] 0 [2, 3] = .done (hW, [2, 3, 1]) ∧
      (hW 2).joint = true ∧ (hW 3).joint = true ∧ (hW 1).joint = true ∧
      (hW 0).joint = false ∧ (hW 0).visited = true ∧ (hW 4).visited = false) ∧
    (∃ hW J, walkUp 0 9 (markJoints fanHeap [2, 3] 0) [2, 3] 0 [2, 3] = .done (hW, J) ∧
      (∀ x, (hW x).joint = true ↔ x ∈ [2, 3] ∨
        ∃ c c', c ≠ c' ∧ (fanHeap c).parent = some x ∧ (fanHeap c').parent = some x ∧
          OnPath fanHeap [2, 3] c ∧ OnPath fanHeap [2, 3] c') ∧
      (∀ x, (hW x).visited = true ↔ OnPath fanHeap [2, 3] x) ∧
      (∀ x, OnPath fanHeap [2, 3] x → x ∉ [2, 3] →
        (¬ ∃ c c', c ≠ c' ∧ (fanHeap c).parent = some x ∧ (fanHeap c').parent = some x ∧
          OnPath fanHeap [2, 3] c ∧ OnPath fanHeap [2, 3] c') →
        (hW x).visited = true ∧ (hW x).joint = false) ∧
      (∀ x, x ∈ J ↔ (hW x).joint = true)) :=
  ⟨⟨_, rfl, rfl, rfl, rfl, rfl, rfl, rfl⟩,
    joints_characterised wordTransformation fanHeap 0 [2, 3] [] 9 _ [[1, 2], [1, 3]]
      fanHeap_quiescent (fun o _ => fanHeap_depth o) rfl⟩

end SceneGraph

namespace Trade

theorem AttributeType.ofTag_tag (t : AttributeType) : AttributeType.ofTag t.tag = some t := by
  cases t <;> rfl

theorem size_ne_string {t : AttributeType} {n : Nat}
    (h : materialAttributeTypeSize t.tag = .ok n) : t ≠ .String := by
  rintro rfl
  simp [materialAttributeTypeSize, AttributeType.ofTag, AttributeType.tag] at h

theorem tag_ne_string {t : AttributeType} (h : t ≠ .String) :
    t.tag ≠ AttributeType.String.tag := by
  cases t <;> simp [AttributeType.tag] at h ⊢

theorem tag_ne_zero (t : AttributeType) : t.tag ≠ 0 := by
  cases t <;> simp [AttributeType.tag]

/-- Accessors of a packed fixed-size record. -/
theorem packed_fixed (name value : List Nat) (tag : Nat)
    (hname : ∀ b ∈ name, b ≠ 0) (htag : tag ≠ AttributeType.String.tag) :
    (AttributeRecord.mk (pad64 (tag :: name ++ [0] ++ value))).type = tag ∧
    (AttributeRecord.mk (pad64 (tag :: name ++ [0] ++ value))).name = name ∧
    (AttributeRecord.mk (pad64 (tag :: name ++ [0] ++ value))).nameTerminator = some 0 ∧
    (AttributeRecord.mk (pad64 (tag :: name ++ [0] ++ value))).rawValue.take value.length
      = value := by
  have hn : (AttributeRecord.mk (pad64 (tag :: name ++ [0] ++ value))).name = name := by
    simp only [AttributeRecord.name, pad64, List.cons_append, List.drop_succ_cons, List.drop_zero,
      List.append_assoc]
    rw [List.takeWhile_append_of_pos (fun a ha => by simpa using hname a ha)]
    simp
  have ht : (AttributeRecord.mk (pad64 (tag :: name ++ [0] ++ value))).type = tag := by
    simp [AttributeRecord.type, pad64]
  refine ⟨ht, hn, ?_, ?_⟩
  · simp only [AttributeRecord.nameTerminator, hn]
    simp only [pad64, List.cons_append, List.append_assoc]
    rw [Nat.add_comm, List.getElem?_cons_succ, List.getElem?_append_right (Nat.le_refl _)]
    simp
  · simp only [AttributeRecord.rawValue, ht, htag, if_false, hn]
    have hsplit : pad64 (tag :: name ++ [0] ++ value) =
        (tag :: (name ++ [0])) ++ (value ++
          List.replicate (64 - (tag :: name ++ [0] ++ value).length) 0) := by
      simp [pad64]
    have hlen : name.length + 2 = (tag :: (name ++ [0])).length := by simp
    rw [hsplit, hlen, List.drop_left, List.take_left]

theorem prevFrom_cons_succ (b c : Nat) (rest : List Nat) (k : Nat) :
    prevFrom b (c :: rest) (k + 1) = prevFrom c rest k := by
  cases k with
  | zero => simp [prevFrom]
  | succ k => simp [prevFrom]

theorem validateLayers_ok_iff (n : Nat) : ∀ (L : List Nat) (i b : Nat),
    validateLayers n L i b = .ok () ↔
      ∀ k, k < L.length → prevFrom b L k ≤ L.getD k 0 ∧ L.getD k 0 ≤ n
  | [], i, b => by simp [validateLayers]
  | c :: rest, i, b => by
    rw [validateLayers]
    by_cases hc : b ≤ c ∧ c ≤ n
    · simp only [hc, and_self, if_true]
      rw [validateLayers_ok_iff n rest (i + 1) c]
      constructor
      · intro h k hk
        cases k with
        | zero => simpa [prevFrom] using hc
        | succ k =>
          rw [prevFrom_cons_succ]
          simpa using h k (by simpa using hk)
      · intro h k hk
        have := h (k + 1) (by simpa using hk)
        rw [prevFrom_cons_succ] at this
        simpa using this
    · simp only [hc, if_false]
      constructor
      · intro h; cases h
      · intro h
        exact (hc (by simpa [prevFrom] using h 0 (by simp))).elim

theorem validateLayers_error_iff (n : Nat) : ∀ (L : List Nat) (i b : Nat) (e : Error),
    validateLayers n L i b = .error e ↔
      ∃ k, k < L.length ∧ e = .InvalidLayerRange (i + k) (prevFrom b L k) (L.getD k 0) n ∧
        (L.getD k 0 < prevFrom b L k ∨ n < L.getD k 0) ∧
        ∀ j, j < k → prevFrom b L j ≤ L.getD j 0 ∧ L.getD j 0 ≤ n
  | [], i, b, e => by simp [validateLayers]
  | c :: rest, i, b, e => by
    rw [validateLayers]
    by_cases hc : b ≤ c ∧ c ≤ n
    · simp only [hc, and_self, if_true]
      rw [validateLayers_error_iff n rest (i + 1) c e]
      constructor
      · rintro ⟨k, hk, he, hbad, hgood⟩
        refine ⟨k + 1, by simpa using hk, ?_, ?_, ?_⟩
        · rw [prevFrom_cons_succ, he]
          simp [Nat.add_assoc, Nat.add_comm 1 k]
        · rw [prevFrom_cons_succ]
          simpa using hbad
        · intro j hj
          cases j with
          | zero => simpa [prevFrom] using hc
          | succ j =>
            rw [prevFrom_cons_succ]
            simpa using hgood j (by omega)
      · rintro ⟨k, hk, he, hbad, hgood⟩
        cases k with
        | zero =>
          exfalso
          simp only [prevFrom, if_true, List.getD_cons_zero] at hbad
          omega
        | succ k =>
          refine ⟨k, by simpa using hk, ?_, ?_, ?_⟩
          · rw [prevFrom_cons_succ] at he
            rw [he]
            simp [Nat.add_assoc, Nat.add_comm 1 k]
          · rw [prevFrom_cons_succ] at hbad
            simpa using hbad
          · intro j hj
            have := hgood (j + 1) (by omega)
            rw [prevFrom_cons_succ] at this
            simpa using this
    · simp only [hc, if_false, Except.error.injEq]
      constructor
      · intro he
        refine ⟨0, by simp, ?_, ?_, fun j hj => by omega⟩
        · simp [prevFrom, he]
        · simp only [prevFrom, if_true, List.getD_cons_zero]
          omega
      · rintro ⟨k, hk, he, hbad, hgood⟩
        cases k with
        | zero => simp [prevFrom, he]
        | succ k =>
          exfalso
          exact hc (by simpa [prevFrom] using hgood 0 (by omega))

theorem checkEmpty_ok_iff : ∀ (recs : List AttributeRecord) (i : Nat),
    checkEmpty recs i = .ok () ↔ ∀ r ∈ recs, r.type ≠ 0
  | [], i => by simp [checkEmpty]
  | r :: rest, i => by
    rw [checkEmpty]
    by_cases hr : r.type = 0
    · simp [hr]
    · simp [hr, checkEmpty_ok_iff rest (i + 1)]

theorem checkEmpty_error : ∀ (recs : List AttributeRecord) (i : Nat) (e : Error),
    checkEmpty recs i = .error e → ∃ k, e = .EmptyRecord k
  | [], i, e, h => by simp [checkEmpty] at h
  | r :: rest, i, e, h => by
    rw [checkEmpty] at h
    split at h
    · cases h; exact ⟨i, rfl⟩
    · exact checkEmpty_error rest (i + 1) e h

theorem checkOrder_error (owned : Bool) : ∀ (recs : List AttributeRecord) (e : Error),
    checkOrder owned recs = .error e →
      (∃ nm, e = .DuplicateAttribute nm) ∨ (∃ nm, e = .NotSorted nm)
  | [], e, h => by simp [checkOrder] at h
  | [_], e, h => by simp [checkOrder] at h
  | a :: b :: rest, e, h => by
    rw [checkOrder] at h
    split at h
    · cases h; exact Or.inl ⟨_, rfl⟩
    · split at h
      · cases h; exact Or.inr ⟨_, rfl⟩
      · exact checkOrder_error owned (b :: rest) e h

theorem checkLayers_error (owned : Bool) (recs : List AttributeRecord) :
    ∀ (L : List Nat) (b : Nat) (e : Error), checkLayers owned recs L b = .error e →
      (∃ nm, e = .DuplicateAttribute nm) ∨ (∃ nm, e = .NotSorted nm)
  | [], b, e, h => by simp [checkLayers] at h
  | c :: rest, b, e, h => by
    rw [checkLayers] at h
    split at h
    · rename_i err herr
      cases h
      exact checkOrder_error owned _ _ herr
    · exact checkLayers_error owned recs rest c e h

/-- What the two constructions do once the records are known to be non-empty:
they give the error of the offset validation if there is one, and otherwise
no `InvalidLayerRange`. -/
theorem construct_range_error (attrs : List AttributeRecord) (layers : Option (List Nat))
    (hne : ∀ r ∈ attrs, r.type ≠ 0) (i p c t : Nat) :
    (MaterialData.construct attrs layers = .error (.InvalidLayerRange i p c t) ↔
      validateLayers attrs.length (offsetsOf layers attrs.length) 0 0 =
        .error (.InvalidLayerRange i p c t)) ∧
    (MaterialData.constructNonOwned attrs layers = .error (.InvalidLayerRange i p c t) ↔
      validateLayers attrs.length (offsetsOf layers attrs.length) 0 0 =
        .error (.InvalidLayerRange i p c t)) := by
  have he := (checkEmpty_ok_iff attrs 0).2 hne
  unfold MaterialData.construct MaterialData.constructNonOwned
  simp only [he]
  cases hv : validateLayers attrs.length (offsetsOf layers attrs.length) 0 0 with
  | error e => simp
  | ok u =>
    cases u
    simp only
    constructor
    · constructor
      · intro h
        exfalso
        split at h
        · rename_i err herr
          cases h
          rcases checkLayers_error _ _ _ _ _ herr with ⟨nm, h1⟩ | ⟨nm, h1⟩ <;> cases h1
        · cases h
      · intro h; cases h
    · constructor
      · intro h
        exfalso
        split at h
        · rename_i err herr
          cases h
          rcases checkLayers_error _ _ _ _ _ herr with ⟨nm, h1⟩ | ⟨nm, h1⟩ <;> cases h1
        · cases h
      · intro h; cases h

theorem offsetsOf_some_prev (L : List Nat) (n : Nat) (hL : L ≠ []) :
    offsetsOf (some L) n = L := by
  cases L with
  | nil => exact (hL rfl).elim
  | cons e rest => rfl

theorem slice_getElem? (recs : List AttributeRecord) (b e j : Nat) :
    (slice recs b e)[j]? = if j < e - b then recs[b + j]? else none := by
  unfold slice
  rw [List.getElem?_take]
  split
  · rw [List.getElem?_drop]
  · rfl

theorem slice_length (recs : List AttributeRecord) (b e : Nat) (he : e ≤ recs.length) :
    (slice recs b e).length = e - b := by
  unfold slice
  rw [List.length_take, List.length_drop]
  omega

/-- The binary search stays inside `lo .. hi` and splits it at the first name
that is not below the one looked for. -/
theorem lowerBound_spec (recs : List AttributeRecord) (s : List Nat) :
    ∀ (fuel lo hi : Nat), lo ≤ hi → hi ≤ recs.length → hi - lo ≤ fuel →
      (∀ k k' r r', lo ≤ k → k < k' → k' < hi → recs[k]? = some r → recs[k']? = some r' →
        r.name < r'.name) →
      lo ≤ lowerBound recs s fuel lo hi ∧ lowerBound recs s fuel lo hi ≤ hi ∧
      (∀ k r, lo ≤ k → k < lowerBound recs s fuel lo hi → recs[k]? = some r → r.name < s) ∧
      (∀ k r, lowerBound recs s fuel lo hi ≤ k → k < hi → recs[k]? = some r → ¬ r.name < s)
  | 0, lo, hi, hle, hlen, hfuel, hsorted => by
    simp only [lowerBound]
    have : hi = lo := by omega
    subst this
    exact ⟨Nat.le_refl _, Nat.le_refl _, fun k r h1 h2 => by omega, fun k r h1 h2 => by omega⟩
  | fuel + 1, lo, hi, hle, hlen, hfuel, hsorted => by
    rw [lowerBound]
    by_cases hlt : lo < hi
    · simp only [hlt, if_true]
      have hmid1 : lo ≤ lo + (hi - lo) / 2 := Nat.le_add_right _ _
      have hmid2 : lo + (hi - lo) / 2 < hi := by
        have : (hi - lo) / 2 < hi - lo := Nat.div_lt_self (by omega) (by omega)
        omega
      have hget : recs[lo + (hi - lo) / 2]? = some recs[lo + (hi - lo) / 2] :=
        List.getElem?_eq_getElem (by omega)
      rw [hget]
      simp only
      by_cases hcmp : recs[lo + (hi - lo) / 2].name < s
      · simp only [hcmp, if_true]
        obtain ⟨h1, h2, h3, h4⟩ := lowerBound_spec recs s fuel (lo + (hi - lo) / 2 + 1) hi
          (by omega) hlen (by omega)
          (fun k k' r r' hk hkk hk' => hsorted k k' r r' (by omega) hkk hk')
        refine ⟨by omega, h2, ?_, h4⟩
        intro k r hk hki hr
        by_cases hkm : k < lo + (hi - lo) / 2
        · exact lt_trans (hsorted k _ r _ hk hkm hmid2 hr hget) hcmp
        · by_cases hkeq : k = lo + (hi - lo) / 2
          · subst hkeq
            rw [hget] at hr
            cases hr
            exact hcmp
          · exact h3 k r (by omega) hki hr
      · simp only [hcmp, if_false]
        obtain ⟨h1, h2, h3, h4⟩ := lowerBound_spec recs s fuel lo (lo + (hi - lo) / 2)
          hmid1 (by omega) (by omega)
          (fun k k' r r' hk hkk hk' => hsorted k k' r r' hk hkk (by omega))
        refine ⟨h1, by omega, h3, ?_⟩
        intro k r hik hkh hr
        by_cases hkm : k < lo + (hi - lo) / 2
        · exact h4 k r hik hkm hr
        · by_cases hkeq : k = lo + (hi - lo) / 2
          · subst hkeq
            rw [hget] at hr
            cases hr
            exact hcmp
          · intro hks
            exact hcmp (lt_trans (hsorted _ k _ r hmid1 (by omega) hkh hget hr) hks)
    · simp only [hlt, if_false]
      have : hi = lo := by omega
      subst this
      exact ⟨Nat.le_refl _, Nat.le_refl _, fun k r h1 h2 => by omega, fun k r h1 h2 => by omega⟩

/-- The binary search reads records at positions `lo .. hi-1` only. -/
theorem lowerBound_congr (recs recs' : List AttributeRecord) (s : List Nat) :
    ∀ (fuel lo hi : Nat), (∀ k, lo ≤ k → k < hi → recs[k]? = recs'[k]?) →
      lowerBound recs s fuel lo hi = lowerBound recs' s fuel lo hi
  | 0, lo, hi, _ => rfl
  | fuel + 1, lo, hi, h => by
    rw [lowerBound, lowerBound]
    by_cases hlt : lo < hi
    · simp only [hlt, if_true]
      have hmid2 : lo + (hi - lo) / 2 < hi := by
        have : (hi - lo) / 2 < hi - lo := Nat.div_lt_self (by omega) (by omega)
        omega
      rw [← h _ (Nat.le_add_right _ _) hmid2]
      cases recs[lo + (hi - lo) / 2]? with
      | none => rfl
      | some r =>
        simp only
        rw [lowerBound_congr recs recs' s fuel (lo + (hi - lo) / 2 + 1) hi
            (fun k hk hk' => h k (by omega) hk'),
          lowerBound_congr recs recs' s fuel lo (lo + (hi - lo) / 2)
            (fun k hk hk' => h k hk (by omega))]
    · simp only [hlt, if_false]

theorem le_lowerBound (recs : List AttributeRecord) (s : List Nat) :
    ∀ (fuel lo hi : Nat), lo ≤ hi → lo ≤ lowerBound recs s fuel lo hi := by
  intro fuel
  induction fuel with
  | zero => intro lo hi _; simp [lowerBound]
  | succ fuel ih =>
    intro lo hi hle
    rw [lowerBound]
    split
    · dsimp only
      have hmid2 : lo + (hi - lo) / 2 < hi := by
        have : (hi - lo) / 2 < hi - lo := Nat.div_lt_self (by omega) (by omega)
        omega
      split
      · exact hle
      · split
        · have := ih (lo + (hi - lo) / 2 + 1) hi (by omega)
          omega
        · exact ih lo (lo + (hi - lo) / 2) (Nat.le_add_right _ _)
    · exact Nat.le_refl _

theorem MaterialData.WF.bounds {m : MaterialData} (hwf : m.WF) {l : Nat}
    (hl : l < m.layerCount) :
    m.layerBegin l ≤ m.layerEnd l ∧ m.layerEnd l ≤ m.attributeData.length :=
  hwf.offsets l hl

theorem MaterialData.WF.lt_of_lt {m : MaterialData} (hwf : m.WF) {l : Nat}
    (hl : l < m.layerCount) {k k' : Nat} {r r' : AttributeRecord}
    (hk : m.layerBegin l ≤ k) (hkk : k < k') (hk' : k' < m.layerEnd l)
    (hr : m.attributeData[k]? = some r) (hr' : m.attributeData[k']? = some r') :
    r.name < r'.name := by
  have hs := hwf.sorted l hl
  have hb := hwf.bounds hl
  rw [List.Sorted, List.pairwise_iff_getElem] at hs
  have hlen : ((m.layer l).map AttributeRecord.name).length = m.layerEnd l - m.layerBegin l := by
    rw [List.length_map]
    exact slice_length _ _ _ hb.2
  have h1 : k - m.layerBegin l < ((m.layer l).map AttributeRecord.name).length := by omega
  have h2 : k' - m.layerBegin l < ((m.layer l).map AttributeRecord.name).length := by omega
  have := hs (k - m.layerBegin l) (k' - m.layerBegin l) h1 h2 (by omega)
  have e1 : ((m.layer l).map AttributeRecord.name)[k - m.layerBegin l]? = some r.name := by
    rw [List.getElem?_map, MaterialData.layer, slice_getElem?]
    rw [if_pos (by omega)]
    rw [show m.layerBegin l + (k - m.layerBegin l) = k by omega, hr]
    rfl
  have e2 : ((m.layer l).map AttributeRecord.name)[k' - m.layerBegin l]? = some r'.name := by
    rw [List.getElem?_map, MaterialData.layer, slice_getElem?]
    rw [if_pos (by omega)]
    rw [show m.layerBegin l + (k' - m.layerBegin l) = k' by omega, hr']
    rfl
  rw [List.getElem?_eq_getElem h1, Option.some.injEq] at e1
  rw [List.getElem?_eq_getElem h2, Option.some.injEq] at e2
  rw [e1, e2] at this
  exact this

/-- A record of a layer is found under its name, at its index. -/
theorem MaterialData.find_of_mem {m : MaterialData} (hwf : m.WF) {l : Nat}
    (hl : l < m.layerCount) {j : Nat} {r : AttributeRecord}
    (hj : j < m.attributeCount l) (hr : m.attributeData[m.layerBegin l + j]? = some r) :
    m.find l r.name = some (j, r) := by
  have hb := hwf.bounds hl
  unfold MaterialData.attributeCount at hj
  obtain ⟨h1, h2, h3, h4⟩ := lowerBound_spec m.attributeData r.name
    (m.layerEnd l - m.layerBegin l) (m.layerBegin l) (m.layerEnd l) hb.1 hb.2 (Nat.le_refl _)
    (fun k k' r r' hk hkk hk' => hwf.lt_of_lt hl hk hkk hk')
  unfold MaterialData.find
  simp only [hl, if_true]
  have hik : lowerBound m.attributeData r.name (m.layerEnd l - m.layerBegin l) (m.layerBegin l)
      (m.layerEnd l) ≤ m.layerBegin l + j := by
    by_contra hcon
    exact lt_irrefl _ (h3 (m.layerBegin l + j) r (by omega) (by omega) hr)
  have hie : lowerBound m.attributeData r.name (m.layerEnd l - m.layerBegin l) (m.layerBegin l)
      (m.layerEnd l) < m.layerEnd l := by omega
  have hget := List.getElem?_eq_getElem (l := m.attributeData)
    (n := lowerBound m.attributeData r.name (m.layerEnd l - m.layerBegin l) (m.layerBegin l)
      (m.layerEnd l)) (by omega)
  have heq : lowerBound m.attributeData r.name (m.layerEnd l - m.layerBegin l) (m.layerBegin l)
      (m.layerEnd l) = m.layerBegin l + j := by
    by_contra hcon
    have hlt := hwf.lt_of_lt hl h1 (Nat.lt_of_le_of_ne hik hcon) (by omega) hget hr
    exact h4 _ _ (Nat.le_refl _) hie hget hlt
  rw [if_pos hie, heq, hr]
  simp

/-- What is found under a name is a record of the layer with that name. -/
theorem MaterialData.find_some {m : MaterialData} {l : Nat} {s : List Nat} {j : Nat}
    {r : AttributeRecord} (hf : m.find l s = some (j, r)) :
    l < m.layerCount ∧ (m.layerBegin l ≤ m.layerEnd l → j < m.attributeCount l ∧
      m.attributeData[m.layerBegin l + j]? = some r) ∧ r.name = s := by
  unfold MaterialData.find at hf
  by_cases hl : l < m.layerCount
  · simp only [hl, if_true] at hf
    split at hf
    · rename_i hie
      split at hf
      · rename_i r' hr'
        split at hf
        · rename_i hname
          simp only [Option.some.injEq, Prod.mk.injEq] at hf
          obtain ⟨rfl, rfl⟩ := hf
          refine ⟨hl, fun hbe => ?_, hname⟩
          have hlo : m.layerBegin l ≤ lowerBound m.attributeData s
              (m.layerEnd l - m.layerBegin l) (m.layerBegin l) (m.layerEnd l) :=
            le_lowerBound _ _ _ _ _ hbe
          unfold MaterialData.attributeCount
          refine ⟨by omega, ?_⟩
          rw [show m.layerBegin l + (lowerBound m.attributeData s
            (m.layerEnd l - m.layerBegin l) (m.layerBegin l) (m.layerEnd l) - m.layerBegin l) =
            lowerBound m.attributeData s (m.layerEnd l - m.layerBegin l) (m.layerBegin l)
              (m.layerEnd l) by omega]
          exact hr'
        · cases hf
      · cases hf
    · cases hf
  · simp [hl] at hf

theorem sorted_names_insertionSort (recs : List AttributeRecord) :
    ((recs.insertionSort nameLE).map AttributeRecord.name).Sorted (· ≤ ·) := by
  have h := List.sorted_insertionSort nameLE recs
  rw [List.Sorted, List.pairwise_map]
  exact h

theorem checkOrder_congr (owned : Bool) : ∀ (recs recs' : List AttributeRecord),
    recs.map AttributeRecord.name = recs'.map AttributeRecord.name →
      checkOrder owned recs = checkOrder owned recs'
  | [], [], _ => rfl
  | [], _ :: _, h => by simp at h
  | _ :: _, [], h => by simp at h
  | [a], [a'], _ => by simp [checkOrder]
  | [a], _ :: _ :: _, h => by simp at h
  | _ :: _ :: _, [a'], h => by simp at h
  | a :: b :: rest, a' :: b' :: rest', h => by
    simp only [List.map_cons, List.cons.injEq] at h
    obtain ⟨ha, hb, hrest⟩ := h
    rw [checkOrder, checkOrder, ha, hb]
    rw [checkOrder_congr owned (b :: rest) (b' :: rest') (by simp [hb, hrest])]

/-- The order check passes exactly on strictly ascending names; for records
that come out of the sort this is the check for duplicates. -/
theorem checkOrder_ok_iff (owned : Bool) : ∀ (recs : List AttributeRecord),
    (owned = true → (recs.map AttributeRecord.name).Sorted (· ≤ ·)) →
    (checkOrder owned recs = .ok () ↔ (recs.map AttributeRecord.name).Sorted (· < ·))
  | [], _ => by simp [checkOrder]
  | [a], _ => by simp [checkOrder]
  | a :: b :: rest, hs => by
    have hs' : owned = true → ((b :: rest).map AttributeRecord.name).Sorted (· ≤ ·) := by
      intro ho
      have := hs ho
      simp only [List.map_cons, List.sorted_cons] at this ⊢
      exact this.2
    have ih := checkOrder_ok_iff owned (b :: rest) hs'
    rw [checkOrder]
    by_cases heq : a.name = b.name
    · simp only [heq, if_true]
      constructor
      · intro h; cases h
      · intro h
        simp only [List.map_cons, List.sorted_cons, List.mem_cons, forall_eq_or_imp] at h
        exact (lt_irrefl _ (heq ▸ h.1.1)).elim
    · simp only [heq, if_false]
      by_cases hns : ¬ owned = true ∧ b.name < a.name
      · simp only [hns, and_self, if_true]
        constructor
        · intro h; cases h
        · intro h
          simp only [List.map_cons, List.sorted_cons, List.mem_cons, forall_eq_or_imp] at h
          exact (lt_asymm h.1.1 hns.2).elim
      · rw [if_neg hns, ih]
        have hab : a.name < b.name := by
          by_cases ho : owned = true
          · have := hs ho
            simp only [List.map_cons, List.sorted_cons, List.mem_cons, forall_eq_or_imp] at this
            exact lt_of_le_of_ne this.1.1 heq
          · have : ¬ b.name < a.name := fun h => hns ⟨ho, h⟩
            rcases lt_trichotomy a.name b.name with h | h | h
            · exact h
            · exact (heq h).elim
            · exact (this h).elim
        constructor
        · intro h
          simp only [List.map_cons, List.sorted_cons, List.mem_cons, forall_eq_or_imp] at h ⊢
          exact ⟨⟨hab, fun x hx => lt_trans hab (h.1 x hx)⟩, h⟩
        · intro h
          simp only [List.map_cons, List.sorted_cons] at h ⊢
          exact h.2

/-- The name reported as duplicate stands on two neighbouring records. -/
theorem checkOrder_duplicate (owned : Bool) : ∀ (recs : List AttributeRecord) (nm : List Nat),
    checkOrder owned recs = .error (.DuplicateAttribute nm) →
      List.Duplicate nm (recs.map AttributeRecord.name)
  | [], nm, h => by simp [checkOrder] at h
  | [_], nm, h => by simp [checkOrder] at h
  | a :: b :: rest, nm, h => by
    rw [checkOrder] at h
    split at h
    · rename_i heq
      simp only [Except.error.injEq, Error.DuplicateAttribute.injEq] at h
      subst h
      simp only [List.map_cons, heq]
      exact List.Mem.duplicate_cons_self (List.mem_cons_self _ _)
    · split at h
      · cases h
      · exact (checkOrder_duplicate owned (b :: rest) nm h).duplicate_cons _

theorem checkOrder_owned_error : ∀ (recs : List AttributeRecord) (e : Error),
    checkOrder true recs = .error e → ∃ nm, e = .DuplicateAttribute nm
  | [], e, h => by simp [checkOrder] at h
  | [_], e, h => by simp [checkOrder] at h
  | a :: b :: rest, e, h => by
    rw [checkOrder] at h
    split at h
    · cases h; exact ⟨_, rfl⟩
    · simp only [not_true_eq_false, false_and, if_false] at h
      exact checkOrder_owned_error (b :: rest) e h

theorem checkLayers_ok_iff (owned : Bool) (recs : List AttributeRecord) :
    ∀ (L : List Nat) (b : Nat), checkLayers owned recs L b = .ok () ↔
      ∀ k, k < L.length →
        checkOrder owned (slice recs (prevFrom b L k) (L.getD k 0)) = .ok ()
  | [], b => by simp [checkLayers]
  | c :: rest, b => by
    rw [checkLayers]
    cases hc : checkOrder owned (slice recs b c) with
    | error e =>
      simp only
      constructor
      · intro h; cases h
      · intro h
        have := h 0 (by simp)
        simp only [prevFrom, if_true, List.getD_cons_zero] at this
        rw [hc] at this
        cases this
    | ok u =>
      cases u
      simp only
      rw [checkLayers_ok_iff owned recs rest c]
      constructor
      · intro h k hk
        cases k with
        | zero => simpa [prevFrom] using hc
        | succ k =>
          rw [prevFrom_cons_succ]
          simpa using h k (by simpa using hk)
      · intro h k hk
        have := h (k + 1) (by simpa using hk)
        rw [prevFrom_cons_succ] at this
        simpa using this

theorem checkLayers_error_layer (owned : Bool) (recs : List AttributeRecord) :
    ∀ (L : List Nat) (b : Nat) (e : Error), checkLayers owned recs L b = .error e →
      ∃ k, k < L.length ∧
        checkOrder owned (slice recs (prevFrom b L k) (L.getD k 0)) = .error e
  | [], b, e, h => by simp [checkLayers] at h
  | c :: rest, b, e, h => by
    rw [checkLayers] at h
    split at h
    · rename_i err herr
      cases h
      exact ⟨0, by simp, by simpa [prevFrom] using herr⟩
    · obtain ⟨k, hk, hke⟩ := checkLayers_error_layer owned recs rest c e h
      refine ⟨k + 1, by simpa using hk, ?_⟩
      rw [prevFrom_cons_succ]
      simpa using hke

theorem checkLayers_congr (owned : Bool) (recs recs' : List AttributeRecord) :
    ∀ (L : List Nat) (b : Nat),
      (∀ k, k < L.length →
        checkOrder owned (slice recs (prevFrom b L k) (L.getD k 0)) =
        checkOrder owned (slice recs' (prevFrom b L k) (L.getD k 0))) →
      checkLayers owned recs L b = checkLayers owned recs' L b
  | [], b, _ => rfl
  | c :: rest, b, h => by
    rw [checkLayers, checkLayers]
    have h0 := h 0 (by simp)
    simp only [prevFrom, if_true, List.getD_cons_zero] at h0
    rw [h0]
    rw [checkLayers_congr owned recs recs' rest c]
    intro k hk
    have := h (k + 1) (by simpa using hk)
    rw [prevFrom_cons_succ] at this
    simpa using this

/-- Sorting layer by layer keeps the number of records. -/
theorem sortLayers_length (recs : List AttributeRecord) :
    ∀ (L : List Nat) (b : Nat) (pre : List AttributeRecord), pre.length = b →
      b ≤ recs.length →
      (∀ k, k < L.length → prevFrom b L k ≤ L.getD k 0 ∧ L.getD k 0 ≤ recs.length) →
      (pre ++ sortLayers recs L b).length = recs.length
  | [], b, pre, hpre, hb, _ => by
    simp only [sortLayers, List.length_append, List.length_drop, hpre]
    omega
  | c :: rest, b, pre, hpre, hb, hv => by
    have h0 := hv 0 (by simp)
    simp only [prevFrom, if_true, List.getD_cons_zero] at h0
    rw [sortLayers, ← List.append_assoc]
    refine sortLayers_length recs rest c _ ?_ h0.2 ?_
    · rw [List.length_append, List.length_insertionSort, slice_length _ _ _ h0.2, hpre]
      omega
    · intro k hk
      have := hv (k + 1) (by simpa using hk)
      rw [prevFrom_cons_succ] at this
      simpa using this

/-- After sorting layer by layer, each layer holds its records in sorted
order. -/
theorem sortLayers_slice (recs : List AttributeRecord) :
    ∀ (L : List Nat) (b : Nat) (pre : List AttributeRecord), pre.length = b →
      (∀ k, k < L.length → prevFrom b L k ≤ L.getD k 0 ∧ L.getD k 0 ≤ recs.length) →
      ∀ k, k < L.length →
        slice (pre ++ sortLayers recs L b) (prevFrom b L k) (L.getD k 0) =
          (slice recs (prevFrom b L k) (L.getD k 0)).insertionSort nameLE
  | [], b, pre, _, _, k, hk => by simp at hk
  | c :: rest, b, pre, hpre, hv, k, hk => by
    have h0 := hv 0 (by simp)
    simp only [prevFrom, if_true, List.getD_cons_zero] at h0
    have hlenS : ((slice recs b c).insertionSort nameLE).length = c - b := by
      rw [List.length_insertionSort, slice_length _ _ _ h0.2]
    rw [sortLayers]
    cases k with
    | zero =>
      simp only [prevFrom, if_true, List.getD_cons_zero]
      have hsl : ∀ xs : List AttributeRecord, slice xs b c = (xs.drop b).take (c - b) :=
        fun _ => rfl
      rw [hsl (pre ++ _), List.drop_left' hpre, List.take_left' hlenS]
    | succ k =>
      rw [prevFrom_cons_succ, ← List.append_assoc]
      have := sortLayers_slice recs rest c (pre ++ (slice recs b c).insertionSort nameLE)
        (by rw [List.length_append, hlenS, hpre]; omega)
        (fun j hj => by
          have := hv (j + 1) (by simpa using hj)
          rw [prevFrom_cons_succ] at this
          simpa using this)
        k (by simpa using hk)
      simpa using this

/-- The records of layer `l` of the input of a construction. -/
theorem input_layer (attrs : List AttributeRecord) (layers : Option (List Nat)) (l : Nat) :
    (MaterialData.mk attrs layers).layer l =
      slice attrs (prevFrom 0 (offsetsOf layers attrs.length) l)
        ((offsetsOf layers attrs.length).getD l 0) := rfl

theorem offsetsOf_length_eq (layers : Option (List Nat)) {n n' : Nat} (h : n = n') :
    offsetsOf layers n = offsetsOf layers n' := by rw [h]

/-- The store built from sorted layers: its offset table is the one in use and
each of its layers is the sorted input layer. -/
theorem sorted_store (attrs : List AttributeRecord) (layers : Option (List Nat))
    (hvalid : validateLayers attrs.length (offsetsOf layers attrs.length) 0 0 = .ok ()) :
    (MaterialData.mk (sortLayers attrs (offsetsOf layers attrs.length) 0) layers).offsets =
      offsetsOf layers attrs.length ∧
    (sortLayers attrs (offsetsOf layers attrs.length) 0).length = attrs.length ∧
    ∀ l, l < (offsetsOf layers attrs.length).length →
      (MaterialData.mk (sortLayers attrs (offsetsOf layers attrs.length) 0) layers).layer l =
        ((MaterialData.mk attrs layers).layer l).insertionSort nameLE := by
  have hv := (validateLayers_ok_iff _ _ _ _).1 hvalid
  have hlen : (sortLayers attrs (offsetsOf layers attrs.length) 0).length = attrs.length := by
    simpa using sortLayers_length attrs (offsetsOf layers attrs.length) 0 [] rfl
      (Nat.zero_le _) hv
  have hoff : (MaterialData.mk (sortLayers attrs (offsetsOf layers attrs.length) 0)
      layers).offsets = offsetsOf layers attrs.length := by
    simp only [MaterialData.offsets, hlen]
  refine ⟨hoff, hlen, fun l hl => ?_⟩
  have h1 := sortLayers_slice attrs (offsetsOf layers attrs.length) 0 [] rfl hv l hl
  rw [List.nil_append] at h1
  have h2 : (MaterialData.mk (sortLayers attrs (offsetsOf layers attrs.length) 0) layers).layer l
      = slice (sortLayers attrs (offsetsOf layers attrs.length) 0)
        (prevFrom 0 (MaterialData.mk (sortLayers attrs (offsetsOf layers attrs.length) 0)
          layers).offsets l)
        ((MaterialData.mk (sortLayers attrs (offsetsOf layers attrs.length) 0)
          layers).offsets.getD l 0) := rfl
  rw [h2, hoff, h1, input_layer]

/-- Owned construction, once the records are non-empty and the offsets valid:
it succeeds with the sorted layers, or reports a duplicate found in one of
the sorted layers. -/
theorem construct_eq (attrs : List AttributeRecord) (layers : Option (List Nat))
    (hne : ∀ r ∈ attrs, r.type ≠ 0)
    (hvalid : validateLayers attrs.length (offsetsOf layers attrs.length) 0 0 = .ok ()) :
    MaterialData.construct attrs layers =
      match checkLayers true (sortLayers attrs (offsetsOf layers attrs.length) 0)
          (offsetsOf layers attrs.length) 0 with
      | .error e => .error e
      | .ok () => .ok ⟨sortLayers attrs (offsetsOf layers attrs.length) 0, layers⟩ := by
  unfold MaterialData.construct
  rw [(checkEmpty_ok_iff attrs 0).2 hne, hvalid]
  try rfl

/-- The order check of a sorted layer passes exactly when the names of the
input layer are distinct. -/
theorem checkOrder_sorted_iff (recs : List AttributeRecord) :
    checkOrder true (recs.insertionSort nameLE) = .ok () ↔
      (recs.map AttributeRecord.name).Nodup := by
  rw [checkOrder_ok_iff true _ (fun _ => sorted_names_insertionSort recs)]
  have hperm : ((recs.insertionSort nameLE).map AttributeRecord.name).Perm
      (recs.map AttributeRecord.name) := (List.perm_insertionSort nameLE recs).map _
  constructor
  · intro h
    exact hperm.nodup_iff.1 h.nodup
  · intro h
    exact (sorted_names_insertionSort recs).lt_of_le (hperm.nodup_iff.2 h)

theorem mem_slice_index {recs : List AttributeRecord} {b e : Nat} {r : AttributeRecord}
    (hr : r ∈ slice recs b e) : ∃ j, j < e - b ∧ recs[b + j]? = some r := by
  obtain ⟨j, hj⟩ := List.mem_iff_getElem?.1 hr
  rw [slice_getElem?] at hj
  split at hj
  · exact ⟨j, by assumption, hj⟩
  · cases hj

/-- A store whose layers are the sorted input layers, with distinct names in
each, satisfies the store invariant. -/
theorem sorted_store_wf (attrs : List AttributeRecord) (layers : Option (List Nat))
    (hvalid : validateLayers attrs.length (offsetsOf layers attrs.length) 0 0 = .ok ())
    (hnodup : ∀ l, l < (offsetsOf layers attrs.length).length →
      (((MaterialData.mk attrs layers).layer l).map AttributeRecord.name).Nodup) :
    (MaterialData.mk (sortLayers attrs (offsetsOf layers attrs.length) 0) layers).WF := by
  obtain ⟨hoff, hlen, hlayer⟩ := sorted_store attrs layers hvalid
  have hv := (validateLayers_ok_iff _ _ _ _).1 hvalid
  constructor
  · intro k hk
    rw [hoff] at hk ⊢
    simp only [hlen]
    exact hv k hk
  · intro l hl
    rw [MaterialData.layerCount, hoff] at hl
    rw [hlayer l hl]
    have hperm : ((((MaterialData.mk attrs layers).layer l).insertionSort nameLE).map
        AttributeRecord.name).Perm
        (((MaterialData.mk attrs layers).layer l).map AttributeRecord.name) :=
      (List.perm_insertionSort nameLE _).map _
    exact (sorted_names_insertionSort _).lt_of_le (hperm.nodup_iff.2 (hnodup l hl))

/-- C10: record round trip for fixed-size values. For a fixed-size type `t`, a
value `v` of that type (its `size_of t` bytes), and a name without a 0 byte
that fits next to it, the typed and the type-erased constructor build the same
record; its `type()` is the tag of `t`, its `name()` is the given name and is
followed by a 0 byte, and `value<T>()` gives `v` back. -/
theorem record_round_trip (name : List Nat) (t : AttributeType) (v memoryBehind : List Nat)
    (hname : ∀ b ∈ name, b ≠ 0)
    (hsize : materialAttributeTypeSize t.tag = .ok v.length)
    (hfit : name.length + v.length + 2 ≤ 64) :
    ∃ r, AttributeRecord.ofValue name t v = .ok r ∧
      AttributeRecord.ofRaw name t.tag (v ++ memoryBehind) = .ok r ∧
      r.type = t.tag ∧ AttributeType.ofTag r.type = some t ∧
      r.name = name ∧ r.nameTerminator = some 0 ∧ r.value t = .ok v := by
  have hts := size_ne_string hsize
  obtain ⟨h1, h2, h3, h4⟩ := packed_fixed name v t.tag hname (tag_ne_string hts)
  refine ⟨⟨pad64 (t.tag :: name ++ [0] ++ v)⟩, ?_, ?_, h1, ?_, h2, h3, ?_⟩
  · simp [AttributeRecord.ofValue, hsize, hfit]
  · simp [AttributeRecord.ofRaw, hsize, hfit]
  · rw [h1]
    exact AttributeType.ofTag_tag t
  · simp only [AttributeRecord.value, hts, h1, ne_eq, not_true_eq_false, or_self, if_false,
      hsize, h4]

/-- C10, the record `("colorTransform", Matrix3 scaling (2, 0.3))`. -/
theorem record_round_trip_witness :
    ∃ r, AttributeRecord.ofValue (ascii "colorTransform") .Matrix3x3 scaling2x03 = .ok r ∧
      AttributeRecord.ofRaw (ascii "colorTransform") AttributeType.Matrix3x3.tag
        (scaling2x03 ++ [7, 7]) = .ok r ∧
      r.type = AttributeType.Matrix3x3.tag ∧ AttributeType.ofTag r.type = some .Matrix3x3 ∧
      r.name = ascii "colorTransform" ∧ r.nameTerminator = some 0 ∧
      r.value .Matrix3x3 = .ok scaling2x03 :=
  record_round_trip (ascii "colorTransform") .Matrix3x3 scaling2x03 [7, 7]
    (by decide) (by rfl) (by decide)

/-- C8: layer offset validation. With non-empty records, owned and non-owned
construction over `n` records with the offset table `L` fail with
`InvalidLayerRange i prev curr total` exactly when `i` is the first layer with
`L[i] < L[i-1]` (taking `L[-1] = 0`) or `L[i] > n`, `prev = L[i-1]`,
`curr = L[i]` and `total = n`; so they fail with `InvalidLayerRange` iff such
a layer exists. -/
theorem layer_offsets_validated (attrs : List AttributeRecord) (L : List Nat)
    (hne : ∀ r ∈ attrs, r.type ≠ 0) :
    (∀ i p c t, (MaterialData.construct attrs (some L) = .error (.InvalidLayerRange i p c t) ↔
        (i < L.length ∧ p = prevFrom 0 L i ∧ c = L.getD i 0 ∧ t = attrs.length ∧
          (c < p ∨ t < c) ∧
          ∀ j, j < i → prevFrom 0 L j ≤ L.getD j 0 ∧ L.getD j 0 ≤ attrs.length)) ∧
      (MaterialData.constructNonOwned attrs (some L) = .error (.InvalidLayerRange i p c t) ↔
        (i < L.length ∧ p = prevFrom 0 L i ∧ c = L.getD i 0 ∧ t = attrs.length ∧
          (c < p ∨ t < c) ∧
          ∀ j, j < i → prevFrom 0 L j ≤ L.getD j 0 ∧ L.getD j 0 ≤ attrs.length))) ∧
    ((∃ i p c t, MaterialData.construct attrs (some L) = .error (.InvalidLayerRange i p c t)) ↔
      ∃ i, i < L.length ∧ (L.getD i 0 < prevFrom 0 L i ∨ attrs.length < L.getD i 0)) ∧
    ((∃ i p c t, MaterialData.constructNonOwned attrs (some L) =
        .error (.InvalidLayerRange i p c t)) ↔
      ∃ i, i < L.length ∧ (L.getD i 0 < prevFrom 0 L i ∨ attrs.length < L.getD i 0)) := by
  have key : ∀ i p c t,
      validateLayers attrs.length (offsetsOf (some L) attrs.length) 0 0 =
        .error (.InvalidLayerRange i p c t) ↔
      (i < L.length ∧ p = prevFrom 0 L i ∧ c = L.getD i 0 ∧ t = attrs.length ∧
        (c < p ∨ t < c) ∧
        ∀ j, j < i → prevFrom 0 L j ≤ L.getD j 0 ∧ L.getD j 0 ≤ attrs.length) := by
    intro i p c t
    cases L with
    | nil =>
      have : offsetsOf (some ([] : List Nat)) attrs.length = [attrs.length] := rfl
      rw [this]
      simp [validateLayers]
    | cons e rest =>
      rw [offsetsOf_some_prev (e :: rest) _ (by simp), validateLayers_error_iff]
      constructor
      · rintro ⟨k, hk, he, hbad, hgood⟩
        simp only [Nat.zero_add, Except.error.injEq, Error.InvalidLayerRange.injEq] at he
        obtain ⟨rfl, rfl, rfl, rfl⟩ := he
        exact ⟨hk, rfl, rfl, rfl, hbad, hgood⟩
      · rintro ⟨hi, rfl, rfl, rfl, hbad, hgood⟩
        exact ⟨i, hi, by simp, hbad, hgood⟩
  have hex : (∃ i, i < L.length ∧
        (L.getD i 0 < prevFrom 0 L i ∨ attrs.length < L.getD i 0)) →
      ∃ i p c t, i < L.length ∧ p = prevFrom 0 L i ∧ c = L.getD i 0 ∧ t = attrs.length ∧
        (c < p ∨ t < c) ∧
        ∀ j, j < i → prevFrom 0 L j ≤ L.getD j 0 ∧ L.getD j 0 ≤ attrs.length := by
    intro h
    classical
    have hmin := Nat.find_spec h
    refine ⟨Nat.find h, _, _, _, hmin.1, rfl, rfl, rfl, hmin.2, ?_⟩
    intro j hj
    have hnot := Nat.find_min h hj
    have hjl : j < L.length := Nat.lt_trans hj hmin.1
    constructor
    · by_contra hc
      exact hnot ⟨hjl, Or.inl (by omega)⟩
    · by_contra hc
      exact hnot ⟨hjl, Or.inr (by omega)⟩
  refine ⟨fun i p c t => ⟨?_, ?_⟩, ?_, ?_⟩
  · rw [(construct_range_error attrs (some L) hne i p c t).1]
    exact key i p c t
  · rw [(construct_range_error attrs (some L) hne i p c t).2]
    exact key i p c t
  · constructor
    · rintro ⟨i, p, c, t, h⟩
      rw [(construct_range_error attrs (some L) hne i p c t).1, key] at h
      obtain ⟨hi, rfl, rfl, rfl, hbad, _⟩ := h
      exact ⟨i, hi, hbad⟩
    · intro h
      obtain ⟨i, p, c, t, h'⟩ := hex h
      exact ⟨i, p, c, t, by
        rw [(construct_range_error attrs (some L) hne i p c t).1, key]; exact h'⟩
  · constructor
    · rintro ⟨i, p, c, t, h⟩
      rw [(construct_range_error attrs (some L) hne i p c t).2, key] at h
      obtain ⟨hi, rfl, rfl, rfl, hbad, _⟩ := h
      exact ⟨i, hi, hbad⟩
    · intro h
      obtain ⟨i, p, c, t, h'⟩ := hex h
      exact ⟨i, p, c, t, by
        rw [(construct_range_error attrs (some L) hne i p c t).2, key]; exact h'⟩

/-- C8, the tables `[2,5,4,5]` and `[2,6]` over five records: range `(5, 4)`
for layer 2 and range `(2, 6)` for layer 1. -/
theorem layer_offsets_validated_witness :
    (∀ r ∈ layersInput, r.type ≠ 0) ∧
    MaterialData.construct layersInput (some [2, 5, 4, 5]) =
      .error (.InvalidLayerRange 2 5 4 5) ∧
    MaterialData.constructNonOwned layersInput (some [2, 5, 4, 5]) =
      .error (.InvalidLayerRange 2 5 4 5) ∧
    MaterialData.construct layersInput (some [2, 6]) = .error (.InvalidLayerRange 1 2 6 5) :=
  ⟨by decide,
    (((layer_offsets_validated layersInput [2, 5, 4, 5] (by decide)).1 2 5 4 5).1).2
      (by decide),
    (((layer_offsets_validated layersInput [2, 5, 4, 5] (by decide)).1 2 5 4 5).2).2
      (by decide),
    (((layer_offsets_validated layersInput [2, 6] (by decide)).1 1 2 6 5).1).2 (by decide)⟩

theorem recordAt_eq {m : MaterialData} (hwf : m.WF) {l i : Nat} (hl : l < m.layerCount)
    (hi : i < m.attributeCount l) :
    ∃ r, m.attributeData[m.layerBegin l + i]? = some r ∧ m.recordAt l i = .ok r := by
  have hb := hwf.bounds hl
  have hlt : m.layerBegin l + i < m.attributeData.length := by
    unfold MaterialData.attributeCount at hi
    omega
  refine ⟨m.attributeData[m.layerBegin l + i], List.getElem?_eq_getElem hlt, ?_⟩
  unfold MaterialData.recordAt
  rw [if_pos ⟨hl, hi⟩, List.getElem?_eq_getElem hlt]

/-- C4: lookup by name agrees with lookup by index. In a store whose offset
table is valid and whose layers are strictly ascending by name, for a layer
`l` and a name `s`: `has_attribute(l, s)` holds iff some index below
`attribute_count(l)` carries the name `s`; `attribute_id(l, s)` is then that
index, and the type, the raw value and every typed read by name are those at
that index; and the search reads no record outside the range of the layer. -/
theorem lookup_by_name_eq_by_index (m : MaterialData) (hwf : m.WF) (l : Nat)
    (hl : l < m.layerCount) (s : List Nat) :
    (m.hasAttribute l s = true ↔
      ∃ i, i < m.attributeCount l ∧ m.attributeName l i = .ok s) ∧
    (∀ i, i < m.attributeCount l → m.attributeName l i = .ok s →
      m.attributeId l s = .ok i ∧
      (∀ i', i' < m.attributeCount l → m.attributeName l i' = .ok s → i' = i) ∧
      m.attributeTypeByName l s = m.attributeType l i ∧
      m.attributeRawByName l s = m.attributeRaw l i ∧
      ∀ t, m.attributeByName l s t = m.attribute l i t) ∧
    (∀ m' : MaterialData, m'.layerData = m.layerData →
      m'.attributeData.length = m.attributeData.length →
      (∀ k, m.layerBegin l ≤ k → k < m.layerEnd l →
        m'.attributeData[k]? = m.attributeData[k]?) →
      m'.find l s = m.find l s) := by
  have hb := hwf.bounds hl
  have hfind : ∀ i, i < m.attributeCount l → m.attributeName l i = .ok s →
      ∃ r, m.recordAt l i = .ok r ∧ m.find l s = some (i, r) := by
    intro i hi hn
    obtain ⟨r, hr, hrec⟩ := recordAt_eq hwf hl hi
    refine ⟨r, hrec, ?_⟩
    unfold MaterialData.attributeName at hn
    rw [hrec] at hn
    simp only [Except.map, Except.ok.injEq] at hn
    rw [← hn]
    exact MaterialData.find_of_mem hwf hl hi hr
  refine ⟨⟨?_, ?_⟩, ?_, ?_⟩
  · intro h
    unfold MaterialData.hasAttribute at h
    cases hf : m.find l s with
    | none => rw [hf] at h; cases h
    | some res =>
      obtain ⟨j, r⟩ := res
      obtain ⟨_, h2, h3⟩ := MaterialData.find_some hf
      obtain ⟨hj, hr⟩ := h2 hb.1
      refine ⟨j, hj, ?_⟩
      obtain ⟨r', hr', hrec⟩ := recordAt_eq hwf hl hj
      rw [hr] at hr'
      cases hr'
      unfold MaterialData.attributeName
      rw [hrec]
      simp [Except.map, h3]
  · rintro ⟨i, hi, hn⟩
    obtain ⟨r, _, hf⟩ := hfind i hi hn
    unfold MaterialData.hasAttribute
    rw [hf]
    rfl
  · intro i hi hn
    obtain ⟨r, hrec, hf⟩ := hfind i hi hn
    refine ⟨?_, ?_, ?_, ?_, ?_⟩
    · unfold MaterialData.attributeId
      rw [hf]
    · intro i' hi' hn'
      obtain ⟨r', _, hf'⟩ := hfind i' hi' hn'
      rw [hf] at hf'
      simp only [Option.some.injEq, Prod.mk.injEq] at hf'
      exact hf'.1.symm
    · unfold MaterialData.attributeTypeByName MaterialData.attributeType
      rw [hf, hrec]
      rfl
    · unfold MaterialData.attributeRawByName MaterialData.attributeRaw
      rw [hf, hrec]
      rfl
    · intro t
      unfold MaterialData.attributeByName MaterialData.attribute
      rw [hf, hrec]
  · intro m' hld hlen hsame
    have hoff : m'.offsets = m.offsets := by
      unfold MaterialData.offsets
      rw [hld, hlen]
    have hlo := le_lowerBound m.attributeData s (m.layerEnd l - m.layerBegin l)
      (m.layerBegin l) (m.layerEnd l) hb.1
    unfold MaterialData.find
    simp only [MaterialData.layerCount, MaterialData.layerBegin, MaterialData.layerEnd, hoff]
    simp only [MaterialData.layerBegin, MaterialData.layerEnd] at hsame hlo
    rw [lowerBound_congr m'.attributeData m.attributeData s _ _ _ hsame]
    by_cases hl' : l < m.offsets.length
    · simp only [hl', if_true]
      by_cases hie : lowerBound m.attributeData s
          (m.offsets.getD l 0 - prevFrom 0 m.offsets l) (prevFrom 0 m.offsets l)
          (m.offsets.getD l 0) < m.offsets.getD l 0
      · simp only [hie, if_true]
        rw [hsame _ hlo hie]
      · simp only [hie, if_false]
    · simp only [hl', if_false]

/-- Owned construction gives a store satisfying the store invariant. -/
theorem construct_wf (attrs : List AttributeRecord) (layers : Option (List Nat))
    (m : MaterialData) (h : MaterialData.construct attrs layers = .ok m) : m.WF := by
  unfold MaterialData.construct at h
  split at h
  · cases h
  · split at h
    · cases h
    · rename_i hvalid
      dsimp only at h
      split at h
      · cases h
      · rename_i hcheck
        simp only [Except.ok.injEq] at h
        subst h
        refine sorted_store_wf attrs layers hvalid fun l hl => ?_
        have := (checkLayers_ok_iff true _ _ _).1 hcheck l hl
        obtain ⟨hoff, _, hlayer⟩ := sorted_store attrs layers hvalid
        have h2 : (MaterialData.mk (sortLayers attrs (offsetsOf layers attrs.length) 0)
            layers).layer l
            = slice (sortLayers attrs (offsetsOf layers attrs.length) 0)
              (prevFrom 0 (MaterialData.mk (sortLayers attrs (offsetsOf layers attrs.length) 0)
                layers).offsets l)
              ((MaterialData.mk (sortLayers attrs (offsetsOf layers attrs.length) 0)
                layers).offsets.getD l 0) := rfl
        rw [hoff] at h2
        rw [← h2, hlayer l hl] at this
        exact (checkOrder_sorted_iff _).1 this

/-- C4, on the store built from the four records of the `construct` test:
`DoubleSided` is found in layer 0, at index 2. -/
theorem lookup_by_name_eq_by_index_witness :
    (MaterialData.mk [ambientTextureMatrix, diffuseCoordinateSet, doubleSided, highlightColor]
        none).hasAttribute 0 (ascii "DoubleSided") = true ∧
    (MaterialData.mk [ambientTextureMatrix, diffuseCoordinateSet, doubleSided, highlightColor]
        none).attributeId 0 (ascii "DoubleSided") = .ok 2 :=
  have hwf := construct_wf constructInput none
    ⟨[ambientTextureMatrix, diffuseCoordinateSet, doubleSided, highlightColor], none⟩ (by rfl)
  have h := lookup_by_name_eq_by_index
    ⟨[ambientTextureMatrix, diffuseCoordinateSet, doubleSided, highlightColor], none⟩
    hwf 0 (by decide) (ascii "DoubleSided")
  ⟨h.1.2 ⟨2, by decide, by rfl⟩, (h.2.1 2 (by decide) (by rfl)).1⟩

/-- Non-owned construction gives a store satisfying the store invariant. -/
theorem constructNonOwned_wf (attrs : List AttributeRecord) (layers : Option (List Nat))
    (m : MaterialData) (h : MaterialData.constructNonOwned attrs layers = .ok m) : m.WF := by
  unfold MaterialData.constructNonOwned at h
  split at h
  · cases h
  · split at h
    · cases h
    · rename_i hvalid
      split at h
      · cases h
      · rename_i hcheck
        simp only [Except.ok.injEq] at h
        subst h
        constructor
        · exact (validateLayers_ok_iff _ _ _ _).1 hvalid
        · intro l hl
          have := (checkLayers_ok_iff false _ _ _).1 hcheck l hl
          exact (checkOrder_ok_iff false _ (fun h => by cases h)).1 this

/-- C2: owned construction sorts. For non-empty records, valid layer offsets
and no name repeated inside a layer, construction succeeds; the store keeps the
offset table, each of its layers is a permutation of the input records of that
layer, in strictly ascending byte-wise order of the names, and each input
record is found under its name, the typed reads by name giving what the typed
reads of the input record give. -/
theorem construct_sorts_layers (attrs : List AttributeRecord) (layers : Option (List Nat))
    (hne : ∀ r ∈ attrs, r.type ≠ 0)
    (hvalid : validateLayers attrs.length (offsetsOf layers attrs.length) 0 0 = .ok ())
    (hnodup : ∀ l, l < (MaterialData.mk attrs layers).layerCount →
      (((MaterialData.mk attrs layers).layer l).map AttributeRecord.name).Nodup) :
    ∃ m, MaterialData.construct attrs layers = .ok m ∧ m.layerData = layers ∧
      m.attributeData.length = attrs.length ∧
      m.layerCount = (MaterialData.mk attrs layers).layerCount ∧
      ∀ l, l < m.layerCount →
        (m.layer l).Perm ((MaterialData.mk attrs layers).layer l) ∧
        ((m.layer l).map AttributeRecord.name).Sorted (· < ·) ∧
        ∀ r ∈ (MaterialData.mk attrs layers).layer l,
          m.hasAttribute l r.name = true ∧ ∀ t, m.attributeByName l r.name t = r.value t := by
  obtain ⟨hoff, hlen, hlayer⟩ := sorted_store attrs layers hvalid
  have hwf := sorted_store_wf attrs layers hvalid hnodup
  have hcount : (MaterialData.mk (sortLayers attrs (offsetsOf layers attrs.length) 0)
      layers).layerCount = (MaterialData.mk attrs layers).layerCount := by
    unfold MaterialData.layerCount
    rw [hoff]
    rfl
  have hcheck : checkLayers true (sortLayers attrs (offsetsOf layers attrs.length) 0)
      (offsetsOf layers attrs.length) 0 = .ok () := by
    rw [checkLayers_ok_iff]
    intro k hk
    have h2 : (MaterialData.mk (sortLayers attrs (offsetsOf layers attrs.length) 0)
        layers).layer k
        = slice (sortLayers attrs (offsetsOf layers attrs.length) 0)
          (prevFrom 0 (MaterialData.mk (sortLayers attrs (offsetsOf layers attrs.length) 0)
            layers).offsets k)
          ((MaterialData.mk (sortLayers attrs (offsetsOf layers attrs.length) 0)
            layers).offsets.getD k 0) := rfl
    rw [hoff] at h2
    rw [← h2, hlayer k hk, checkOrder_sorted_iff]
    exact hnodup k hk
  refine ⟨⟨sortLayers attrs (offsetsOf layers attrs.length) 0, layers⟩, ?_, rfl, hlen, hcount,
    fun l hl => ?_⟩
  · rw [construct_eq attrs layers hne hvalid, hcheck]
  · have hl' : l < (offsetsOf layers attrs.length).length := by
      rw [hcount] at hl
      exact hl
    refine ⟨?_, hwf.sorted l hl, fun r hr => ?_⟩
    · rw [hlayer l hl']
      exact List.perm_insertionSort nameLE _
    · have hmem : r ∈ (MaterialData.mk (sortLayers attrs (offsetsOf layers attrs.length) 0)
          layers).layer l := by
        rw [hlayer l hl']
        exact (List.perm_insertionSort nameLE _).mem_iff.2 hr
      obtain ⟨j, hj, hrj⟩ := mem_slice_index hmem
      have hf := MaterialData.find_of_mem hwf hl (j := j) (r := r) hj hrj
      constructor
      · unfold MaterialData.hasAttribute
        rw [hf]
        rfl
      · intro t
        unfold MaterialData.attributeByName
        rw [hf]

/-- C2, the input `[DoubleSided, DiffuseCoordinateSet, highlightColor,
AmbientTextureMatrix]`: it is stored as `[AmbientTextureMatrix,
DiffuseCoordinateSet, DoubleSided, highlightColor]`. -/
theorem construct_sorts_layers_witness :
    MaterialData.construct constructInput none =
      .ok ⟨[ambientTextureMatrix, diffuseCoordinateSet, doubleSided, highlightColor], none⟩ ∧
    ∃ m, MaterialData.construct constructInput none = .ok m ∧ m.layerData = none ∧
      m.attributeData.length = constructInput.length ∧
      m.layerCount = (MaterialData.mk constructInput none).layerCount ∧
      ∀ l, l < m.layerCount →
        (m.layer l).Perm ((MaterialData.mk constructInput none).layer l) ∧
        ((m.layer l).map AttributeRecord.name).Sorted (· < ·) ∧
        ∀ r ∈ (MaterialData.mk constructInput none).layer l,
          m.hasAttribute l r.name = true ∧ ∀ t, m.attributeByName l r.name t = r.value t :=
  ⟨by rfl, construct_sorts_layers constructInput none (by decide) (by rfl)
    (fun l hl => by
      have hl0 : l = 0 := by
        have : (MaterialData.mk constructInput none).layerCount = 1 := rfl
        omega
      subst hl0
      decide)⟩

/-- C7: duplicate names are rejected whatever the input order. For non-empty
records and valid offsets, owned construction fails with `DuplicateAttribute`
when some layer holds a name twice, and the name it reports occurs at least
twice in one layer; it never fails with `DuplicateAttribute` when the names
inside each layer are distinct; and reordering the records inside their layers
does not change the outcome. -/
theorem duplicate_rejected (attrs : List AttributeRecord) (layers : Option (List Nat))
    (hne : ∀ r ∈ attrs, r.type ≠ 0)
    (hvalid : validateLayers attrs.length (offsetsOf layers attrs.length) 0 0 = .ok ()) :
    ((∃ l, l < (MaterialData.mk attrs layers).layerCount ∧
        ¬ (((MaterialData.mk attrs layers).layer l).map AttributeRecord.name).Nodup) →
      ∃ nm, MaterialData.construct attrs layers = .error (.DuplicateAttribute nm)) ∧
    (∀ nm, MaterialData.construct attrs layers = .error (.DuplicateAttribute nm) →
      ∃ l, l < (MaterialData.mk attrs layers).layerCount ∧
        List.Duplicate nm (((MaterialData.mk attrs layers).layer l).map AttributeRecord.name)) ∧
    ((∀ l, l < (MaterialData.mk attrs layers).layerCount →
        (((MaterialData.mk attrs layers).layer l).map AttributeRecord.name).Nodup) →
      ∀ nm, MaterialData.construct attrs layers ≠ .error (.DuplicateAttribute nm)) ∧
    (∀ attrs' : List AttributeRecord, attrs'.Perm attrs →
      (∀ l, l < (MaterialData.mk attrs layers).layerCount →
        ((MaterialData.mk attrs' layers).layer l).Perm ((MaterialData.mk attrs layers).layer l)) →
      ∀ nm, (MaterialData.construct attrs' layers = .error (.DuplicateAttribute nm) ↔
        MaterialData.construct attrs layers = .error (.DuplicateAttribute nm))) := by
  obtain ⟨hoff, hlen, hlayer⟩ := sorted_store attrs layers hvalid
  have hslice : ∀ (as : List AttributeRecord),
      validateLayers as.length (offsetsOf layers as.length) 0 0 = .ok () → ∀ k,
      k < (offsetsOf layers as.length).length →
      slice (sortLayers as (offsetsOf layers as.length) 0)
        (prevFrom 0 (offsetsOf layers as.length) k) ((offsetsOf layers as.length).getD k 0) =
      ((MaterialData.mk as layers).layer k).insertionSort nameLE := by
    intro as hv k hk
    obtain ⟨hoff', _, hlayer'⟩ := sorted_store as layers hv
    have h2 : (MaterialData.mk (sortLayers as (offsetsOf layers as.length) 0) layers).layer k
        = slice (sortLayers as (offsetsOf layers as.length) 0)
          (prevFrom 0 (MaterialData.mk (sortLayers as (offsetsOf layers as.length) 0)
            layers).offsets k)
          ((MaterialData.mk (sortLayers as (offsetsOf layers as.length) 0)
            layers).offsets.getD k 0) := rfl
    rw [hoff'] at h2
    rw [← h2, hlayer' k hk]
  have hdup : ∀ nm, MaterialData.construct attrs layers = .error (.DuplicateAttribute nm) →
      ∃ l, l < (MaterialData.mk attrs layers).layerCount ∧
        List.Duplicate nm (((MaterialData.mk attrs layers).layer l).map AttributeRecord.name) := by
    intro nm h
    rw [construct_eq attrs layers hne hvalid] at h
    split at h
    · rename_i e herr
      simp only [Except.error.injEq] at h
      subst h
      obtain ⟨k, hk, hke⟩ := checkLayers_error_layer _ _ _ _ _ herr
      rw [hslice attrs hvalid k hk] at hke
      have := checkOrder_duplicate _ _ _ hke
      rw [List.duplicate_iff_two_le_count,
        ((List.perm_insertionSort nameLE _).map AttributeRecord.name).count_eq,
        ← List.duplicate_iff_two_le_count] at this
      exact ⟨k, hk, this⟩
    · cases h
  refine ⟨?_, hdup, ?_, ?_⟩
  · rintro ⟨l, hl, hnd⟩
    rw [construct_eq attrs layers hne hvalid]
    cases hc : checkLayers true (sortLayers attrs (offsetsOf layers attrs.length) 0)
        (offsetsOf layers attrs.length) 0 with
    | error e =>
      obtain ⟨k, hk, hke⟩ := checkLayers_error_layer _ _ _ _ _ hc
      obtain ⟨nm, rfl⟩ := checkOrder_owned_error _ _ hke
      exact ⟨nm, rfl⟩
    | ok u =>
      exfalso
      have := (checkLayers_ok_iff true _ _ _).1 hc l hl
      rw [hslice attrs hvalid l hl, checkOrder_sorted_iff] at this
      exact hnd this
  · intro hnd nm h
    obtain ⟨l, hl, hcount⟩ := hdup nm h
    exact hcount.not_nodup (hnd l hl)
  · intro attrs' hperm hlayers nm
    have hlen' : attrs'.length = attrs.length := hperm.length_eq
    have hne' : ∀ r ∈ attrs', r.type ≠ 0 := fun r hr => hne r (hperm.mem_iff.1 hr)
    have hvalid' : validateLayers attrs'.length (offsetsOf layers attrs'.length) 0 0 = .ok () := by
      rw [hlen']; exact hvalid
    have hcheck : checkLayers true (sortLayers attrs' (offsetsOf layers attrs'.length) 0)
        (offsetsOf layers attrs'.length) 0 =
        checkLayers true (sortLayers attrs (offsetsOf layers attrs.length) 0)
        (offsetsOf layers attrs.length) 0 := by
      have hs' := hslice attrs' hvalid'
      rw [hlen'] at hs' ⊢
      refine checkLayers_congr true _ _ _ _ fun k hk => ?_
      rw [hs' k hk, hslice attrs hvalid k hk]
      refine checkOrder_congr true _ _ ?_
      refine List.eq_of_perm_of_sorted (r := (· ≤ ·)) ?_ (sorted_names_insertionSort _)
        (sorted_names_insertionSort _)
      exact (((List.perm_insertionSort nameLE _).trans (hlayers k hk)).trans
        (List.perm_insertionSort nameLE _).symm).map _
    rw [construct_eq attrs layers hne hvalid, construct_eq attrs' layers hne' hvalid', hcheck]
    cases checkLayers true (sortLayers attrs (offsetsOf layers attrs.length) 0)
        (offsetsOf layers attrs.length) 0 with
    | error e => simp
    | ok u => simp

/-- C7, the 120 orders of `[DoubleSided, DiffuseCoordinateSet, highlightColor,
AmbientTextureMatrix, DiffuseCoordinateSet]`: each is rejected, naming
`DiffuseCoordinateSet`. -/
theorem duplicate_rejected_witness :
    (∀ r ∈ duplicateInput, r.type ≠ 0) ∧
    validateLayers duplicateInput.length (offsetsOf none duplicateInput.length) 0 0 = .ok () ∧
    (∀ p ∈ duplicateInput.permutations,
      MaterialData.construct p none =
        .error (.DuplicateAttribute (ascii "DiffuseCoordinateSet"))) :=
  ⟨by decide, by rfl, fun p hp =>
    ((duplicate_rejected duplicateInput none (by decide) (by rfl)).2.2.2 p
      (List.mem_permutations.1 hp)
      (fun l hl => by
        have hl0 : l = 0 := by
          have : (MaterialData.mk duplicateInput none).layerCount = 1 := rfl
          omega
        subst hl0
        have hlen : p.length = duplicateInput.length := (List.mem_permutations.1 hp).length_eq
        have h1 : (MaterialData.mk p none).layer 0 = p := by
          show ((p.drop 0).take (p.length - 0)) = p
          simp
        have h2 : (MaterialData.mk duplicateInput none).layer 0 = duplicateInput := by rfl
        rw [h1, h2]
        exact List.mem_permutations.1 hp)
      (ascii "DiffuseCoordinateSet")).2 (by rfl)⟩

/-- Accessors of a packed String record. -/
theorem packed_string (name value : List Nat) (hname : ∀ b ∈ name, b ≠ 0) :
    (AttributeRecord.mk (pad64 (AttributeType.String.tag :: name ++ [0] ++ [value.length]
      ++ value ++ [0]))).type = AttributeType.String.tag ∧
    (AttributeRecord.mk (pad64 (AttributeType.String.tag :: name ++ [0] ++ [value.length]
      ++ value ++ [0]))).name = name ∧
    (AttributeRecord.mk (pad64 (AttributeType.String.tag :: name ++ [0] ++ [value.length]
      ++ value ++ [0]))).nameTerminator = some 0 ∧
    (AttributeRecord.mk (pad64 (AttributeType.String.tag :: name ++ [0] ++ [value.length]
      ++ value ++ [0]))).stringValue = .ok value ∧
    (AttributeRecord.mk (pad64 (AttributeType.String.tag :: name ++ [0] ++ [value.length]
      ++ value ++ [0]))).stringTerminator = some 0 ∧
    (AttributeRecord.mk (pad64 (AttributeType.String.tag :: name ++ [0] ++ [value.length]
      ++ value ++ [0]))).rawCString = value.takeWhile fun b => b ≠ 0 := by
  generalize hr : (AttributeRecord.mk (pad64 (AttributeType.String.tag :: name ++ [0] ++
    [value.length] ++ value ++ [0]))) = r
  have hdata : r.data = (AttributeType.String.tag :: (name ++ [0])) ++ ([value.length] ++
      (value ++ ([0] ++ List.replicate (64 - (AttributeType.String.tag :: name ++ [0] ++
        [value.length] ++ value ++ [0]).length) 0))) := by
    rw [← hr]
    simp [pad64]
  generalize List.replicate (64 - (AttributeType.String.tag :: name ++ [0] ++
        [value.length] ++ value ++ [0]).length) 0 = zeros at hdata
  have hn : r.name = name := by
    simp only [AttributeRecord.name, hdata, List.cons_append, List.drop_succ_cons, List.drop_zero,
      List.append_assoc]
    rw [List.takeWhile_append_of_pos (fun a ha => by simpa using hname a ha)]
    simp
  have ht : r.type = AttributeType.String.tag := by
    simp [AttributeRecord.type, hdata]
  have hlen2 : name.length + 2 = (AttributeType.String.tag :: (name ++ [0])).length := by simp
  have hsz : r.data.getD (name.length + 2) 0 = value.length := by
    rw [hdata, hlen2, List.getD_eq_getElem?_getD, List.getElem?_append_right (Nat.le_refl _)]
    simp
  have hraw : r.rawValue = value ++ ([0] ++ zeros) := by
    have h3 : name.length + 3 =
        (AttributeType.String.tag :: (name ++ [0]) ++ [value.length]).length := by simp
    simp only [AttributeRecord.rawValue, ht, if_true, hn]
    rw [hdata, ← List.append_assoc, h3, List.drop_left]
  refine ⟨ht, hn, ?_, ?_, ?_, ?_⟩
  · simp only [AttributeRecord.nameTerminator, hn, hdata]
    simp only [List.cons_append, List.append_assoc]
    rw [Nat.add_comm, List.getElem?_cons_succ, List.getElem?_append_right (Nat.le_refl _)]
    simp
  · simp only [AttributeRecord.stringValue, ht, ne_eq, not_true_eq_false, if_false, hn, hsz,
      hraw, List.take_left]
  · have h3 : name.length + 3 + value.length =
        (AttributeType.String.tag :: (name ++ [0]) ++ [value.length] ++ value).length := by
      simp
      omega
    simp only [AttributeRecord.stringTerminator, hn, hsz]
    rw [hdata, ← List.append_assoc, ← List.append_assoc, h3,
      List.getElem?_append_right (Nat.le_refl _)]
    simp
  · simp only [AttributeRecord.rawCString, hraw]
    rw [List.takeWhile_append]
    simp
    intro hl
    have hpre : List.takeWhile (fun b => !decide (b = 0)) value <+: value :=
      List.takeWhile_prefix _
    exact (hpre.eq_of_length hl).symm

/-- C11: String record round trip. For a name without a 0 byte and a value
view of `size` bytes into `memory` (whatever the bytes of the value, 0
included, and whatever follows the view in memory) that fit together, the
record built from them has type String, its name is the given one followed by
0, `value<StringView>()` gives exactly the `size` bytes of the view, the byte
just past the returned view is 0, and the untyped value read as a C string
stops at the first 0 byte of the value. -/
theorem string_round_trip (name memory : List Nat) (size : Nat)
    (hname : ∀ b ∈ name, b ≠ 0) (hsize : size ≤ memory.length)
    (hfit : name.length + size ≤ 60) :
    ∃ r, AttributeRecord.ofStringView name memory size = .ok r ∧
      AttributeRecord.ofString name (memory.take size) = .ok r ∧
      r.type = AttributeType.String.tag ∧ AttributeType.ofTag r.type = some .String ∧
      r.name = name ∧ r.nameTerminator = some 0 ∧
      r.stringValue = .ok (memory.take size) ∧ (memory.take size).length = size ∧
      r.stringTerminator = some 0 ∧
      r.rawCString = (memory.take size).takeWhile fun b => b ≠ 0 := by
  have hl : (memory.take size).length = size := by
    rw [List.length_take]
    omega
  obtain ⟨h1, h2, h3, h4, h5, h6⟩ := packed_string name (memory.take size) hname
  have hok : AttributeRecord.ofString name (memory.take size) =
      .ok ⟨pad64 (AttributeType.String.tag :: name ++ [0] ++ [(memory.take size).length]
        ++ memory.take size ++ [0])⟩ := by
    have : name.length + (memory.take size).length + 4 ≤ 64 := by omega
    simp only [AttributeRecord.ofString, this, if_true]
  refine ⟨_, hok, hok, h1, ?_, h2, h3, h4, hl, h5, h6⟩
  rw [h1]
  rfl

/-- C11, the name `name that's long` with the 44 bytes
`and a value\0that's also long but still fits!` viewed inside the 46 bytes
of the literal and its terminator. -/
theorem string_round_trip_witness :
    longName.length = 16 ∧ longValueMemory.length = 46 ∧ longValueMemory[44]? = some 33 ∧
    ∃ r, AttributeRecord.ofStringView longName longValueMemory 44 = .ok r ∧
      AttributeRecord.ofString longName (longValueMemory.take 44) = .ok r ∧
      r.type = AttributeType.String.tag ∧ AttributeType.ofTag r.type = some .String ∧
      r.name = longName ∧ r.nameTerminator = some 0 ∧
      r.stringValue = .ok (longValueMemory.take 44) ∧ (longValueMemory.take 44).length = 44 ∧
      r.stringTerminator = some 0 ∧
      r.rawCString = (longValueMemory.take 44).takeWhile fun b => b ≠ 0 :=
  ⟨by decide, by decide, by decide,
    string_round_trip longName longValueMemory 44 (by decide) (by decide) (by decide)⟩

theorem pad64_length {bytes : List Nat} (h : bytes.length ≤ 64) : (pad64 bytes).length = 64 := by
  simp only [pad64, List.length_append, List.length_replicate]
  omega

/-- Budget of a String record. -/
theorem string_budget (name sv : List Nat) :
    ((∃ r, AttributeRecord.ofString name sv = .ok r) ↔ name.length + sv.length ≤ 60) ∧
    (¬ name.length + sv.length ≤ 60 →
      AttributeRecord.ofString name sv = .error .RecordTooLarge) ∧
    (∀ r, AttributeRecord.ofString name sv = .ok r →
      r.data.length = 64 ∧
      (AttributeType.String.tag :: name ++ [0] ++ [sv.length] ++ sv ++ [0]) <+: r.data ∧
      1 + name.length + 1 + 1 + sv.length + 1 ≤ 64) := by
  by_cases hfit : name.length + sv.length ≤ 60
  · have hfit2 : name.length + sv.length + 4 ≤ 64 := by omega
    have h1 : AttributeRecord.ofString name sv = .ok ⟨pad64 (AttributeType.String.tag :: name ++
        [0] ++ [sv.length] ++ sv ++ [0])⟩ := by
      simp only [AttributeRecord.ofString, hfit2, if_true]
    refine ⟨⟨fun _ => hfit, fun _ => ⟨_, h1⟩⟩, fun hn => absurd hfit hn, ?_⟩
    intro r hr
    rw [h1] at hr
    cases hr
    refine ⟨pad64_length (by simp; omega), ⟨_, rfl⟩, by omega⟩
  · have hfit2 : ¬ name.length + sv.length + 4 ≤ 64 := by omega
    have h1 : AttributeRecord.ofString name sv = .error .RecordTooLarge := by
      simp only [AttributeRecord.ofString, hfit2, if_false]
    refine ⟨⟨fun ⟨r, hr⟩ => ?_, fun h => absurd h hfit⟩, fun _ => h1, ?_⟩
    · rw [h1] at hr
      cases hr
    · intro r hr
      rw [h1] at hr
      cases hr

/-- C12: size budget of a record. For a fixed-size type of `s` bytes and a
value `v` of that size, the typed and the type-erased constructor succeed iff
the name has at most `62 - s` bytes and fail with `RecordTooLarge` otherwise;
for a String value `sv` the constructor succeeds iff name and value have at
most 60 bytes in total and fails with `RecordTooLarge` otherwise; a record that
is built fills its 64 bytes with the tag, the name, its terminator and the
value (for a String also the length byte and the terminator of the value). -/
theorem record_size_budget (name : List Nat) (t : AttributeType) (v sv : List Nat) (s : Nat)
    (hsize : materialAttributeTypeSize t.tag = .ok s) (hv : v.length = s) :
    ((∃ r, AttributeRecord.ofValue name t v = .ok r) ↔ name.length + s ≤ 62) ∧
    (¬ name.length + s ≤ 62 → AttributeRecord.ofValue name t v = .error .RecordTooLarge) ∧
    ((∃ r, AttributeRecord.ofRaw name t.tag v = .ok r) ↔ name.length + s ≤ 62) ∧
    (¬ name.length + s ≤ 62 → AttributeRecord.ofRaw name t.tag v = .error .RecordTooLarge) ∧
    (∀ r, AttributeRecord.ofValue name t v = .ok r →
      r.data.length = 64 ∧ (t.tag :: name ++ [0] ++ v) <+: r.data ∧
      1 + name.length + 1 + s ≤ 64) ∧
    ((∃ r, AttributeRecord.ofString name sv = .ok r) ↔ name.length + sv.length ≤ 60) ∧
    (¬ name.length + sv.length ≤ 60 →
      AttributeRecord.ofString name sv = .error .RecordTooLarge) ∧
    (∀ r, AttributeRecord.ofString name sv = .ok r →
      r.data.length = 64 ∧
      (AttributeType.String.tag :: name ++ [0] ++ [sv.length] ++ sv ++ [0]) <+: r.data ∧
      1 + name.length + 1 + 1 + sv.length + 1 ≤ 64) := by
  have hvs : ¬ v.length ≠ s := by simpa using hv
  have htake : v.take s = v := by
    rw [← hv]
    exact List.take_length v
  by_cases hfit : name.length + s ≤ 62
  · have hfit2 : name.length + s + 2 ≤ 64 := by omega
    have h1 : AttributeRecord.ofValue name t v = .ok ⟨pad64 (t.tag :: name ++ [0] ++ v)⟩ := by
      simp only [AttributeRecord.ofValue, hsize, hvs, if_false, hfit2, if_true]
    have h2 : AttributeRecord.ofRaw name t.tag v = .ok ⟨pad64 (t.tag :: name ++ [0] ++ v)⟩ := by
      simp only [AttributeRecord.ofRaw, hsize, hfit2, if_true, htake]
    refine ⟨⟨fun _ => hfit, fun _ => ⟨_, h1⟩⟩, fun hn => absurd hfit hn,
      ⟨fun _ => hfit, fun _ => ⟨_, h2⟩⟩, fun hn => absurd hfit hn, ?_, ?_⟩
    · intro r hr
      rw [h1] at hr
      cases hr
      refine ⟨pad64_length (by simp; omega), ⟨_, rfl⟩, by omega⟩
    · exact string_budget name sv
  · have hfit2 : ¬ name.length + s + 2 ≤ 64 := by omega
    have h1 : AttributeRecord.ofValue name t v = .error .RecordTooLarge := by
      simp only [AttributeRecord.ofValue, hsize, hvs, if_false, hfit2]
    have h2 : AttributeRecord.ofRaw name t.tag v = .error .RecordTooLarge := by
      simp only [AttributeRecord.ofRaw, hsize, hfit2, if_false]
    refine ⟨⟨fun ⟨r, hr⟩ => ?_, fun h => absurd h hfit⟩, fun _ => h1,
      ⟨fun ⟨r, hr⟩ => ?_, fun h => absurd h hfit⟩, fun _ => h2, ?_, ?_⟩
    · rw [h1] at hr
      cases hr
    · rw [h2] at hr
      cases hr
    · intro r hr
      rw [h1] at hr
      cases hr
    · exact string_budget name sv

/-- C12, the names and values of `constructAttributeStringConstexpr`,
`constructAttributeTooLarge`, `constructAttributeStringNameStringValue` and
`constructAttributeTooLargeString`. -/
theorem record_size_budget_witness :
    (ascii "templateAttrib").length = 14 ∧ (ascii "attributeIsLong").length = 15 ∧
    materialAttributeTypeSize AttributeType.Matrix3x4.tag = .ok 48 ∧
    (∃ r, AttributeRecord.ofValue (ascii "templateAttrib") .Matrix3x4 matrix3x4Zero = .ok r) ∧
    AttributeRecord.ofValue (ascii "attributeIsLong") .Matrix3x4 matrix3x4Zero =
      .error .RecordTooLarge ∧
    longName.length = 16 ∧ (longValueMemory.take 44).length = 44 ∧
    (∃ r, AttributeRecord.ofString longName (longValueMemory.take 44) = .ok r) ∧
    tooLongName.length = 17 ∧ longText.length = 44 ∧
    AttributeRecord.ofString tooLongName longText = .error .RecordTooLarge :=
  ⟨by decide, by decide, rfl,
    (record_size_budget (ascii "templateAttrib") .Matrix3x4 matrix3x4Zero
      (longValueMemory.take 44) 48 rfl rfl).1.2 (by decide),
    (record_size_budget (ascii "attributeIsLong") .Matrix3x4 matrix3x4Zero longText 48
      rfl rfl).2.1 (by decide),
    by decide, by decide,
    (record_size_budget longName .Matrix3x4 matrix3x4Zero (longValueMemory.take 44) 48
      rfl rfl).2.2.2.2.2.1.2 (by decide),
    by decide, by decide,
    (record_size_budget tooLongName .Matrix3x4 matrix3x4Zero longText 48
      rfl rfl).2.2.2.2.2.2.1 (by decide)⟩

theorem MaterialData.layerCount_pos (m : MaterialData) : 0 < m.layerCount := by
  unfold MaterialData.layerCount MaterialData.offsets offsetsOf
  split <;> simp

/-- The first record of a layer is the record at its first position, when the
layer is not empty. -/
theorem MaterialData.layer_head (m : MaterialData) (l : Nat) :
    (m.layer l).head? =
      if m.layerBegin l < m.layerEnd l then m.attributeData[m.layerBegin l]? else none := by
  unfold MaterialData.layer slice
  by_cases hlt : m.layerBegin l < m.layerEnd l
  · rw [if_pos hlt]
    obtain ⟨k, hk⟩ : ∃ k, m.layerEnd l - m.layerBegin l = k + 1 :=
      ⟨m.layerEnd l - m.layerBegin l - 1, by omega⟩
    rw [hk]
    cases hd : m.attributeData.drop (m.layerBegin l) with
    | nil =>
      have hlen : m.attributeData.length ≤ m.layerBegin l := by
        simpa using List.drop_eq_nil_iff.1 hd
      rw [List.getElem?_eq_none hlen]
      rfl
    | cons r rest =>
      have h0 : (m.attributeData.drop (m.layerBegin l))[0]? = some r := by
        rw [hd]
        exact List.getElem?_cons_zero
      rw [List.getElem?_drop] at h0
      rw [List.take_succ_cons, List.head?_cons, ← h0]
      rfl
  · rw [if_neg hlt]
    have : m.layerEnd l - m.layerBegin l = 0 := by omega
    rw [this, List.take_zero]
    rfl

/-- What one step of the scan tests. -/
theorem MaterialData.isLayerNamed_iff (m : MaterialData) (l : Nat) (name : List Nat) :
    m.isLayerNamed l name = true ↔
      ∃ r rest, m.layer l = r :: rest ∧ r.name = layerNameKey ∧ r.stringValue = .ok name := by
  have hhead := m.layer_head l
  unfold MaterialData.isLayerNamed
  constructor
  · intro hn
    rw [Bool.and_eq_true, decide_eq_true_eq] at hn
    obtain ⟨hlt, hrec⟩ := hn
    rw [if_pos hlt] at hhead
    cases hr : m.attributeData[m.layerBegin l]? with
    | none => simp [hr] at hrec
    | some r =>
      rw [hr] at hhead
      simp only [hr, Bool.and_eq_true, decide_eq_true_eq] at hrec
      obtain ⟨hname, hval⟩ := hrec
      cases hL : m.layer l with
      | nil => rw [hL] at hhead; cases hhead
      | cons r' rest =>
        rw [hL, List.head?_cons, Option.some.injEq] at hhead
        subst hhead
        refine ⟨r', rest, rfl, hname, ?_⟩
        cases hv : r'.stringValue with
        | error e => simp [hv] at hval
        | ok v =>
          simp only [hv, decide_eq_true_eq] at hval
          rw [hval]
  · rintro ⟨r, rest, hL, hname, hval⟩
    rw [hL, List.head?_cons] at hhead
    by_cases hlt : m.layerBegin l < m.layerEnd l
    · rw [if_pos hlt] at hhead
      rw [← hhead]
      simp [hlt, hname, hval]
    · rw [if_neg hlt] at hhead
      cases hhead

/-- The linear scan finds the first layer passing the test. -/
theorem MaterialData.layerFor_spec (m : MaterialData) (name : List Nat) :
    ∀ (n i k : Nat), m.layerFor name n i = some k ↔
      (i ≤ k ∧ k < i + n ∧ m.isLayerNamed k name = true ∧
        ∀ j, i ≤ j → j < k → m.isLayerNamed j name = false)
  | 0, i, k => by
    simp only [MaterialData.layerFor, Nat.add_zero]
    constructor
    · intro hn
      cases hn
    · rintro ⟨h1, h2, _⟩
      omega
  | n + 1, i, k => by
    rw [MaterialData.layerFor]
    by_cases hi : m.isLayerNamed i name = true
    · rw [if_pos hi, Option.some.injEq]
      constructor
      · rintro rfl
        exact ⟨Nat.le_refl _, by omega, hi, fun j h1 h2 => by omega⟩
      · rintro ⟨h1, _, _, h4⟩
        by_contra hne
        have := h4 i (Nat.le_refl _) (by omega)
        rw [hi] at this
        cases this
    · rw [if_neg hi, MaterialData.layerFor_spec m name n (i + 1) k]
      have hif : m.isLayerNamed i name = false := by
        cases hb : m.isLayerNamed i name with
        | false => rfl
        | true => exact absurd hb hi
      constructor
      · rintro ⟨h1, h2, h3, h4⟩
        refine ⟨by omega, by omega, h3, fun j hj1 hj2 => ?_⟩
        by_cases hji : j = i
        · rw [hji]
          exact hif
        · exact h4 j (by omega) hj2
      · rintro ⟨h1, h2, h3, h4⟩
        have hik : i ≠ k := fun e => by
          rw [← e, hif] at h3
          cases h3
        exact ⟨by omega, by omega, h3, fun j hj1 hj2 => h4 j (by omega) hj2⟩

/-- The scan succeeds iff some layer after the base material passes the
test. -/
theorem MaterialData.hasLayer_iff (m : MaterialData) (name : List Nat) :
    m.hasLayer name = true ↔
      ∃ i, 1 ≤ i ∧ i < m.layerCount ∧ m.isLayerNamed i name = true := by
  have hpos := m.layerCount_pos
  unfold MaterialData.hasLayer
  rw [Option.isSome_iff_exists]
  constructor
  · rintro ⟨k, hk⟩
    obtain ⟨h1, h2, h3, _⟩ := (m.layerFor_spec name _ 1 k).1 hk
    exact ⟨k, h1, by omega, h3⟩
  · rintro ⟨i, h1, h2, h3⟩
    have hex : ∃ k, 1 ≤ k ∧ k < m.layerCount ∧ m.isLayerNamed k name = true := ⟨i, h1, h2, h3⟩
    classical
    let k := Nat.find hex
    have hk : 1 ≤ k ∧ k < m.layerCount ∧ m.isLayerNamed k name = true := Nat.find_spec hex
    refine ⟨k, (m.layerFor_spec name _ 1 k).2 ⟨hk.1, by omega, hk.2.2, fun j hj1 hj2 => ?_⟩⟩
    have hmin := Nat.find_min hex hj2
    cases hb : m.isLayerNamed j name with
    | false => rfl
    | true => exact absurd ⟨hj1, by omega, hb⟩ hmin

/-- The name of a layer after the base material, read off its records. -/
theorem MaterialData.layerName_eq (m : MaterialData) (i : Nat) (h1 : 1 ≤ i)
    (h2 : i < m.layerCount) :
    m.layerName i =
      match m.layer i with
      | r :: _ => if r.name = layerNameKey then r.stringValue else .ok []
      | [] => .ok [] := by
  have hhead := m.layer_head i
  have hi : i ≠ 0 := by omega
  unfold MaterialData.layerName
  rw [if_pos h2]
  by_cases hlt : m.layerBegin i < m.layerEnd i
  · rw [if_pos ⟨hi, hlt⟩]
    rw [if_pos hlt] at hhead
    rw [← hhead]
    cases m.layer i with
    | nil => rfl
    | cons r rest => rfl
  · rw [if_neg (fun hc => hlt hc.2)]
    rw [if_neg hlt] at hhead
    cases hL : m.layer i with
    | nil => rfl
    | cons r rest => rw [hL] at hhead; cases hhead

/-- C20 as stated fails: in the store of `constructLayers`, offsets
`2, 5, 5, 7`, the layers 2 and 3 have the name `""` by the rule, and
`has_layer("")` is false, as the test asserts. -/
theorem has_layer_unnamed_counterexample :
    MaterialData.construct constructLayersInput (some [2, 5, 5, 7]) = .ok constructLayersStore ∧
    constructLayersStore.layerCount = 4 ∧
    constructLayersStore.layerName 2 = .ok [] ∧
    constructLayersStore.hasLayer [] = false ∧
    ¬ (constructLayersStore.hasLayer [] = true ↔
      ∃ i, 1 ≤ i ∧ i < constructLayersStore.layerCount ∧
        constructLayersStore.layerName i = .ok []) := by
  refine ⟨by rfl, by rfl, by rfl, by rfl, fun hiff => ?_⟩
  have hfalse : constructLayersStore.hasLayer [] = false := by rfl
  have := hiff.2 ⟨2, by decide, by decide, by rfl⟩
  rw [hfalse] at this
  cases this

/-- C20 as amended: `layer_name`. For every store, `layer_name(0)` is `""`; for
a layer `i >= 1`, `layer_name(i)` is the string value of the first record of
the layer when the layer is not empty and that record is named `$LayerName`,
and `""` otherwise; an empty layer has the name `""` whatever the records
behind it; an index that is not a layer is out of range. `has_layer(n)` holds
iff some layer `i >= 1` is not empty and has a first record named
`$LayerName` with the string value `n`; for `n` other than `""` this is: iff
some layer `i >= 1` has `layer_name(i) = n`; and `layer_id(n)` gives a layer
`i >= 1` with `layer_name(i) = n`, or fails with `LayerNotFound` when
`has_layer(n)` is false. -/
theorem layer_name_rule (m : MaterialData) :
    m.layerName 0 = .ok [] ∧
    (∀ i, 1 ≤ i → i < m.layerCount →
      m.layerName i =
        match m.layer i with
        | r :: _ => if r.name = layerNameKey then r.stringValue else .ok []
        | [] => .ok []) ∧
    (∀ i, i < m.layerCount → m.layer i = [] → m.layerName i = .ok []) ∧
    (∀ i, m.layerCount ≤ i → m.layerName i = .error .IndexOutOfRange) ∧
    (∀ n, m.hasLayer n = true ↔
      ∃ i, 1 ≤ i ∧ i < m.layerCount ∧
        ∃ r rest, m.layer i = r :: rest ∧ r.name = layerNameKey ∧ r.stringValue = .ok n) ∧
    (∀ n, n ≠ [] →
      (m.hasLayer n = true ↔ ∃ i, 1 ≤ i ∧ i < m.layerCount ∧ m.layerName i = .ok n)) ∧
    (∀ n i, m.layerId n = .ok i → 1 ≤ i ∧ i < m.layerCount ∧ m.layerName i = .ok n) ∧
    (∀ n, m.layerId n = .error .LayerNotFound ↔ m.hasLayer n = false) := by
  have hpos := m.layerCount_pos
  have h0 : m.layerName 0 = .ok [] := by
    unfold MaterialData.layerName
    rw [if_pos hpos, if_neg (fun hc => hc.1 rfl)]
  have hnamed : ∀ n, m.hasLayer n = true ↔
      ∃ i, 1 ≤ i ∧ i < m.layerCount ∧
        ∃ r rest, m.layer i = r :: rest ∧ r.name = layerNameKey ∧ r.stringValue = .ok n := by
    intro n
    rw [m.hasLayer_iff]
    constructor
    · rintro ⟨i, h1, h2, h3⟩
      exact ⟨i, h1, h2, (m.isLayerNamed_iff i n).1 h3⟩
    · rintro ⟨i, h1, h2, h3⟩
      exact ⟨i, h1, h2, (m.isLayerNamed_iff i n).2 h3⟩
  have hof : ∀ n i, 1 ≤ i → i < m.layerCount → m.isLayerNamed i n = true →
      m.layerName i = .ok n := by
    intro n i h1 h2 h3
    obtain ⟨r, rest, hL, hname, hval⟩ := (m.isLayerNamed_iff i n).1 h3
    rw [m.layerName_eq i h1 h2, hL]
    simp only [hname, if_true, hval]
  refine ⟨h0, m.layerName_eq, ?_, ?_, hnamed, ?_, ?_, ?_⟩
  · intro i h2 hL
    by_cases hi : i = 0
    · rw [hi]
      exact h0
    · rw [m.layerName_eq i (by omega) h2, hL]
  · intro i hi
    unfold MaterialData.layerName
    rw [if_neg (by omega)]
  · intro n hn
    rw [hnamed]
    constructor
    · rintro ⟨i, h1, h2, r, rest, hL, hname, hval⟩
      exact ⟨i, h1, h2, hof n i h1 h2 ((m.isLayerNamed_iff i n).2 ⟨r, rest, hL, hname, hval⟩)⟩
    · rintro ⟨i, h1, h2, hnm⟩
      refine ⟨i, h1, h2, ?_⟩
      rw [m.layerName_eq i h1 h2] at hnm
      cases hL : m.layer i with
      | nil =>
        rw [hL] at hnm
        simp only [Except.ok.injEq] at hnm
        exact absurd hnm.symm hn
      | cons r rest =>
        rw [hL] at hnm
        simp only at hnm
        by_cases hname : r.name = layerNameKey
        · rw [if_pos hname] at hnm
          exact ⟨r, rest, rfl, hname, hnm⟩
        · rw [if_neg hname] at hnm
          simp only [Except.ok.injEq] at hnm
          exact absurd hnm.symm hn
  · intro n i hid
    unfold MaterialData.layerId at hid
    cases hf : m.layerFor n (m.layerCount - 1) 1 with
    | none => simp [hf] at hid
    | some k =>
      simp only [hf, Except.ok.injEq] at hid
      subst hid
      obtain ⟨h1, h2, h3, _⟩ := (m.layerFor_spec n _ 1 k).1 hf
      exact ⟨h1, by omega, hof n k h1 (by omega) h3⟩
  · intro n
    unfold MaterialData.layerId MaterialData.hasLayer
    cases hf : m.layerFor n (m.layerCount - 1) 1 with
    | none => simp
    | some k => simp

/-- C20 as amended, on the stores of `accessLayersEmptyLayer` (offsets
`0, 0, 2` over `NormalTexture` and `$LayerName = "crumples"`) and of
`accessLayersLayerNameInBaseMaterial`: the names are `""`, `""`, `"crumples"`,
and the `$LayerName` of the base material names no layer. -/
theorem layer_name_rule_witness :
    MaterialData.construct [normalTexture, layerNameCrumples] (some [0, 0, 2]) =
      .ok emptyLayerStore ∧
    emptyLayerStore.layerName 0 = .ok [] ∧ emptyLayerStore.layerName 1 = .ok [] ∧
    emptyLayerStore.layerName 2 = .ok (ascii "crumples") ∧
    emptyLayerStore.layerId (ascii "crumples") = .ok 2 ∧
    MaterialData.construct [shininess, layerNameBase] none = .ok baseNameStore ∧
    baseNameStore.layerName 0 = .ok [] ∧
    baseNameStore.hasLayer (ascii "base material name") = false ∧
    (emptyLayerStore.hasLayer (ascii "crumples") = true ↔
      ∃ i, 1 ≤ i ∧ i < emptyLayerStore.layerCount ∧
        emptyLayerStore.layerName i = .ok (ascii "crumples")) :=
  ⟨by rfl, (layer_name_rule emptyLayerStore).1, by rfl, by rfl, by rfl, by rfl,
    (layer_name_rule baseNameStore).1, by rfl,
    (layer_name_rule emptyLayerStore).2.2.2.2.2.1 (ascii "crumples") (by decide)⟩

/-- The counts of the first `j` layers of a non-decreasing table add up to the
offset before position `j`. -/
theorem counts_sum (L : List Nat)
    (hmono : ∀ k, k + 1 < L.length → L.getD k 0 ≤ L.getD (k + 1) 0) :
    ∀ j, j ≤ L.length →
      ((List.range j).map fun i => L.getD i 0 - prevFrom 0 L i).sum = prevFrom 0 L j
  | 0, _ => by simp [prevFrom]
  | j + 1, hj => by
    rw [List.range_succ, List.map_append, List.sum_append, counts_sum L hmono j (by omega)]
    simp only [List.map_cons, List.map_nil, List.sum_cons, List.sum_nil, Nat.add_zero]
    have hle : prevFrom 0 L j ≤ L.getD j 0 := by
      cases j with
      | zero => simp [prevFrom]
      | succ i =>
        simp only [prevFrom, Nat.add_one_ne_zero, if_false, Nat.add_sub_cancel]
        exact hmono i (by omega)
    simp only [prevFrom, Nat.add_one_ne_zero, if_false, Nat.add_sub_cancel] at hle ⊢
    omega

/-- C21: layer and attribute counts come from the offset table. For every
store `layer_count()` is at least 1; without an offset table (and with an
empty one) it is 1 and `attribute_count(0)` is the record count; after
`release_layers` the store keeps its records, has no table, `layer_count()` 1
and `attribute_count(0)` the total record count; with a table `L` of `k > 0`
offsets `layer_count()` is `k` and `attribute_count(i) = L[i] - L[i-1]` with
`L[-1] = 0`, and when `L` is non-decreasing the counts of all layers add up to
`L[k-1]`. -/
theorem layer_counts (m : MaterialData) :
    1 ≤ m.layerCount ∧
    (m.layerData = none ∨ m.layerData = some [] →
      m.layerCount = 1 ∧ m.attributeCount 0 = m.attributeData.length) ∧
    (m.releaseLayers.2 = m.layerData ∧ m.releaseLayers.1.layerData = none ∧
      m.releaseLayers.1.attributeData = m.attributeData ∧
      m.releaseLayers.1.layerCount = 1 ∧
      m.releaseLayers.1.attributeCount 0 = m.attributeData.length) ∧
    (∀ L : List Nat, L ≠ [] → m.layerData = some L →
      m.layerCount = L.length ∧
      (∀ i, i < L.length →
        m.attributeCount i = L.getD i 0 - (if i = 0 then 0 else L.getD (i - 1) 0)) ∧
      ((∀ k, k + 1 < L.length → L.getD k 0 ≤ L.getD (k + 1) 0) →
        ((List.range m.layerCount).map m.attributeCount).sum = L.getD (L.length - 1) 0)) := by
  refine ⟨m.layerCount_pos, ?_, ?_, ?_⟩
  · intro h
    have hoff : m.offsets = [m.attributeData.length] := by
      unfold MaterialData.offsets
      rcases h with h | h <;> rw [h] <;> rfl
    simp [MaterialData.layerCount, MaterialData.attributeCount, MaterialData.layerEnd,
      MaterialData.layerBegin, hoff, prevFrom]
  · refine ⟨rfl, rfl, rfl, ?_, ?_⟩ <;>
      simp [MaterialData.releaseLayers, MaterialData.layerCount, MaterialData.attributeCount,
        MaterialData.layerEnd, MaterialData.layerBegin, MaterialData.offsets, offsetsOf, prevFrom]
  · intro L hL hm
    have hoff : m.offsets = L := by
      unfold MaterialData.offsets
      rw [hm]
      exact offsetsOf_some_prev L _ hL
    have hcount : ∀ i, m.attributeCount i = L.getD i 0 - prevFrom 0 L i := by
      intro i
      simp only [MaterialData.attributeCount, MaterialData.layerEnd, MaterialData.layerBegin,
        hoff]
    refine ⟨by rw [MaterialData.layerCount, hoff], fun i _ => ?_, fun hmono => ?_⟩
    · rw [hcount]
      rfl
    · have hfun : m.attributeCount = fun i => L.getD i 0 - prevFrom 0 L i := funext hcount
      rw [MaterialData.layerCount, hoff, hfun, counts_sum L hmono L.length (Nat.le_refl _)]
      have : L.length ≠ 0 := fun h => hL (List.length_eq_zero.1 h)
      simp [prevFrom, this]

/-- C21, the store of `constructLayers`, offsets `2, 5, 5, 7` over seven
records: four layers with 2, 3, 0 and 2 attributes, 7 in total; once the table
is released, one layer of 7 attributes. -/
theorem layer_counts_witness :
    constructLayersStore.layerCount = 4 ∧
    (List.range 4).map constructLayersStore.attributeCount = [2, 3, 0, 2] ∧
    ((List.range constructLayersStore.layerCount).map constructLayersStore.attributeCount).sum
      = 7 ∧
    constructLayersStore.releaseLayers.2 = some [2, 5, 5, 7] ∧
    constructLayersStore.releaseLayers.1.layerCount = 1 ∧
    constructLayersStore.releaseLayers.1.attributeCount 0 = 7 :=
  ⟨((layer_counts constructLayersStore).2.2.2 [2, 5, 5, 7] (by decide) rfl).1,
    by decide,
    ((layer_counts constructLayersStore).2.2.2 [2, 5, 5, 7] (by decide) rfl).2.2
      (fun k hk => by
        have hk3 : k < 3 := by simp only [List.length_cons, List.length_nil] at hk; omega
        interval_cases k <;> decide),
    (layer_counts constructLayersStore).2.2.1.1,
    (layer_counts constructLayersStore).2.2.1.2.2.2.1,
    (layer_counts constructLayersStore).2.2.1.2.2.2.2⟩

/-- The index reported by the check for empty records is that of the first
record of type 0. -/
theorem checkEmpty_first : ∀ (recs : List AttributeRecord) (i0 i : Nat),
    checkEmpty recs i0 = .error (.EmptyRecord (i0 + i)) ↔
      (∃ r, recs[i]? = some r ∧ r.type = 0) ∧
        ∀ j r, j < i → recs[j]? = some r → r.type ≠ 0
  | [], i0, i => by simp [checkEmpty]
  | r :: rest, i0, i => by
    rw [checkEmpty]
    by_cases hr : r.type = 0
    · simp only [hr, if_true, Except.error.injEq, Error.EmptyRecord.injEq]
      constructor
      · intro h
        have hi : i = 0 := by omega
        subst hi
        exact ⟨⟨r, by simp, hr⟩, fun j _ hj => by omega⟩
      · rintro ⟨_, hfirst⟩
        cases i with
        | zero => rfl
        | succ i => exact absurd hr (hfirst 0 r (by omega) (by simp))
    · simp only [hr, if_false]
      cases i with
      | zero =>
        constructor
        · intro h
          obtain ⟨k, hk⟩ := checkEmpty_error _ _ _ h
          exfalso
          have hlt : ∀ (l : List AttributeRecord) (a k : Nat),
              checkEmpty l a = .error (.EmptyRecord k) → a ≤ k := by
            intro l
            induction l with
            | nil => intro a k h; simp [checkEmpty] at h
            | cons x xs ih =>
              intro a k h
              rw [checkEmpty] at h
              split at h
              · simp only [Except.error.injEq, Error.EmptyRecord.injEq] at h
                omega
              · have := ih _ _ h
                omega
          have := hlt _ _ _ h
          omega
        · rintro ⟨⟨r', hr', h0⟩, _⟩
          simp only [List.getElem?_cons_zero, Option.some.injEq] at hr'
          subst hr'
          exact absurd h0 hr
      | succ i =>
        have := checkEmpty_first rest (i0 + 1) i
        rw [show i0 + 1 + i = i0 + (i + 1) by omega] at this
        rw [this]
        constructor
        · rintro ⟨⟨r', hr', h0⟩, hfirst⟩
          refine ⟨⟨r', by simpa using hr', h0⟩, fun j x hj hx => ?_⟩
          cases j with
          | zero =>
            simp only [List.getElem?_cons_zero, Option.some.injEq] at hx
            subst hx
            exact hr
          | succ j => exact hfirst j x (by omega) (by simpa using hx)
        · rintro ⟨⟨r', hr', h0⟩, hfirst⟩
          exact ⟨⟨r', by simpa using hr', h0⟩,
            fun j x hj hx => hfirst (j + 1) x (by omega) (by simpa using hx)⟩

/-- The order check of non-owned records stops at the first pair of
neighbours that is not strictly ascending: equal names are reported as a
duplicate, a smaller name as not sorted. -/
theorem checkOrder_first : ∀ (recs : List AttributeRecord) (j : Nat) (a b : AttributeRecord),
    recs[j]? = some a → recs[j + 1]? = some b → b.name ≤ a.name →
    (∀ i x y, i < j → recs[i]? = some x → recs[i + 1]? = some y → x.name < y.name) →
    checkOrder false recs =
      .error (if a.name = b.name then .DuplicateAttribute b.name else .NotSorted b.name)
  | [], j, a, b, ha, _, _, _ => by simp at ha
  | [_], j, a, b, _, hb, _, _ => by simp at hb
  | x :: y :: rest, 0, a, b, ha, hb, hle, _ => by
    simp only [List.getElem?_cons_zero, Option.some.injEq, Nat.zero_add,
      List.getElem?_cons_succ] at ha hb
    subst ha hb
    rw [checkOrder]
    by_cases heq : x.name = y.name
    · simp [heq]
    · have hlt : y.name < x.name := lt_of_le_of_ne hle (Ne.symm heq)
      simp [heq, hlt]
  | x :: y :: rest, j + 1, a, b, ha, hb, hle, hfirst => by
    have hxy : x.name < y.name := hfirst 0 x y (by omega) (by simp) (by simp)
    rw [checkOrder]
    have hne : x.name ≠ y.name := ne_of_lt hxy
    have hnlt : ¬ y.name < x.name := not_lt_of_lt hxy
    simp only [hne, if_false, hnlt, and_false]
    exact checkOrder_first (y :: rest) j a b (by simpa using ha) (by simpa using hb) hle
      fun i u v hi hu hv => hfirst (i + 1) u v (by omega) (by simpa using hu) (by simpa using hv)

/-- An error of the order check of non-owned records comes from a pair of
neighbours: equal names for a duplicate, a smaller name behind a greater one
for records that are not sorted. -/
theorem checkOrder_error_pair : ∀ (recs : List AttributeRecord) (e : Error),
    checkOrder false recs = .error e →
      ∃ j a b, recs[j]? = some a ∧ recs[j + 1]? = some b ∧
        ((a.name = b.name ∧ e = .DuplicateAttribute b.name) ∨
          (b.name < a.name ∧ e = .NotSorted b.name))
  | [], e, h => by simp [checkOrder] at h
  | [_], e, h => by simp [checkOrder] at h
  | x :: y :: rest, e, h => by
    rw [checkOrder] at h
    split at h
    · rename_i heq
      cases h
      exact ⟨0, x, y, by simp, by simp, Or.inl ⟨heq, rfl⟩⟩
    · split at h
      · rename_i hlt
        cases h
        exact ⟨0, x, y, by simp, by simp, Or.inr ⟨hlt.2, rfl⟩⟩
      · obtain ⟨j, a, b, ha, hb, hk⟩ := checkOrder_error_pair (y :: rest) e h
        exact ⟨j + 1, a, b, by simpa using ha, by simpa using hb, hk⟩

/-- The check of the layers gives the error of the first layer whose check
fails. -/
theorem checkLayers_first (owned : Bool) (recs : List AttributeRecord) :
    ∀ (L : List Nat) (b k : Nat) (e : Error), k < L.length →
      (∀ k', k' < k → checkOrder owned (slice recs (prevFrom b L k') (L.getD k' 0)) = .ok ()) →
      checkOrder owned (slice recs (prevFrom b L k) (L.getD k 0)) = .error e →
      checkLayers owned recs L b = .error e
  | [], b, k, e, hk, _, _ => by simp at hk
  | c :: rest, b, 0, e, _, _, herr => by
    simp only [prevFrom, if_true, List.getD_cons_zero] at herr
    rw [checkLayers, herr]
  | c :: rest, b, k + 1, e, hk, hok, herr => by
    have h0 := hok 0 (by omega)
    simp only [prevFrom, if_true, List.getD_cons_zero] at h0
    rw [checkLayers, h0]
    simp only
    refine checkLayers_first owned recs rest c k e (by simpa using hk) (fun k' hk' => ?_) ?_
    · have := hok (k' + 1) (by omega)
      rw [prevFrom_cons_succ] at this
      simpa using this
    · rw [prevFrom_cons_succ] at herr
      simpa using herr

/-- Non-owned construction once the records are non-empty and the offsets
valid: the result of the check of the layers, and the input as it is. -/
theorem constructNonOwned_eq (attrs : List AttributeRecord) (layers : Option (List Nat))
    (hne : ∀ r ∈ attrs, r.type ≠ 0)
    (hvalid : validateLayers attrs.length (offsetsOf layers attrs.length) 0 0 = .ok ()) :
    MaterialData.constructNonOwned attrs layers =
      match checkLayers false attrs (offsetsOf layers attrs.length) 0 with
      | .error e => .error e
      | .ok () => .ok ⟨attrs, layers⟩ := by
  unfold MaterialData.constructNonOwned
  rw [(checkEmpty_ok_iff attrs 0).2 hne, hvalid]
  try rfl

/-- C22: non-owned construction validates and never reorders. It fails with
`EmptyRecord i` exactly when record `i` is the first default-constructed one;
when it succeeds the store holds the caller's records in the given order with
the given table. For non-empty records and valid offsets: it succeeds iff in
every layer the names are strictly ascending; at the first pair of neighbours
of a layer (no earlier layer and no earlier pair of that layer being out of
order) whose second name is not above the first it fails with
`DuplicateAttribute` when the names are equal and with `NotSorted` when the
second is byte-wise smaller, reporting the second name; and every `NotSorted`
or `DuplicateAttribute` failure reports such a pair. -/
theorem nonowned_validates (attrs : List AttributeRecord) (layers : Option (List Nat)) :
    (∀ i, MaterialData.constructNonOwned attrs layers = .error (.EmptyRecord i) ↔
      (∃ r, attrs[i]? = some r ∧ r.type = 0) ∧
        ∀ j r, j < i → attrs[j]? = some r → r.type ≠ 0) ∧
    (∀ m, MaterialData.constructNonOwned attrs layers = .ok m →
      m = ⟨attrs, layers⟩ ∧ m.WF) ∧
    ((∀ r ∈ attrs, r.type ≠ 0) →
      validateLayers attrs.length (offsetsOf layers attrs.length) 0 0 = .ok () →
      (MaterialData.constructNonOwned attrs layers = .ok ⟨attrs, layers⟩ ↔
        ∀ l, l < (MaterialData.mk attrs layers).layerCount →
          (((MaterialData.mk attrs layers).layer l).map AttributeRecord.name).Sorted
            (· < ·)) ∧
      (∀ l j a b, l < (MaterialData.mk attrs layers).layerCount →
        ((MaterialData.mk attrs layers).layer l)[j]? = some a →
        ((MaterialData.mk attrs layers).layer l)[j + 1]? = some b → b.name ≤ a.name →
        (∀ l', l' < l →
          (((MaterialData.mk attrs layers).layer l').map AttributeRecord.name).Sorted
            (· < ·)) →
        (∀ i x y, i < j → ((MaterialData.mk attrs layers).layer l)[i]? = some x →
          ((MaterialData.mk attrs layers).layer l)[i + 1]? = some y → x.name < y.name) →
        MaterialData.constructNonOwned attrs layers =
          .error (if a.name = b.name then .DuplicateAttribute b.name
            else .NotSorted b.name)) ∧
      (∀ nm, MaterialData.constructNonOwned attrs layers = .error (.NotSorted nm) →
        ∃ l j a b, l < (MaterialData.mk attrs layers).layerCount ∧
          ((MaterialData.mk attrs layers).layer l)[j]? = some a ∧
          ((MaterialData.mk attrs layers).layer l)[j + 1]? = some b ∧
          b.name < a.name ∧ nm = b.name) ∧
      (∀ nm, MaterialData.constructNonOwned attrs layers = .error (.DuplicateAttribute nm) →
        ∃ l j a b, l < (MaterialData.mk attrs layers).layerCount ∧
          ((MaterialData.mk attrs layers).layer l)[j]? = some a ∧
          ((MaterialData.mk attrs layers).layer l)[j + 1]? = some b ∧
          a.name = b.name ∧ nm = b.name)) := by
  refine ⟨fun i => ?_, fun m hm => ?_, fun hne hvalid => ?_⟩
  · rw [← checkEmpty_first attrs 0 i, Nat.zero_add]
    unfold MaterialData.constructNonOwned
    cases hce : checkEmpty attrs 0 with
    | error e => simp
    | ok u =>
      cases u
      simp only
      constructor
      · intro h
        exfalso
        split at h
        · rename_i e he
          obtain ⟨k, -, hk, -⟩ := (validateLayers_error_iff _ _ _ _ _).1 he
          rw [hk] at h
          cases h
        · split at h
          · rename_i e he
            rcases checkLayers_error _ _ _ _ _ he with ⟨nm, hnm⟩ | ⟨nm, hnm⟩ <;>
              · rw [hnm] at h
                cases h
          · cases h
      · intro h
        cases h
  · refine ⟨?_, constructNonOwned_wf attrs layers m hm⟩
    unfold MaterialData.constructNonOwned at hm
    split at hm
    · cases hm
    · split at hm
      · cases hm
      · split at hm
        · cases hm
        · simp only [Except.ok.injEq] at hm
          exact hm.symm
  · have heq := constructNonOwned_eq attrs layers hne hvalid
    have hlayer : ∀ l, (MaterialData.mk attrs layers).layer l =
        slice attrs (prevFrom 0 (offsetsOf layers attrs.length) l)
          ((offsetsOf layers attrs.length).getD l 0) := fun l => rfl
    have hcount : (MaterialData.mk attrs layers).layerCount =
        (offsetsOf layers attrs.length).length := rfl
    have hsorted : ∀ l, checkOrder false ((MaterialData.mk attrs layers).layer l) = .ok () ↔
        (((MaterialData.mk attrs layers).layer l).map AttributeRecord.name).Sorted (· < ·) :=
      fun l => checkOrder_ok_iff false _ (fun h => by cases h)
    refine ⟨?_, ?_, ?_, ?_⟩
    · rw [heq]
      constructor
      · intro h l hl
        rw [← hsorted, hlayer]
        cases hc : checkLayers false attrs (offsetsOf layers attrs.length) 0 with
        | error e => rw [hc] at h; cases h
        | ok u =>
          cases u
          exact (checkLayers_ok_iff false _ _ _).1 hc l (by rw [← hcount]; exact hl)
      · intro h
        have : checkLayers false attrs (offsetsOf layers attrs.length) 0 = .ok () :=
          (checkLayers_ok_iff false _ _ _).2 fun k hk => by
            rw [← hlayer, hsorted]
            exact h k (by rw [hcount]; exact hk)
        rw [this]
    · intro l j a b hl ha hb hle hprev hfirst
      rw [heq]
      have herr := checkOrder_first _ j a b ha hb hle hfirst
      rw [hlayer] at herr
      rw [checkLayers_first false attrs _ 0 l _ (by rw [← hcount]; exact hl)
        (fun k' hk' => by rw [← hlayer, hsorted]; exact hprev k' hk') herr]
    · intro nm h
      rw [heq] at h
      cases hc : checkLayers false attrs (offsetsOf layers attrs.length) 0 with
      | ok u => cases u; rw [hc] at h; cases h
      | error e =>
        rw [hc] at h
        simp only [Except.error.injEq] at h
        subst h
        obtain ⟨l, hl, hle⟩ := checkLayers_error_layer false attrs _ _ _ hc
        rw [← hlayer] at hle
        obtain ⟨j, a, b, ha, hb, hk⟩ := checkOrder_error_pair _ _ hle
        rcases hk with ⟨_, he⟩ | ⟨hlt, he⟩
        · cases he
        · simp only [Error.NotSorted.injEq] at he
          exact ⟨l, j, a, b, by rw [hcount]; exact hl, ha, hb, hlt, he⟩
    · intro nm h
      rw [heq] at h
      cases hc : checkLayers false attrs (offsetsOf layers attrs.length) 0 with
      | ok u => cases u; rw [hc] at h; cases h
      | error e =>
        rw [hc] at h
        simp only [Except.error.injEq] at h
        subst h
        obtain ⟨l, hl, hle⟩ := checkLayers_error_layer false attrs _ _ _ hc
        rw [← hlayer] at hle
        obtain ⟨j, a, b, ha, hb, hk⟩ := checkOrder_error_pair _ _ hle
        rcases hk with ⟨hab, he⟩ | ⟨_, he⟩
        · simp only [Error.DuplicateAttribute.injEq] at he
          exact ⟨l, j, a, b, by rw [hcount]; exact hl, ha, hb, hab, he⟩
        · cases he

/-- C22, the inputs of `constructNonOwnedNotSorted`,
`constructNonOwnedDuplicateAttribute`, `constructNonOwnedEmptyAttribute` and
`constructNonOwned`: `[DiffuseTexture, DiffuseCoordinateSet]` is not sorted,
`[DiffuseCoordinateSet, DiffuseTexture, DiffuseTexture]` has a duplicate, a
default record at index 1 is reported with its index, and the sorted records
of `construct` are taken as they are. -/
theorem nonowned_validates_witness :
    MaterialData.constructNonOwned [diffuseTexture12, diffuseCoordinateSet] none =
      .error (.NotSorted (ascii "DiffuseCoordinateSet")) ∧
    MaterialData.constructNonOwned [diffuseCoordinateSet, diffuseTexture12, diffuseTexture35]
      none = .error (.DuplicateAttribute (ascii "DiffuseTexture")) ∧
    MaterialData.constructNonOwned [diffuseTexture12, AttributeRecord.default] none =
      .error (.EmptyRecord 1) ∧
    MaterialData.constructNonOwned
        [ambientTextureMatrix, diffuseCoordinateSet, doubleSided, highlightColor] none =
      .ok ⟨[ambientTextureMatrix, diffuseCoordinateSet, doubleSided, highlightColor], none⟩ :=
  ⟨(nonowned_validates [diffuseTexture12, diffuseCoordinateSet] none).2.2 (by decide) rfl
      |>.2.1 0 0 diffuseTexture12 diffuseCoordinateSet (by decide) rfl rfl (by decide)
        (fun l' hl' => absurd hl' (by omega)) (fun i _ _ hi => absurd hi (by omega)),
    (nonowned_validates [diffuseCoordinateSet, diffuseTexture12, diffuseTexture35] none).2.2
      (by decide) rfl |>.2.1 0 1 diffuseTexture12 diffuseTexture35 (by decide) rfl rfl
        (by decide) (fun l' hl' => absurd hl' (by omega))
        (fun i x y hi hx hy => by
          have hi0 : i = 0 := by omega
          subst hi0
          cases hx
          cases hy
          decide),
    (nonowned_validates [diffuseTexture12, AttributeRecord.default] none).1 1 |>.2
      ⟨⟨AttributeRecord.default, rfl, rfl⟩, fun j r hj hr => by
        have hj0 : j = 0 := by omega
        subst hj0
        cases hr
        decide⟩,
    (nonowned_validates [ambientTextureMatrix, diffuseCoordinateSet, doubleSided,
      highlightColor] none).2.2 (by decide) rfl |>.1.2 (fun l hl => by
        have hl0 : l = 0 := by
          simpa [MaterialData.layerCount, MaterialData.offsets, offsetsOf] using hl
        subst hl0
        decide)⟩

/-- C23 as stated fails: owned construction of the five records of
`constructLayersOffsetOutOfBounds` with the offset table `2, 4`, and non-owned
construction of the same records sorted inside the two layers, succeed, and
the final value 4 of the table of the store is not the record count 5. -/
theorem offsets_final_counterexample :
    ∃ m m', MaterialData.construct layersInput (some shortTable) = .ok m ∧
      MaterialData.constructNonOwned
        [diffuseCoordinateSet, doubleSided, layerNameHighlight, alphaBlend, normalTexture]
        (some shortTable) = .ok m' ∧
      m.layerData = some [2, 4] ∧ m.attributeData.length = 5 ∧
      m'.layerData = some [2, 4] ∧ m'.attributeData.length = 5 ∧
      m.layerEnd (m.layerCount - 1) = 4 ∧ m'.layerEnd (m'.layerCount - 1) = 4 :=
  ⟨_, _, rfl, rfl, rfl, rfl, rfl, rfl, rfl, rfl⟩

/-- A store that a construction gives has the table and as many records as
were given, and the validation of the table has passed. -/
theorem constructed_table (attrs : List AttributeRecord) (layers : Option (List Nat))
    (m : MaterialData)
    (h : MaterialData.construct attrs layers = .ok m ∨
      MaterialData.constructNonOwned attrs layers = .ok m) :
    m.layerData = layers ∧ m.attributeData.length = attrs.length ∧
      validateLayers attrs.length (offsetsOf layers attrs.length) 0 0 = .ok () := by
  rcases h with h | h
  · unfold MaterialData.construct at h
    split at h
    · cases h
    · split at h
      · cases h
      · rename_i hvalid
        dsimp only at h
        split at h
        · cases h
        · simp only [Except.ok.injEq] at h
          subst h
          exact ⟨rfl, (sorted_store attrs layers hvalid).2.1, hvalid⟩
  · unfold MaterialData.constructNonOwned at h
    split at h
    · cases h
    · split at h
      · cases h
      · rename_i hvalid
        split at h
        · cases h
        · simp only [Except.ok.injEq] at h
          subst h
          exact ⟨rfl, rfl, hvalid⟩

/-- C23 as amended: for every store that was successfully constructed, owned
or non-owned, with an offset table `L`, the store has that table and as many
records as were given, the table is non-decreasing and each of its values, the
final one in particular, is at most the record count. -/
theorem offsets_within_records (attrs : List AttributeRecord) (L : List Nat)
    (m : MaterialData)
    (h : MaterialData.construct attrs (some L) = .ok m ∨
      MaterialData.constructNonOwned attrs (some L) = .ok m) :
    m.layerData = some L ∧ m.attributeData.length = attrs.length ∧
    (∀ k, k + 1 < L.length → L.getD k 0 ≤ L.getD (k + 1) 0) ∧
    (∀ k, k < L.length → L.getD k 0 ≤ m.attributeData.length) ∧
    L.getD (L.length - 1) 0 ≤ m.attributeData.length := by
  obtain ⟨hl, hlen, hvalid⟩ := constructed_table attrs (some L) m h
  have hall : ∀ k, k < L.length →
      prevFrom 0 L k ≤ L.getD k 0 ∧ L.getD k 0 ≤ m.attributeData.length := by
    intro k hk
    have hL : L ≠ [] := fun h0 => by simp [h0] at hk
    rw [offsetsOf_some_prev L _ hL] at hvalid
    rw [hlen]
    exact (validateLayers_ok_iff _ _ _ _).1 hvalid k hk
  refine ⟨hl, hlen, fun k hk => ?_, fun k hk => (hall k hk).2, ?_⟩
  · have := (hall (k + 1) hk).1
    simpa [prevFrom] using this
  · by_cases hL : L.length = 0
    · simp [List.length_eq_zero.1 hL]
    · exact (hall (L.length - 1) (by omega)).2

/-- C23 as amended, on the five records of `constructLayersOffsetOutOfBounds`
with the table `2, 4`. -/
theorem offsets_within_records_witness :
    ∃ m, MaterialData.construct layersInput (some shortTable) = .ok m ∧
      m.layerData = some shortTable ∧ m.attributeData.length = layersInput.length ∧
      (∀ k, k + 1 < shortTable.length → shortTable.getD k 0 ≤ shortTable.getD (k + 1) 0) ∧
      (∀ k, k < shortTable.length → shortTable.getD k 0 ≤ m.attributeData.length) ∧
      shortTable.getD (shortTable.length - 1) 0 ≤ m.attributeData.length :=
  ⟨_, rfl, offsets_within_records layersInput shortTable _ (Or.inl rfl)⟩

/-- The name read back from a packed record is not longer than the name it
was packed from. -/
theorem packed_name_length (tag : Nat) (name rest : List Nat) :
    (AttributeRecord.mk (pad64 (tag :: name ++ [0] ++ rest))).name.length ≤ name.length := by
  have h : ∀ (l tail : List Nat),
      ((l ++ 0 :: tail).takeWhile fun b => decide (b ≠ 0)).length ≤ l.length := by
    intro l tail
    induction l with
    | nil => simp
    | cons x xs ih =>
      rw [List.cons_append, List.takeWhile_cons]
      split
      · simpa using ih
      · simp
  have := h name (rest ++ List.replicate (64 - (tag :: name ++ [0] ++ rest).length) 0)
  simpa [AttributeRecord.name, pad64] using this

/-- C24 as stated fails: the record `("templateAttrib", Matrix3x4(15))` of
`constructAttributeStringConstexpr` is constructed, with a name of 14 bytes
and a value of 48 bytes; name, terminator and value take 63 bytes. -/
theorem record_span_counterexample :
    ∃ r, AttributeRecord.ofValue (ascii "templateAttrib") .Matrix3x4 matrix3x4Fifteen = .ok r ∧
      r.name = ascii "templateAttrib" ∧ r.name.length = 14 ∧
      r.value .Matrix3x4 = .ok matrix3x4Fifteen ∧
      materialAttributeTypeSize r.type = .ok 48 ∧
      ¬ r.name.length + 1 + 48 ≤ 62 :=
  ⟨_, rfl, by decide, by decide, by rfl, by rfl, by decide⟩

/-- C24 as amended: for every successfully constructed record the total used
span, name length + 1 (NUL) + value size, is at most 63 bytes. For a
fixed-size type of `s` bytes this holds for the typed and the type-erased
constructor; for a String the value size counts the length byte, the bytes of
the value and its terminator. The name is taken as given and as read back from
the record. -/
theorem record_span (name : List Nat) (t : AttributeType) (v memory sv : List Nat) (s : Nat)
    (hsize : materialAttributeTypeSize t.tag = .ok s) :
    (∀ r, AttributeRecord.ofValue name t v = .ok r →
      name.length + 1 + s ≤ 63 ∧ r.name.length + 1 + s ≤ 63) ∧
    (∀ r, AttributeRecord.ofRaw name t.tag memory = .ok r →
      name.length + 1 + s ≤ 63 ∧ r.name.length + 1 + s ≤ 63) ∧
    (∀ r, AttributeRecord.ofString name sv = .ok r →
      name.length + 1 + (sv.length + 2) ≤ 63 ∧ r.name.length + 1 + (sv.length + 2) ≤ 63) := by
  refine ⟨fun r hr => ?_, fun r hr => ?_, fun r hr => ?_⟩
  · simp only [AttributeRecord.ofValue, hsize] at hr
    split at hr
    · cases hr
    · split at hr
      · rename_i hfit
        simp only [Except.ok.injEq] at hr
        subst hr
        have := packed_name_length t.tag name v
        omega
      · cases hr
  · simp only [AttributeRecord.ofRaw, hsize] at hr
    split at hr
    · rename_i hfit
      simp only [Except.ok.injEq] at hr
      subst hr
      have := packed_name_length t.tag name (memory.take s)
      omega
    · cases hr
  · simp only [AttributeRecord.ofString] at hr
    split at hr
    · rename_i hfit
      simp only [Except.ok.injEq] at hr
      subst hr
      have := packed_name_length AttributeType.String.tag name ([sv.length] ++ sv ++ [0])
      simp only [List.append_assoc] at this ⊢
      omega
    · cases hr

/-- C24 as amended, on `("templateAttrib", Matrix3x4(15))`, where the span is
63 bytes, and on the String record of
`constructAttributeStringNameStringValue`, name of 16 and value of 44 bytes. -/
theorem record_span_witness :
    materialAttributeTypeSize AttributeType.Matrix3x4.tag = .ok 48 ∧
    (∃ r, AttributeRecord.ofValue (ascii "templateAttrib") .Matrix3x4 matrix3x4Fifteen = .ok r ∧
      (ascii "templateAttrib").length + 1 + 48 ≤ 63 ∧ r.name.length + 1 + 48 = 63) ∧
    (∃ r, AttributeRecord.ofString longName (longValueMemory.take 44) = .ok r ∧
      longName.length + 1 + ((longValueMemory.take 44).length + 2) ≤ 63 ∧
      r.name.length + 1 + ((longValueMemory.take 44).length + 2) = 63) :=
  ⟨rfl,
    ⟨_, rfl, ((record_span (ascii "templateAttrib") .Matrix3x4 matrix3x4Fifteen []
      (longValueMemory.take 44) 48 rfl).1 _ rfl).1, by decide⟩,
    ⟨_, rfl, ((record_span longName .Matrix3x4 matrix3x4Fifteen []
      (longValueMemory.take 44) 48 rfl).2.2 _ rfl).1, by decide⟩⟩

/-- C25 as stated fails: `LayerName` is a known name and requires a String,
yet `(LayerName, "This is a problem, got a huge, yuuge value to store")` of
`constructAttributeTooLargeNameString`, a string of 51 bytes next to the name
of 10 bytes, yields no record: the construction fails with `RecordTooLarge`,
which is neither `InvalidName` nor `TypeMismatch`. -/
theorem known_name_too_large_counterexample :
    canonical layerNameTag = some (ascii "$LayerName", .String) ∧
    hugeText.length = 51 ∧
    AttributeRecord.ofName canonical layerNameTag .String hugeText =
      .error .RecordTooLarge ∧
    ¬ ∃ r, AttributeRecord.ofName canonical layerNameTag .String hugeText = .ok r :=
  ⟨rfl, by decide, rfl, fun ⟨_, hr⟩ => by
    have h : AttributeRecord.ofName canonical layerNameTag .String hugeText =
      .error .RecordTooLarge := rfl
    rw [h] at hr
    cases hr⟩

/-- C25 as amended: construction from a known name. Building a record from
`(AttributeName n, value of type T)`, `t` being `type_of<T>`, fails with
`InvalidName` when `n` is not a known tag, fails with `TypeMismatch` when `t`
differs from the type required for `n`, fails with `RecordTooLarge` when the
canonical string and the value do not fit the record (more than 62 bytes for a
value of a fixed size, more than 60 for a String), and otherwise yields a
record whose `name()` is exactly the canonical string of `n`, whose `type()`
is the required type and whose value is the given one. -/
theorem known_name_construction (names : Nat → Option (List Nat × AttributeType)) (n : Nat)
    (t : AttributeType) (value : List Nat) :
    (names n = none → AttributeRecord.ofName names n t value = .error .InvalidName) ∧
    (∀ s required, names n = some (s, required) → t ≠ required →
      AttributeRecord.ofName names n t value = .error .TypeMismatch) ∧
    (∀ s size, names n = some (s, t) → (∀ b ∈ s, b ≠ 0) →
      materialAttributeTypeSize t.tag = .ok size → value.length = size →
      (¬ s.length + size ≤ 62 →
        AttributeRecord.ofName names n t value = .error .RecordTooLarge) ∧
      (s.length + size ≤ 62 →
        ∃ r, AttributeRecord.ofName names n t value = .ok r ∧ r.name = s ∧
          r.type = t.tag ∧ r.nameTerminator = some 0 ∧ r.value t = .ok value)) ∧
    (∀ s, names n = some (s, t) → (∀ b ∈ s, b ≠ 0) → t = .String →
      (¬ s.length + value.length ≤ 60 →
        AttributeRecord.ofName names n t value = .error .RecordTooLarge) ∧
      (s.length + value.length ≤ 60 →
        ∃ r, AttributeRecord.ofName names n t value = .ok r ∧ r.name = s ∧
          r.type = AttributeType.String.tag ∧ r.nameTerminator = some 0 ∧
          r.stringValue = .ok value)) := by
  refine ⟨fun h => ?_, fun s required h hne => ?_, fun s size h hs hsize hlen => ?_,
    fun s h hs ht => ?_⟩
  · simp only [AttributeRecord.ofName, h]
  · simp only [AttributeRecord.ofName, h, hne, ne_eq, not_false_eq_true, if_true]
  · have hts := size_ne_string hsize
    have hof : AttributeRecord.ofName names n t value = AttributeRecord.ofValue s t value := by
      simp only [AttributeRecord.ofName, h, ne_eq, not_true_eq_false, if_false, hts]
    rw [hof]
    refine ⟨fun hfit => ?_, fun hfit => ?_⟩
    · have hfit2 : ¬ s.length + size + 2 ≤ 64 := by omega
      simp only [AttributeRecord.ofValue, hsize, hlen, ne_eq, not_true_eq_false, if_false,
        hfit2]
    · have hfit2 : s.length + size + 2 ≤ 64 := by omega
      obtain ⟨h1, h2, h3, h4⟩ := packed_fixed s value t.tag hs (tag_ne_string hts)
      refine ⟨⟨pad64 (t.tag :: s ++ [0] ++ value)⟩, ?_, h2, h1, h3, ?_⟩
      · simp only [AttributeRecord.ofValue, hsize, hlen, ne_eq, not_true_eq_false, if_false,
          hfit2, if_true]
      · rw [hlen] at h4
        simp only [AttributeRecord.value, hts, h1, ne_eq, not_true_eq_false, or_self, if_false,
          hsize, h4]
  · have hof : AttributeRecord.ofName names n t value = AttributeRecord.ofString s value := by
      simp only [AttributeRecord.ofName, h, ne_eq, not_true_eq_false, if_false, ht, if_true]
    rw [hof]
    refine ⟨fun hfit => ?_, fun hfit => ?_⟩
    · have hfit2 : ¬ s.length + value.length + 4 ≤ 64 := by omega
      simp only [AttributeRecord.ofString, hfit2, if_false]
    · have hfit2 : s.length + value.length + 4 ≤ 64 := by omega
      obtain ⟨h1, h2, h3, h4, -, -⟩ := packed_string s value hs
      exact ⟨_, by simp only [AttributeRecord.ofString, hfit2, if_true], h2, h1, h3, h4⟩

/-- C25 as amended, on the inputs of `constructAttributeInvalidName` (the tags
`0x0` and `0xfefe` with the `Int` 5), `constructAttributeWrongTypeForName`
(`DiffuseColor` with a `Vector3ui`), `constructAttributeName` (`DiffuseColor`
with the colour `0xff3366aa`), `constructAttributeNameStringValue` and
`constructAttributeTooLargeNameString`. -/
theorem known_name_construction_witness :
    AttributeRecord.ofName canonical 0 .Int32 [5, 0, 0, 0] = .error .InvalidName ∧
    AttributeRecord.ofName canonical 0xfefe .Int32 [5, 0, 0, 0] = .error .InvalidName ∧
    AttributeRecord.ofName canonical diffuseColorTag .Vector3ui
      [255, 0, 0, 0, 16, 0, 0, 0, 24, 0, 0, 0] = .error .TypeMismatch ∧
    (∃ r, AttributeRecord.ofName canonical diffuseColorTag .Vector4 (f1 ++ f33 ++ f66 ++ faa)
        = .ok r ∧ r.name = ascii "DiffuseColor" ∧ r.type = AttributeType.Vector4.tag ∧
      r.nameTerminator = some 0 ∧ r.value .Vector4 = .ok (f1 ++ f33 ++ f66 ++ faa)) ∧
    (∃ r, AttributeRecord.ofName canonical layerNameTag .String
        (ascii "a value" ++ [0] ++ ascii "that" ++ [39] ++ ascii "s long but still fits!")
        = .ok r ∧ r.name = ascii "$LayerName" ∧ r.type = AttributeType.String.tag ∧
      r.nameTerminator = some 0 ∧
      r.stringValue = .ok
        (ascii "a value" ++ [0] ++ ascii "that" ++ [39] ++ ascii "s long but still fits!")) ∧
    AttributeRecord.ofName canonical layerNameTag .String hugeText = .error .RecordTooLarge :=
  ⟨(known_name_construction canonical 0 .Int32 [5, 0, 0, 0]).1 rfl,
    (known_name_construction canonical 0xfefe .Int32 [5, 0, 0, 0]).1 rfl,
    (known_name_construction canonical diffuseColorTag .Vector3ui
      [255, 0, 0, 0, 16, 0, 0, 0, 24, 0, 0, 0]).2.1 (ascii "DiffuseColor") .Vector4 rfl
      (by decide),
    ((known_name_construction canonical diffuseColorTag .Vector4
      (f1 ++ f33 ++ f66 ++ faa)).2.2.1 (ascii "DiffuseColor") 16 rfl (by decide) rfl rfl).2
      (by decide),
    ((known_name_construction canonical layerNameTag .String
      (ascii "a value" ++ [0] ++ ascii "that" ++ [39] ++ ascii "s long but still fits!")).2.2.2
      (ascii "$LayerName") rfl (by decide) rfl).2 (by decide),
    ((known_name_construction canonical layerNameTag .String hugeText).2.2.2
      (ascii "$LayerName") rfl (by decide) rfl).1 (by decide)⟩

theorem AttributeType.tag_injective {t t' : AttributeType} (h : t.tag = t'.tag) : t = t' := by
  have h1 := AttributeType.ofTag_tag t
  rw [h, AttributeType.ofTag_tag t'] at h1
  exact (Option.some.inj h1).symm

/-- The fixed-size accessor on a record of type `t`: it gives the value bytes
for `t` itself and fails for every other type. -/
theorem value_checked (r : AttributeRecord) (t t' : AttributeType) (hr : r.type = t.tag) :
    (t' = t → t ≠ .String →
      ∃ size, materialAttributeTypeSize t.tag = .ok size ∧
        r.value t' = .ok (r.rawValue.take size)) ∧
    (t' ≠ t ∨ t = .String → r.value t' = .error .TypeMismatch) := by
  constructor
  · intro h hs
    subst h
    have hsize : ∃ size, materialAttributeTypeSize t'.tag = .ok size := by
      cases t' <;> first | exact absurd rfl hs | exact ⟨_, rfl⟩
    obtain ⟨size, hsize⟩ := hsize
    exact ⟨size, hsize, by simp [AttributeRecord.value, hs, hr, hsize]⟩
  · intro h
    have : t' = .String ∨ r.type ≠ t'.tag := by
      by_cases h1 : t' = t
      · subst h1
        rcases h with h | h
        · exact absurd rfl h
        · exact Or.inl h
      · right
        rw [hr]
        exact fun h2 => h1 (AttributeType.tag_injective h2).symm
    simp only [AttributeRecord.value, this, if_true]

/-- The string accessor on a record of type `t`. -/
theorem stringValue_checked (r : AttributeRecord) (t : AttributeType) (hr : r.type = t.tag) :
    (t ≠ .String → r.stringValue = .error .TypeMismatch) ∧
    (t = .String → ∃ v, r.stringValue = .ok v) := by
  constructor
  · intro h
    simp [AttributeRecord.stringValue, hr, tag_ne_string h]
  · intro h
    subst h
    exact ⟨r.rawValue.take (r.data.getD (r.name.length + 2) 0),
      by simp only [AttributeRecord.stringValue, hr, ne_eq, not_true_eq_false, if_false]⟩

/-- A record of a layer is what the accessors by index and by name read. -/
theorem attributeAs_eq {m : MaterialData} (hwf : m.WF) {l i : Nat} {r : AttributeRecord}
    (hl : l < m.layerCount) (hi : i < m.attributeCount l)
    (hr : m.attributeData[m.layerBegin l + i]? = some r) (T : AccessType) :
    m.attributeAs l i T = r.valueAs T ∧ m.attributeAsByName l r.name T = r.valueAs T := by
  constructor
  · obtain ⟨r', hr', hrec⟩ := recordAt_eq hwf hl hi
    rw [hr] at hr'
    cases hr'
    simp only [MaterialData.attributeAs, hrec]
  · simp only [MaterialData.attributeAsByName, MaterialData.find_of_mem hwf hl hi hr]

/-- C26: typed access checks the type. For a record whose type tag is that of
`t`: when `t` is neither a pointer type nor String, `value<T>()` succeeds iff
`type_of<T>` is `t` and fails with `TypeMismatch` otherwise; when `t` is not
String, retrieving the record as a string view fails with `TypeMismatch`; when
`t` is String, retrieving it through any type but a string view fails with
`TypeMismatch`. When the record stands at index `i` of layer `l` of a store,
`attribute<T>(l, i)` and `attribute<T>(l, name)` give what `value<T>()` of the
record gives, so the same holds for them. -/
theorem typed_access_checked (r : AttributeRecord) (t : AttributeType)
    (hr : r.type = t.tag) :
    (t ≠ .Pointer → t ≠ .MutablePointer → t ≠ .String → ∀ T : AccessType,
      ((∃ v, r.valueAs T = .ok v) ↔ T.typeOf = t) ∧
      (T.typeOf ≠ t → r.valueAs T = .error .TypeMismatch)) ∧
    (t ≠ .String → r.valueAs .stringView = .error .TypeMismatch) ∧
    (t = .String → ∀ T : AccessType, T ≠ .stringView →
      r.valueAs T = .error .TypeMismatch) ∧
    (∀ (m : MaterialData) (l i : Nat), m.WF → l < m.layerCount → i < m.attributeCount l →
      m.attributeData[m.layerBegin l + i]? = some r → ∀ T : AccessType,
        m.attributeAs l i T = r.valueAs T ∧ m.attributeAsByName l r.name T = r.valueAs T) := by
  have hfail : ∀ T : AccessType, T.typeOf ≠ t → r.valueAs T = .error .TypeMismatch := by
    intro T hT
    cases T with
    | plain t' => exact (value_checked r t t' hr).2 (Or.inl hT)
    | constPointer p => exact (value_checked r t .Pointer hr).2 (Or.inl hT)
    | mutablePointer p => exact (value_checked r t .MutablePointer hr).2 (Or.inl hT)
    | stringView =>
      exact (stringValue_checked r t hr).1 fun h => hT h.symm
  refine ⟨fun hp hmp hs T => ⟨⟨fun ⟨v, hv⟩ => ?_, fun hT => ?_⟩, hfail T⟩,
    fun hs => (stringValue_checked r t hr).1 hs, fun hs T hT => ?_,
    fun m l i hwf hl hi hrec T => attributeAs_eq hwf hl hi hrec T⟩
  · by_contra hT
    rw [hfail T hT] at hv
    cases hv
  · cases T with
    | plain t' =>
      obtain ⟨size, -, hv⟩ := (value_checked r t t' hr).1 hT hs
      exact ⟨_, hv⟩
    | constPointer p => exact absurd hT.symm hp
    | mutablePointer p => exact absurd hT.symm hmp
    | stringView => exact absurd hT.symm hs
  · cases T with
    | plain t' => exact (value_checked r t t' hr).2 (Or.inr hs)
    | constPointer p => exact (value_checked r t .Pointer hr).2 (Or.inr hs)
    | mutablePointer p => exact (value_checked r t .MutablePointer hr).2 (Or.inr hs)
    | stringView => exact absurd rfl hT

/-- C26, on the record `("thing3", Matrix4x3{})` read as `Int` and as a string
view (`constructAttributeWrongAccessType`,
`constructAttributeWrongAccessTypeString`), on the `Vector4` attribute
`DiffuseColor` read as `Color3` by index and by name (`accessWrongType`) and
on the `Float` attribute `Shininess` read as a string view
(`accessWrongTypeString`). -/
theorem typed_access_checked_witness :
    thing3.type = AttributeType.Matrix4x3.tag ∧
    thing3.valueAs (.plain .Int32) = .error .TypeMismatch ∧
    thing3.valueAs .stringView = .error .TypeMismatch ∧
    (∃ v, thing3.valueAs (.plain .Matrix4x3) = .ok v) ∧
    accessWrongTypeStore.attributeAs 0 0 (.plain .Vector3) = .error .TypeMismatch ∧
    accessWrongTypeStore.attributeAsByName 0 (ascii "DiffuseColor") (.plain .Vector3) =
      .error .TypeMismatch ∧
    accessWrongTypeStringStore.attributeAs 0 0 .stringView = .error .TypeMismatch ∧
    accessWrongTypeStringStore.attributeAsByName 0 (ascii "Shininess") .stringView =
      .error .TypeMismatch :=
  ⟨rfl,
    ((typed_access_checked thing3 .Matrix4x3 rfl).1 (by decide) (by decide) (by decide)
      (.plain .Int32)).2 (by decide),
    (typed_access_checked thing3 .Matrix4x3 rfl).2.1 (by decide),
    ((typed_access_checked thing3 .Matrix4x3 rfl).1 (by decide) (by decide) (by decide)
      (.plain .Matrix4x3)).1.2 rfl,
    (((typed_access_checked diffuseColor .Vector4 rfl).2.2.2 accessWrongTypeStore 0 0
      (constructNonOwned_wf [diffuseColor] none _ rfl) (by decide) (by decide) rfl
      (.plain .Vector3)).1).trans
      (((typed_access_checked diffuseColor .Vector4 rfl).1 (by decide) (by decide) (by decide)
        (.plain .Vector3)).2 (by decide)),
    (((typed_access_checked diffuseColor .Vector4 rfl).2.2.2 accessWrongTypeStore 0 0
      (constructNonOwned_wf [diffuseColor] none _ rfl) (by decide) (by decide) rfl
      (.plain .Vector3)).2).trans
      (((typed_access_checked diffuseColor .Vector4 rfl).1 (by decide) (by decide) (by decide)
        (.plain .Vector3)).2 (by decide)),
    (((typed_access_checked shininessZero .Float rfl).2.2.2 accessWrongTypeStringStore 0 0
      (constructNonOwned_wf [shininessZero] none _ rfl) (by decide) (by decide) rfl
      .stringView).1).trans
      ((typed_access_checked shininessZero .Float rfl).2.1 (by decide)),
    (((typed_access_checked shininessZero .Float rfl).2.2.2 accessWrongTypeStringStore 0 0
      (constructNonOwned_wf [shininessZero] none _ rfl) (by decide) (by decide) rfl
      .stringView).2).trans
      ((typed_access_checked shininessZero .Float rfl).2.1 (by decide))⟩

/-- C27 as stated fails: the record `("mutablePointer", &a)` of
`accessWrongPointerType`, of type `MutablePointer`, read through the pointer
type `const Int*`, and the record `("pointer", &b)`, of type `Pointer`, read
through the pointer type `Double*`, give `TypeMismatch`, from the record and
from the store. -/
theorem pointer_constness_counterexample :
    AttributeRecord.ofPointer (ascii "mutablePointer") true addressA =
      .ok mutablePointerRecord ∧
    AttributeRecord.ofPointer (ascii "pointer") false addressB = .ok pointerRecord ∧
    mutablePointerRecord.type = AttributeType.MutablePointer.tag ∧
    pointerRecord.type = AttributeType.Pointer.tag ∧
    mutablePointerRecord.valueAs (.constPointer pointeeInt) = .error .TypeMismatch ∧
    pointerRecord.valueAs (.mutablePointer pointeeDouble) = .error .TypeMismatch ∧
    MaterialData.construct [mutablePointerRecord, pointerRecord] none =
      .ok accessWrongPointerStore ∧
    accessWrongPointerStore.attributeAsByName 0 (ascii "mutablePointer")
      (.constPointer pointeeInt) = .error .TypeMismatch ∧
    accessWrongPointerStore.attributeAsByName 0 (ascii "pointer")
      (.mutablePointer pointeeDouble) = .error .TypeMismatch :=
  ⟨rfl, rfl, rfl, rfl, rfl, rfl, rfl, rfl, rfl⟩

/-- C27 as amended: for every record of type `Pointer`, `value<T>()` may be
called with any pointer-to-const type `T` (`const void*` included), and for
every record of type `MutablePointer` with any pointer-to-mutable type `T`
(`void*` included), and returns the stored raw pointer, whatever the pointee
type; a pointer type of the other constness fails with `TypeMismatch`. The
stored raw pointer is the address the record was constructed from. -/
theorem pointer_access (r : AttributeRecord) :
    (r.type = AttributeType.Pointer.tag → ∀ p,
      r.valueAs (.constPointer p) = .ok (r.rawValue.take pointerSize) ∧
      r.valueAs (.mutablePointer p) = .error .TypeMismatch) ∧
    (r.type = AttributeType.MutablePointer.tag → ∀ p,
      r.valueAs (.mutablePointer p) = .ok (r.rawValue.take pointerSize) ∧
      r.valueAs (.constPointer p) = .error .TypeMismatch) ∧
    (∀ (name address : List Nat) (toMutable : Bool), (∀ b ∈ name, b ≠ 0) →
      address.length = pointerSize → name.length + pointerSize ≤ 62 →
      AttributeRecord.ofPointer name toMutable address = .ok r →
      r.type = (if toMutable then AttributeType.MutablePointer
        else AttributeType.Pointer).tag ∧
      r.name = name ∧ r.rawValue.take pointerSize = address) := by
  refine ⟨fun h p => ⟨?_, ?_⟩, fun h p => ⟨?_, ?_⟩, ?_⟩
  · obtain ⟨size, hsize, hv⟩ := (value_checked r .Pointer .Pointer h).1 rfl (by decide)
    cases hsize
    exact hv
  · exact (value_checked r .Pointer .MutablePointer h).2 (Or.inl (by decide))
  · obtain ⟨size, hsize, hv⟩ :=
      (value_checked r .MutablePointer .MutablePointer h).1 rfl (by decide)
    cases hsize
    exact hv
  · exact (value_checked r .MutablePointer .Pointer h).2 (Or.inl (by decide))
  · intro name address toMutable hname hlen hfit hr
    have hsize : materialAttributeTypeSize
        (if toMutable then AttributeType.MutablePointer else AttributeType.Pointer).tag
        = .ok pointerSize := by
      cases toMutable <;> rfl
    have hts : (if toMutable then AttributeType.MutablePointer else AttributeType.Pointer)
        ≠ .String := by
      cases toMutable <;> decide
    have hfit2 : name.length + pointerSize + 2 ≤ 64 := by omega
    simp only [AttributeRecord.ofPointer, AttributeRecord.ofValue, hsize, hlen, ne_eq,
      not_true_eq_false, if_false, hfit2, if_true, Except.ok.injEq] at hr
    subst hr
    obtain ⟨h1, h2, -, h4⟩ := packed_fixed name address _ hname (tag_ne_string hts)
    rw [hlen] at h4
    exact ⟨h1, h2, h4⟩

/-- C27 as amended, on the records of `constructAttributePointer`,
`constructAttributeMutablePointer` and `accessWrongPointerType`: a `Pointer`
record read as `const Float*` and as `const void*`, a `MutablePointer` record
read as `Byte*` and as `void*`. -/
theorem pointer_access_witness :
    pointerRecord.valueAs (.constPointer pointeeFloat) = .ok addressB ∧
    pointerRecord.valueAs (.constPointer pointeeVoid) = .ok addressB ∧
    pointerRecord.valueAs (.mutablePointer pointeeDouble) = .error .TypeMismatch ∧
    mutablePointerRecord.valueAs (.mutablePointer pointeeByte) = .ok addressA ∧
    mutablePointerRecord.valueAs (.mutablePointer pointeeVoid) = .ok addressA ∧
    mutablePointerRecord.valueAs (.constPointer pointeeInt) = .error .TypeMismatch :=
  ⟨((pointer_access pointerRecord).1 rfl pointeeFloat).1,
    ((pointer_access pointerRecord).1 rfl pointeeVoid).1,
    ((pointer_access pointerRecord).1 rfl pointeeDouble).2,
    ((pointer_access mutablePointerRecord).2.1 rfl pointeeByte).1,
    ((pointer_access mutablePointerRecord).2.1 rfl pointeeVoid).1,
    ((pointer_access mutablePointerRecord).2.1 rfl pointeeInt).2⟩

/-- A record of a layer is found under its name. -/
theorem MaterialData.find_of_layer_mem {m : MaterialData} (hwf : m.WF) {l : Nat}
    (hl : l < m.layerCount) {r : AttributeRecord} (hr : r ∈ m.layer l) :
    ∃ j, m.find l r.name = some (j, r) := by
  obtain ⟨j, hj, hrj⟩ := mem_slice_index hr
  exact ⟨j, MaterialData.find_of_mem hwf hl hj hrj⟩

/-- What is found under a name is a record of the layer. -/
theorem MaterialData.mem_layer_of_find {m : MaterialData} (hwf : m.WF) {l : Nat} {s : List Nat}
    {j : Nat} {r : AttributeRecord} (hf : m.find l s = some (j, r)) :
    r ∈ m.layer l ∧ r.name = s := by
  obtain ⟨hl, hin, hname⟩ := MaterialData.find_some hf
  obtain ⟨hj, hrj⟩ := hin (hwf.bounds hl).1
  refine ⟨?_, hname⟩
  have : (m.layer l)[j]? = some r := by
    unfold MaterialData.layer
    rw [slice_getElem?, if_pos (by simpa [MaterialData.attributeCount] using hj), hrj]
  exact List.mem_iff_getElem?.2 ⟨j, this⟩

/-- C28: optional lookups never fail on a missing name. In a store whose
offset table is valid and whose layers are strictly ascending by name, for a
valid layer `l`, a name `s`, a type `T` and a default `d`: when the layer has
no attribute `s`, `try_attribute<T>(l, s)` is none and `attribute_or(l, s, d)`
is `d`, while `attribute<T>(l, s)` fails with `AttributeNotFound`; when the
layer has the attribute `s`, both give what `attribute<T>(l, s)` gives, which
is `value<T>()` of the record: its value when it has type `T`, and otherwise
the same `TypeMismatch`. -/
theorem optional_lookups (m : MaterialData) (hwf : m.WF) (l : Nat) (hl : l < m.layerCount)
    (s : List Nat) (T : AccessType) (d : List Nat) :
    ((∀ r ∈ m.layer l, r.name ≠ s) →
      m.tryAttribute l s T = .ok none ∧ m.attributeOr l s T d = .ok d ∧
      m.attributeAsByName l s T = .error .AttributeNotFound) ∧
    (∀ r ∈ m.layer l, r.name = s →
      m.attributeAsByName l s T = r.valueAs T ∧
      m.tryAttribute l s T = (m.attributeAsByName l s T).map some ∧
      m.attributeOr l s T d = m.attributeAsByName l s T ∧
      (∀ v, r.valueAs T = .ok v →
        m.tryAttribute l s T = .ok (some v) ∧ m.attributeOr l s T d = .ok v) ∧
      (r.valueAs T = .error .TypeMismatch →
        m.attributeAsByName l s T = .error .TypeMismatch ∧
        m.tryAttribute l s T = .error .TypeMismatch ∧
        m.attributeOr l s T d = .error .TypeMismatch)) := by
  constructor
  · intro hno
    have hnone : m.find l s = none := by
      cases hf : m.find l s with
      | none => rfl
      | some p =>
        obtain ⟨j, r⟩ := p
        obtain ⟨hmem, hname⟩ := MaterialData.mem_layer_of_find hwf hf
        exact absurd hname (hno r hmem)
    simp [MaterialData.tryAttribute, MaterialData.attributeOr, MaterialData.hasAttribute,
      MaterialData.attributeAsByName, hl, hnone]
  · intro r hr hname
    obtain ⟨j, hf⟩ := MaterialData.find_of_layer_mem hwf hl hr
    rw [hname] at hf
    have hby : m.attributeAsByName l s T = r.valueAs T := by
      simp only [MaterialData.attributeAsByName, hf]
    have htry : m.tryAttribute l s T = (m.attributeAsByName l s T).map some := by
      simp [MaterialData.tryAttribute, MaterialData.hasAttribute, hl, hf]
    have hor : m.attributeOr l s T d = m.attributeAsByName l s T := by
      simp [MaterialData.attributeOr, MaterialData.hasAttribute, hl, hf]
    refine ⟨hby, htry, hor, fun v hv => ?_, fun he => ?_⟩
    · rw [htry, hor, hby, hv]
      exact ⟨rfl, rfl⟩
    · rw [htry, hor, hby, he]
      exact ⟨rfl, rfl, rfl⟩

/-- C28, on the store of `accessOptional`, `AlphaMask = 0.5` and
`SpecularTexture = 3`: `SpecularTexture` is present and gives 3,
`DiffuseTexture` is absent and gives none and the default 5; on the store of
`accessWrongType`, `DiffuseColor` read as `Color3` gives `TypeMismatch`. -/
theorem optional_lookups_witness :
    accessOptionalStore.WF ∧ 0 < accessOptionalStore.layerCount ∧
    accessOptionalStore.tryAttribute 0 (ascii "SpecularTexture") (.plain .UInt32) =
      .ok (some [3, 0, 0, 0]) ∧
    accessOptionalStore.attributeOr 0 (ascii "SpecularTexture") (.plain .UInt32) [5, 0, 0, 0] =
      .ok [3, 0, 0, 0] ∧
    accessOptionalStore.tryAttribute 0 (ascii "DiffuseTexture") (.plain .UInt32) = .ok none ∧
    accessOptionalStore.attributeOr 0 (ascii "DiffuseTexture") (.plain .UInt32) [5, 0, 0, 0] =
      .ok [5, 0, 0, 0] ∧
    accessWrongTypeStore.tryAttribute 0 (ascii "DiffuseColor") (.plain .Vector3) =
      .error .TypeMismatch ∧
    accessWrongTypeStore.attributeOr 0 (ascii "DiffuseColor") (.plain .Vector3) (f1 ++ f1 ++ f1)
      = .error .TypeMismatch :=
  ⟨construct_wf [alphaMask, specularTexture] none _ rfl, by decide,
    (((optional_lookups accessOptionalStore (construct_wf [alphaMask, specularTexture] none _ rfl)
      0 (by decide) (ascii "SpecularTexture") (.plain .UInt32) [5, 0, 0, 0]).2 specularTexture
      (by decide) (by decide)).2.2.2.1 [3, 0, 0, 0] rfl).1,
    (((optional_lookups accessOptionalStore (construct_wf [alphaMask, specularTexture] none _ rfl)
      0 (by decide) (ascii "SpecularTexture") (.plain .UInt32) [5, 0, 0, 0]).2 specularTexture
      (by decide) (by decide)).2.2.2.1 [3, 0, 0, 0] rfl).2,
    ((optional_lookups accessOptionalStore (construct_wf [alphaMask, specularTexture] none _ rfl)
      0 (by decide) (ascii "DiffuseTexture") (.plain .UInt32) [5, 0, 0, 0]).1 (by decide)).1,
    ((optional_lookups accessOptionalStore (construct_wf [alphaMask, specularTexture] none _ rfl)
      0 (by decide) (ascii "DiffuseTexture") (.plain .UInt32) [5, 0, 0, 0]).1 (by decide)).2.1,
    (((optional_lookups accessWrongTypeStore (construct_wf [diffuseColor] none _ rfl)
      0 (by decide) (ascii "DiffuseColor") (.plain .Vector3) (f1 ++ f1 ++ f1)).2 diffuseColor
      (by decide) (by decide)).2.2.2.2 rfl).2.1,
    (((optional_lookups accessWrongTypeStore (construct_wf [diffuseColor] none _ rfl)
      0 (by decide) (ascii "DiffuseColor") (.plain .Vector3) (f1 ++ f1 ++ f1)).2 diffuseColor
      (by decide) (by decide)).2.2.2.2 rfl).2.2⟩

/-- A tag that no type has is not found. -/
theorem AttributeType.ofTag_none {n : Nat} (hn : ∀ t : AttributeType, t.tag ≠ n) :
    AttributeType.ofTag n = none := by
  unfold AttributeType.ofTag
  rw [List.find?_eq_none]
  intro t _
  simpa using hn t

/-- C33: `size_of` is the table of section 3. It gives 1 for Bool; 4 for
Float, Deg, Rad, UInt32, Int32; 8 for UInt64, Int64, Vector2, Vector2ui,
Vector2i; 12 for Vector3, Vector3ui, Vector3i; 16 for Vector4, Vector4ui,
Vector4i, Matrix2x2; 24 for Matrix2x3 and Matrix3x2; 32 for Matrix2x4 and
Matrix4x2; 36 for Matrix3x3; 48 for Matrix3x4 and Matrix4x3; the pointer size
for Pointer and MutablePointer; it fails with `UnknownStringSize` for String
and with `InvalidType` for every tag that is not the tag of a type, such as
`0x0` and `0xfe`; and every type is in one of these rows. -/
theorem size_of_table :
    materialAttributeTypeSize AttributeType.Bool.tag = .ok 1 ∧
    (∀ t ∈ [AttributeType.Float, .Deg, .Rad, .UInt32, .Int32],
      materialAttributeTypeSize t.tag = .ok 4) ∧
    (∀ t ∈ [AttributeType.UInt64, .Int64, .Vector2, .Vector2ui, .Vector2i],
      materialAttributeTypeSize t.tag = .ok 8) ∧
    (∀ t ∈ [AttributeType.Vector3, .Vector3ui, .Vector3i],
      materialAttributeTypeSize t.tag = .ok 12) ∧
    (∀ t ∈ [AttributeType.Vector4, .Vector4ui, .Vector4i, .Matrix2x2],
      materialAttributeTypeSize t.tag = .ok 16) ∧
    (∀ t ∈ [AttributeType.Matrix2x3, .Matrix3x2], materialAttributeTypeSize t.tag = .ok 24) ∧
    (∀ t ∈ [AttributeType.Matrix2x4, .Matrix4x2], materialAttributeTypeSize t.tag = .ok 32) ∧
    materialAttributeTypeSize AttributeType.Matrix3x3.tag = .ok 36 ∧
    (∀ t ∈ [AttributeType.Matrix3x4, .Matrix4x3], materialAttributeTypeSize t.tag = .ok 48) ∧
    (∀ t ∈ [AttributeType.Pointer, .MutablePointer],
      materialAttributeTypeSize t.tag = .ok pointerSize) ∧
    materialAttributeTypeSize AttributeType.String.tag = .error .UnknownStringSize ∧
    (∀ n, (∀ t : AttributeType, t.tag ≠ n) →
      materialAttributeTypeSize n = .error .InvalidType) ∧
    materialAttributeTypeSize 0x0 = .error .InvalidType ∧
    materialAttributeTypeSize 0xfe = .error .InvalidType ∧
    (∀ t : AttributeType, t ∈ [AttributeType.Bool, .Float, .Deg, .Rad, .UInt32, .Int32, .UInt64,
      .Int64, .Vector2, .Vector2ui, .Vector2i, .Vector3, .Vector3ui, .Vector3i, .Vector4,
      .Vector4ui, .Vector4i, .Matrix2x2, .Matrix2x3, .Matrix3x2, .Matrix2x4, .Matrix4x2,
      .Matrix3x3, .Matrix3x4, .Matrix4x3, .Pointer, .MutablePointer, .String]) := by
  have hinv : ∀ n, (∀ t : AttributeType, t.tag ≠ n) →
      materialAttributeTypeSize n = .error .InvalidType := fun n hn => by
    simp only [materialAttributeTypeSize, AttributeType.ofTag_none hn]
  refine ⟨rfl, ?_, ?_, ?_, ?_, ?_, ?_, rfl, ?_, ?_, rfl, hinv, hinv _ ?_, hinv _ ?_, ?_⟩
  · intro t ht
    simp only [List.mem_cons, List.mem_singleton, List.mem_nil_iff, or_false] at ht
    rcases ht with rfl | rfl | rfl | rfl | rfl <;> rfl
  · intro t ht
    simp only [List.mem_cons, List.mem_singleton, List.mem_nil_iff, or_false] at ht
    rcases ht with rfl | rfl | rfl | rfl | rfl <;> rfl
  · intro t ht
    simp only [List.mem_cons, List.mem_singleton, List.mem_nil_iff, or_false] at ht
    rcases ht with rfl | rfl | rfl <;> rfl
  · intro t ht
    simp only [List.mem_cons, List.mem_singleton, List.mem_nil_iff, or_false] at ht
    rcases ht with rfl | rfl | rfl | rfl <;> rfl
  · intro t ht
    simp only [List.mem_cons, List.mem_singleton, List.mem_nil_iff, or_false] at ht
    rcases ht with rfl | rfl <;> rfl
  · intro t ht
    simp only [List.mem_cons, List.mem_singleton, List.mem_nil_iff, or_false] at ht
    rcases ht with rfl | rfl <;> rfl
  · intro t ht
    simp only [List.mem_cons, List.mem_singleton, List.mem_nil_iff, or_false] at ht
    rcases ht with rfl | rfl <;> rfl
  · intro t ht
    simp only [List.mem_cons, List.mem_singleton, List.mem_nil_iff, or_false] at ht
    rcases ht with rfl | rfl <;> rfl
  · intro t
    cases t <;> decide
  · intro t
    cases t <;> decide
  · intro t
    cases t <;> decide

/-- The names of the registry: none is longer than 21 bytes or has a 0 byte,
and the required types are String, Bool, Float, UInt32, Vector4 and
Matrix3x3. -/
theorem attributeNames_bounds : ∀ p ∈ attributeNames,
    p.1.length ≤ 21 ∧ (∀ b ∈ p.1, b ≠ 0) ∧
      p.2 ∈ [AttributeType.String, .Bool, .Float, .UInt32, .Vector4, .Matrix3x3] := by
  decide

theorem canonical_mem {n : Nat} {s : List Nat} {t : AttributeType}
    (h : canonical n = some (s, t)) : (s, t) ∈ attributeNames := by
  unfold canonical at h
  split at h
  · cases h
  · exact List.getElem?_mem h

/-- C34: every known name fits its record. For every name `n` of the registry
whose required type `t` has a fixed size: `size_of(t)` + the length of the
canonical string of `n` + 1 (NUL) + 1 (type tag) is at most 64, and the record
built for `n` from a default value, `size_of(t)` zero bytes, exists, has the
canonical string as its `name()`, followed by a 0 byte, and the type `t`. -/
theorem known_names_fit (n : Nat) (s : List Nat) (t : AttributeType)
    (hn : canonical n = some (s, t)) (ht : t ≠ .String) :
    ∃ size, materialAttributeTypeSize t.tag = .ok size ∧
      size + s.length + 1 + 1 ≤ 64 ∧
      ∃ r, AttributeRecord.ofName canonical n t (List.replicate size 0) = .ok r ∧
        r.name = s ∧ r.nameTerminator = some 0 ∧ r.type = t.tag := by
  obtain ⟨hlen, hzero, htype⟩ := attributeNames_bounds _ (canonical_mem hn)
  simp only [List.mem_cons, List.mem_singleton, List.mem_nil_iff, or_false] at htype hlen hzero
  have hsize : ∃ size, materialAttributeTypeSize t.tag = .ok size ∧ size ≤ 36 := by
    rcases htype with rfl | rfl | rfl | rfl | rfl | rfl
    · exact absurd rfl ht
    · exact ⟨1, rfl, by omega⟩
    · exact ⟨4, rfl, by omega⟩
    · exact ⟨4, rfl, by omega⟩
    · exact ⟨16, rfl, by omega⟩
    · exact ⟨36, rfl, by omega⟩
  obtain ⟨size, hsize, hle⟩ := hsize
  refine ⟨size, hsize, by omega, ?_⟩
  obtain ⟨h1, h2, h3, _⟩ := packed_fixed s (List.replicate size 0) t.tag hzero (tag_ne_string ht)
  refine ⟨⟨pad64 (t.tag :: s ++ [0] ++ List.replicate size 0)⟩, ?_, h2, h3, h1⟩
  have hfit : s.length + size + 2 ≤ 64 := by omega
  simp only [AttributeRecord.ofName, hn, ne_eq, not_true_eq_false, if_false, ht,
    AttributeRecord.ofValue, hsize, List.length_replicate, hfit, if_true]

/-- C34, on the names `SpecularTextureMatrix`, the longest one, with its
`Matrix3x3` of 36 bytes, and `DiffuseColor` with its `Vector4`. -/
theorem known_names_fit_witness :
    canonical 15 = some (ascii "SpecularTextureMatrix", .Matrix3x3) ∧
    canonical diffuseColorTag = some (ascii "DiffuseColor", .Vector4) ∧
    (∃ size, materialAttributeTypeSize AttributeType.Matrix3x3.tag = .ok size ∧
      size + (ascii "SpecularTextureMatrix").length + 1 + 1 ≤ 64 ∧
      ∃ r, AttributeRecord.ofName canonical 15 .Matrix3x3 (List.replicate size 0) = .ok r ∧
        r.name = ascii "SpecularTextureMatrix" ∧ r.nameTerminator = some 0 ∧
        r.type = AttributeType.Matrix3x3.tag) ∧
    (∃ size, materialAttributeTypeSize AttributeType.Vector4.tag = .ok size ∧
      size + (ascii "DiffuseColor").length + 1 + 1 ≤ 64 ∧
      ∃ r, AttributeRecord.ofName canonical diffuseColorTag .Vector4 (List.replicate size 0)
          = .ok r ∧
        r.name = ascii "DiffuseColor" ∧ r.nameTerminator = some 0 ∧
        r.type = AttributeType.Vector4.tag) :=
  ⟨rfl, rfl,
    known_names_fit 15 (ascii "SpecularTextureMatrix") .Matrix3x3 rfl (by decide),
    known_names_fit diffuseColorTag (ascii "DiffuseColor") .Vector4 rfl (by decide)⟩

end Trade
